import Mathlib

/-!
# L-System evolutionary search: codec, expansion engine, operators, bound fitter

A shallow embedding of the C sources `ls/ls.c`, `ls/ls_pop.c`, `lsys.c`,
`sortalg/mergesort_ls.c`, `mt19937ar/t_mt19937ar.c` and `util/upper_bound.c`,
followed by theorems about them.

Conventions of the embedding.
* A C string is a `List Char` (the terminating NUL is not stored).
* A heap array is a `List`; a read or write outside the allocated block, and a
  modulo by zero, make the operation return `none`. So does an `int` or `char`
  computation whose value leaves the range of its type. A block that comes
  from `malloc` holds values that are parameters of the function that
  allocates it. The one access outside a block that has a result is that of
  the byte right after a block of `char` from `malloc`, which the last
  iteration of the copy loop of `assignRandomValues` and of the renaming loop
  of `standardise_rules` reaches: the allocator rounds the request up, so the
  byte is padding of the same chunk. It is a parameter when read, and no
  array changes when it is written.
* `double` values are exact rationals (`ℚ`); the functions of `math.h` and
  `stdlib.h` are taken as parameters of the functions that call them. A
  parameter stands for the library function where its value is a number: the
  logarithm of a negative number is NaN in C, and `log_defined` states that
  no such call is made.
* A `while` loop without a bound of its own, and a recursion, take a `fuel`
  argument, the number of iterations or the nesting allowed, and return `none`
  when it is used up.
* The genetic operators of `ls.c` and `ls_pop.c` take the random source as a
  parameter: a step function `gen` on an arbitrary state type that returns
  the next 32-bit word and the new state. The Mersenne Twister itself is
  modelled from `t_mt19937ar.c`, with the constants of its header, which is
  not among the sources, as parameters.
-/

namespace LSys

/-! ## `ls.h`: unit type tags and the `ruleobj` record -/

abbrev F : Nat := 1
abbrev G : Nat := 2
abbrev INC : Nat := 3
abbrev DEC : Nat := 4
abbrev REV : Nat := 5
abbrev PUSH : Nat := 6
abbrev POP : Nat := 7
abbrev INCX : Nat := 8
abbrev DECX : Nat := 9
abbrev SCALE : Nat := 10
abbrev RULE : Nat := 11
abbrev D : Nat := 12
abbrev MM : Nat := 13
abbrev NUM_OBJ_TYPES : Nat := 11

/-- A single unit of a rule: `char str[8], len, type`. -/
structure ruleobj where
  str : List Char
  len : Nat
  type : Nat
deriving DecidableEq, Repr

/-! ## `ls.c`: the grammar codec -/

/-- The character class accepted by the loop of `extract_number`:
digits, `.`, `Q` and `I`. -/
def numeric_char (c : Char) : Bool :=
  (decide (c ≤ '9') && decide (c ≥ '0')) || c == '.' || c == 'Q' || c == 'I'

/-- The loop of `extract_number`: `n` characters are already copied; copying
goes on while `n < result_size - 1` and the next character is in the class. -/
def extract_number_loop (result_size : Nat) : List Char → Nat → List Char
  | [], _ => []
  | c :: cs, n =>
    if n < result_size - 1 ∧ numeric_char c = true then
      c :: extract_number_loop result_size cs (n + 1)
    else []

/-- Model of `extract_number(str, result, result_size)`: the text written to `result`
and the returned count `n`. -/
def extract_number (str : List Char) (result_size : Nat) : List Char × Nat :=
  let result := extract_number_loop result_size str 0
  (result, result.length)

/-- The `while (*s)` loop of `string2rule`, one unit per iteration. A
character of no branch takes the final `else`: `temprule--; count--` undo the
common `temprule++; count++`, so nothing is emitted. `fuel` bounds the number
of iterations; every iteration consumes at least one character. -/
def string2rule_loop : Nat → List Char → List ruleobj
  | 0, _ => []
  | _ + 1, [] => []
  | fuel + 1, c :: cs =>
    if c = 'F' then ⟨['F'], 1, F⟩ :: string2rule_loop fuel cs
    else if c = 'G' then ⟨['G'], 1, G⟩ :: string2rule_loop fuel cs
    else if c = '+' then ⟨['+'], 1, INC⟩ :: string2rule_loop fuel cs
    else if c = '-' then ⟨['-'], 1, DEC⟩ :: string2rule_loop fuel cs
    else if c = '!' then ⟨['!'], 1, REV⟩ :: string2rule_loop fuel cs
    else if c = '\\' then
      let num := extract_number cs 7
      ⟨'\\' :: num.1, num.2 + 1, INCX⟩ :: string2rule_loop fuel (cs.drop num.2)
    else if c = '/' then
      let num := extract_number cs 7
      ⟨'/' :: num.1, num.2 + 1, DECX⟩ :: string2rule_loop fuel (cs.drop num.2)
    else if c = '@' then
      let num := extract_number cs 7
      ⟨'@' :: num.1, num.2 + 1, SCALE⟩ :: string2rule_loop fuel (cs.drop num.2)
    else if c = 'D' then ⟨['D'], 1, D⟩ :: string2rule_loop fuel cs
    else if c = 'M' then ⟨['M'], 1, MM⟩ :: string2rule_loop fuel cs
    else if c = '[' then ⟨['['], 1, PUSH⟩ :: string2rule_loop fuel cs
    else if c = ']' then ⟨[']'], 1, POP⟩ :: string2rule_loop fuel cs
    else if c ≥ 'A' ∧ c ≤ 'Z' then ⟨[c], 1, RULE⟩ :: string2rule_loop fuel cs
    else string2rule_loop fuel cs

/-- Model of `string2rule(s, &rulelength)`: the returned array; `*rulelength` is its
length (`count` is incremented once per emitted unit). -/
def string2rule (s : List Char) : List ruleobj :=
  string2rule_loop s.length s

/-- Model of `rule2string(rule, rulelength)`: a buffer of `temp + 1` bytes, `temp` the
sum of the `len` fields, receives the units' texts one after the other.
`none` when the array has fewer than `rulelength` units or the texts do not
fit the buffer. -/
def rule2string (rule : List ruleobj) (rulelength : Nat) : Option (List Char) :=
  if rulelength ≤ rule.length then
    let units := rule.take rulelength
    let temp := (units.map (fun u => u.len)).sum
    let text := (units.map (fun u => u.str)).flatten
    if text.length ≤ temp then some text else none
  else none

/-- The text of a unit list: the texts of the units one after the other, as
`rule2string` lays them out. -/
def render (units : List ruleobj) : List Char :=
  (units.map (fun u => u.str)).flatten

/-- The number of characters of a text that `string2rule` drops: every
emitted unit accounts for `len` characters, every skipped character for one. -/
def skipped_count (s : List Char) : Nat :=
  s.length - ((string2rule s).map (fun u => u.len)).sum

/-- Whether the number of unit `u` would absorb the first character of unit
`v` when `v` is written right after `u`: `u` carries a number of fewer than 6
characters and `v` starts with a character `extract_number` accepts. -/
def absorbs (u v : ruleobj) : Bool :=
  (u.type == INCX || u.type == DECX || u.type == SCALE) && decide (u.str.length < 7) &&
    (match v.str with
     | c :: _ => numeric_char c
     | [] => false)

/-- No unit of the list absorbs the start of its successor. -/
def no_absorption : List ruleobj → Bool
  | u :: v :: rest => !absorbs u v && no_absorption (v :: rest)
  | _ => true

/-! ## `ls.h`: the `lsystem` record -/

/-- An L-System. `rule` is the array of rule arrays (rule 0 is the axiom),
`startvar` the names of rules 1.., `rulelength` the stored lengths. -/
structure lsystem where
  numrules : Nat
  rule : List (List ruleobj)
  startvar : List Char
  rulelength : List Nat
  angle : Int
  instancesize : List Int
  computed_f : Bool
  runningtimes : List ℚ
  sd : List ℚ
  avgbbnodes : List ℚ
  f : ℚ
deriving DecidableEq

/-! ## The pseudo-random source

`gen` stands for one call of `genrand_int32` on a generator whose state has
type `σ`: it returns the word drawn and the next state. -/

section Random

variable {σ : Type}

/-- The value `genrand_int32(&rng)` hands to its caller, a 32-bit word. -/
def draw32 (gen : σ → Nat × σ) (s : σ) : Nat × σ :=
  ((gen s).1 % 4294967296, (gen s).2)

/-- Model of `genrand_real1`: the word times `1.0/4294967295.0`, on `[0,1]`. -/
def genrand_real1 (gen : σ → Nat × σ) (s : σ) : ℚ × σ :=
  (((draw32 gen s).1 : ℚ) * (1 / 4294967295), (draw32 gen s).2)

/-- Model of `genrand_real3`: `(word + 0.5) * (1.0/4294967296.0)`, on `(0,1)`. -/
def genrand_real3 (gen : σ → Nat × σ) (s : σ) : ℚ × σ :=
  ((((draw32 gen s).1 : ℚ) + 1 / 2) * (1 / 4294967296), (draw32 gen s).2)

/-- The decimal digit `d` as a character. -/
def digit_char (d : Nat) : Char := Char.ofNat (48 + d % 10)

/-- The text printed by `%03d` for a non-negative number below 1000. -/
def fmt_03d (n : Nat) : List Char :=
  [digit_char (n / 100), digit_char (n / 10), digit_char n]

/-- The text printed by `%04.2f` for a value in `[0, 10)`: the value rounded
to hundredths, one integer digit, a point, two decimals. -/
def fmt_04_2f (q : ℚ) : List Char :=
  let r := (q * 100 + 1 / 2).floor.toNat
  [digit_char (r / 100), '.', digit_char (r / 10), digit_char r]

/-- The generator state after `k` calls of `genrand_int32` from state `s`. -/
def nth_state (gen : σ → Nat × σ) (s : σ) : Nat → σ
  | 0 => s
  | k + 1 => nth_state gen (gen s).2 k

/-- The word returned by call number `k` (from 0) of `genrand_int32` from
state `s`. -/
def nth_draw (gen : σ → Nat × σ) (s : σ) (k : Nat) : Nat :=
  (draw32 gen (nth_state gen s k)).1

/-- Model of `randomObj(robj, ls)`: the unit stored in `*robj` and the generator state. -/
def randomObj (gen : σ → Nat × σ) (ls : lsystem) (s : σ) : Option (ruleobj × σ) :=
  let d := draw32 gen s
  let objtype := d.1 % 9
  if objtype = 0 then some (⟨['F'], 1, F⟩, d.2)
  else if objtype = 1 then some (⟨['G'], 1, G⟩, d.2)
  else if objtype = 2 then some (⟨['+'], 1, INC⟩, d.2)
  else if objtype = 3 then some (⟨['-'], 1, DEC⟩, d.2)
  else if objtype = 4 then some (⟨['!'], 1, REV⟩, d.2)
  else if objtype = 5 then
    let d2 := draw32 gen d.2
    let randangle := d2.1 % 359 + 1
    some (⟨'\\' :: fmt_03d randangle, 4, INCX⟩, d2.2)
  else if objtype = 6 then
    let d2 := draw32 gen d.2
    let randangle := d2.1 % 359 + 1
    some (⟨'/' :: fmt_03d randangle, 4, DECX⟩, d2.2)
  else if objtype = 7 then
    let r := genrand_real3 gen d.2
    let r1 : ℚ := if r.1 < 5 / 1000 then 1 / 100 else r.1
    let randnum : ℚ := if r1 > 9994 / 1000 then 999 / 100 else r1
    some (⟨'@' :: fmt_04_2f randnum, 5, SCALE⟩, r.2)
  else
    let d2 := draw32 gen d.2
    if ls.numrules - 1 = 0 then none
    else
      match ls.startvar[d2.1 % (ls.numrules - 1)]? with
      | none => none
      | some c => some (⟨[c], 1, RULE⟩, d2.2)

/-- Model of `random_angle(ls)`: `(int)genrand_int32(&rng) % 48UL + 3`. The cast to
`int` comes first; the `int` is then converted to a 64-bit `unsigned long`
for the modulo. -/
def random_angle (gen : σ → Nat × σ) (ls : lsystem) (s : σ) : lsystem × σ :=
  let d := draw32 gen s
  let i : Int := if d.1 < 2147483648 then (d.1 : Int) else (d.1 : Int) - 4294967296
  let u : Nat := (i % 18446744073709551616).toNat
  ({ ls with angle := ((u % 48 + 3 : Nat) : Int) }, d.2)

/-- The first loop of `random_rule`: `n` calls of `randomObj`, filling
positions `0 .. n-1` in order. -/
def random_units (gen : σ → Nat × σ) (ls : lsystem) : Nat → σ → Option (List ruleobj × σ)
  | 0, s => some ([], s)
  | n + 1, s =>
    match randomObj gen ls s with
    | none => none
    | some (u, s1) =>
      match random_units gen ls n s1 with
      | none => none
      | some (us, s2) => some (u :: us, s2)

/-- The second part of `random_rule` on a rule of stored length `len > 0`:
"We'll make it a one in NUM_OBJ_TYPES chance of placing a stack." -/
def random_stack (gen : σ → Nat × σ) (len : Nat) (r0 : List ruleobj) (s : σ) :
    List ruleobj × σ :=
  let die := draw32 gen s
  let rolldie := die.1 % NUM_OBJ_TYPES
  if rolldie = 0 then
    let d1 := draw32 gen die.2
    let d2 := draw32 gen d1.2
    let pos1 := d1.1 % len
    let pos2 := d2.1 % len
    let start := if pos1 < pos2 then pos1 else pos2
    let end_ := if pos1 < pos2 then pos2 else pos1
    /- Can't be the same or next to each other -/
    if end_ - start > 1 then
      ((r0.set start ⟨['['], 1, PUSH⟩).set end_ ⟨[']'], 1, POP⟩, d2.2)
    else (r0, d2.2)
  else (r0, die.2)

/-- The last part of `random_rule` on a rule of stored length `len > 0`: "We
should avoid the situation where this rule has no A,B,C ... etc". -/
def random_nonterminal (gen : σ → Nat × σ) (ls : lsystem) (len : Nat) (r1 : List ruleobj)
    (s : σ) : Option (List ruleobj × σ) :=
  let d3 := draw32 gen s
  let randpos0 := d3.1 % len
  match r1[randpos0]? with
  | none => none
  | some u =>
    let randpos :=
      if u.type = PUSH ∨ u.type = POP then
        (if randpos0 = 0 then randpos0 + 1 else randpos0 - 1)
      else randpos0
    let d4 := draw32 gen d3.2
    if ls.numrules - 1 = 0 then none
    else
      match ls.startvar[d4.1 % (ls.numrules - 1)]? with
      | none => none
      | some c =>
        if randpos < r1.length then some (r1.set randpos ⟨[c], 1, RULE⟩, d4.2)
        else none

/-- Model of `random_rule(ls, rule)`: the units `0 .. rulelength[rule]-1` of the rule
are drawn anew, then a stack may be placed, then one unit is replaced by a
rule name. -/
def random_rule (gen : σ → Nat × σ) (ls : lsystem) (rule : Nat) (s : σ) :
    Option (lsystem × σ) :=
  match ls.rulelength[rule]?, ls.rule[rule]? with
  | some len, some old =>
    if old.length < len ∨ len = 0 then none
    else
      match random_units gen ls len s with
      | none => none
      | some (us, s1) =>
        let st := random_stack gen len (us ++ old.drop len) s1
        match random_nonterminal gen ls len st.1 st.2 with
        | none => none
        | some (r2, s2) => some ({ ls with rule := ls.rule.set rule r2 }, s2)
  | _, _ => none

/-- Bracket scan of a rule at nesting depth `d`: a POP at depth 0 fails, and
the depth must be 0 at the end. -/
def bracket_scan : List ruleobj → Nat → Bool
  | [], d => d == 0
  | u :: us, d =>
    if u.type = PUSH then bracket_scan us (d + 1)
    else if u.type = POP then (if d = 0 then false else bracket_scan us (d - 1))
    else bracket_scan us d

/-- A rule is balanced: no initial segment has more POP than PUSH units, and
the rule has as many POP as PUSH units. -/
def balanced (rule : List ruleobj) : Bool := bracket_scan rule 0

/-- The backward scan of `crossover_ls` from index `j`: the loop
`while ((j > 0) && (!foundStackEnd) && (!foundStackStart))`.
Returns `(foundStackStart, foundStackEnd)`. -/
def scan_back (rule : List ruleobj) : Nat → Option (Bool × Bool)
  | 0 => some (false, false)
  | j + 1 =>
    match rule[j]? with
    | none => none
    | some u =>
      let foundStackEnd := decide (u.type = POP)
      let foundStackStart := decide (u.type = PUSH)
      if foundStackEnd || foundStackStart then some (foundStackStart, foundStackEnd)
      else scan_back rule j

/-- The forward scan of `crossover_ls`, "Find where the stack ends":
`while ((j < rulelength) && (!foundStackEnd)) { j++; ... }` followed by
`pos = j+1`. Here `k = j + 1` is the index the next iteration reads; the
result is the new `pos`. -/
def scan_fwd (rule : List ruleobj) (rulelength : Nat) : Nat → Nat → Option Nat
  | 0, k => some k
  | fuel + 1, k =>
    if k ≤ rulelength then
      match rule[k]? with
      | none => none
      | some u => if u.type = POP then some (k + 1) else scan_fwd rule rulelength fuel (k + 1)
    else some k

/-- The cut adjustment of `crossover_ls` ("We cannot split a stack section"):
from the drawn cut `pos` to the cut that is used. -/
def adjust_cut (rule : List ruleobj) (rulelength pos : Nat) : Option Nat :=
  match scan_back rule pos with
  | none => none
  | some (foundStackStart, _) =>
    if foundStackStart then scan_fwd rule rulelength (rulelength + 2 - pos) pos
    else some pos

/-- Model of `memcpy(dst, src + off, n * sizeof(ruleobj))`: the units copied. -/
def copy_units (src : List ruleobj) (off n : Nat) : Option (List ruleobj) :=
  if off + n ≤ src.length then some ((src.drop off).take n) else none

/-- One iteration of the loop of `crossover_ls` once the two cuts are drawn:
the new rule and stored length of child 1 and of child 2. -/
def crossover_rule (r1 : List ruleobj) (len1 : Nat) (r2 : List ruleobj) (len2 : Nat)
    (pos1 pos2 : Nat) : Option ((List ruleobj × Nat) × (List ruleobj × Nat)) :=
  match adjust_cut r1 len1 pos1, adjust_cut r2 len2 pos2 with
  | some a1, some a2 =>
    if a1 ≤ len1 ∧ a2 ≤ len2 then
      let length1 := a1 + (len2 - a2)
      let length2 := a2 + (len1 - a1)
      match copy_units r1 0 a1, copy_units r2 a2 (length1 - a1),
            copy_units r2 0 a2, copy_units r1 a1 (length2 - a2) with
      | some h1, some t1, some h2, some t2 =>
        some ((h1 ++ t1, length1), (h2 ++ t2, length2))
      | _, _, _, _ => none
    else none
  | _, _ => none

/-- The loop `for (i = 0; i < c1->numrules; i++)` of `crossover_ls`, with `n`
iterations left and `i` the current rule. -/
def crossover_loop (gen : σ → Nat × σ) (p1 p2 : lsystem) :
    Nat → Nat → lsystem → lsystem → σ → Option (lsystem × lsystem × σ)
  | 0, _, c1, c2, s => some (c1, c2, s)
  | n + 1, i, c1, c2, s =>
    match p1.rulelength[i]?, p2.rulelength[i]?, p1.rule[i]?, p2.rule[i]? with
    | some len1, some len2, some r1, some r2 =>
      if len1 = 0 ∨ len2 = 0 then none
      else
        let (w1, s1) := draw32 gen s
        let (w2, s2) := draw32 gen s1
        match crossover_rule r1 len1 r2 len2 (w1 % len1) (w2 % len2) with
        | none => none
        | some ((n1, length1), (n2, length2)) =>
          if i < c1.rule.length ∧ i < c1.rulelength.length ∧
             i < c2.rule.length ∧ i < c2.rulelength.length then
            crossover_loop gen p1 p2 n (i + 1)
              { c1 with rule := c1.rule.set i n1, rulelength := c1.rulelength.set i length1 }
              { c2 with rule := c2.rule.set i n2, rulelength := c2.rulelength.set i length2 } s2
          else none
    | _, _, _, _ => none

/-- Model of `crossover_ls(p1, p2, c1, c2)`: the two children and the generator state. -/
def crossover_ls (gen : σ → Nat × σ) (p1 p2 c1 c2 : lsystem) (s : σ) :
    Option (lsystem × lsystem × σ) :=
  match crossover_loop gen p1 p2 c1.numrules 0 c1 c2 s with
  | none => none
  | some (d1, d2, s1) =>
    some ({ d1 with angle := p1.angle, computed_f := false },
          { d2 with angle := p2.angle, computed_f := false }, s1)

end Random

/-! ## `ls_pop.c`: the population and parent selection -/

/-- A population of L-Systems. -/
structure ls_population where
  numrules : Nat
  num_parents : Nat
  pop_size : Nat
  ls_array : List lsystem

/-- The loop that fills `weight[0 .. num_parents-2]`: `temp = temp/2;
weight[i] = temp`, `n` entries starting from `temp`. -/
def halving_weights : Nat → ℚ → List ℚ
  | 0, _ => []
  | n + 1, temp => temp / 2 :: halving_weights n (temp / 2)

/-- The array `weight` of `chooseUniqueParents`: halved thresholds, then 0
for the last parent. -/
def parent_weights (num_parents : Nat) : List ℚ :=
  halving_weights (num_parents - 1) 100 ++ [0]

/-- The array `pos` of `chooseUniqueParents` before any selection. -/
def parent_pos (num_parents : Nat) : List Nat :=
  List.range (num_parents - 1) ++ [num_parents - 1]

/-- The compaction loop `for (j = i; j < num_parents - 1; j++) pos[j] = pos[j + 1]`
with `n` iterations left. -/
def shift_pos : Nat → Nat → List Nat → Option (List Nat)
  | 0, _, pos => some pos
  | n + 1, j, pos =>
    match pos[j + 1]? with
    | none => none
    | some v => if j < pos.length then shift_pos n (j + 1) (pos.set j v) else none

/-- The readjustment of `pos` after slot `i` of the scan was chosen. -/
def compact_pos (num_parents i : Nat) (pos : List Nat) : Option (List Nat) :=
  match shift_pos (num_parents - 1 - i) i pos with
  | none => none
  | some pos1 =>
    if i = num_parents - 1 then
      if num_parents < 2 then none
      else
        match pos1[num_parents - 2]? with
        | none => none
        | some v => some (pos1.set (num_parents - 1) v)
    else some pos1

/-- The scan `while (i < num_parents) { if (n > weight[i]) ...; i++ }` from
index `i` over the remaining weights: the first index whose weight the draw
exceeds. -/
def scan_weights (n : ℚ) : List ℚ → Nat → Option Nat
  | [], _ => none
  | w :: ws, i => if n > w then some i else scan_weights n ws (i + 1)

/-- The result of `chooseUniqueParents`: the slots of `ls_array` stored in
`*p1` and `*p2` (`none` for a pointer the call did not assign), and whether
the fallback after the second scan was reached. -/
structure parents where
  p1 : Option Nat
  p2 : Option Nat
  fallback : Bool
deriving DecidableEq

/-- The body of `chooseUniqueParents` for the two scaled draws `n1` and `n2`
(`100*genrand_real1(&prng)` each). Outer `none`: an access outside `weight`,
`pos` or `ls_array`. -/
def chooseUniqueParents_draws (pop : ls_population) (n1 n2 : ℚ) : Option parents :=
  if pop.num_parents = 0 then none
  else
    let weight := parent_weights pop.num_parents
    let pos := parent_pos pop.num_parents
    /- Select the first parent. -/
    let first : Option (Option Nat × List Nat) :=
      match scan_weights n1 weight 0 with
      | none => some (none, pos)
      | some i =>
        match pos[i]?, compact_pos pop.num_parents i pos with
        | some slot, some pos1 =>
          if slot < pop.ls_array.length then some (some slot, pos1) else none
        | _, _ => none
    match first with
    | none => none
    | some (p1, pos1) =>
      /- Select the second parent. -/
      match scan_weights n2 weight 0 with
      | some i =>
        match pos1[i]? with
        | some slot =>
          if slot < pop.ls_array.length then some ⟨p1, some slot, false⟩ else none
        | none => none
      | none =>
        if 1 < pop.ls_array.length then some ⟨some 0, some 1, true⟩ else none

section PopRandom

variable {σ : Type}

/-- Model of `chooseUniqueParents(pop, &p1, &p2)` drawing from `prng`. -/
def chooseUniqueParents (gen : σ → Nat × σ) (pop : ls_population) (s : σ) :
    Option parents × σ :=
  let r1 := genrand_real1 gen s
  let r2 := genrand_real1 gen r1.2
  (chooseUniqueParents_draws pop (100 * r1.1) (100 * r2.1), r2.2)

/-- Model of `mutateChildren(pop)`: the child and the rule are drawn from `prng`
(state `sp`), the rule and the angle are regenerated from `rng` (state `sr`). -/
def mutateChildren (gen : σ → Nat × σ) (pop : ls_population) (sp sr : σ) :
    Option (ls_population × σ × σ) :=
  if pop.pop_size ≤ pop.num_parents then none
  else
    let d1 := draw32 gen sp
    let i := pop.num_parents + d1.1 % (pop.pop_size - pop.num_parents)
    match pop.ls_array[i]? with
    | none => none
    | some randchild =>
      let d2 := draw32 gen d1.2
      if pop.numrules = 0 then none
      else
        let randrule := d2.1 % pop.numrules
        match random_rule gen randchild randrule sr with
        | none => none
        | some (ls1, sr1) =>
          let m := random_angle gen ls1 sr1
          some ({ pop with ls_array := pop.ls_array.set i m.1 }, d2.2, m.2)

end PopRandom

/-! ## `util/upper_bound.c`: the bound fitter -/

/-- A simple (x,y) data point. -/
structure data_point where
  x : ℚ
  y : ℚ
deriving DecidableEq

section Bound

variable (pow : ℚ → ℚ → ℚ) (log : ℚ → ℚ)

/-- Model of `lies_above_points(a, points, num_data_points)` over the
`num_data_points` entries of `points`. The comparison of the logarithmic
branch is the one of C when `log` is called on positive numbers
(`log_defined`); for a negative `x` or `y` the C value is NaN and the test
`y < y_hat` is false. -/
def lies_above_points (a : ℚ) : List data_point → Bool
  | [] => true
  | p :: ps =>
    let special := p.y = 0 ∨ p.y = 1 ∨ p.x = 0 ∨ p.x = 1
    let y_hat := if special then p.y else log p.y
    let y := if special then pow p.x a else a * log p.x
    if y < y_hat then false else lies_above_points a ps

/-- The loop of `initial_function` from the current `a`, at most `fuel`
tests: `while (!lies_above_points(a, ...)) a = 2*a`. -/
def initial_function_loop (points : List data_point) : Nat → ℚ → Option ℚ
  | 0, _ => none
  | fuel + 1, a =>
    if lies_above_points pow log a points then some a
    else initial_function_loop points fuel (2 * a)

/-- Model of `initial_function(points, num_data_points)`, starting from `a = 5`. -/
def initial_function (points : List data_point) (fuel : Nat) : Option ℚ :=
  initial_function_loop pow log points fuel 5

/-- The `do { ... } while (error > 0.0005)` loop of `find_upper_bound`, at
most `fuel` iterations; the result is the final `ahigh`. -/
def upper_bisect (points : List data_point) : Nat → ℚ → ℚ → Option ℚ
  | 0, _, _ => none
  | fuel + 1, ahigh, alow =>
    let atemp := (ahigh + alow) / 2
    let ahigh1 := if lies_above_points pow log atemp points then atemp else ahigh
    let alow1 := if lies_above_points pow log atemp points then alow else atemp
    let error := ahigh1 - alow1
    if error > 5 / 10000 then upper_bisect points fuel ahigh1 alow1
    else some ahigh1

/-- Comparator `compare_data_points`: -1, 1 or 0 as the x of the first point
is less than, greater than or equal to the x of the second. -/
def compare_data_points (dp1 dp2 : data_point) : Int :=
  if dp1.x < dp2.x then -1 else if dp1.x > dp2.x then 1 else 0

/-- Insertion of one point into a list sorted by `compare_data_points`. -/
def insert_point (p : data_point) : List data_point → List data_point
  | [] => [p]
  | q :: qs => if compare_data_points p q ≤ 0 then p :: q :: qs else q :: insert_point p qs

/-- Model of `qsort(_points, n, sizeof(data_point), &compare_data_points)`: the array
in ascending order of x. Points of equal x may come in any order; the caller
only tests whether two neighbours have the same x. -/
def qsort_points : List data_point → List data_point
  | [] => []
  | p :: ps => insert_point p (qsort_points ps)

/-- The loop `for (i = 1; i < n; i++) if (_points[i].x == _points[i-1].x)`:
whether it finds two neighbours of the same x. -/
def adjacent_same_x : List data_point → Bool
  | p :: q :: rest => if q.x = p.x then true else adjacent_same_x (q :: rest)
  | _ => false

/-- The block that both early returns of `find_upper_bound` run, with
`flag` the value stored in `func[0]`. -/
def trivial_bound (flag : ℚ) (points : List data_point) : Option (List ℚ) :=
  match points[0]?, points[1]? with
  | some p0, some p1 =>
    let func1 := p0.x
    let func2 := p0.y
    some [flag, func1, func2, p1.y - func1, p1.x - func2]
  | _, _ => none

/-- The loop "Now perform the actual shift and scaling" of
`find_upper_bound`. -/
def shift_scale (func1 func2 func3 func4 : ℚ) (points : List data_point) : List data_point :=
  points.map (fun p => (⟨(p.x - func1) / func3, (p.y - func2) / func4⟩ : data_point))

/-- Model of `find_upper_bound(func, points, num_data_points)`: the five entries of
`func`. `fuel` bounds the iterations of each of the two search loops; `none`
also when that bound is reached. -/
def find_upper_bound (fuel : Nat) (points : List data_point) (num_data_points : Nat) :
    Option (List ℚ) :=
  if num_data_points < 2 then trivial_bound 1 points
  else if points.length < num_data_points then none
  else
    let sorted := qsort_points (points.take num_data_points)
    if adjacent_same_x sorted then trivial_bound 0 points
    else
      match sorted[0]?, sorted[1]? with
      | some q0, some q1 =>
        /- Shift the points towards the origin. -/
        let func1 := q0.x
        let func2 := q0.y
        let func3 := if q1.x - func1 = 0 then 1 else q1.x - func1
        let func4 := if q1.y - func2 = 0 then 1 else q1.y - func2
        /- Now perform the actual shift and scaling. -/
        let scaled := shift_scale func1 func2 func3 func4 sorted
        match initial_function pow log scaled fuel with
        | none => none
        | some ahigh0 =>
          match upper_bisect pow log scaled fuel ahigh0 0 with
          | none => none
          | some ahigh => some [ahigh, func1, func2, func3, func4]
      | _, _ => none

/-- Model of `sum_error(ub, points, num_data_points)` over the `num_data_points`
entries of `points`: the loop adds one term per point to `error`. -/
def sum_error (ub : List ℚ) (points : List data_point) : ℚ :=
  points.foldl
    (fun error p =>
      error + pow ((p.x - ub.getD 1 0) / ub.getD 3 0) (ub.getD 0 0) * ub.getD 4 0
        + ub.getD 2 0 - p.y)
    0

/-- The curve a five-entry array stands for (header of `find_upper_bound`):
`y = retval[4]((x - retval[1])/retval[3])^retval[0] + retval[2]`. -/
def bound_curve (func : List ℚ) (x : ℚ) : ℚ :=
  func.getD 4 0 * pow ((x - func.getD 1 0) / func.getD 3 0) (func.getD 0 0) + func.getD 2 0

end Bound

/-- The samples come in strictly increasing order of x. -/
def increasing_x : List data_point → Prop
  | p :: q :: rest => p.x < q.x ∧ increasing_x (q :: rest)
  | _ => True

/-- A rational stand-in for `pow` on which the definitions can be run: exact
for base 0 (positive exponent), base 1 and exponent 0, and a lower estimate
`1 + a (1 - 1/x)` of `x^a` elsewhere. -/
def pow_estimate (x a : ℚ) : ℚ :=
  if a = 0 then 1 else if x = 0 then 0 else 1 + a * (1 - 1 / x)

/-- Binary logarithm by repeated halving, linear between two powers of two;
`fuel` bounds the number of halvings. -/
def log2_halving : Nat → ℚ → ℚ
  | 0, x => x - 1
  | fuel + 1, x => if x < 2 then x - 1 else 1 + log2_halving fuel (x / 2)

/-- A rational stand-in for `log` on which the definitions can be run: the
binary logarithm, exact on the powers of two and interpolated linearly
between them. -/
def log_estimate (x : ℚ) : ℚ := log2_halving x.num.toNat x

/-! ## Concrete inputs -/

/-- The L-System whose rules are the parsed texts `rules` (the axiom first),
with the given angle and rule names, as `readfile` builds it; the stored
lengths are the numbers of units and the fitness is not computed. -/
def ls_of_text (angle : Int) (startvar : List Char) (rules : List String) : lsystem :=
  let rs := rules.map (fun t => string2rule t.toList)
  ⟨rs.length, rs, startvar, rs.map List.length, angle, [], false, [], [], [], 0⟩

/-- A generator that returns the listed words in order: the state is the
list of the words still to come (0 once the list is used up). -/
def list_gen (l : List Nat) : Nat × List Nat := (l.headD 0, l.tail)

/-! ## The codec and skipped characters -/

/-- The text that `string2rule` reads units from: the loop of `string2rule`
with, in place of each emitted unit, the `len` characters the unit takes up
in the text; a character of the final `else` branch is left out. The unit
that starts at the current character is the one a single iteration emits. -/
def drop_skipped_loop : Nat → List Char → List Char
  | 0, _ => []
  | _ + 1, [] => []
  | fuel + 1, c :: cs =>
    match string2rule_loop 1 (c :: cs) with
    | [] => drop_skipped_loop fuel cs
    | u :: _ => (c :: cs).take u.len ++ drop_skipped_loop fuel ((c :: cs).drop u.len)

/-- The text `s` with every character deleted that `string2rule` skips. -/
def drop_skipped (s : List Char) : List Char := drop_skipped_loop s.length s

/-- Whether the loop of `string2rule` reaches its final `else` branch on the
text. -/
def takes_skip_loop : Nat → List Char → Bool
  | 0, _ => false
  | _ + 1, [] => false
  | fuel + 1, c :: cs =>
    match string2rule_loop 1 (c :: cs) with
    | [] => true
    | u :: _ => takes_skip_loop fuel ((c :: cs).drop u.len)

/-- Whether `string2rule` skips a character of `s`. -/
def takes_skip (s : List Char) : Bool := takes_skip_loop s.length s

/-- A character that takes the final `else` branch of `string2rule` wherever
the loop meets it: not a command character and not a capital letter. -/
def skip_char (c : Char) : Bool := (string2rule_loop 1 [c]).isEmpty

/-! ## `ls.c`, `ls_pop.c`, `sortalg/mergesort_ls.c`: comparing and sorting -/

/-- Model of `fitness(ls)` on the path that returns the cached value
(`if (ls->computed_f) return ls->f`). Without a cached value the function
writes TSP files and times the external solver on them; that path is outside
the model and gives `none`. -/
def fitness (ls : lsystem) : Option ℚ :=
  if ls.computed_f then some ls.f else none

/-- Model of `compare_ls(ls1, ls2)`: 0 for equal fitness values, -1 when the
first is greater, 1 otherwise. -/
def compare_ls (ls1 ls2 : lsystem) : Option Int :=
  match fitness ls1, fitness ls2 with
  | some ls1_value, some ls2_value =>
    if ls1_value = ls2_value then some 0
    else if ls1_value > ls2_value then some (-1)
    else some 1
  | _, _ => none

/-- Model of `compare(ls1, ls2)` of `ls_pop.c`, which calls `compare_ls`. -/
def compare (ls1 ls2 : lsystem) : Option Int := compare_ls ls1 ls2

section Sorting

variable {α : Type}

/-- The merging loop of `merge_helper`, `for (i = 0; i < length; i++)`, with
`n` iterations left. `scratch` holds the entries `scratch[0 .. i-1]` written
so far; `mid` is `left + midpoint_distance`. -/
def merge_loop (cmp : α → α → Option Int) (input : List α) (mid right : Nat) :
    Nat → Nat → Nat → List α → Option (List α)
  | 0, _, _, scratch => some scratch
  | n + 1, l, r, scratch =>
    if l < mid then
      if r = right then
        match input[l]? with
        | some x => merge_loop cmp input mid right n (l + 1) r (scratch ++ [x])
        | none => none
      else
        match input[l]?, input[r]? with
        | some x, some y =>
          match cmp x y with
          | some c =>
            if c < 0 then merge_loop cmp input mid right n (l + 1) r (scratch ++ [x])
            else merge_loop cmp input mid right n l (r + 1) (scratch ++ [y])
          | none => none
        | _, _ => none
    else
      match input[r]? with
      | some y => merge_loop cmp input mid right n l (r + 1) (scratch ++ [y])
      | none => none

/-- The loop `for (i = left; i < right; i++) input[i] = scratch[i - left]`,
from index `i` over the entries of `scratch` still to be copied. -/
def copy_back : List α → Nat → List α → Option (List α)
  | input, _, [] => some input
  | input, i, x :: xs => if i < input.length then copy_back (input.set i x) (i + 1) xs else none

/-- Model of `merge_helper(input, left, right, scratch, cmp)`: the array
`input` after the call. `fuel` bounds the depth of the recursion. -/
def merge_helper (cmp : α → α → Option Int) : Nat → List α → Nat → Nat → Option (List α)
  | 0, _, _, _ => none
  | fuel + 1, input, left, right =>
    if right = left + 1 then some input
    else
      let length := right - left
      let midpoint_distance := length / 2
      match merge_helper cmp fuel input left (left + midpoint_distance) with
      | none => none
      | some input1 =>
        match merge_helper cmp fuel input1 (left + midpoint_distance) right with
        | none => none
        | some input2 =>
          match merge_loop cmp input2 (left + midpoint_distance) right length left
              (left + midpoint_distance) [] with
          | none => none
          | some scratch => copy_back input2 left scratch

/-- Model of `mergesort_ls(input, size, cmp)` when `malloc` succeeds: the sorted
array and the return value 1. -/
def mergesort_ls (cmp : α → α → Option Int) (fuel : Nat) (input : List α) (size : Nat) :
    Option (List α × Int) :=
  match merge_helper cmp fuel input 0 size with
  | none => none
  | some sorted => some (sorted, 1)

end Sorting

/-- Model of `sortpopulation(pop)`: `mergesort_ls(pop->ls_array, pop->pop_size, &compare)`. -/
def sortpopulation (fuel : Nat) (pop : ls_population) : Option ls_population :=
  match mergesort_ls compare fuel pop.ls_array pop.pop_size with
  | none => none
  | some (sorted, _) => some { pop with ls_array := sorted }

/-- An L-System of which only the cached fitness matters: empty rules,
`computed_f` set and `f = v`. -/
def ls_of_fitness (v : ℚ) : lsystem :=
  ⟨0, [], [], [], 0, [], true, [], [], [], v⟩

/-! ## `mt19937ar/t_mt19937ar.c`: the Mersenne Twister -/

/-- The constants that `t_mt19937ar.c` takes from its header
`t_mt19937ar.h`, which is not among the sources: the macros `N`, `M`,
`MATRIX_A`, `UPPER_MASK` and `LOWER_MASK`, and `bits`, the width of
`unsigned long` on the machine. They are parameters of the model. -/
structure mt_consts where
  N : Nat
  M : Nat
  MATRIX_A : Nat
  UPPER_MASK : Nat
  LOWER_MASK : Nat
  bits : Nat

/-- The generator record `mt_prng`, with the fields the code uses: the state
array `mt`, the position `mti` and the table `mag01`. -/
structure mt_prng where
  mt : List Nat
  mti : Nat
  mag01 : List Nat
deriving DecidableEq

/-- The loop of `init_genrand`, `for (p->mti=1; p->mti<N; p->mti++)`, with
`n` iterations left: `mt[mti] = 1812433253UL * (mt[mti-1] ^ (mt[mti-1] >> 30)) + mti`
in `unsigned long` arithmetic, then `mt[mti] &= 0xffffffffUL`. -/
def init_genrand_loop (k : mt_consts) : Nat → Nat → List Nat → Option (List Nat)
  | 0, _, mt => some mt
  | n + 1, mti, mt =>
    match mt[mti - 1]? with
    | none => none
    | some prev =>
      if mti < mt.length then
        let v := (1812433253 * (prev ^^^ (prev >>> 30)) + mti) % 2 ^ k.bits
        init_genrand_loop k n (mti + 1) (mt.set mti (v &&& 0xffffffff))
      else none

/-- Model of `init_genrand(p, s)`: the record after the call. -/
def init_genrand (k : mt_consts) (p : mt_prng) (s : Nat) : Option mt_prng :=
  if p.mag01.length < 2 ∨ p.mt.length = 0 then none
  else
    match init_genrand_loop k (k.N - 1) 1 (p.mt.set 0 (s &&& 0xffffffff)) with
    | none => none
    | some mt => some ⟨mt, max 1 k.N, (p.mag01.set 0 0).set 1 k.MATRIX_A⟩

/-- One assignment of the regeneration loops of `genrand_int32`:
`y = (mt[kk]&UPPER_MASK)|(mt[next]&LOWER_MASK);
mt[kk] = mt[src] ^ (y >> 1) ^ mag01[y & 0x1UL]`. -/
def twist_word (k : mt_consts) (mag01 mt : List Nat) (kk next src : Nat) : Option (List Nat) :=
  match mt[kk]?, mt[next]?, mt[src]? with
  | some a, some b, some c =>
    let y := (a &&& k.UPPER_MASK) ||| (b &&& k.LOWER_MASK)
    match mag01[y &&& 1]? with
    | some m => some (mt.set kk (c ^^^ (y >>> 1) ^^^ m))
    | none => none
  | _, _, _ => none

/-- The first regeneration loop, `for (kk=0;kk<N-M;kk++)`, with `n`
iterations left; the word read is `mt[kk+M]`. -/
def twist_loop1 (k : mt_consts) (mag01 : List Nat) : Nat → Nat → List Nat → Option (List Nat)
  | 0, _, mt => some mt
  | n + 1, kk, mt =>
    match twist_word k mag01 mt kk (kk + 1) (kk + k.M) with
    | none => none
    | some mt1 => twist_loop1 k mag01 n (kk + 1) mt1

/-- The second regeneration loop, `for (;kk<N-1;kk++)`, with `n` iterations
left; the word read is `mt[kk+(M-N)]`, a negative index being outside the
array. -/
def twist_loop2 (k : mt_consts) (mag01 : List Nat) : Nat → Nat → List Nat → Option (List Nat)
  | 0, _, mt => some mt
  | n + 1, kk, mt =>
    if kk + k.M < k.N then none
    else
      match twist_word k mag01 mt kk (kk + 1) (kk + k.M - k.N) with
      | none => none
      | some mt1 => twist_loop2 k mag01 n (kk + 1) mt1

/-- The block `if (p->mti >= N) { ... }` of `genrand_int32` once a default
seed, if needed, is set: the two loops, the last word, `mti = 0`. -/
def regenerate (k : mt_consts) (p : mt_prng) : Option mt_prng :=
  match twist_loop1 k p.mag01 (k.N - k.M) 0 p.mt with
  | none => none
  | some mt1 =>
    match twist_loop2 k p.mag01 (k.N - 1 - (k.N - k.M)) (k.N - k.M) mt1 with
    | none => none
    | some mt2 =>
      if k.N = 0 ∨ k.M = 0 then none
      else
        match twist_word k p.mag01 mt2 (k.N - 1) 0 (k.M - 1) with
        | none => none
        | some mt3 => some { p with mt := mt3, mti := 0 }

/-- The tempering of `genrand_int32`, shifts to the left in `unsigned long`
arithmetic. -/
def temper (k : mt_consts) (y : Nat) : Nat :=
  let y1 := y ^^^ (y >>> 11)
  let y2 := y1 ^^^ (((y1 <<< 7) % 2 ^ k.bits) &&& 0x9d2c5680)
  let y3 := y2 ^^^ (((y2 <<< 15) % 2 ^ k.bits) &&& 0xefc60000)
  y3 ^^^ (y3 >>> 18)

/-- Model of `genrand_int32(p)`: the word returned and the record after the call. -/
def genrand_int32 (k : mt_consts) (p : mt_prng) : Option (Nat × mt_prng) :=
  let ready :=
    if p.mti ≥ k.N then
      if p.mti = k.N + 1 then
        match init_genrand k p 5489 with
        | none => none
        | some q => regenerate k q
      else regenerate k p
    else some p
  match ready with
  | none => none
  | some q =>
    match q.mt[q.mti]? with
    | none => none
    | some y => some (temper k y, { q with mti := q.mti + 1 })

/-- The constants of MT19937, the generator the file header names
("A C-program for MT19937"), on a machine with 64-bit `unsigned long`. -/
def mt19937 : mt_consts := ⟨624, 397, 0x9908b0df, 0x80000000, 0x7fffffff, 64⟩

/-- A generator record that has not been written to. -/
def mt_blank (k : mt_consts) : mt_prng := ⟨List.replicate k.N 0, 0, [0, 0]⟩


/-- Calls number `1 .. n` of `genrand_int32` on one record: the words
returned, in order, and the record after the last call. -/
def genrand_seq (k : mt_consts) : Nat → mt_prng → Option (List Nat × mt_prng)
  | 0, p => some ([], p)
  | n + 1, p =>
    match genrand_int32 k p with
    | none => none
    | some (y, q) =>
      match genrand_seq k n q with
      | none => none
      | some (ys, r) => some (y :: ys, r)

/-- The call `genrand_int32(&gens[i])` in a program that holds the records
`gens`: the word returned and the records after the call. The function
reads and writes through its argument `p` only. -/
def genrand_int32_at (k : mt_consts) (gens : List mt_prng) (i : Nat) :
    Option (Nat × List mt_prng) :=
  match gens[i]? with
  | none => none
  | some p =>
    match genrand_int32 k p with
    | none => none
    | some (y, q) => some (y, gens.set i q)

/-- A sequence of calls of `genrand_int32`, `calls` naming the record of each
call: the pairs (record, word returned) in order and the records after the
last call. -/
def run_calls (k : mt_consts) : List Nat → List mt_prng → Option (List (Nat × Nat) × List mt_prng)
  | [], gens => some ([], gens)
  | i :: calls, gens =>
    match genrand_int32_at k gens i with
    | none => none
    | some (y, gens1) =>
      match run_calls k calls gens1 with
      | none => none
      | some (trace, gens2) => some ((i, y) :: trace, gens2)

/-- The generator step in the form the operators of `ls.c` are modelled
with; on a record that `genrand_int32` cannot be run on it returns 0 and
leaves the record as it is. -/
def mt_gen (k : mt_consts) (p : mt_prng) : Nat × mt_prng :=
  (genrand_int32 k p).getD (0, p)

/-- Model of `genrand_real2`: the word times `1.0/4294967296.0`, on `[0,1)`. -/
def genrand_real2 {σ : Type} (gen : σ → Nat × σ) (s : σ) : ℚ × σ :=
  (((draw32 gen s).1 : ℚ) * (1 / 4294967296), (draw32 gen s).2)

/-- The record after `init_genrand(p, s)` on the record `p0` and `n` calls of
`genrand_int32`. -/
def seeded_state (k : mt_consts) (p0 : mt_prng) (s : Nat) (n : Nat) : Option mt_prng :=
  match init_genrand k p0 s with
  | none => none
  | some p => (genrand_seq k n p).map Prod.snd

/-- The invariant of a seeded record: `N` state words, each below `2^32`, the
table `mag01` as `init_genrand` writes it and a position of at most `N`. -/
def mt_ok (k : mt_consts) (p : mt_prng) : Prop :=
  p.mt.length = k.N ∧ p.mag01 = [0, k.MATRIX_A] ∧ p.mti ≤ k.N ∧ ∀ x ∈ p.mt, x < 2 ^ 32

/-! ## `lsys.c`: the expansion engine -/

/-- The library functions `lsys.c` calls, taken as parameters: `sin`, `cos`
and `sqrt` of `math.h`, `atof` of `stdlib.h`, and `to_float`, the rounding
that storing a `double` in a variable of type `float` performs. -/
structure libm where
  sin : ℚ → ℚ
  cos : ℚ → ℚ
  sqrt : ℚ → ℚ
  atof : List Char → ℚ
  to_float : ℚ → ℚ

/-- The constant `PI` of `lsys.c`. -/
def PI : ℚ := 314159265358979323846 / 100000000000000000000

/-- The constant `xdots`. -/
def xdots : Int := 1000

/-- The constant `ydots`. -/
def ydots : Int := 1000

/-- The global variables of `lsys.c`. `outputfile` holds the lines written
so far, one triple `currentnode x y` per line; `sins` and `coss` are the two
tables of 50 entries. The `char` variables are integers. -/
structure lsys_state where
  sins : List ℚ
  coss : List ℚ
  maxangle : Int
  dmaxangle : Int
  size : ℚ
  realangle : ℚ
  xpos : ℚ
  ypos : ℚ
  counter : Int
  angle : Int
  reverse : Int
  lsys_Xmin : ℚ
  lsys_Xmax : ℚ
  lsys_Ymin : ℚ
  lsys_Ymax : ℚ
  currentnode : Nat
  outputfile : List (Nat × Int × Int)

/-- The functions a command can be bound to (the values of the pointer `f`
of `struct lsys_cmd`). -/
inductive lsys_fn where
  | lsys_doplus
  | lsys_dominus
  | lsys_doslash
  | lsys_dobslash
  | lsys_doat
  | lsys_dopipe
  | lsys_dobang
  | lsys_dosizedm
  | lsys_dosizegf
  | lsys_dodrawd
  | lsys_dodrawm
  | lsys_dodrawg
  | lsys_dodrawf
deriving DecidableEq, Repr

/-- A compiled command, `struct lsys_cmd`: the character, the bound function
(`none` for a null pointer) and the number. A command array is the list of
its commands before the terminating command with `ch = 0`. -/
structure lsys_cmd where
  ch : Char
  f : Option lsys_fn
  n : ℚ
deriving DecidableEq

/-- Model of `draw_line(a, b, c, d)`: one line `currentnode (int)nint(c) (int)nint(d)`
is written and `currentnode` is incremented (`nint` is `floor`). The warning
on `stderr` is not modelled. -/
def draw_line (_a _b c d : ℚ) (st : lsys_state) : lsys_state :=
  { st with
    outputfile := st.outputfile ++ [(st.currentnode, c.floor, d.floor)]
    currentnode := st.currentnode + 1 }

/-- Model of `lsys_doplus`. -/
def lsys_doplus (st : lsys_state) : lsys_state :=
  if st.reverse ≠ 0 then
    if st.angle + 1 = st.maxangle then { st with angle := 0 }
    else { st with angle := st.angle + 1 }
  else
    if st.angle ≠ 0 then { st with angle := st.angle - 1 }
    else { st with angle := st.dmaxangle }

/-- Model of `lsys_dominus`. -/
def lsys_dominus (st : lsys_state) : lsys_state :=
  if st.reverse ≠ 0 then
    if st.angle ≠ 0 then { st with angle := st.angle - 1 }
    else { st with angle := st.dmaxangle }
  else
    if st.angle + 1 = st.maxangle then { st with angle := 0 }
    else { st with angle := st.angle + 1 }

/-- Model of `lsys_doslash`. -/
def lsys_doslash (n : ℚ) (st : lsys_state) : lsys_state :=
  if st.reverse ≠ 0 then { st with realangle := st.realangle - n }
  else { st with realangle := st.realangle + n }

/-- Model of `lsys_dobslash`. -/
def lsys_dobslash (n : ℚ) (st : lsys_state) : lsys_state :=
  if st.reverse ≠ 0 then { st with realangle := st.realangle + n }
  else { st with realangle := st.realangle - n }

/-- Model of `lsys_doat`. -/
def lsys_doat (n : ℚ) (st : lsys_state) : lsys_state :=
  { st with size := st.size * n }

/-- Model of `lsys_dopipe`: `angle += maxangle / 2; angle %= maxangle`, with
the truncating division and remainder of C; `none` for `maxangle = 0`. -/
def lsys_dopipe (st : lsys_state) : Option lsys_state :=
  if st.maxangle = 0 then none
  else some { st with angle := Int.tmod (st.angle + Int.tdiv st.maxangle 2) st.maxangle }

/-- Model of `lsys_dobang`. -/
def lsys_dobang (st : lsys_state) : lsys_state :=
  { st with reverse := if st.reverse ≠ 0 then 0 else 1 }

/-- The four comparisons that widen the bounding box in `lsys_dosizedm` and
`lsys_dosizegf`. -/
def widen_box (st : lsys_state) : lsys_state :=
  let st1 := if st.xpos > st.lsys_Xmax then { st with lsys_Xmax := st.xpos } else st
  let st2 := if st1.ypos > st1.lsys_Ymax then { st1 with lsys_Ymax := st1.ypos } else st1
  let st3 := if st2.xpos < st2.lsys_Xmin then { st2 with lsys_Xmin := st2.xpos } else st2
  if st3.ypos < st3.lsys_Ymin then { st3 with lsys_Ymin := st3.ypos } else st3

/-- The entry `table[angle]` of one of the two tables of 50 entries. -/
def table_at (table : List ℚ) (angle : Int) : Option ℚ :=
  if 0 ≤ angle then table[angle.toNat]? else none

/-- Model of `lsys_dosizedm`. -/
def lsys_dosizedm (L : libm) (st : lsys_state) : lsys_state :=
  widen_box { st with
    xpos := st.xpos + st.size * L.cos (st.realangle * PI / 180)
    ypos := st.ypos + st.size * L.sin (st.realangle * PI / 180) }

/-- Model of `lsys_dosizegf`. -/
def lsys_dosizegf (st : lsys_state) : Option lsys_state :=
  match table_at st.coss st.angle, table_at st.sins st.angle with
  | some c, some s =>
    some (widen_box { st with xpos := st.xpos + st.size * c, ypos := st.ypos + st.size * s })
  | _, _ => none

/-- Model of `lsys_dodrawd`. -/
def lsys_dodrawd (L : libm) (st : lsys_state) : lsys_state :=
  let lastx := st.xpos
  let lasty := st.ypos
  let st1 := { st with
    xpos := st.xpos + st.size * L.cos (st.realangle * PI / 180)
    ypos := st.ypos + st.size * L.sin (st.realangle * PI / 180) }
  draw_line lastx lasty st1.xpos st1.ypos st1

/-- Model of `lsys_dodrawm`. -/
def lsys_dodrawm (L : libm) (st : lsys_state) : lsys_state :=
  { st with
    xpos := st.xpos + st.size * L.cos (st.realangle * PI / 180)
    ypos := st.ypos + st.size * L.sin (st.realangle * PI / 180) }

/-- Model of `lsys_dodrawg`. -/
def lsys_dodrawg (st : lsys_state) : Option lsys_state :=
  match table_at st.coss st.angle, table_at st.sins st.angle with
  | some c, some s => some { st with xpos := st.xpos + st.size * c, ypos := st.ypos + st.size * s }
  | _, _ => none

/-- Model of `lsys_dodrawf`. -/
def lsys_dodrawf (st : lsys_state) : Option lsys_state :=
  match table_at st.coss st.angle, table_at st.sins st.angle with
  | some c, some s =>
    let lastx := st.xpos
    let lasty := st.ypos
    let st1 := { st with xpos := st.xpos + st.size * c, ypos := st.ypos + st.size * s }
    some (draw_line lastx lasty st1.xpos st1.ypos st1)
  | _, _ => none

/-- The call `(*command->f)(command->n)` through the function pointer. -/
def call_fn (L : libm) (f : lsys_fn) (n : ℚ) (st : lsys_state) : Option lsys_state :=
  match f with
  | .lsys_doplus => some (lsys_doplus st)
  | .lsys_dominus => some (lsys_dominus st)
  | .lsys_doslash => some (lsys_doslash n st)
  | .lsys_dobslash => some (lsys_dobslash n st)
  | .lsys_doat => some (lsys_doat n st)
  | .lsys_dopipe => lsys_dopipe st
  | .lsys_dobang => some (lsys_dobang st)
  | .lsys_dosizedm => some (lsys_dosizedm L st)
  | .lsys_dosizegf => lsys_dosizegf st
  | .lsys_dodrawd => some (lsys_dodrawd L st)
  | .lsys_dodrawm => some (lsys_dodrawm L st)
  | .lsys_dodrawg => lsys_dodrawg st
  | .lsys_dodrawf => lsys_dodrawf st

/-- The assignments after the recursive call in the `'['` branch of
`drawLSys`: the six saved variables of `saved` are written back to the
state `st` the call returned. -/
def restore_saved (saved st : lsys_state) : lsys_state :=
  { st with
    angle := saved.angle
    reverse := saved.reverse
    size := saved.size
    realangle := saved.realangle
    xpos := saved.xpos
    ypos := saved.ypos }

/-- The character a rule array is looked up by, `(*rulind)->ch`: the first
command of the array (`none` for an array that holds the terminator only). -/
def rule_name (rule : List lsys_cmd) : Option Char := rule.head?.map (fun c => c.ch)

/-- The body of the loop `for(rulind=rules;*rulind;rulind++)` of `drawLSys`
for one rule: `acc` holds `tran` and the globals (`none` once a nested call
has failed), `ch` is `command->ch`, and `expand body s` stands for the nested
call `drawLSys((*rulind)+1,rules,depth-1)` on the globals `s`. -/
def expand_rule {σ : Type} (expand : List lsys_cmd → σ → Option (List lsys_cmd × σ)) (ch : Char)
    (acc : Option (Bool × σ)) (rule : List lsys_cmd) : Option (Bool × σ) :=
  match acc with
  | none => none
  | some (tran, s) =>
    if rule_name rule = some ch then
      match expand rule.tail s with
      | none => none
      | some (_, s1) => some (true, s1)
    else some (tran, s)

/-- Model of `drawLSys(command, rules, depth)` for `depth >= 0`: the command
cursor returned (the commands from the cursor on) and the globals after the
call. `fuel` bounds the nesting of the calls, the step from one command to
the next counted as one. The result is `none` when a table is read outside
its 50 entries, when the cursor moves past the terminator of its array or
when `fuel` is used up. The C function returns a null pointer only if a
nested call has returned one, so it never does. -/
def drawLSys (L : libm) (rules : List (List lsys_cmd)) :
    Nat → List lsys_cmd → Nat → lsys_state → Option (List lsys_cmd × lsys_state)
  | 0, _, _, _ => none
  | _ + 1, [], _, st => some ([], st)
  | fuel + 1, command :: rest, depth, st =>
    if command.ch = ']' then some (command :: rest, st)
    else
      let expanded : Option (Bool × lsys_state) :=
        if depth ≠ 0 then
          rules.foldl
            (expand_rule (fun body s => drawLSys L rules fuel body (depth - 1) s) command.ch)
            (some (false, st))
        else some (false, st)
      match expanded with
      | none => none
      | some (tran, st1) =>
        if depth = 0 ∨ tran = false then
          match command.f with
          | some f =>
            match call_fn L f command.n st1 with
            | none => none
            | some st2 => drawLSys L rules fuel rest depth st2
          | none =>
            if command.ch = '[' then
              match drawLSys L rules fuel rest depth st1 with
              | none => none
              | some ([], _) => none
              | some (_ :: after, st2) => drawLSys L rules fuel after depth (restore_saved st1 st2)
            else drawLSys L rules fuel rest depth st1
        else drawLSys L rules fuel rest depth st1

/-- Model of `strlwr(s)`: every character through `tolower`. -/
def strlwr (s : List Char) : List Char := s.map Char.toLower

/-- The loop of `getnumber` that copies digits and points into `numstr`: the
characters copied and the text from the first other character on. -/
def getnumber_digits : List Char → List Char × List Char
  | [] => ([], [])
  | c :: cs =>
    if (c ≤ '9' ∧ c ≥ '0') ∨ c = '.' then
      ((getnumber_digits cs).1.cons c, (getnumber_digits cs).2)
    else ([], c :: cs)

/-- One of the two `switch` statements at the start of `getnumber`: the
flags `root` and `inverse` and the text still to be read. -/
def getnumber_flag (root inverse : Bool) : List Char → Bool × Bool × List Char
  | 'q' :: cs => (true, inverse, cs)
  | 'i' :: cs => (root, true, cs)
  | s => (root, inverse, s)

/-- Model of `getnumber(&str)`, with `s` the text after the command
character `*str` points to on entry: the number returned and the text after
the last character read. `none` when more than 29 characters would be copied
into `numstr[30]`, and when the inverse of 0 is asked for, which is no
rational. -/
def getnumber (L : libm) (s : List Char) : Option (ℚ × List Char) :=
  let a := getnumber_flag false false s
  let b := getnumber_flag a.1 a.2.1 a.2.2
  let root := b.1
  let inverse := b.2.1
  let d := getnumber_digits b.2.2
  if d.1.length > 29 then none
  else
    let ret := L.to_float (L.atof d.1)
    let ret1 := if root then L.to_float (L.sqrt ret) else ret
    if inverse then
      if ret1 = 0 then none else some (L.to_float (1 / ret1), d.2)
    else some (ret1, d.2)

/-- The `switch (*s)` of `SizeTransform`: the function bound to the
character and the number stored when it is not read by `getnumber`. -/
def SizeTransform_switch (c : Char) : Option lsys_fn × ℚ :=
  if c = '+' then (some .lsys_doplus, 0)
  else if c = '-' then (some .lsys_dominus, 0)
  else if c = '/' then (some .lsys_doslash, 0)
  else if c = '\\' then (some .lsys_dobslash, 0)
  else if c = '@' then (some .lsys_doat, 0)
  else if c = '|' then (some .lsys_dopipe, 0)
  else if c = '!' then (some .lsys_dobang, 0)
  else if c = 'd' then (some .lsys_dosizedm, 0)
  else if c = 'm' then (some .lsys_dosizedm, 0)
  else if c = 'g' then (some .lsys_dosizegf, 0)
  else if c = 'f' then (some .lsys_dosizegf, 0)
  else if c = '[' then (none, 1)
  else if c = ']' then (none, 2)
  else (none, 3)

/-- The `switch (*s)` of `DrawTransform`. -/
def DrawTransform_switch (c : Char) : Option lsys_fn × ℚ :=
  if c = '+' then (some .lsys_doplus, 0)
  else if c = '-' then (some .lsys_dominus, 0)
  else if c = '/' then (some .lsys_doslash, 0)
  else if c = '\\' then (some .lsys_dobslash, 0)
  else if c = '@' then (some .lsys_doat, 0)
  else if c = '|' then (some .lsys_dopipe, 0)
  else if c = '!' then (some .lsys_dobang, 0)
  else if c = 'd' then (some .lsys_dodrawd, 0)
  else if c = 'm' then (some .lsys_dodrawm, 0)
  else if c = 'g' then (some .lsys_dodrawg, 0)
  else if c = 'f' then (some .lsys_dodrawf, 0)
  else if c = '[' then (none, 1)
  else if c = ']' then (none, 2)
  else (none, 3)

/-- The `while (*s)` loop that `SizeTransform` and `DrawTransform` share,
with `switch_of` the `switch` of the function: one command per iteration,
the number of `/`, `\` and `@` read by `getnumber`. `fuel` bounds the number
of iterations. The buffers are taken to be allocated. -/
def transform_loop (L : libm) (switch_of : Char → Option lsys_fn × ℚ) :
    Nat → List Char → Option (List lsys_cmd)
  | 0, _ => none
  | _ + 1, [] => some []
  | fuel + 1, c :: cs =>
    if c = '/' ∨ c = '\\' ∨ c = '@' then
      match getnumber L cs with
      | none => none
      | some (num, rest) =>
        match transform_loop L switch_of fuel rest with
        | none => none
        | some cmds => some (⟨c, (switch_of c).1, num⟩ :: cmds)
    else
      match transform_loop L switch_of fuel cs with
      | none => none
      | some cmds => some (⟨c, (switch_of c).1, (switch_of c).2⟩ :: cmds)

/-- Model of `SizeTransform(s)`: the command array. -/
def SizeTransform (L : libm) (s : List Char) : Option (List lsys_cmd) :=
  transform_loop L SizeTransform_switch (s.length + 1) s

/-- Model of `DrawTransform(s)`: the command array. -/
def DrawTransform (L : libm) (s : List Char) : Option (List lsys_cmd) :=
  transform_loop L DrawTransform_switch (s.length + 1) s

/-- The loop `for(i=0;i<maxangle;i++) { sins[i]=sin(2*i*PI/maxangle); coss[i]=... }`
of `LLoad` and `findscale`; `none` when it writes past the 50 entries. -/
def fill_tables (L : libm) (st : lsys_state) : Option lsys_state :=
  if st.maxangle > 50 ∨ st.sins.length ≠ 50 ∨ st.coss.length ≠ 50 then none
  else
    some { st with
      sins := (List.range 50).map (fun (i : Nat) =>
        if (i : Int) < st.maxangle then L.sin (2 * (i : ℚ) * PI / (st.maxangle : ℚ))
        else st.sins.getD i 0)
      coss := (List.range 50).map (fun (i : Nat) =>
        if (i : Int) < st.maxangle then L.cos (2 * (i : ℚ) * PI / (st.maxangle : ℚ))
        else st.coss.getD i 0) }

/-- Model of `findscale(command, rules, depth)`: the globals after the call;
the function returns 1. `horiz` and `vert` are `float` variables. -/
def findscale (L : libm) (fuel : Nat) (command : List lsys_cmd) (rules : List (List lsys_cmd))
    (depth : Nat) (st : lsys_state) : Option lsys_state :=
  match fill_tables L st with
  | none => none
  | some st0 =>
    let st1 := { st0 with
      xpos := 0, ypos := 0, lsys_Xmin := 0, lsys_Xmax := 0, lsys_Ymax := 0, lsys_Ymin := 0,
      angle := 0, reverse := 0, realangle := 0, counter := 0, size := 1 }
    match drawLSys L rules fuel command depth st1 with
    | none => none
    | some (_, st2) =>
      let xmin := st2.lsys_Xmin
      let xmax := st2.lsys_Xmax
      let ymin := st2.lsys_Ymin
      let ymax := st2.lsys_Ymax
      let horiz := if xmax = xmin then L.to_float (10 ^ 37)
        else L.to_float (((xdots - 10 : Int) : ℚ) / (xmax - xmin))
      let vert := if ymax = ymin then L.to_float (10 ^ 37)
        else L.to_float (((ydots - 6 : Int) : ℚ) / (ymax - ymin))
      let locsize := if vert < horiz then vert else horiz
      let xpos : ℚ := if horiz = 10 ^ 37 then (((Int.tdiv xdots 2 : Int) : ℚ).ceil : ℚ)
        else ((-xmin * locsize + 5 + (((xdots - 10 : Int) : ℚ) - locsize * (xmax - xmin)) / 2).ceil : ℚ)
      let ypos : ℚ := if vert = 10 ^ 37 then (((Int.tdiv ydots 2 : Int) : ℚ).ceil : ℚ)
        else ((-ymin * locsize + 3 + (((ydots - 6 : Int) : ℚ) - locsize * (ymax - ymin)) / 2).ceil : ℚ)
      let locsize1 : ℚ := (locsize.floor : ℚ)
      let locsize2 : ℚ := if locsize1 = 0 then 1 else locsize1
      some { st2 with xpos := xpos, ypos := ypos, size := locsize2 }

/-- The loop `for (rulesc = ruleptrs; *rulesc; rulesc++) *sc++ = transform(*rulesc)`
of `Lsystem`, with `transform` one of `SizeTransform` and `DrawTransform`:
the array `rules2`. -/
def compile_rules (transform : List Char → Option (List lsys_cmd)) :
    List (List Char) → Option (List (List lsys_cmd))
  | [] => some []
  | s :: rest =>
    match transform s, compile_rules transform rest with
    | some cmds, some more => some (cmds :: more)
    | _, _ => none

/-- The globals at program start: static storage is zero. -/
def lsys_start : lsys_state :=
  ⟨List.replicate 50 0, List.replicate 50 0, 0, 0, 0, 0, 0, 0, 0, 0, 0, 0, 0, 0, 0, 0, []⟩

/-- Model of `Lsystem(order, name, title, outputfilename)` from the point
where `readLSystemFile` has filled `maxangle` and `ruleptrs` from the file:
`ruleptrs[0]` is the axiom and every other entry a rule name followed by the
rule text, all in lower case. The result is the value returned,
`currentnode`, and the lines written to the output file. `none` also when the
file is rejected (no axiom, `maxangle` outside 3..50) and the program
exits. -/
def Lsystem (L : libm) (fuel : Nat) (order : Nat) (maxangle : Int) (ruleptrs : List (List Char)) :
    Option (Nat × List (Nat × Int × Int)) :=
  if ruleptrs = [] ∨ maxangle < 3 ∨ maxangle > 50 then none
  else
    let st0 := { lsys_start with
      currentnode := 0, outputfile := [], maxangle := maxangle, dmaxangle := maxangle - 1 }
    match fill_tables L st0 with
    | none => none
    | some st1 =>
      match compile_rules (SizeTransform L) ruleptrs with
      | none => none
      | some [] => none
      | some (command :: rules) =>
        match findscale L fuel command rules order st1 with
        | none => none
        | some st2 =>
          let st3 := { st2 with realangle := 0, angle := 0, reverse := 0 }
          match compile_rules (DrawTransform L) ruleptrs with
          | none => none
          | some [] => none
          | some (command1 :: rules1) =>
            match drawLSys L rules1 fuel command1 order st3 with
            | none => none
            | some (_, st4) => some (st4.currentnode, st4.outputfile)

/-- The contents of `ruleptrs` after `readLSystemFile` has read a file with
the line `Axiom axiom` and one line `name=text` per rule: every line goes
through `strlwr`, and a rule is stored as its name followed by its text. -/
def load_rules (axiom_text : List Char) (rules : List (Char × List Char)) : List (List Char) :=
  strlwr axiom_text :: rules.map (fun r => strlwr (r.1 :: r.2))

/-- A stand-in for the library on which the definitions can be run: `sin` is
0 and `cos` is 1 everywhere, `sqrt` and the rounding to `float` leave the
value as it is, and `atof` returns 0. -/
def libm_flat : libm := ⟨fun _ => 0, fun _ => 1, fun x => x, fun _ => 0, fun x => x⟩



/-- The number of calls of `draw_line` in one call of a bound function: 1
for `lsys_dodrawd` and `lsys_dodrawf`, 0 for every other function and for a
command without a function. -/
def draw_calls (f : Option lsys_fn) : Nat :=
  if f = some .lsys_dodrawd ∨ f = some .lsys_dodrawf then 1 else 0

/-- The control flow of `drawLSys` with the globals reduced to the number
`k` of calls of `draw_line` made so far: the cursor returned and the number
of calls after the run, for a run in which no table is read outside its
entries. It follows `drawLSys` branch by branch. -/
def drawLSys_points (rules : List (List lsys_cmd)) :
    Nat → List lsys_cmd → Nat → Nat → Option (List lsys_cmd × Nat)
  | 0, _, _, _ => none
  | _ + 1, [], _, k => some ([], k)
  | fuel + 1, command :: rest, depth, k =>
    if command.ch = ']' then some (command :: rest, k)
    else
      let expanded : Option (Bool × Nat) :=
        if depth ≠ 0 then
          rules.foldl
            (expand_rule (fun body k1 => drawLSys_points rules fuel body (depth - 1) k1)
              command.ch)
            (some (false, k))
        else some (false, k)
      match expanded with
      | none => none
      | some (tran, k1) =>
        if depth = 0 ∨ tran = false then
          match command.f with
          | some f => drawLSys_points rules fuel rest depth (k1 + draw_calls (some f))
          | none =>
            if command.ch = '[' then
              match drawLSys_points rules fuel rest depth k1 with
              | none => none
              | some ([], _) => none
              | some (_ :: after, k2) => drawLSys_points rules fuel after depth k2
            else drawLSys_points rules fuel rest depth k1
        else drawLSys_points rules fuel rest depth k1

/-- The heading index is inside the filled part of the two tables. -/
def angle_ok (st : lsys_state) : Prop :=
  0 ≤ st.angle ∧ st.angle < st.maxangle ∧ st.maxangle ≤ 50 ∧ st.dmaxangle = st.maxangle - 1 ∧
    st.sins.length = 50 ∧ st.coss.length = 50

/-- From `st` to `st1` the program has made `k` calls of `draw_line` and
left the tables and `maxangle` alone: the node counter has advanced by `k`
and the lines written carry the node numbers in between. -/
def points_added (st st1 : lsys_state) (k : Nat) : Prop :=
  st1.maxangle = st.maxangle ∧ st1.dmaxangle = st.dmaxangle ∧ st1.sins = st.sins ∧
    st1.coss = st.coss ∧ st1.currentnode = st.currentnode + k ∧
    st1.outputfile.map Prod.fst = st.outputfile.map Prod.fst ++ List.range' st.currentnode k


/-- The results of `drawLSys` and of `drawLSys_points` agree: both fail, or
both return the same cursor and the globals of the first have the heading in
range and show, counted from `st0`, the number of points of the second. -/
def same_run (st0 : lsys_state) (r : Option (List lsys_cmd × lsys_state))
    (p : Option (List lsys_cmd × Nat)) : Prop :=
  match p with
  | none => r = none
  | some (cur, k) => ∃ s, r = some (cur, s) ∧ angle_ok s ∧ points_added st0 s k

/-- The results of the loop over the rules agree in the same way, with the
flag `tran` in place of the cursor. -/
def same_expansion (st0 : lsys_state) (r : Option (Bool × lsys_state))
    (p : Option (Bool × Nat)) : Prop :=
  match p with
  | none => r = none
  | some (tran, k) => ∃ s, r = some (tran, s) ∧ angle_ok s ∧ points_added st0 s k


/-- The cursor `drawLSys` returns at once it has met `lvl` more `]` than `[`
it entered: the commands from that `]` on, the empty list when the array ends
with every bracket closed and `lvl = 0`, `none` when the array ends inside a
bracket. A `[` is entered only when it has no bound function. -/
def cursor_at : Nat → List lsys_cmd → Option (List lsys_cmd)
  | lvl, [] => if lvl = 0 then some [] else none
  | lvl, c :: rest =>
    if c.ch = ']' then
      if lvl = 0 then some (c :: rest) else cursor_at (lvl - 1) rest
    else if c.f = none ∧ c.ch = '[' then cursor_at (lvl + 1) rest
    else cursor_at lvl rest

/-- Every `[` of the command array that a run can enter has its `]`. -/
def brackets_closed (cmds : List lsys_cmd) : Prop := cursor_at 0 cmds ≠ none


/-- The command array both transforms compile from the axiom `a`. -/
def tree_start : List lsys_cmd := [⟨'a', none, 3⟩]

/-- The command array both transforms compile from the axiom `f`, with the
function `f` that the transform binds to the character. -/
def line_start (f : lsys_fn) : List lsys_cmd := [⟨'f', some f, 0⟩]

/-- The command array compiled from the rule `a=f[+a][-a]f`, the name
first, with the function `f` that the transform binds to the character
`f`. -/
def tree_rule (f : lsys_fn) : List lsys_cmd :=
  [⟨'a', none, 3⟩, ⟨'f', some f, 0⟩, ⟨'[', none, 1⟩, ⟨'+', some .lsys_doplus, 0⟩,
    ⟨'a', none, 3⟩, ⟨']', none, 2⟩, ⟨'[', none, 1⟩, ⟨'-', some .lsys_dominus, 0⟩,
    ⟨'a', none, 3⟩, ⟨']', none, 2⟩, ⟨'f', some f, 0⟩]


/-- The function `SizeTransform` binds where `DrawTransform` binds `f`: the
two `switch` statements differ in the cases `d`, `m`, `g` and `f` only. -/
def size_fn (f : lsys_fn) : lsys_fn :=
  match f with
  | .lsys_dodrawd => .lsys_dosizedm
  | .lsys_dodrawm => .lsys_dosizedm
  | .lsys_dodrawg => .lsys_dosizegf
  | .lsys_dodrawf => .lsys_dosizegf
  | g => g

/-- A command of the drawing pass as the sizing pass compiles it. -/
def size_cmd (c : lsys_cmd) : lsys_cmd := { c with f := c.f.map size_fn }


/-- The branch of `drawLSys` that executes the command `c` itself, followed
by the rest of the loop: the bound function is called, or a `[` without
function runs the bracket and writes the saved variables back, or a command
with neither does nothing. -/
def execute_command (L : libm) (rules : List (List lsys_cmd)) (fuel : Nat) (c : lsys_cmd)
    (rest : List lsys_cmd) (depth : Nat) (st : lsys_state) :
    Option (List lsys_cmd × lsys_state) :=
  match c.f with
  | some f =>
    match call_fn L f c.n st with
    | none => none
    | some st2 => drawLSys L rules fuel rest depth st2
  | none =>
    if c.ch = '[' then
      match drawLSys L rules fuel rest depth st with
      | none => none
      | some ([], _) => none
      | some (_ :: after, st2) => drawLSys L rules fuel after depth (restore_saved st st2)
    else drawLSys L rules fuel rest depth st

/-- The bodies of the rules whose name is the character `ch`, in the order
of the rule array. -/
def matching_bodies (rules : List (List lsys_cmd)) (ch : Char) : List (List lsys_cmd) :=
  (rules.filter (fun r => decide (rule_name r = some ch))).map List.tail

/-- The rule bodies `bodies` expanded one after the other at depth `depth`:
the globals after the last of them. -/
def expand_bodies (L : libm) (rules : List (List lsys_cmd)) (fuel depth : Nat) :
    List (List lsys_cmd) → lsys_state → Option lsys_state
  | [], st => some st
  | body :: more, st =>
    match drawLSys L rules fuel body depth st with
    | none => none
    | some (_, st1) => expand_bodies L rules fuel depth more st1

/-! ## `ls.c`, `ls_pop.c`: creating and naming a population -/

/-- The largest value of the type `int`. -/
def INT_MAX : Nat := 2147483647

/-- Model of `create_ls(num_rules, rule_length)` for non-negative arguments. The blocks
come from `malloc` and are not initialised: every unit of the new rule arrays
is `unit0`, every byte of `startvar` is `name0`, and the fields the function
does not assign are those of `blank`. `none` when `num_rules + 1` leaves the
range of `int`. -/
def create_ls (blank : lsystem) (unit0 : ruleobj) (name0 : Char) (num_rules rule_length : Nat) :
    Option lsystem :=
  if INT_MAX < num_rules + 1 then none
  else
    some { blank with
      numrules := num_rules + 1
      angle := 3
      rule := List.replicate (num_rules + 1) (List.replicate rule_length unit0)
      startvar := List.replicate (num_rules + 1 - 1) name0
      rulelength := List.replicate (num_rules + 1) rule_length
      computed_f := false }

/-- The loop `for (i = 0; i < temp_pop->pop_size; i++) temp_ls[i] = create_ls(...)` of
`createPopulation`, with `n` iterations left. -/
def create_all (blank : lsystem) (unit0 : ruleobj) (name0 : Char) (num_rules rule_size : Nat) :
    Nat → Option (List lsystem)
  | 0 => some []
  | n + 1 =>
    match create_ls blank unit0 name0 num_rules rule_size,
          create_all blank unit0 name0 num_rules rule_size n with
    | some ls, some rest => some (ls :: rest)
    | _, _ => none

/-- Model of `createPopulation(&pop, numparents, num_rules, rule_size)` for non-negative
arguments: "The code is simpler if there is always an even number of
parents." `none` when a sum leaves the range of `int`. -/
def createPopulation (blank : lsystem) (unit0 : ruleobj) (name0 : Char)
    (numparents num_rules rule_size : Nat) : Option ls_population :=
  let pop_size := if numparents % 2 = 1 then numparents + numparents + 2
    else numparents + numparents
  let num_parents := if numparents % 2 = 1 then numparents + 1 else numparents
  if INT_MAX < pop_size then none
  else
    match create_all blank unit0 name0 num_rules rule_size pop_size with
    | none => none
    | some temp_ls =>
      if INT_MAX < num_rules + 1 then none
      else some ⟨num_rules + 1, num_parents, pop_size, temp_ls⟩

/-- The loop "Now assign the letters (names of each rule)" of
`assignRandomValues`: `n` names are still to be stored (`numrules - 1 - i`)
and `currentsymbol` is the symbol tried next. `none` when `currentsymbol++`
leaves the range of `char`, or when the fuel is used up. -/
def assign_names : Nat → Nat → Char → Option (List Char)
  | 0, n, _ => if n = 0 then some [] else none
  | fuel + 1, n, currentsymbol =>
    if n = 0 then some []
    else if 127 ≤ currentsymbol.toNat then none
    else if currentsymbol ≠ 'D' ∧ currentsymbol ≠ 'F' ∧ currentsymbol ≠ 'G' ∧
        currentsymbol ≠ 'M' then
      (assign_names fuel (n - 1) (Char.ofNat (currentsymbol.toNat + 1))).map
        (fun rest => currentsymbol :: rest)
    else assign_names fuel n (Char.ofNat (currentsymbol.toNat + 1))

section Assign

variable {σ : Type}

end Assign

/-! ## `ls.c`: `standardise_rules` -/

/-- The capital letters without D, F, G and M, in alphabetical order. -/
def free_letters : List Char :=
  ((List.range 26).map (fun i => Char.ofNat (65 + i))).filter
    (fun c => c != 'D' && c != 'F' && c != 'G' && c != 'M')

/-- The step of `num` in `standardise_rules` after a rule was renamed:
`num++; if ((num == 3) || (num == 12)) num++; if (num == 5) num = num + 2;`. -/
def next_num (num : Nat) : Nat :=
  let num1 := num + 1
  let num2 := if num1 = 3 ∨ num1 = 12 then num1 + 1 else num1
  if num2 = 5 then num2 + 2 else num2

/-- The loop `for (i = 0; i < pop[p]->numrules; i++)` of `standardise_rules` that
fills `rep` and renames `startvar`, with `n` iterations left. `rep` holds the
26 entries as numbers. The block `startvar` has `numrules - 1` bytes and the
loop runs `numrules` times: its last iteration reads and writes the byte that
follows the block, which is padding of the chunk `malloc` has rounded the
request up to and belongs to no array. Read, that byte is `pad`, of
unspecified value; written, it changes no array (`List.set` at the length of
the list). `none` for an access further out or outside `rep`, and when
`num + 65` leaves the range of `char`. -/
def rename_loop (pad : Char) :
    Nat → Nat → Nat → List Char → List Nat → Option (List Char × List Nat)
  | 0, _, _, startvar, rep => some (startvar, rep)
  | n + 1, i, num, startvar, rep =>
    match (if i = startvar.length then some pad else startvar[i]?) with
    | none => none
    | some c =>
      if c.toNat < 65 ∨ rep.length ≤ c.toNat - 65 then none
      else if c ≠ 'D' ∧ c ≠ 'F' ∧ c ≠ 'G' ∧ c ≠ 'M' then
        if 127 < num + 65 then none
        else
          rename_loop pad n (i + 1) (next_num num) (startvar.set i (Char.ofNat (num + 65)))
            (rep.set (c.toNat - 65) num)
      else rename_loop pad n (i + 1) num startvar (rep.set (c.toNat - 65) c.toNat)

/-- The two substitutions of `standardise_rules` on one unit: a unit of type
RULE gets `rep[str[0] - 65]` as its first character, then 65 is added to
it. `none` for an access outside `rep` or a sum outside the range of `char`. -/
def substitute_unit (rep : List Nat) (u : ruleobj) : Option ruleobj :=
  if u.type = RULE then
    match u.str with
    | [] => none
    | c :: cs =>
      if c.toNat < 65 then none
      else
        match rep[c.toNat - 65]? with
        | none => none
        | some v => if 127 < v + 65 then none else some { u with str := Char.ofNat (v + 65) :: cs }
  else some u

/-- The two substitutions over the units of one rule, in order. -/
def substitute_units (rep : List Nat) : List ruleobj → Option (List ruleobj)
  | [] => some []
  | u :: us =>
    match substitute_unit rep u, substitute_units rep us with
    | some v, some vs => some (v :: vs)
    | _, _ => none

/-- The substitutions over the first `rulelength[i]` units of every rule, the
rules and their stored lengths given side by side. -/
def substitute_rules (rep : List Nat) : List (List ruleobj) → List Nat →
    Option (List (List ruleobj))
  | [], _ => some []
  | _ :: _, [] => none
  | r :: rs, len :: lens =>
    if r.length < len then none
    else
      match substitute_units rep (r.take len), substitute_rules rep rs lens with
      | some us, some rest => some ((us ++ r.drop len) :: rest)
      | _, _ => none

/-- The body of the loop over `p` of `standardise_rules`, for one L-System;
`pad` is the byte that follows its block `startvar`. -/
def standardise_one (pad : Char) (ls : lsystem) : Option lsystem :=
  match rename_loop pad ls.numrules 0 0 ls.startvar (List.replicate 26 42) with
  | none => none
  | some (names, rep) =>
    if ls.rule.length < ls.numrules then none
    else
      match substitute_rules rep (ls.rule.take ls.numrules) ls.rulelength with
      | none => none
      | some rules =>
        some { ls with startvar := names, rule := rules ++ ls.rule.drop ls.numrules }

/-- The loop `for (p = 0; p < popsize; p++)` of `standardise_rules` from index `p`
over the L-Systems still to come; `pad p` is the byte that follows the block
`pop[p]->startvar`. -/
def standardise_all (pad : Nat → Char) : Nat → List lsystem → Option (List lsystem)
  | _, [] => some []
  | p, ls :: rest =>
    match standardise_one (pad p) ls, standardise_all pad (p + 1) rest with
    | some ls1, some rest1 => some (ls1 :: rest1)
    | _, _ => none

/-- Model of `standardise_rules(pop, popsize)` over the `popsize` L-Systems of `pop`. -/
def standardise_rules (pad : Nat → Char) (pop : List lsystem) (popsize : Nat) :
    Option (List lsystem) :=
  if pop.length < popsize then none
  else
    match standardise_all pad 0 (pop.take popsize) with
    | none => none
    | some ls => some (ls ++ pop.drop popsize)

/-- The first character of the unit is a capital letter other than D, F, G
and M: the text of a unit of type RULE that `string2rule` returns. -/
def rule_letter (u : ruleobj) : Bool :=
  match u.str with
  | c :: _ =>
    decide (65 ≤ c.toNat ∧ c.toNat ≤ 90 ∧ c ≠ 'D' ∧ c ≠ 'F' ∧ c ≠ 'G' ∧ c ≠ 'M')
  | [] => false

/-- The value of `num` after `n` rules in a row were renamed. -/
def num_after : Nat → Nat → Nat
  | 0, num => num
  | n + 1, num => num_after n (next_num num)

/-- The names `standardise_rules` gives to `n` rules in a row when `num` has
the given value at the first of them: the characters `num + 65`. -/
def names_from : Nat → Nat → List Char
  | 0, _ => []
  | n + 1, num => Char.ofNat (num + 65) :: names_from n (next_num num)

/-- The `n` values `num + 65` from the given `num` on stay in the range of
`char`. -/
def names_fit : Nat → Nat → Bool
  | 0, _ => true
  | n + 1, num => decide (num + 65 ≤ 127) && names_fit n (next_num num)

/-- The L-System `readLSystem` builds from the rule lines of a file: the names
of the rules in `startvar` (one byte per rule), the axiom as rule 0. -/
def seed_ls (angle : Int) (axiom_text : String) (rules : List (Char × String)) : lsystem :=
  ls_of_text angle (rules.map Prod.fst) (axiom_text :: rules.map Prod.snd)

/-! ## Angle test, stack structure, scaled samples -/

/-- The test on the angle in `readLSystemFile` of `lsys.c`:
`maxangle<3||maxangle>50` gives "Error:  illegal or missing angle". -/
def illegal_angle (maxangle : Int) : Bool := decide (maxangle < 3) || decide (maxangle > 50)

/-- A unit that is neither a PUSH nor a POP. -/
def plain (u : ruleobj) : Prop := u.type ≠ PUSH ∧ u.type ≠ POP

/-- The first `len` units of a rule hold no PUSH and no POP, or exactly one
PUSH, at index `a`, and one POP, at index `b`, with at least one unit
between them. -/
def one_stack_at_most (r : List ruleobj) (len : Nat) : Prop :=
  (∀ k u, k < len → r[k]? = some u → plain u) ∨
  (∃ a b, a + 1 < b ∧ b < len ∧ r[a]? = some ⟨['['], 1, PUSH⟩ ∧ r[b]? = some ⟨[']'], 1, POP⟩ ∧
    ∀ k u, k < len → k ≠ a → k ≠ b → r[k]? = some u → plain u)

/-- The constant `NUM_ORDER_TEST` of `ls.h`. -/
def NUM_ORDER_TEST : Nat := 3

/-- The constant `NUM_TSP_ITER` of `ls.c`. -/
def NUM_TSP_ITER : Nat := 3

/-- The variables of the timing loop of `fitness`: `n`, `mean`, `S` and the
entry `ls->avgbbnodes[i]`. -/
structure timing where
  n : ℚ
  mean : ℚ
  S : ℚ
  avgbbnodes : ℚ

/-- One iteration of the loop `for (j = 0; j < NUM_TSP_ITER; j++)` of `fitness`,
with `rt` and `bb` the values `runningtime` has stored:
`n++; delta = rt - mean; mean += delta/n; S += delta*(rt - mean)`, the last
with the new value of `mean`. -/
def timing_step (t : timing) (rt : ℚ) (bb : Int) : timing :=
  let avgbbnodes := t.avgbbnodes + (bb : ℚ)
  let n := t.n + 1
  let delta := rt - t.mean
  let mean := t.mean + delta / n
  let S := t.S + delta * (rt - mean)
  ⟨n, mean, S, avgbbnodes⟩

/-- The loop `for (j = 0; j < NUM_TSP_ITER; j++)` after `n = mean = S = 0` and
`ls->avgbbnodes[i] = 0`; `runs j` is what call `j` of `runningtime` stores. -/
def timing_loop (runs : Nat → ℚ × Int) : timing :=
  (List.range NUM_TSP_ITER).foldl (fun t j => timing_step t (runs j).1 (runs j).2) ⟨0, 0, 0, 0⟩

/-- The values `fitness` stores for one instance that is timed (ls.c:504-524):
`ls->runningtimes[i]`, `ls->avgbbnodes[i]`, the value `S = S/(n - 1)` and
`ls->sd[i] = fastsqrt(S)`. The function `fastsqrt` works on the bits of a
`double` and is a parameter. -/
def timed_instance (fastsqrt : ℚ → ℚ) (runs : Nat → ℚ × Int) : ℚ × ℚ × ℚ × ℚ :=
  let t := timing_loop runs
  let S := t.S / (t.n - 1)
  (t.mean, t.avgbbnodes / (NUM_TSP_ITER : ℚ), S, fastsqrt S)

/-- Entry `i` of an array of `int` for an index of type `int`; `none` outside
the array. -/
def int_at (a : List Int) (i : Int) : Option Int :=
  if 0 ≤ i then a[i.toNat]? else none

/-- The loop `for (i = 0; i < NUM_ORDER_TEST; i++) if (ls->instancesize[i] == ls->instancesize[i-1])`
of `fitness` from index `i`, with `n` iterations left: whether the body of the
`if` is reached. -/
def same_size_loop (instancesize : List Int) : Nat → Int → Option Bool
  | 0, _ => some false
  | n + 1, i =>
    match int_at instancesize i, int_at instancesize (i - 1) with
    | some a, some b => if a = b then some true else same_size_loop instancesize n (i + 1)
    | _, _ => none

/-- The lines 536-546 of `fitness`: the L-System with `computed_f = 1` and
`f = 0` when the function returns there ("Some instance sizes are the
same!!"), `some none` when it goes on to the bound. -/
def fitness_same_sizes (ls : lsystem) : Option (Option lsystem) :=
  match same_size_loop ls.instancesize NUM_ORDER_TEST 0 with
  | none => none
  | some true => some (some { ls with computed_f := true, f := 0 })
  | some false => some none

/-- The first `n` rules of the grammar are in order for `crossover_ls`: each
is an array of at least one unit whose stored length is its number of units,
and it is balanced. -/
def rules_balanced (ls : lsystem) (n : Nat) : Prop :=
  ∀ i, i < n → ∃ r, ls.rule[i]? = some r ∧ ls.rulelength[i]? = some r.length ∧
    0 < r.length ∧ balanced r = true

section Children

variable {σ : Type}

/-- One iteration of the loop of `generateChildren(pop)`, at the child slot
`i`: `chooseUniqueParents(pop, &p1, &p2)` then
`crossover_ls(p1, p2, pop->ls_array[i], pop->ls_array[i+1])`, with `sp` the
state of `prng` and `sr` the state of `rng`. The result is `none` when a
pointer is left unassigned or a slot is outside `ls_array`, and when a parent
is one of the two children: `crossover_ls` frees each rule of a child before
it copies from the parents. -/
def generateChildren_step (gen : σ → Nat × σ) (pop : ls_population) (i : Nat) (sp sr : σ) :
    Option (ls_population × σ × σ) :=
  match chooseUniqueParents gen pop sp with
  | (some ⟨some a, some b, _⟩, sp1) =>
    if a = i ∨ a = i + 1 ∨ b = i ∨ b = i + 1 then none
    else
      match pop.ls_array[a]?, pop.ls_array[b]?, pop.ls_array[i]?, pop.ls_array[i + 1]? with
      | some p1, some p2, some c1, some c2 =>
        match crossover_ls gen p1 p2 c1 c2 sr with
        | some (d1, d2, sr1) =>
          some ({ pop with ls_array := (pop.ls_array.set i d1).set (i + 1) d2 }, sp1, sr1)
        | none => none
      | _, _, _, _ => none
  | _ => none

end Children

section LowerBound

variable (pow : ℚ → ℚ → ℚ) (log : ℚ → ℚ)

end LowerBound

/-- The ten characters `0` to `9`. -/
def decimal_digits : List Char := ['0', '1', '2', '3', '4', '5', '6', '7', '8', '9']

/-- The units that `randomObj` and `random_rule` store in a grammar whose
rule names are `names`: the five single characters of the cases 0 to 4 of
`randomObj`, `\ddd` and `/ddd` (`%03d`), `@d.dd` (`%04.2f`), a rule name, and
the two brackets of `random_rule`. -/
def random_unit (names : List Char) (u : ruleobj) : Prop :=
  u = ⟨['F'], 1, F⟩ ∨ u = ⟨['G'], 1, G⟩ ∨ u = ⟨['+'], 1, INC⟩ ∨ u = ⟨['-'], 1, DEC⟩ ∨
  u = ⟨['!'], 1, REV⟩ ∨ u = ⟨['['], 1, PUSH⟩ ∨ u = ⟨[']'], 1, POP⟩ ∨
  (∃ a b c, a ∈ decimal_digits ∧ b ∈ decimal_digits ∧ c ∈ decimal_digits ∧
    (u = ⟨['\\', a, b, c], 4, INCX⟩ ∨ u = ⟨['/', a, b, c], 4, DECX⟩ ∨
     u = ⟨['@', a, '.', b, c], 5, SCALE⟩)) ∨
  ∃ n, n ∈ names ∧ u = ⟨[n], 1, RULE⟩

/-- A state of the engine with `maxangle = 7`, heading 6, the reversed flag
set and tables of zeros. -/
def turn_state : lsys_state :=
  { sins := List.replicate 50 0, coss := List.replicate 50 0, maxangle := 7, dmaxangle := 6,
    size := 1, realangle := 0, xpos := 0, ypos := 0, counter := 0, angle := 6, reverse := 1,
    lsys_Xmin := 0, lsys_Xmax := 0, lsys_Ymin := 0, lsys_Ymax := 0, currentnode := 0,
    outputfile := [] }

/-! # Theorems -/

/-! ## Grammar codec -/

theorem extract_number_loop_length_le (rs : Nat) (s : List Char) (n : Nat) :
    (extract_number_loop rs s n).length ≤ s.length := by
  induction s generalizing n with
  | nil => simp [extract_number_loop]
  | cons c cs ih =>
    simp only [extract_number_loop]
    split_ifs
    · simp only [List.length_cons]
      exact Nat.succ_le_succ (ih (n + 1))
    · simp

theorem string2rule_loop_fuel (fuel1 : Nat) :
    ∀ (fuel2 : Nat) (s : List Char), s.length ≤ fuel1 → s.length ≤ fuel2 →
      string2rule_loop fuel1 s = string2rule_loop fuel2 s := by
  induction fuel1 with
  | zero =>
    intro fuel2 s h1 _
    have hs : s = [] := List.length_eq_zero.mp (Nat.le_zero.mp h1)
    subst hs
    cases fuel2 <;> simp [string2rule_loop]
  | succ n ih =>
    intro fuel2 s h1 h2
    cases s with
    | nil => cases fuel2 <;> simp [string2rule_loop]
    | cons c cs =>
      cases fuel2 with
      | zero => simp at h2
      | succ m =>
        simp only [List.length_cons, Nat.add_le_add_iff_right] at h1 h2
        have hd : ∀ k, string2rule_loop n (cs.drop k) = string2rule_loop m (cs.drop k) := by
          intro k
          apply ih
          · simp only [List.length_drop]; omega
          · simp only [List.length_drop]; omega
        have h0 := ih m cs h1 h2
        simp only [string2rule_loop, hd, h0]

/-- The three kinds of iteration of the loop of `string2rule`: a
one-character unit, a unit with a number, or a skipped character. -/
theorem string2rule_loop_cons (c : Char) :
    (∃ t, t ≠ INCX ∧ t ≠ DECX ∧ t ≠ SCALE ∧ ∀ fuel cs,
        string2rule_loop (fuel + 1) (c :: cs) = ⟨[c], 1, t⟩ :: string2rule_loop fuel cs) ∨
    (∃ t, (t = INCX ∨ t = DECX ∨ t = SCALE) ∧ ∀ fuel cs,
        string2rule_loop (fuel + 1) (c :: cs) =
          ⟨c :: (extract_number cs 7).1, (extract_number cs 7).2 + 1, t⟩ ::
            string2rule_loop fuel (cs.drop (extract_number cs 7).2)) ∨
    (∀ fuel cs, string2rule_loop (fuel + 1) (c :: cs) = string2rule_loop fuel cs) := by
  by_cases h1 : c = 'F'
  · exact Or.inl ⟨F, by decide, by decide, by decide, fun fuel cs => by
      simp only [string2rule_loop]; rw [if_pos h1, h1]⟩
  by_cases h2 : c = 'G'
  · exact Or.inl ⟨G, by decide, by decide, by decide, fun fuel cs => by
      simp only [string2rule_loop]; rw [if_neg h1, if_pos h2, h2]⟩
  by_cases h3 : c = '+'
  · exact Or.inl ⟨INC, by decide, by decide, by decide, fun fuel cs => by
      simp only [string2rule_loop]; rw [if_neg h1, if_neg h2, if_pos h3, h3]⟩
  by_cases h4 : c = '-'
  · exact Or.inl ⟨DEC, by decide, by decide, by decide, fun fuel cs => by
      simp only [string2rule_loop]; rw [if_neg h1, if_neg h2, if_neg h3, if_pos h4, h4]⟩
  by_cases h5 : c = '!'
  · exact Or.inl ⟨REV, by decide, by decide, by decide, fun fuel cs => by
      simp only [string2rule_loop]
      rw [if_neg h1, if_neg h2, if_neg h3, if_neg h4, if_pos h5, h5]⟩
  by_cases h6 : c = '\\'
  · exact Or.inr (Or.inl ⟨INCX, Or.inl rfl, fun fuel cs => by
      simp only [string2rule_loop]
      rw [if_neg h1, if_neg h2, if_neg h3, if_neg h4, if_neg h5, if_pos h6, h6]⟩)
  by_cases h7 : c = '/'
  · exact Or.inr (Or.inl ⟨DECX, Or.inr (Or.inl rfl), fun fuel cs => by
      simp only [string2rule_loop]
      rw [if_neg h1, if_neg h2, if_neg h3, if_neg h4, if_neg h5, if_neg h6, if_pos h7, h7]⟩)
  by_cases h8 : c = '@'
  · exact Or.inr (Or.inl ⟨SCALE, Or.inr (Or.inr rfl), fun fuel cs => by
      simp only [string2rule_loop]
      rw [if_neg h1, if_neg h2, if_neg h3, if_neg h4, if_neg h5, if_neg h6, if_neg h7,
        if_pos h8, h8]⟩)
  by_cases h9 : c = 'D'
  · exact Or.inl ⟨D, by decide, by decide, by decide, fun fuel cs => by
      simp only [string2rule_loop]
      rw [if_neg h1, if_neg h2, if_neg h3, if_neg h4, if_neg h5, if_neg h6, if_neg h7,
        if_neg h8, if_pos h9, h9]⟩
  by_cases h10 : c = 'M'
  · exact Or.inl ⟨MM, by decide, by decide, by decide, fun fuel cs => by
      simp only [string2rule_loop]
      rw [if_neg h1, if_neg h2, if_neg h3, if_neg h4, if_neg h5, if_neg h6, if_neg h7,
        if_neg h8, if_neg h9, if_pos h10, h10]⟩
  by_cases h11 : c = '['
  · exact Or.inl ⟨PUSH, by decide, by decide, by decide, fun fuel cs => by
      simp only [string2rule_loop]
      rw [if_neg h1, if_neg h2, if_neg h3, if_neg h4, if_neg h5, if_neg h6, if_neg h7,
        if_neg h8, if_neg h9, if_neg h10, if_pos h11, h11]⟩
  by_cases h12 : c = ']'
  · exact Or.inl ⟨POP, by decide, by decide, by decide, fun fuel cs => by
      simp only [string2rule_loop]
      rw [if_neg h1, if_neg h2, if_neg h3, if_neg h4, if_neg h5, if_neg h6, if_neg h7,
        if_neg h8, if_neg h9, if_neg h10, if_neg h11, if_pos h12, h12]⟩
  by_cases h13 : c ≥ 'A' ∧ c ≤ 'Z'
  · exact Or.inl ⟨RULE, by decide, by decide, by decide, fun fuel cs => by
      simp only [string2rule_loop]
      rw [if_neg h1, if_neg h2, if_neg h3, if_neg h4, if_neg h5, if_neg h6, if_neg h7,
        if_neg h8, if_neg h9, if_neg h10, if_neg h11, if_neg h12, if_pos h13]⟩
  · exact Or.inr (Or.inr fun fuel cs => by
      simp only [string2rule_loop]
      rw [if_neg h1, if_neg h2, if_neg h3, if_neg h4, if_neg h5, if_neg h6, if_neg h7,
        if_neg h8, if_neg h9, if_neg h10, if_neg h11, if_neg h12, if_neg h13])

theorem extract_number_fst_length_le (s : List Char) (rs : Nat) :
    (extract_number s rs).1.length ≤ s.length :=
  extract_number_loop_length_le rs s 0

theorem extract_number_snd_eq (s : List Char) (rs : Nat) :
    (extract_number s rs).2 = (extract_number s rs).1.length := rfl

/-- Every unit emitted from a text is at most as long as the text. -/
theorem string2rule_loop_str_le (fuel : Nat) :
    ∀ (s : List Char) (u : ruleobj), u ∈ string2rule_loop fuel s → u.str.length ≤ s.length := by
  induction fuel with
  | zero => intro s u h; simp [string2rule_loop] at h
  | succ n ih =>
    intro s u h
    cases s with
    | nil => simp [string2rule_loop] at h
    | cons c cs =>
      have hx := extract_number_fst_length_le cs 7
      rcases string2rule_loop_cons c with ⟨t, _, _, _, hstep⟩ | ⟨t, _, hstep⟩ | hstep
      · rw [hstep] at h
        rcases List.mem_cons.mp h with h | h
        · subst h; simp
        · have := ih _ _ h
          simp only [List.length_cons]; omega
      · rw [hstep] at h
        rcases List.mem_cons.mp h with h | h
        · subst h; simp only [List.length_cons]; omega
        · have := ih _ _ h
          simp only [List.length_drop] at this
          simp only [List.length_cons]; omega
      · rw [hstep] at h
        have := ih _ _ h
        simp only [List.length_cons]; omega

/-- A number that is read back whole stays whole when text follows it, unless
the text goes on with a character of the numeric class while fewer than 6
characters are read. -/
theorem extract_number_loop_append (rs : Nat) (p rest : List Char) :
    ∀ n, extract_number_loop rs p n = p →
      (n + p.length = rs - 1 ∨ ∀ c, rest.head? = some c → numeric_char c = false) →
      extract_number_loop rs (p ++ rest) n = p := by
  induction p with
  | nil =>
    intro n _ hsep
    cases rest with
    | nil => simp [extract_number_loop]
    | cons c cs =>
      simp only [List.nil_append, extract_number_loop]
      rcases hsep with hsep | hsep
      · simp only [List.length_nil, Nat.add_zero] at hsep
        rw [if_neg]
        intro hc; omega
      · have := hsep c rfl
        rw [if_neg]
        intro hc
        rw [this] at hc
        exact Bool.noConfusion hc.2
  | cons c cs ih =>
    intro n h hsep
    rw [List.cons_append]
    rw [extract_number_loop] at h ⊢
    by_cases hc : n < rs - 1 ∧ numeric_char c = true
    · rw [if_pos hc] at h ⊢
      have h1 : extract_number_loop rs cs (n + 1) = cs := List.tail_eq_of_cons_eq h
      rw [ih (n + 1) h1]
      rcases hsep with hsep | hsep
      · left; simp only [List.length_cons] at hsep; omega
      · right; exact hsep
    · rw [if_neg hc] at h
      exact absurd h (by simp)


theorem extract_number_loop_length_bound (rs : Nat) (s : List Char) :
    ∀ n, (extract_number_loop rs s n).length ≤ rs - 1 - n := by
  induction s with
  | nil => intro n; simp [extract_number_loop]
  | cons c cs ih =>
    intro n
    rw [extract_number_loop]
    by_cases hc : n < rs - 1 ∧ numeric_char c = true
    · rw [if_pos hc]
      have := ih (n + 1)
      simp only [List.length_cons]
      omega
    · rw [if_neg hc]; simp

theorem string2rule_nil_ne (u : ruleobj) : string2rule [] ≠ [u] := by
  simp [string2rule, string2rule_loop]

/-- A unit that is the parse of its own text is read back from the front of
any text that starts with it, unless its number absorbs what follows. -/
theorem string2rule_loop_token (u : ruleobj) (h : string2rule u.str = [u]) (rest : List Char)
    (hsep : (u.type = INCX ∨ u.type = DECX ∨ u.type = SCALE) → u.str.length < 7 →
      ∀ c, rest.head? = some c → numeric_char c = false) (fuel : Nat) :
    string2rule_loop (fuel + 1) (u.str ++ rest) = u :: string2rule_loop fuel rest := by
  obtain ⟨str, len, type⟩ := u
  cases str with
  | nil => exact absurd h (string2rule_nil_ne _)
  | cons c cs =>
    simp only [string2rule, List.length_cons] at h
    simp only at hsep
    rcases string2rule_loop_cons c with ⟨t, _, _, _, hstep⟩ | ⟨t, ht, hstep⟩ | hstep
    · rw [hstep] at h
      simp only [List.cons.injEq, ruleobj.mk.injEq, true_and] at h
      obtain ⟨⟨hcs, hlen, htype⟩, _⟩ := h
      have hcs2 : cs = [] := hcs.symm
      subst hcs2; subst hlen; subst htype
      rw [List.cons_append, hstep, List.nil_append]
    · rw [hstep] at h
      simp only [List.cons.injEq, ruleobj.mk.injEq, true_and] at h
      obtain ⟨⟨hcs, hlen, htype⟩, _⟩ := h
      subst htype
      have hb := extract_number_loop_length_bound 7 cs 0
      have hex : extract_number_loop 7 cs 0 = cs := hcs
      have happ : extract_number_loop 7 (cs ++ rest) 0 = cs := by
        apply extract_number_loop_append 7 cs rest 0 hex
        by_cases h6 : cs.length = 6
        · left; omega
        · right
          apply hsep ht
          rw [hex] at hb
          simp only [List.length_cons]
          omega
      have h1 : (extract_number (cs ++ rest) 7).1 = cs := happ
      have h2 : (extract_number (cs ++ rest) 7).2 = cs.length := by
        rw [extract_number_snd_eq, h1]
      have h3 : (extract_number cs 7).2 = cs.length := by
        rw [extract_number_snd_eq, hcs]
      rw [List.cons_append, hstep, h1, h2, ← hlen, h3, List.drop_left]
    · rw [hstep] at h
      have hmem : (⟨c :: cs, len, type⟩ : ruleobj) ∈ string2rule_loop cs.length cs := by
        rw [h]; exact List.mem_singleton.mpr rfl
      have := string2rule_loop_str_le _ _ _ hmem
      simp only [List.length_cons] at this
      omega

theorem token_str_ne_nil (u : ruleobj) (h : string2rule u.str = [u]) : u.str ≠ [] := by
  intro hn
  rw [hn] at h
  exact string2rule_nil_ne _ h

theorem token_len_eq (u : ruleobj) (h : string2rule u.str = [u]) : u.len = u.str.length := by
  obtain ⟨str, len, type⟩ := u
  cases str with
  | nil => exact absurd h (string2rule_nil_ne _)
  | cons c cs =>
    simp only [string2rule, List.length_cons] at h
    rcases string2rule_loop_cons c with ⟨t, _, _, _, hstep⟩ | ⟨t, ht, hstep⟩ | hstep
    · rw [hstep] at h
      simp only [List.cons.injEq, ruleobj.mk.injEq, true_and] at h
      obtain ⟨⟨hcs, hlen, htype⟩, _⟩ := h
      simp only [List.length_cons, ← hcs, ← hlen, List.length_nil]
    · rw [hstep] at h
      simp only [List.cons.injEq, ruleobj.mk.injEq, true_and] at h
      obtain ⟨⟨hcs, hlen, htype⟩, _⟩ := h
      simp only [List.length_cons, ← hlen, extract_number_snd_eq, hcs]
    · rw [hstep] at h
      have hmem : (⟨c :: cs, len, type⟩ : ruleobj) ∈ string2rule_loop cs.length cs := by
        rw [h]; exact List.mem_singleton.mpr rfl
      have := string2rule_loop_str_le _ _ _ hmem
      simp only [List.length_cons] at this
      omega

theorem string2rule_loop_render (units : List ruleobj)
    (htok : ∀ u ∈ units, string2rule u.str = [u])
    (hsep : no_absorption units = true) :
    ∀ fuel, (render units).length ≤ fuel → string2rule_loop fuel (render units) = units := by
  induction units with
  | nil => intro fuel _; cases fuel <;> simp [render, string2rule_loop]
  | cons u us ih =>
    intro fuel hfuel
    have hu := htok u (List.mem_cons_self _ _)
    have hne := token_str_ne_nil u hu
    have hlen : 0 < u.str.length := List.length_pos.mpr hne
    have hr : render (u :: us) = u.str ++ render us := by simp [render]
    rw [hr] at hfuel ⊢
    simp only [List.length_append] at hfuel
    obtain ⟨f, rfl⟩ : ∃ f, fuel = f + 1 := ⟨fuel - 1, by omega⟩
    have htail : no_absorption us = true := by
      cases us with
      | nil => rfl
      | cons v vs =>
        simp only [no_absorption, Bool.and_eq_true] at hsep
        exact hsep.2
    rw [string2rule_loop_token u hu]
    · rw [ih (fun v hv => htok v (List.mem_cons_of_mem _ hv)) htail f (by omega)]
    · intro htype hshort c hc
      cases us with
      | nil => simp [render] at hc
      | cons v vs =>
        have hv := htok v (List.mem_cons_of_mem _ (List.mem_cons_self _ _))
        have hvne := token_str_ne_nil v hv
        have habs : absorbs u v = false := by
          simp only [no_absorption, Bool.and_eq_true, Bool.not_eq_true'] at hsep
          exact hsep.1
        cases hvs : v.str with
        | nil => exact absurd hvs hvne
        | cons d ds =>
          have hd : c = d := by
            simp [render, hvs] at hc
            exact hc.symm
          subst hd
          simp only [absorbs, hvs] at habs
          have h1 : (u.type == INCX || u.type == DECX || u.type == SCALE) = true := by
            rcases htype with h | h | h <;> simp [h]
          simpa [h1, hshort] using habs

theorem sum_len_eq_render_length (units : List ruleobj)
    (htok : ∀ u ∈ units, string2rule u.str = [u]) :
    (units.map (fun u => u.len)).sum = (render units).length := by
  induction units with
  | nil => simp [render]
  | cons u us ih =>
    have hu := token_len_eq u (htok u (List.mem_cons_self _ _))
    have := ih (fun v hv => htok v (List.mem_cons_of_mem _ hv))
    simp only [render, List.map_cons, List.sum_cons, List.flatten_cons,
      List.length_append] at this ⊢
    omega

/-- C1 (amended): a unit list in which every unit is the parse of its own
text and no unit absorbs the start of its successor is rendered without
overflow, and parsing the rendered text gives the list back: same units, so
the same count, text, length and type tag at every position. -/
theorem C1_roundtrip (units : List ruleobj)
    (htok : ∀ u ∈ units, string2rule u.str = [u])
    (hsep : no_absorption units = true) :
    rule2string units units.length = some (render units) ∧
      string2rule (render units) = units := by
  constructor
  · have := sum_len_eq_render_length units htok
    simp only [rule2string, le_refl, if_true, List.take_length]
    rw [if_pos]
    · rfl
    · rw [this]; exact le_of_eq rfl
  · exact string2rule_loop_render units htok hsep _ (le_refl _)

/-- Witness of C1: the units of `F\090[+A]@0.5`. -/
theorem C1_roundtrip_witness :
    (∀ u ∈ [(⟨['F'], 1, F⟩ : ruleobj), ⟨['\\', '0', '9', '0'], 4, INCX⟩, ⟨['['], 1, PUSH⟩,
        ⟨['+'], 1, INC⟩, ⟨['A'], 1, RULE⟩, ⟨[']'], 1, POP⟩, ⟨['@', '0', '.', '5'], 4, SCALE⟩],
        string2rule u.str = [u]) ∧
    rule2string [(⟨['F'], 1, F⟩ : ruleobj), ⟨['\\', '0', '9', '0'], 4, INCX⟩, ⟨['['], 1, PUSH⟩,
        ⟨['+'], 1, INC⟩, ⟨['A'], 1, RULE⟩, ⟨[']'], 1, POP⟩, ⟨['@', '0', '.', '5'], 4, SCALE⟩] 7
      = some ['F', '\\', '0', '9', '0', '[', '+', 'A', ']', '@', '0', '.', '5'] ∧
    string2rule ['F', '\\', '0', '9', '0', '[', '+', 'A', ']', '@', '0', '.', '5']
      = [(⟨['F'], 1, F⟩ : ruleobj), ⟨['\\', '0', '9', '0'], 4, INCX⟩, ⟨['['], 1, PUSH⟩,
        ⟨['+'], 1, INC⟩, ⟨['A'], 1, RULE⟩, ⟨[']'], 1, POP⟩, ⟨['@', '0', '.', '5'], 4, SCALE⟩] :=
  ⟨by decide,
   (C1_roundtrip [(⟨['F'], 1, F⟩ : ruleobj), ⟨['\\', '0', '9', '0'], 4, INCX⟩, ⟨['['], 1, PUSH⟩,
        ⟨['+'], 1, INC⟩, ⟨['A'], 1, RULE⟩, ⟨[']'], 1, POP⟩, ⟨['@', '0', '.', '5'], 4, SCALE⟩]
      (by decide) (by decide)).1,
   (C1_roundtrip [(⟨['F'], 1, F⟩ : ruleobj), ⟨['\\', '0', '9', '0'], 4, INCX⟩, ⟨['['], 1, PUSH⟩,
        ⟨['+'], 1, INC⟩, ⟨['A'], 1, RULE⟩, ⟨[']'], 1, POP⟩, ⟨['@', '0', '.', '5'], 4, SCALE⟩]
      (by decide) (by decide)).2⟩

/-- C1 (as stated) fails: the units `\090` (a rotation, as `randomObj`
prints it for 90 degrees) and `I` (the name of the sixth rule) render to
`\090I`, of which `string2rule` drops no character, yet it reads one unit
`\090I` of length 5 instead of the two units. -/
theorem C1_roundtrip_counterexample :
    rule2string [⟨['\\', '0', '9', '0'], 4, INCX⟩, ⟨['I'], 1, RULE⟩] 2
      = some ['\\', '0', '9', '0', 'I'] ∧
    skipped_count ['\\', '0', '9', '0', 'I'] = 0 ∧
    string2rule ['\\', '0', '9', '0', 'I']
      = [⟨['\\', '0', '9', '0', 'I'], 5, INCX⟩] ∧
    string2rule ['\\', '0', '9', '0', 'I']
      ≠ [⟨['\\', '0', '9', '0'], 4, INCX⟩, ⟨['I'], 1, RULE⟩] := by
  decide

/-! ## Crossover -/

theorem scan_fwd_le (rule : List ruleobj) :
    ∀ (fuel k a : Nat), k ≤ rule.length → scan_fwd rule rule.length fuel k = some a →
      a ≤ rule.length := by
  intro fuel
  induction fuel with
  | zero =>
    intro k a hk h
    simp only [scan_fwd, Option.some.injEq] at h
    omega
  | succ n ih =>
    intro k a hk h
    rw [scan_fwd, if_pos hk] at h
    cases hu : rule[k]? with
    | none => rw [hu] at h; exact absurd h (by simp)
    | some u =>
      rw [hu] at h
      have hlt : k < rule.length := (List.getElem?_eq_some_iff.mp hu).1
      by_cases hp : u.type = POP
      · simp only [hp, if_true, Option.some.injEq] at h
        omega
      · simp only [hp, if_false] at h
        exact ih (k + 1) a hlt h

theorem adjust_cut_le (rule : List ruleobj) (pos a : Nat) (hpos : pos ≤ rule.length)
    (h : adjust_cut rule rule.length pos = some a) : a ≤ rule.length := by
  unfold adjust_cut at h
  cases hb : scan_back rule pos with
  | none => rw [hb] at h; exact absurd h (by simp)
  | some r =>
    obtain ⟨st, en⟩ := r
    rw [hb] at h
    cases st with
    | true =>
      simp only [if_true] at h
      exact scan_fwd_le rule _ _ _ hpos h
    | false =>
      simp only [Bool.false_eq_true, if_false, Option.some.injEq] at h
      omega

theorem crossover_rule_eq (r1 r2 : List ruleobj) (pos1 pos2 a1 a2 : Nat)
    (h1 : pos1 ≤ r1.length) (h2 : pos2 ≤ r2.length)
    (ha1 : adjust_cut r1 r1.length pos1 = some a1)
    (ha2 : adjust_cut r2 r2.length pos2 = some a2) :
    crossover_rule r1 r1.length r2 r2.length pos1 pos2 =
      some ((r1.take a1 ++ r2.drop a2, a1 + (r2.length - a2)),
            (r2.take a2 ++ r1.drop a1, a2 + (r1.length - a1))) := by
  have hle1 := adjust_cut_le r1 pos1 a1 h1 ha1
  have hle2 := adjust_cut_le r2 pos2 a2 h2 ha2
  have e1 : a1 + (r2.length - a2) - a1 = r2.length - a2 := by omega
  have e2 : a2 + (r1.length - a1) - a2 = r1.length - a1 := by omega
  have c1 : copy_units r1 0 a1 = some (r1.take a1) := by
    simp [copy_units, hle1]
  have c2 : copy_units r2 a2 (r2.length - a2) = some (r2.drop a2) := by
    have : a2 + (r2.length - a2) ≤ r2.length := by omega
    simp [copy_units, this]
  have c3 : copy_units r2 0 a2 = some (r2.take a2) := by
    simp [copy_units, hle2]
  have c4 : copy_units r1 a1 (r1.length - a1) = some (r1.drop a1) := by
    have : a1 + (r1.length - a1) ≤ r1.length := by omega
    simp [copy_units, this]
  simp only [crossover_rule, ha1, ha2, hle1, hle2, and_self, if_true, e1, e2, c1, c2, c3, c4]

section
variable {σ : Type}

theorem nth_state_add (gen : σ → Nat × σ) : ∀ (a : Nat) (s : σ) (b : Nat),
    nth_state gen s (a + b) = nth_state gen (nth_state gen s a) b := by
  intro a
  induction a with
  | zero => intro s b; simp [nth_state]
  | succ n ih =>
    intro s b
    have : n + 1 + b = (n + b) + 1 := by omega
    rw [this]
    simp only [nth_state]
    exact ih _ _

theorem nth_draw_add (gen : σ → Nat × σ) (a : Nat) (s : σ) (b : Nat) :
    nth_draw gen s (a + b) = nth_draw gen (nth_state gen s a) b := by
  simp only [nth_draw, nth_state_add]

/-- What the loop of `crossover_ls` leaves in the two children. -/
theorem crossover_loop_spec (gen : σ → Nat × σ) (p1 p2 : lsystem) (n : Nat) :
    ∀ (i : Nat) (c1 c2 : lsystem) (s : σ),
      i + n ≤ c1.rule.length → i + n ≤ c1.rulelength.length →
      i + n ≤ c2.rule.length → i + n ≤ c2.rulelength.length →
      (∀ j, j < n → ∃ r1 r2 a1 a2,
        p1.rule[i + j]? = some r1 ∧ p2.rule[i + j]? = some r2 ∧
        p1.rulelength[i + j]? = some r1.length ∧ p2.rulelength[i + j]? = some r2.length ∧
        0 < r1.length ∧ 0 < r2.length ∧
        adjust_cut r1 r1.length (nth_draw gen s (2 * j) % r1.length) = some a1 ∧
        adjust_cut r2 r2.length (nth_draw gen s (2 * j + 1) % r2.length) = some a2) →
      ∃ d1 d2, crossover_loop gen p1 p2 n i c1 c2 s = some (d1, d2, nth_state gen s (2 * n)) ∧
        (∀ j, j < i →
          d1.rule[j]? = c1.rule[j]? ∧ d1.rulelength[j]? = c1.rulelength[j]? ∧
          d2.rule[j]? = c2.rule[j]? ∧ d2.rulelength[j]? = c2.rulelength[j]?) ∧
        (∀ j, j < n → ∀ r1 r2 a1 a2,
          p1.rule[i + j]? = some r1 → p2.rule[i + j]? = some r2 →
          adjust_cut r1 r1.length (nth_draw gen s (2 * j) % r1.length) = some a1 →
          adjust_cut r2 r2.length (nth_draw gen s (2 * j + 1) % r2.length) = some a2 →
          d1.rule[i + j]? = some (r1.take a1 ++ r2.drop a2) ∧
          d1.rulelength[i + j]? = some (a1 + (r2.length - a2)) ∧
          d2.rule[i + j]? = some (r2.take a2 ++ r1.drop a1) ∧
          d2.rulelength[i + j]? = some (a2 + (r1.length - a1))) := by
  induction n with
  | zero =>
    intro i c1 c2 s _ _ _ _ _
    refine ⟨c1, c2, by simp [crossover_loop, nth_state], fun j _ => ⟨rfl, rfl, rfl, rfl⟩, ?_⟩
    intro j hj; omega
  | succ n ih =>
    intro i c1 c2 s hc1 hc1l hc2 hc2l hp
    obtain ⟨r1, r2, a1, a2, hr1, hr2, hl1, hl2, hpos1, hpos2, ha1, ha2⟩ := hp 0 (by omega)
    simp only [Nat.add_zero, Nat.mul_zero, Nat.zero_add] at hr1 hr2 hl1 hl2 ha1 ha2
    have hm1 : nth_draw gen s 0 % r1.length ≤ r1.length := le_of_lt (Nat.mod_lt _ hpos1)
    have hm2 : nth_draw gen s 1 % r2.length ≤ r2.length := le_of_lt (Nat.mod_lt _ hpos2)
    have hrule := crossover_rule_eq r1 r2 _ _ a1 a2 hm1 hm2 ha1 ha2
    have hd0 : (draw32 gen s).1 = nth_draw gen s 0 := rfl
    have hs1 : (draw32 gen s).2 = nth_state gen s 1 := rfl
    have hd1 : (draw32 gen (nth_state gen s 1)).1 = nth_draw gen s 1 := rfl
    have hs2 : (draw32 gen (nth_state gen s 1)).2 = nth_state gen s 2 := rfl
    have hne : ¬ (r1.length = 0 ∨ r2.length = 0) := by omega
    have hidx : i < c1.rule.length ∧ i < c1.rulelength.length ∧
        i < c2.rule.length ∧ i < c2.rulelength.length := by
      refine ⟨?_, ?_, ?_, ?_⟩ <;> omega
    have hs : ∀ k, nth_state gen (nth_state gen s 2) k = nth_state gen s (2 + k) := by
      intro k; rw [nth_state_add]
    obtain ⟨d1, d2, hloop, hframe, hnew⟩ := ih (i + 1)
      { c1 with rule := c1.rule.set i (r1.take a1 ++ r2.drop a2),
                rulelength := c1.rulelength.set i (a1 + (r2.length - a2)) }
      { c2 with rule := c2.rule.set i (r2.take a2 ++ r1.drop a1),
                rulelength := c2.rulelength.set i (a2 + (r1.length - a1)) }
      (nth_state gen s 2)
      (by simp only [List.length_set]; omega) (by simp only [List.length_set]; omega)
      (by simp only [List.length_set]; omega) (by simp only [List.length_set]; omega)
      (by
        intro j hj
        obtain ⟨q1, q2, b1, b2, h1, h2, h3, h4, h5, h6, h7, h8⟩ := hp (j + 1) (by omega)
        refine ⟨q1, q2, b1, b2, ?_, ?_, ?_, ?_, h5, h6, ?_, ?_⟩
        · rw [← h1]; congr 1; omega
        · rw [← h2]; congr 1; omega
        · rw [← h3]; congr 1; omega
        · rw [← h4]; congr 1; omega
        · have e : nth_draw gen (nth_state gen s 2) (2 * j) = nth_draw gen s (2 * (j + 1)) := by
            rw [← nth_draw_add]; congr 1; omega
          rw [e]; exact h7
        · have e : nth_draw gen (nth_state gen s 2) (2 * j + 1)
              = nth_draw gen s (2 * (j + 1) + 1) := by
            rw [← nth_draw_add]; congr 1; omega
          rw [e]; exact h8)
    refine ⟨d1, d2, ?_, ?_, ?_⟩
    · rw [crossover_loop]
      simp only [hr1, hr2, hl1, hl2, hne, if_false, hd0, hs1, hd1, hs2, hrule, hidx, and_self,
        if_true]
      rw [hloop, hs]
      have e : 2 + 2 * n = 2 * (n + 1) := by omega
      rw [e]
    · intro j hj
      obtain ⟨f1, f2, f3, f4⟩ := hframe j (by omega)
      have hji : i ≠ j := by omega
      simp only [List.getElem?_set_ne hji] at f1 f2 f3 f4
      exact ⟨f1, f2, f3, f4⟩
    · intro j hj q1 q2 b1 b2 hq1 hq2 hb1 hb2
      cases j with
      | zero =>
        simp only [Nat.add_zero, Nat.mul_zero, Nat.zero_add] at hq1 hq2 hb1 hb2 ⊢
        rw [hr1] at hq1; rw [hr2] at hq2
        cases Option.some.inj hq1; cases Option.some.inj hq2
        rw [ha1] at hb1; rw [ha2] at hb2
        cases Option.some.inj hb1; cases Option.some.inj hb2
        obtain ⟨f1, f2, f3, f4⟩ := hframe i (by omega)
        simp only [List.getElem?_set_self hidx.1, List.getElem?_set_self hidx.2.1,
          List.getElem?_set_self hidx.2.2.1, List.getElem?_set_self hidx.2.2.2] at f1 f2 f3 f4
        exact ⟨f1, f2, f3, f4⟩
      | succ k =>
        have e : i + (k + 1) = i + 1 + k := by omega
        rw [e] at hq1 hq2 ⊢
        have e1 : 2 * (k + 1) = 2 + 2 * k := by omega
        have e2 : 2 * (k + 1) + 1 = 2 + (2 * k + 1) := by omega
        rw [e1, nth_draw_add] at hb1
        rw [e2, nth_draw_add] at hb2
        exact hnew k (by omega) q1 q2 b1 b2 hq1 hq2 hb1 hb2

/-- C3: if the parents hold, for every rule index below `c1.numrules`, a
non-empty rule whose stored length is its number of units, and the two cuts
drawn for it can be adjusted, then `crossover_ls` returns two children, and
for every such index child 1 holds parent 1's first `a1` units followed by
parent 2's units from `a2` on, child 2 holds parent 2's first `a2` units
followed by parent 1's units from `a1` on, with stored lengths
`a1 + (len2 - a2)` and `a2 + (len1 - a1)`. -/
theorem C3_crossover_composition (gen : σ → Nat × σ) (p1 p2 c1 c2 : lsystem) (s : σ)
    (hc1 : c1.numrules ≤ c1.rule.length ∧ c1.numrules ≤ c1.rulelength.length)
    (hc2 : c1.numrules ≤ c2.rule.length ∧ c1.numrules ≤ c2.rulelength.length)
    (hp : ∀ i, i < c1.numrules → ∃ r1 r2 a1 a2,
      p1.rule[i]? = some r1 ∧ p2.rule[i]? = some r2 ∧
      p1.rulelength[i]? = some r1.length ∧ p2.rulelength[i]? = some r2.length ∧
      0 < r1.length ∧ 0 < r2.length ∧
      adjust_cut r1 r1.length (nth_draw gen s (2 * i) % r1.length) = some a1 ∧
      adjust_cut r2 r2.length (nth_draw gen s (2 * i + 1) % r2.length) = some a2) :
    ∃ d1 d2, crossover_ls gen p1 p2 c1 c2 s = some (d1, d2, nth_state gen s (2 * c1.numrules)) ∧
      ∀ i, i < c1.numrules → ∀ r1 r2 a1 a2,
        p1.rule[i]? = some r1 → p2.rule[i]? = some r2 →
        adjust_cut r1 r1.length (nth_draw gen s (2 * i) % r1.length) = some a1 →
        adjust_cut r2 r2.length (nth_draw gen s (2 * i + 1) % r2.length) = some a2 →
        d1.rule[i]? = some (r1.take a1 ++ r2.drop a2) ∧
        d1.rulelength[i]? = some (a1 + (r2.length - a2)) ∧
        d2.rule[i]? = some (r2.take a2 ++ r1.drop a1) ∧
        d2.rulelength[i]? = some (a2 + (r1.length - a1)) := by
  obtain ⟨d1, d2, hloop, _, hnew⟩ := crossover_loop_spec gen p1 p2 c1.numrules 0 c1 c2 s
    (by omega) (by omega) (by omega) (by omega)
    (by intro j hj; simpa only [Nat.zero_add] using hp j hj)
  refine ⟨{ d1 with angle := p1.angle, computed_f := false },
    { d2 with angle := p2.angle, computed_f := false }, ?_, ?_⟩
  · simp only [crossover_ls, hloop]
  · intro i hi r1 r2 a1 a2 h1 h2 h3 h4
    have := hnew i hi r1 r2 a1 a2 (by simpa only [Nat.zero_add] using h1)
      (by simpa only [Nat.zero_add] using h2) h3 h4
    simpa only [Nat.zero_add] using this

end

/-- C3 witness: parents `[F]F[F]`, `FA` and `F[GG]`, `AF`, and the cut draws
5, 3 (axiom) and 1, 0 (rule A). -/
theorem C3_crossover_composition_witness :
    ∃ d1 d2, crossover_ls list_gen (ls_of_text 4 ['A'] ["[F]F[F]", "FA"])
        (ls_of_text 5 ['A'] ["F[GG]", "AF"]) (ls_of_text 3 ['A'] ["F", "F"])
        (ls_of_text 3 ['A'] ["G", "G"]) [5, 3, 1, 0]
        = some (d1, d2, nth_state list_gen [5, 3, 1, 0]
            (2 * (ls_of_text 3 ['A'] ["F", "F"]).numrules)) ∧
      ∀ i, i < (ls_of_text 3 ['A'] ["F", "F"]).numrules → ∀ r1 r2 a1 a2,
        (ls_of_text 4 ['A'] ["[F]F[F]", "FA"]).rule[i]? = some r1 →
        (ls_of_text 5 ['A'] ["F[GG]", "AF"]).rule[i]? = some r2 →
        adjust_cut r1 r1.length (nth_draw list_gen [5, 3, 1, 0] (2 * i) % r1.length) = some a1 →
        adjust_cut r2 r2.length (nth_draw list_gen [5, 3, 1, 0] (2 * i + 1) % r2.length)
          = some a2 →
        d1.rule[i]? = some (r1.take a1 ++ r2.drop a2) ∧
        d1.rulelength[i]? = some (a1 + (r2.length - a2)) ∧
        d2.rule[i]? = some (r2.take a2 ++ r1.drop a1) ∧
        d2.rulelength[i]? = some (a2 + (r1.length - a1)) :=
  C3_crossover_composition list_gen (ls_of_text 4 ['A'] ["[F]F[F]", "FA"])
    (ls_of_text 5 ['A'] ["F[GG]", "AF"]) (ls_of_text 3 ['A'] ["F", "F"])
    (ls_of_text 3 ['A'] ["G", "G"]) [5, 3, 1, 0] (by decide) (by decide)
    (by
      intro i hi
      have hi2 : i < 2 := hi
      interval_cases i
      · exact ⟨string2rule "[F]F[F]".toList, string2rule "F[GG]".toList, 7, 5,
          by decide, by decide, by decide, by decide, by decide, by decide, by decide, by decide⟩
      · exact ⟨string2rule "FA".toList, string2rule "AF".toList, 1, 0,
          by decide, by decide, by decide, by decide, by decide, by decide, by decide, by decide⟩)

/-- C2 fails on nested brackets: every rule of the parents `[[F]]`, `A` and
`F`, `A` is balanced; with the cut draws 4 and 0 for the axiom the backward
scan from position 4 stops at the POP at position 3, the cut stays at 4, and
the children get the axioms `[[F]F` (a PUSH never closed) and `]` (a POP never
opened). -/
theorem C2_crossover_splits_nested :
    (∀ r ∈ (ls_of_text 4 ['A'] ["[[F]]", "A"]).rule, balanced r = true) ∧
    (∀ r ∈ (ls_of_text 4 ['A'] ["F", "A"]).rule, balanced r = true) ∧
    (crossover_ls list_gen (ls_of_text 4 ['A'] ["[[F]]", "A"]) (ls_of_text 4 ['A'] ["F", "A"])
        (ls_of_text 3 ['A'] ["F", "F"]) (ls_of_text 3 ['A'] ["F", "F"]) [4, 0, 0, 0]).map
      (fun r => (r.1.rule.map render, r.2.1.rule.map render))
      = some (["[[F]F".toList, "A".toList], ["]".toList, "A".toList]) ∧
    (crossover_ls list_gen (ls_of_text 4 ['A'] ["[[F]]", "A"]) (ls_of_text 4 ['A'] ["F", "A"])
        (ls_of_text 3 ['A'] ["F", "F"]) (ls_of_text 3 ['A'] ["F", "F"]) [4, 0, 0, 0]).map
      (fun r => (r.1.rule.map balanced, r.2.1.rule.map balanced))
      = some ([false, true], [false, true]) := by
  decide

/-! ## Parent selection -/

theorem scan_weights_bound (n : ℚ) : ∀ (ws : List ℚ) (k i : Nat),
    scan_weights n ws k = some i → k ≤ i ∧ i < k + ws.length := by
  intro ws
  induction ws with
  | nil => intro k i h; simp [scan_weights] at h
  | cons w ws ih =>
    intro k i h
    rw [scan_weights] at h
    by_cases hw : n > w
    · rw [if_pos hw] at h
      cases Option.some.inj h
      simp only [List.length_cons]; omega
    · rw [if_neg hw] at h
      have := ih _ _ h
      simp only [List.length_cons]; omega

theorem halving_weights_length : ∀ (n : Nat) (t : ℚ), (halving_weights n t).length = n := by
  intro n
  induction n with
  | zero => intro t; rfl
  | succ n ih => intro t; simp [halving_weights, ih]

theorem parent_weights_length (np : Nat) (h : 1 ≤ np) : (parent_weights np).length = np := by
  simp only [parent_weights, List.length_append, halving_weights_length, List.length_singleton]
  omega

theorem parent_pos_length (np : Nat) (h : 1 ≤ np) : (parent_pos np).length = np := by
  simp only [parent_pos, List.length_append, List.length_range, List.length_singleton]
  omega

theorem parent_pos_getElem? (np k : Nat) (h : k < np) : (parent_pos np)[k]? = some k := by
  have e : parent_pos np = List.range np := by
    obtain ⟨m, rfl⟩ : ∃ m, np = m + 1 := ⟨np - 1, by omega⟩
    simp [parent_pos, List.range_succ]
  rw [e, List.getElem?_range h]

/-- The effect of the compaction loop: entries `j .. j+n-1` take the value of
their right neighbour, the others keep theirs. -/
theorem shift_pos_spec : ∀ (n j : Nat) (pos : List Nat), j + n + 1 ≤ pos.length →
    ∃ pos1, shift_pos n j pos = some pos1 ∧ pos1.length = pos.length ∧
      ∀ k, pos1[k]? = if j ≤ k ∧ k < j + n then pos[k + 1]? else pos[k]? := by
  intro n
  induction n with
  | zero =>
    intro j pos _
    refine ⟨pos, rfl, rfl, ?_⟩
    intro k
    rw [if_neg]; omega
  | succ n ih =>
    intro j pos hlen
    have hj1 : j + 1 < pos.length := by omega
    have hj : j < pos.length := by omega
    obtain ⟨pos1, h1, h2, h3⟩ := ih (j + 1) (pos.set j pos[j + 1]) (by
      simp only [List.length_set]; omega)
    refine ⟨pos1, ?_, ?_, ?_⟩
    · rw [shift_pos, List.getElem?_eq_getElem hj1]
      simp only [hj, if_true]
      exact h1
    · rw [h2, List.length_set]
    · intro k
      rw [h3 k]
      by_cases hk : j + 1 ≤ k ∧ k < j + 1 + n
      · rw [if_pos hk, if_pos (by omega), List.getElem?_set_ne (by omega)]
      · rw [if_neg hk]
        by_cases hkj : k = j
        · subst hkj
          rw [if_pos (by omega), List.getElem?_set_self hj, List.getElem?_eq_getElem hj1]
        · rw [if_neg (by omega), List.getElem?_set_ne (by omega)]

/-- After slot `i` is chosen, `pos` no longer holds `i`: every entry of the
compacted array is a slot below `np` other than `i`. -/
theorem compact_pos_spec (np i : Nat) (hnp : 2 ≤ np) (hi : i < np) :
    ∃ pos1, compact_pos np i (parent_pos np) = some pos1 ∧
      ∀ k, k < np → ∃ b, pos1[k]? = some b ∧ b ≠ i ∧ b < np := by
  have hlen := parent_pos_length np (by omega)
  obtain ⟨pos1, h1, h2, h3⟩ := shift_pos_spec (np - 1 - i) i (parent_pos np) (by omega)
  by_cases hlast : i = np - 1
  · subst hlast
    have hget : pos1[np - 2]? = some (np - 2) := by
      rw [h3, if_neg (by omega), parent_pos_getElem? _ _ (by omega)]
    have hnp2 : ¬ np < 2 := by omega
    refine ⟨pos1.set (np - 1) (np - 2), ?_, ?_⟩
    · simp only [compact_pos, h1, if_true, hget, hnp2, if_false]
    · intro k hk
      by_cases hk1 : k = np - 1
      · refine ⟨np - 2, ?_, by omega, by omega⟩
        rw [hk1, List.getElem?_set_self (by omega)]
      · refine ⟨k, ?_, by omega, hk⟩
        rw [List.getElem?_set_ne (by omega), h3, if_neg (by omega),
          parent_pos_getElem? _ _ hk]
  · refine ⟨pos1, ?_, ?_⟩
    · simp only [compact_pos, h1, hlast, if_false]
    · intro k hk
      by_cases hk1 : i ≤ k ∧ k < i + (np - 1 - i)
      · refine ⟨k + 1, ?_, by omega, by omega⟩
        rw [h3, if_pos hk1, parent_pos_getElem? _ _ (by omega)]
      · refine ⟨k, ?_, by omega, hk⟩
        rw [h3, if_neg hk1, parent_pos_getElem? _ _ hk]

theorem chooseUniqueParents_draws_distinct (pop : ls_population) (n1 n2 : ℚ)
    (hnp : 2 ≤ pop.num_parents) (hsz : pop.num_parents ≤ pop.ls_array.length)
    (i1 i2 : Nat)
    (h1 : scan_weights n1 (parent_weights pop.num_parents) 0 = some i1)
    (h2 : scan_weights n2 (parent_weights pop.num_parents) 0 = some i2) :
    ∃ b, chooseUniqueParents_draws pop n1 n2 = some ⟨some i1, some b, false⟩ ∧
      i1 ≠ b ∧ i1 < pop.num_parents ∧ b < pop.num_parents := by
  have hw := parent_weights_length pop.num_parents (by omega)
  have hi1 := (scan_weights_bound n1 _ _ _ h1).2
  have hi2 := (scan_weights_bound n2 _ _ _ h2).2
  rw [hw, Nat.zero_add] at hi1 hi2
  obtain ⟨pos1, hc, hpos⟩ := compact_pos_spec pop.num_parents i1 hnp hi1
  obtain ⟨b, hb, hne, hlt⟩ := hpos i2 hi2
  refine ⟨b, ?_, fun h => hne h.symm, hi1, hlt⟩
  have hnz : ¬ pop.num_parents = 0 := by omega
  have hs1 : i1 < pop.ls_array.length := by omega
  have hs2 : b < pop.ls_array.length := by omega
  simp only [chooseUniqueParents_draws, hnz, if_false, h1, h2,
    parent_pos_getElem? _ _ hi1, hc, hs1, if_true, hb, hs2]

/-- C4: in a population with at least 2 parents, whenever both scans of
`chooseUniqueParents` select a parent (indices `i1` and `i2` of the weight
array), the call assigns both pointers without reaching the fallback; the
first parent is slot `i1`, the second is a slot `b` different from it, and
both slots lie in the parent zone. -/
theorem C4_chooseUniqueParents_distinct {σ : Type} (gen : σ → Nat × σ) (pop : ls_population)
    (s : σ) (hnp : 2 ≤ pop.num_parents) (hsz : pop.num_parents ≤ pop.ls_array.length)
    (i1 i2 : Nat)
    (h1 : scan_weights (100 * (genrand_real1 gen s).1) (parent_weights pop.num_parents) 0
      = some i1)
    (h2 : scan_weights (100 * (genrand_real1 gen (genrand_real1 gen s).2).1)
      (parent_weights pop.num_parents) 0 = some i2) :
    ∃ b, (chooseUniqueParents gen pop s).1 = some ⟨some i1, some b, false⟩ ∧
      i1 ≠ b ∧ i1 < pop.num_parents ∧ b < pop.num_parents := by
  obtain ⟨b, hb, hne, hlt1, hlt2⟩ :=
    chooseUniqueParents_draws_distinct pop _ _ hnp hsz i1 i2 h1 h2
  exact ⟨b, hb, hne, hlt1, hlt2⟩

/-- C4 witness: 4 parents, draws 3000000000 and 1000000000, that is 69.8 and
23.3 on the scale of 100: the scans stop at indices 0 and 2. -/
theorem C4_chooseUniqueParents_distinct_witness :
    ∃ b, (chooseUniqueParents list_gen
        ⟨3, 4, 8, List.replicate 8 (ls_of_text 3 ['A', 'B'] ["F", "FA", "B"])⟩
        [3000000000, 1000000000]).1 = some ⟨some 0, some b, false⟩ ∧
      0 ≠ b ∧
      0 < (⟨3, 4, 8, List.replicate 8 (ls_of_text 3 ['A', 'B'] ["F", "FA", "B"])⟩
        : ls_population).num_parents ∧
      b < (⟨3, 4, 8, List.replicate 8 (ls_of_text 3 ['A', 'B'] ["F", "FA", "B"])⟩
        : ls_population).num_parents :=
  C4_chooseUniqueParents_distinct list_gen
    ⟨3, 4, 8, List.replicate 8 (ls_of_text 3 ['A', 'B'] ["F", "FA", "B"])⟩
    [3000000000, 1000000000] (by decide) (by decide) 0 2
    (by
      simp [scan_weights, parent_weights, halving_weights, genrand_real1, draw32, list_gen]
      norm_num)
    (by
      simp [scan_weights, parent_weights, halving_weights, genrand_real1, draw32, list_gen]
      norm_num)

/-! ## Mutation -/

section
variable {σ : Type}

/-- The function `randomObj` returns a unit when the grammar has a named rule, and the
unit is never a PUSH or a POP. -/
theorem randomObj_spec (gen : σ → Nat × σ) (ls : lsystem) (s : σ)
    (h5 : 2 ≤ ls.numrules) (h6 : ls.numrules - 1 ≤ ls.startvar.length) :
    ∃ u s1, randomObj gen ls s = some (u, s1) ∧ u.type ≠ PUSH ∧ u.type ≠ POP := by
  have hnz : ¬ ls.numrules - 1 = 0 := by omega
  have hlt : (draw32 gen (draw32 gen s).2).1 % (ls.numrules - 1) < ls.startvar.length :=
    lt_of_lt_of_le (Nat.mod_lt _ (by omega)) h6
  unfold randomObj
  simp only
  by_cases c0 : (draw32 gen s).1 % 9 = 0
  · rw [if_pos c0]; exact ⟨_, _, rfl, by decide, by decide⟩
  rw [if_neg c0]
  by_cases c1 : (draw32 gen s).1 % 9 = 1
  · rw [if_pos c1]; exact ⟨_, _, rfl, by decide, by decide⟩
  rw [if_neg c1]
  by_cases c2 : (draw32 gen s).1 % 9 = 2
  · rw [if_pos c2]; exact ⟨_, _, rfl, by decide, by decide⟩
  rw [if_neg c2]
  by_cases c3 : (draw32 gen s).1 % 9 = 3
  · rw [if_pos c3]; exact ⟨_, _, rfl, by decide, by decide⟩
  rw [if_neg c3]
  by_cases c4 : (draw32 gen s).1 % 9 = 4
  · rw [if_pos c4]; exact ⟨_, _, rfl, by decide, by decide⟩
  rw [if_neg c4]
  by_cases c5 : (draw32 gen s).1 % 9 = 5
  · rw [if_pos c5]
    exact ⟨_, _, rfl, (by decide : INCX ≠ PUSH), (by decide : INCX ≠ POP)⟩
  rw [if_neg c5]
  by_cases c6 : (draw32 gen s).1 % 9 = 6
  · rw [if_pos c6]
    exact ⟨_, _, rfl, (by decide : DECX ≠ PUSH), (by decide : DECX ≠ POP)⟩
  rw [if_neg c6]
  by_cases c7 : (draw32 gen s).1 % 9 = 7
  · rw [if_pos c7]
    exact ⟨_, _, rfl, (by decide : SCALE ≠ PUSH), (by decide : SCALE ≠ POP)⟩
  rw [if_neg c7, if_neg hnz, List.getElem?_eq_getElem hlt]
  exact ⟨_, _, rfl, (by decide : RULE ≠ PUSH), (by decide : RULE ≠ POP)⟩

theorem random_units_spec (gen : σ → Nat × σ) (ls : lsystem)
    (h5 : 2 ≤ ls.numrules) (h6 : ls.numrules - 1 ≤ ls.startvar.length) :
    ∀ (n : Nat) (s : σ), ∃ us s1, random_units gen ls n s = some (us, s1) ∧ us.length = n ∧
      ∀ u ∈ us, u.type ≠ PUSH ∧ u.type ≠ POP := by
  intro n
  induction n with
  | zero => intro s; exact ⟨[], s, rfl, rfl, by simp⟩
  | succ n ih =>
    intro s
    obtain ⟨u, s1, hu, hu1, hu2⟩ := randomObj_spec gen ls s h5 h6
    obtain ⟨us, s2, hus, hlen, hall⟩ := ih s1
    refine ⟨u :: us, s2, ?_, by simp [hlen], ?_⟩
    · simp only [random_units, hu, hus]
    · intro v hv
      rcases List.mem_cons.mp hv with h | h
      · subst h; exact ⟨hu1, hu2⟩
      · exact hall v h

theorem random_stack_length (gen : σ → Nat × σ) (len : Nat) (r0 : List ruleobj) (s : σ) :
    (random_stack gen len r0 s).1.length = r0.length := by
  unfold random_stack
  simp only [apply_ite Prod.fst, apply_ite List.length, List.length_set, ite_self]

theorem random_stack_short (gen : σ → Nat × σ) (r0 : List ruleobj) (s : σ) :
    (random_stack gen 1 r0 s).1 = r0 := by
  unfold random_stack
  simp only [Nat.mod_one, Nat.lt_irrefl, if_false, Nat.sub_self, gt_iff_lt, Nat.not_lt_zero,
    apply_ite Prod.fst, ite_self]

/-- The last part of `random_rule` stores a rule name at a position below the
stored length. -/
theorem random_nonterminal_spec (gen : σ → Nat × σ) (ls : lsystem) (len : Nat)
    (r1 : List ruleobj) (s : σ) (hpos : 0 < len) (hle : len ≤ r1.length)
    (hshort : len = 1 → ∀ u, r1[0]? = some u → u.type ≠ PUSH ∧ u.type ≠ POP)
    (h5 : 2 ≤ ls.numrules) (h6 : ls.numrules - 1 ≤ ls.startvar.length) :
    ∃ r2 s1 k c, random_nonterminal gen ls len r1 s = some (r2, s1) ∧ k < len ∧
      r2[k]? = some ⟨[c], 1, RULE⟩ ∧ c ∈ ls.startvar ∧ r2.length = r1.length := by
  have hnz : ¬ ls.numrules - 1 = 0 := by omega
  have hlt : (draw32 gen (draw32 gen s).2).1 % (ls.numrules - 1) < ls.startvar.length :=
    lt_of_lt_of_le (Nat.mod_lt _ (by omega)) h6
  have hr0 : (draw32 gen s).1 % len < len := Nat.mod_lt _ hpos
  have hr0l : (draw32 gen s).1 % len < r1.length := lt_of_lt_of_le hr0 hle
  have hpos2 : (if (r1[(draw32 gen s).1 % len]).type = PUSH ∨
        (r1[(draw32 gen s).1 % len]).type = POP then
        (if (draw32 gen s).1 % len = 0 then (draw32 gen s).1 % len + 1
          else (draw32 gen s).1 % len - 1)
      else (draw32 gen s).1 % len) < len := by
    by_cases hb : (r1[(draw32 gen s).1 % len]).type = PUSH ∨
        (r1[(draw32 gen s).1 % len]).type = POP
    · rw [if_pos hb]
      by_cases hz : (draw32 gen s).1 % len = 0
      · rw [if_pos hz, hz]
        by_cases h1 : len = 1
        · have hu : r1[0]? = some (r1[(draw32 gen s).1 % len]) := by
            rw [List.getElem?_eq_getElem (by omega)]
            congr 1
            simp only [hz]
          have := hshort h1 _ hu
          rcases hb with hb | hb
          · exact absurd hb this.1
          · exact absurd hb this.2
        · omega
      · rw [if_neg hz]; omega
    · rw [if_neg hb]; exact hr0
  unfold random_nonterminal
  simp only [List.getElem?_eq_getElem hr0l, hnz, if_false, List.getElem?_eq_getElem hlt,
    lt_of_lt_of_le hpos2 hle, if_true]
  refine ⟨_, _, _, _, rfl, hpos2, ?_, List.getElem_mem hlt, by simp only [List.length_set]⟩
  rw [List.getElem?_set_self (lt_of_lt_of_le hpos2 hle)]

/-- The function `random_rule` on a non-empty rule of a grammar with a named rule returns
a grammar whose rule holds, below the stored length, a unit that is a rule
name; lengths, names and rule count are as before. -/
theorem random_rule_spec (gen : σ → Nat × σ) (ls : lsystem) (rule : Nat) (s : σ)
    (len : Nat) (old : List ruleobj)
    (h1 : ls.rulelength[rule]? = some len) (h2 : ls.rule[rule]? = some old)
    (h3 : len ≤ old.length) (h4 : 1 ≤ len)
    (h5 : 2 ≤ ls.numrules) (h6 : ls.numrules - 1 ≤ ls.startvar.length) :
    ∃ ls1 s1 r k c, random_rule gen ls rule s = some (ls1, s1) ∧
      ls1.rule[rule]? = some r ∧ k < len ∧ r[k]? = some ⟨[c], 1, RULE⟩ ∧ c ∈ ls.startvar ∧
      ls1.rulelength = ls.rulelength ∧ ls1.startvar = ls.startvar ∧
      ls1.numrules = ls.numrules := by
  obtain ⟨us, t1, hus, hlen, hall⟩ := random_units_spec gen ls h5 h6 len s
  have hst := random_stack_length gen len (us ++ old.drop len) t1
  have hle : len ≤ (random_stack gen len (us ++ old.drop len) t1).1.length := by
    rw [hst, List.length_append, hlen]; omega
  have hshort : len = 1 → ∀ u, (random_stack gen len (us ++ old.drop len) t1).1[0]? = some u →
      u.type ≠ PUSH ∧ u.type ≠ POP := by
    intro hl u hu
    subst hl
    rw [random_stack_short] at hu
    have hmem : u ∈ us := by
      rw [List.getElem?_append_left (by omega)] at hu
      exact List.getElem?_mem hu
    exact hall u hmem
  obtain ⟨r2, t2, k, c, hnt, hk, hget, hc, _⟩ := random_nonterminal_spec gen ls len
    (random_stack gen len (us ++ old.drop len) t1).1
    (random_stack gen len (us ++ old.drop len) t1).2 (by omega) hle hshort h5 h6
  have hrule : rule < ls.rule.length := (List.getElem?_eq_some_iff.mp h2).1
  have hng : ¬ (old.length < len ∨ len = 0) := by omega
  refine ⟨{ ls with rule := ls.rule.set rule r2 }, t2, r2, k, c, ?_, ?_, hk, hget, hc,
    rfl, rfl, rfl⟩
  · simp only [random_rule, h1, h2, hng, if_false, hus, hnt]
  · simp only [List.getElem?_set_self hrule]

/-- C5: for a grammar with at least one named rule (all names stored) and a
rule of stored length `len >= 1` within its array, `random_rule` returns a
grammar in which that rule holds, at a position `k < len`, a unit of type RULE
whose text is one of the rule names; and `mutateChildren`, whenever its draws
pick this grammar and this rule, returns a population whose grammar in that
slot holds such a unit in that rule. -/
theorem C5_nonterminal_presence (gen : σ → Nat × σ) (ls : lsystem) (rule : Nat)
    (len : Nat) (old : List ruleobj)
    (h1 : ls.rulelength[rule]? = some len) (h2 : ls.rule[rule]? = some old)
    (h3 : len ≤ old.length) (h4 : 1 ≤ len)
    (h5 : 2 ≤ ls.numrules) (h6 : ls.numrules - 1 ≤ ls.startvar.length) :
    (∀ s : σ, ∃ ls1 s1 r k c, random_rule gen ls rule s = some (ls1, s1) ∧
      ls1.rule[rule]? = some r ∧ k < len ∧ r[k]? = some ⟨[c], 1, RULE⟩ ∧ c ∈ ls.startvar) ∧
    (∀ (pop : ls_population) (sp sr : σ), pop.num_parents < pop.pop_size →
      pop.numrules ≠ 0 →
      pop.ls_array[pop.num_parents
        + (draw32 gen sp).1 % (pop.pop_size - pop.num_parents)]? = some ls →
      (draw32 gen (draw32 gen sp).2).1 % pop.numrules = rule →
      ∃ pop1 sp1 sr1 ls1 r k c, mutateChildren gen pop sp sr = some (pop1, sp1, sr1) ∧
        pop1.ls_array[pop.num_parents
          + (draw32 gen sp).1 % (pop.pop_size - pop.num_parents)]? = some ls1 ∧
        ls1.rule[rule]? = some r ∧ k < len ∧ r[k]? = some ⟨[c], 1, RULE⟩ ∧
        c ∈ ls.startvar) := by
  constructor
  · intro s
    obtain ⟨ls1, s1, r, k, c, h, hr, hk, hget, hc, _⟩ :=
      random_rule_spec gen ls rule s len old h1 h2 h3 h4 h5 h6
    exact ⟨ls1, s1, r, k, c, h, hr, hk, hget, hc⟩
  · intro pop sp sr hsz hnr hchild hrule
    obtain ⟨ls1, s1, r, k, c, h, hr, hk, hget, hc, _⟩ :=
      random_rule_spec gen ls rule sr len old h1 h2 h3 h4 h5 h6
    have hng : ¬ pop.pop_size ≤ pop.num_parents := by omega
    have hidx := (List.getElem?_eq_some_iff.mp hchild).1
    refine ⟨{ pop with ls_array := (pop.ls_array.set
        (pop.num_parents + (draw32 gen sp).1 % (pop.pop_size - pop.num_parents))
        (random_angle gen ls1 s1).1) },
      (draw32 gen (draw32 gen sp).2).2, (random_angle gen ls1 s1).2,
      (random_angle gen ls1 s1).1, r, k, c, ?_, ?_, hr, hk, hget, hc⟩
    · simp only [mutateChildren, hng, if_false, hchild, hnr, hrule, h]
    · simp only [List.getElem?_set_self hidx]

end

/-- C5 witness: the grammar with axiom `F` and rules `A = FFFF`, `B = F`,
rule 1 (stored length 4), drawing from a listed generator. -/
theorem C5_nonterminal_presence_witness :
    (∀ s : List Nat, ∃ ls1 s1 r k c,
      random_rule list_gen (ls_of_text 3 ['A', 'B'] ["F", "FFFF", "F"]) 1 s = some (ls1, s1) ∧
      ls1.rule[1]? = some r ∧ k < 4 ∧ r[k]? = some ⟨[c], 1, RULE⟩ ∧
      c ∈ (ls_of_text 3 ['A', 'B'] ["F", "FFFF", "F"]).startvar) ∧
    (∀ (pop : ls_population) (sp sr : List Nat), pop.num_parents < pop.pop_size →
      pop.numrules ≠ 0 →
      pop.ls_array[pop.num_parents
        + (draw32 list_gen sp).1 % (pop.pop_size - pop.num_parents)]?
        = some (ls_of_text 3 ['A', 'B'] ["F", "FFFF", "F"]) →
      (draw32 list_gen (draw32 list_gen sp).2).1 % pop.numrules = 1 →
      ∃ pop1 sp1 sr1 ls1 r k c, mutateChildren list_gen pop sp sr = some (pop1, sp1, sr1) ∧
        pop1.ls_array[pop.num_parents
          + (draw32 list_gen sp).1 % (pop.pop_size - pop.num_parents)]? = some ls1 ∧
        ls1.rule[1]? = some r ∧ k < 4 ∧ r[k]? = some ⟨[c], 1, RULE⟩ ∧
        c ∈ (ls_of_text 3 ['A', 'B'] ["F", "FFFF", "F"]).startvar) :=
  C5_nonterminal_presence list_gen (ls_of_text 3 ['A', 'B'] ["F", "FFFF", "F"]) 1 4
    (string2rule "FFFF".toList) (by decide) (by decide) (by decide) (by decide) (by decide)
    (by decide)

/-! ## Bound fitter -/

theorem insert_point_lt (p q : data_point) (rest : List data_point) (h : p.x < q.x) :
    insert_point p (q :: rest) = p :: q :: rest := by
  simp only [insert_point, compare_data_points, h, if_true]
  rfl

theorem qsort_points_increasing : ∀ (l : List data_point), increasing_x l → qsort_points l = l := by
  intro l
  induction l with
  | nil => intro _; rfl
  | cons p ps ih =>
    intro h
    cases ps with
    | nil => rfl
    | cons q rest =>
      simp only [increasing_x] at h
      rw [qsort_points, ih h.2, insert_point_lt p q rest h.1]

theorem adjacent_same_x_increasing : ∀ (l : List data_point), increasing_x l →
    adjacent_same_x l = false := by
  intro l
  induction l with
  | nil => intro _; rfl
  | cons p ps ih =>
    intro h
    cases ps with
    | nil => rfl
    | cons q rest =>
      simp only [increasing_x] at h
      rw [adjacent_same_x, if_neg (ne_of_gt h.1), ih h.2]

theorem increasing_x_head_lt : ∀ (rest : List data_point) (q : data_point),
    increasing_x (q :: rest) → ∀ p ∈ rest, q.x < p.x := by
  intro rest
  induction rest with
  | nil => intro q _ p hp; simp at hp
  | cons r rs ih =>
    intro q h p hp
    simp only [increasing_x] at h
    rcases List.mem_cons.mp hp with hp | hp
    · subst hp; exact h.1
    · exact lt_trans h.1 (ih r h.2 p hp)

section
variable (pow : ℚ → ℚ → ℚ) (log : ℚ → ℚ)

theorem upper_bisect_pass (points : List data_point) (fuel : Nat) (ahigh alow : ℚ)
    (h : lies_above_points pow log ((ahigh + alow) / 2) points = true)
    (hw : (ahigh + alow) / 2 - alow > 5 / 10000) :
    upper_bisect pow log points (fuel + 1) ahigh alow
      = upper_bisect pow log points fuel ((ahigh + alow) / 2) alow := by
  rw [upper_bisect]
  simp only [h, if_true, hw]

theorem upper_bisect_pass_stop (points : List data_point) (fuel : Nat) (ahigh alow : ℚ)
    (h : lies_above_points pow log ((ahigh + alow) / 2) points = true)
    (hw : ¬ (ahigh + alow) / 2 - alow > 5 / 10000) :
    upper_bisect pow log points (fuel + 1) ahigh alow = some ((ahigh + alow) / 2) := by
  rw [upper_bisect]
  simp only [h, if_true, hw, if_false]

/-- When every exponent from `5/16384` on lies above the points, the search
halves `ahigh` from 5 down to `5/16384`, the first value not above `0.0005`. -/
theorem upper_bisect_all_pass (points : List data_point)
    (hpass : ∀ t : ℚ, 5 / 16384 ≤ t → lies_above_points pow log t points = true)
    (fuel : Nat) (hfuel : 14 ≤ fuel) :
    upper_bisect pow log points fuel 5 0 = some (5 / 16384) := by
  obtain ⟨f, rfl⟩ : ∃ f, fuel = f + 14 := ⟨fuel - 14, by omega⟩
  have step : ∀ (n : Nat) (x : ℚ), 0 < x → x / 2 > 5 / 10000 →
      upper_bisect pow log points (n + 1) x 0 = upper_bisect pow log points n (x / 2) 0 := by
    intro n x hx hw
    have e : (x + 0) / 2 = x / 2 := by rw [add_zero]
    have := upper_bisect_pass pow log points n x 0
      (by rw [e]; exact hpass _ (by linarith)) (by rw [e, sub_zero]; exact hw)
    rw [this, e]
  rw [show f + 14 = (f + 13) + 1 from rfl, step _ _ (by norm_num) (by norm_num)]
  rw [show f + 13 = (f + 12) + 1 from rfl, step _ _ (by norm_num) (by norm_num)]
  rw [show f + 12 = (f + 11) + 1 from rfl, step _ _ (by norm_num) (by norm_num)]
  rw [show f + 11 = (f + 10) + 1 from rfl, step _ _ (by norm_num) (by norm_num)]
  rw [show f + 10 = (f + 9) + 1 from rfl, step _ _ (by norm_num) (by norm_num)]
  rw [show f + 9 = (f + 8) + 1 from rfl, step _ _ (by norm_num) (by norm_num)]
  rw [show f + 8 = (f + 7) + 1 from rfl, step _ _ (by norm_num) (by norm_num)]
  rw [show f + 7 = (f + 6) + 1 from rfl, step _ _ (by norm_num) (by norm_num)]
  rw [show f + 6 = (f + 5) + 1 from rfl, step _ _ (by norm_num) (by norm_num)]
  rw [show f + 5 = (f + 4) + 1 from rfl, step _ _ (by norm_num) (by norm_num)]
  rw [show f + 4 = (f + 3) + 1 from rfl, step _ _ (by norm_num) (by norm_num)]
  rw [show f + 3 = (f + 2) + 1 from rfl, step _ _ (by norm_num) (by norm_num)]
  rw [show f + 2 = (f + 1) + 1 from rfl, step _ _ (by norm_num) (by norm_num)]
  have e : ((5 : ℚ) / 2 / 2 / 2 / 2 / 2 / 2 / 2 / 2 / 2 / 2 / 2 / 2 / 2 + 0) / 2 = 5 / 16384 := by
    norm_num
  rw [upper_bisect_pass_stop pow log points f _ 0 (by rw [e]; exact hpass _ (by norm_num))
    (by rw [e]; norm_num), e]

theorem initial_function_pass (points : List data_point)
    (h : lies_above_points pow log 5 points = true) (fuel : Nat) (hfuel : 1 ≤ fuel) :
    initial_function pow log points fuel = some 5 := by
  obtain ⟨f, rfl⟩ : ∃ f, fuel = f + 1 := ⟨fuel - 1, by omega⟩
  simp only [initial_function, initial_function_loop, h, if_true]

/-- The function `find_upper_bound` on samples given in strictly increasing order of x:
no early return is taken, and the two searches run on the shifted and scaled
samples. -/
theorem find_upper_bound_increasing (fuel : Nat) (q0 q1 : data_point) (rest : List data_point)
    (hinc : increasing_x (q0 :: q1 :: rest)) :
    find_upper_bound pow log fuel (q0 :: q1 :: rest) (rest.length + 2) =
      (initial_function pow log (shift_scale q0.x q0.y (q1.x - q0.x)
          (if q1.y - q0.y = 0 then 1 else q1.y - q0.y) (q0 :: q1 :: rest)) fuel).bind
        (fun ahigh0 => (upper_bisect pow log (shift_scale q0.x q0.y (q1.x - q0.x)
          (if q1.y - q0.y = 0 then 1 else q1.y - q0.y) (q0 :: q1 :: rest)) fuel ahigh0 0).map
          (fun ahigh => [ahigh, q0.x, q0.y, q1.x - q0.x,
            if q1.y - q0.y = 0 then 1 else q1.y - q0.y])) := by
  have h1 : ¬ rest.length + 2 < 2 := by omega
  have h2 : ¬ (q0 :: q1 :: rest).length < rest.length + 2 := by simp
  have h3 : (q0 :: q1 :: rest).take (rest.length + 2) = q0 :: q1 :: rest := by
    apply List.take_of_length_le; simp
  have hx : ¬ q1.x - q0.x = 0 := by
    have := hinc.1
    intro h; linarith
  unfold find_upper_bound
  simp only [h1, h2, if_false, h3, qsort_points_increasing _ hinc,
    adjacent_same_x_increasing _ hinc, Bool.false_eq_true, List.getElem?_cons_zero,
    List.getElem?_cons_succ, hx]
  generalize initial_function pow log (shift_scale q0.x q0.y (q1.x - q0.x)
      (if q1.y - q0.y = 0 then 1 else q1.y - q0.y) (q0 :: q1 :: rest)) fuel = r0
  cases r0 with
  | none => rfl
  | some ahigh0 =>
    show (match upper_bisect pow log _ fuel ahigh0 0 with
      | none => none
      | some ahigh => some [ahigh, q0.x, q0.y, q1.x - q0.x,
          if q1.y - q0.y = 0 then 1 else q1.y - q0.y])
      = Option.map _ (upper_bisect pow log _ fuel ahigh0 0)
    generalize upper_bisect pow log (shift_scale q0.x q0.y (q1.x - q0.x)
      (if q1.y - q0.y = 0 then 1 else q1.y - q0.y) (q0 :: q1 :: rest)) fuel ahigh0 0 = r1
    cases r1 <;> rfl

/-- When every exponent from `5/16384` on lies above the shifted and scaled
samples, `find_upper_bound` returns the exponent `5/16384`. -/
theorem find_upper_bound_all_pass (fuel : Nat) (hfuel : 14 ≤ fuel) (q0 q1 : data_point)
    (rest : List data_point) (hinc : increasing_x (q0 :: q1 :: rest))
    (hpass : ∀ t : ℚ, 5 / 16384 ≤ t → lies_above_points pow log t (shift_scale q0.x q0.y (q1.x - q0.x)
      (if q1.y - q0.y = 0 then 1 else q1.y - q0.y) (q0 :: q1 :: rest)) = true) :
    find_upper_bound pow log fuel (q0 :: q1 :: rest) (rest.length + 2) =
      some [5 / 16384, q0.x, q0.y, q1.x - q0.x, if q1.y - q0.y = 0 then 1 else q1.y - q0.y] := by
  rw [find_upper_bound_increasing pow log fuel q0 q1 rest hinc,
    initial_function_pass pow log _ (hpass 5 (by norm_num)) fuel (by omega)]
  rw [Option.some_bind]
  rw [upper_bisect_all_pass pow log _ hpass fuel hfuel]
  rfl

/-- Two samples of different x, smaller x first: the shifted and scaled
samples are `(0,0)` and `(1,1)` (or `(1,0)`), and every positive exponent
lies above them. -/
theorem lies_above_pair (lo hi : data_point) (hlt : lo.x < hi.x)
    (h0 : ∀ t : ℚ, 0 < t → pow 0 t = 0) (h1 : ∀ t : ℚ, pow 1 t = 1) (t : ℚ) (ht : 0 < t) :
    lies_above_points pow log t (shift_scale lo.x lo.y (hi.x - lo.x)
      (if hi.y - lo.y = 0 then 1 else hi.y - lo.y) [lo, hi]) = true := by
  have hx : hi.x - lo.x ≠ 0 := by intro h; linarith
  have e1 : (hi.x - lo.x) / (hi.x - lo.x) = 1 := div_self hx
  simp only [shift_scale, List.map_cons, List.map_nil, lies_above_points, sub_self, zero_div,
    true_or, or_true, if_true, h0 t ht, lt_irrefl, if_false, e1, h1]
  by_cases hy : hi.y - lo.y = 0
  · simp only [hy, if_true, zero_div]
    norm_num
  · simp only [hy, if_false, div_self hy, lt_irrefl]

theorem find_upper_bound_pair (fuel : Nat) (hfuel : 14 ≤ fuel) (lo hi : data_point)
    (hlt : lo.x < hi.x)
    (h0 : ∀ t : ℚ, 0 < t → pow 0 t = 0) (h1 : ∀ t : ℚ, pow 1 t = 1) :
    find_upper_bound pow log fuel [lo, hi] 2 =
      some [5 / 16384, lo.x, lo.y, hi.x - lo.x, if hi.y - lo.y = 0 then 1 else hi.y - lo.y] :=
  find_upper_bound_all_pass pow log fuel hfuel lo hi [] ⟨hlt, trivial⟩
    (fun t ht => lies_above_pair pow log lo hi hlt h0 h1 t (by linarith))

theorem find_upper_bound_pair_swap (fuel : Nat) (lo hi : data_point) (hlt : lo.x < hi.x) :
    find_upper_bound pow log fuel [hi, lo] 2 = find_upper_bound pow log fuel [lo, hi] 2 := by
  have hn : ¬ hi.x < lo.x := not_lt.mpr (le_of_lt hlt)
  have hne : ¬ hi.x = lo.x := ne_of_gt hlt
  have hne2 : ¬ lo.x = hi.x := ne_of_lt hlt
  have c1 : ¬ compare_data_points hi lo ≤ 0 := by
    simp only [compare_data_points, hn, if_false, gt_iff_lt, hlt, if_true]
    decide
  have c2 : compare_data_points lo hi ≤ 0 := by
    simp only [compare_data_points, hlt, if_true]
    decide
  unfold find_upper_bound
  simp only [List.take, qsort_points, insert_point, c1, c2, if_true, if_false,
    adjacent_same_x, hne, hne2]
  simp

/-- The bisection loop between a failing `alow` and a passing `ahigh`: its
width halves at every iteration, so with enough iterations it returns; the
value returned is below `A + 0.0005` for every `A` above `alow` from which all
exponents pass, and at least `A` for every `A` up to `ahigh` below which all
positive exponents fail. -/
theorem upper_bisect_bracket (points : List data_point) :
    ∀ (fuel : Nat) (ahigh alow : ℚ), 0 < fuel → 0 ≤ alow → alow < ahigh →
      ahigh - alow ≤ 5 / 10000 * 2 ^ fuel →
      ∃ e, upper_bisect pow log points fuel ahigh alow = some e ∧
        (∀ A : ℚ, (∀ t, A ≤ t → lies_above_points pow log t points = true) → alow < A →
          e < A + 5 / 10000) ∧
        (∀ A : ℚ, (∀ t, 0 < t → t < A → lies_above_points pow log t points = false) →
          A ≤ ahigh → A ≤ e) := by
  intro fuel
  induction fuel with
  | zero => intro ahigh alow h; omega
  | succ n ih =>
    intro ahigh alow _ hlow hlt hw
    have hmid1 : alow < (ahigh + alow) / 2 := by linarith
    have hmid2 : (ahigh + alow) / 2 < ahigh := by linarith
    have hpow : (2 : ℚ) ^ (n + 1) = 2 * 2 ^ n := by ring
    rw [hpow] at hw
    rw [upper_bisect]
    by_cases hp : lies_above_points pow log ((ahigh + alow) / 2) points = true
    · simp only [hp, if_true]
      by_cases hcont : (ahigh + alow) / 2 - alow > 5 / 10000
      · rw [if_pos hcont]
        have hn : 0 < n := by
          rcases Nat.eq_zero_or_pos n with h | h
          · subst h; norm_num at hw; linarith
          · exact h
        obtain ⟨e, he, hup, hlo⟩ := ih ((ahigh + alow) / 2) alow hn hlow hmid1 (by linarith)
        refine ⟨e, he, hup, ?_⟩
        intro A hA hle
        by_cases hA2 : A ≤ (ahigh + alow) / 2
        · exact hlo A hA hA2
        · have := hA ((ahigh + alow) / 2) (by linarith) (by linarith)
          rw [hp] at this
          exact absurd this (by simp)
      · rw [if_neg hcont]
        refine ⟨_, rfl, ?_, ?_⟩
        · intro A _ hA; linarith
        · intro A hA hle
          by_contra hcon
          have := hA ((ahigh + alow) / 2) (by linarith) (by linarith)
          rw [hp] at this
          exact absurd this (by simp)
    · have hp2 : lies_above_points pow log ((ahigh + alow) / 2) points = false := by
        simpa using hp
      simp only [hp2, Bool.false_eq_true, if_false]
      by_cases hcont : ahigh - (ahigh + alow) / 2 > 5 / 10000
      · rw [if_pos hcont]
        have hn : 0 < n := by
          rcases Nat.eq_zero_or_pos n with h | h
          · subst h; norm_num at hw; linarith
          · exact h
        obtain ⟨e, he, hup, hlo⟩ := ih ahigh ((ahigh + alow) / 2) hn (by linarith) hmid2
          (by linarith)
        refine ⟨e, he, ?_, hlo⟩
        intro A hA hA2
        apply hup A hA
        by_contra hcon
        have := hA ((ahigh + alow) / 2) (by linarith)
        rw [hp2] at this
        exact absurd this (by simp)
      · rw [if_neg hcont]
        refine ⟨_, rfl, ?_, ?_⟩
        · intro A hA hA2
          have : (ahigh + alow) / 2 < A := by
            by_contra hcon
            have := hA ((ahigh + alow) / 2) (by linarith)
            rw [hp2] at this
            exact absurd this (by simp)
          linarith
        · intro A _ hle; exact hle

theorem sum_error_foldl (ub : List ℚ) (points : List data_point) : ∀ init : ℚ,
    points.foldl
      (fun error p =>
        error + pow ((p.x - ub.getD 1 0) / ub.getD 3 0) (ub.getD 0 0) * ub.getD 4 0
          + ub.getD 2 0 - p.y) init
      = init + (points.map (fun p => bound_curve pow ub p.x - p.y)).sum := by
  induction points with
  | nil => intro init; simp
  | cons p ps ih =>
    intro init
    rw [List.foldl_cons, ih, List.map_cons, List.sum_cons]
    simp only [bound_curve]
    ring

/-- C6 fails when the second sample lies below the first: for the samples
`(0,10)`, `(1,0)`, `(2,0)` the scale `func[4]` is `-10`, every exponent
tested passes `lies_above_points`, the search ends at `5/16384`, and the
returned curve is below the sample `(2,0)`. Holds for every `pow` that is
exact at the bases 0 and 1 and has `pow 2 t > 1` from `t = 5/16384` on. -/
theorem C6_upper_bound_below_data (h0 : ∀ t : ℚ, 0 < t → pow 0 t = 0)
    (h1 : ∀ t : ℚ, pow 1 t = 1) (h2 : ∀ t : ℚ, 5 / 16384 ≤ t → 1 < pow 2 t)
    (fuel : Nat) (hfuel : 14 ≤ fuel) :
    find_upper_bound pow log fuel [⟨0, 10⟩, ⟨1, 0⟩, ⟨2, 0⟩] 3
      = some [5 / 16384, 0, 10, 1, -10] ∧
    bound_curve pow [5 / 16384, 0, 10, 1, -10] 2 < 0 := by
  constructor
  · have h := find_upper_bound_all_pass pow log fuel hfuel ⟨0, 10⟩ ⟨1, 0⟩ [⟨2, 0⟩]
      ⟨by norm_num, by norm_num, trivial⟩ (by
        intro t ht
        have h2t : ¬ pow 2 t < 1 := not_lt.mpr (le_of_lt (h2 t ht))
        norm_num [shift_scale, lies_above_points, h0 t (by linarith), h1, h2t])
    norm_num at h
    exact h
  · have := h2 (5 / 16384) (le_refl _)
    norm_num [bound_curve]
    linarith

end

theorem pow_estimate_zero (t : ℚ) (ht : 0 < t) : pow_estimate 0 t = 0 := by
  simp [pow_estimate, ne_of_gt ht]

theorem pow_estimate_one (t : ℚ) : pow_estimate 1 t = 1 := by
  simp [pow_estimate]

theorem pow_estimate_two (t : ℚ) (ht : 0 < t) : 1 < pow_estimate 2 t := by
  simp only [pow_estimate, ne_of_gt ht, if_false]
  norm_num
  linarith

theorem shift_scale_id (l : List data_point) : shift_scale 0 0 1 1 l = l := by
  induction l with
  | nil => rfl
  | cons p ps ih =>
    simp only [shift_scale, List.map_cons, sub_zero, div_one] at ih ⊢
    rw [ih]

section
variable (pow : ℚ → ℚ → ℚ) (log : ℚ → ℚ)

/-- On samples that satisfy `log y = a log x` with `log x > 0` and take the
logarithmic test, an exponent `t` lies above exactly when `a <= t`. -/
theorem lies_above_points_on_curve (a t : ℚ) : ∀ (rest : List data_point),
    (∀ p ∈ rest, p.y ≠ 0 ∧ p.y ≠ 1 ∧ p.x ≠ 0 ∧ p.x ≠ 1 ∧ 0 < log p.x ∧
      log p.y = a * log p.x) →
    (lies_above_points pow log t rest = true ↔ (rest = [] ∨ a ≤ t)) := by
  intro rest
  induction rest with
  | nil => intro _; simp [lies_above_points]
  | cons p ps ih =>
    intro h
    obtain ⟨h1, h2, h3, h4, h5, h6⟩ := h p (List.mem_cons_self _ _)
    have ih2 := ih (fun q hq => h q (List.mem_cons_of_mem _ hq))
    have hsp : ¬ (p.y = 0 ∨ p.y = 1 ∨ p.x = 0 ∨ p.x = 1) := by
      rintro (h | h | h | h)
      · exact h1 h
      · exact h2 h
      · exact h3 h
      · exact h4 h
    rw [lies_above_points]
    simp only [hsp, if_false, h6]
    by_cases hlt : t * log p.x < a * log p.x
    · rw [if_pos hlt]
      have : t < a := lt_of_mul_lt_mul_right hlt (le_of_lt h5)
      constructor
      · intro hf; exact absurd hf (by simp)
      · rintro (hn | hle)
        · exact absurd hn (by simp)
        · linarith
    · rw [if_neg hlt]
      have hle : a ≤ t := by
        by_contra hcon
        exact hlt (mul_lt_mul_of_pos_right (not_le.mp hcon) h5)
      rw [ih2]
      constructor
      · intro _; right; exact hle
      · intro _; right; exact hle

theorem lies_above_points_anchored (a t : ℚ) (ht : 0 < t) (rest : List data_point)
    (hne : rest ≠ [])
    (h0 : ∀ t : ℚ, 0 < t → pow 0 t = 0) (h1 : ∀ t : ℚ, pow 1 t = 1)
    (hcurve : ∀ p ∈ rest, p.y ≠ 0 ∧ p.y ≠ 1 ∧ p.x ≠ 0 ∧ p.x ≠ 1 ∧ 0 < log p.x ∧
      log p.y = a * log p.x) :
    lies_above_points pow log t (⟨0, 0⟩ :: ⟨1, 1⟩ :: rest) = true ↔ a ≤ t := by
  rw [lies_above_points, lies_above_points]
  simp only [true_or, or_true, if_true, h0 t ht, h1, lt_irrefl, if_false]
  rw [lies_above_points_on_curve pow log a t rest hcurve]
  constructor
  · rintro (h | h)
    · exact absurd h hne
    · exact h
  · intro h; right; exact h

/-- C7 (amended): for samples on `y = x^a` that start with `(0,0)` and
`(1,1)`, come in increasing order of x and hold at least one further sample
(each with `log y = a log x`, `log x > 0`, as `lies_above_points` tests it),
and for `a` in `[0.5, 10]`, `find_upper_bound` returns, given 15 iterations or
more for each loop, the shift `(0,0)`, the scales `(1,1)` and an exponent
`func[0]` with `a <= func[0] <= a + 0.0005`. -/
theorem C7_exponent_recovery (a : ℚ) (ha : 1 / 2 ≤ a ∧ a ≤ 10)
    (h0 : ∀ t : ℚ, 0 < t → pow 0 t = 0) (h1 : ∀ t : ℚ, pow 1 t = 1)
    (rest : List data_point) (hne : rest ≠ [])
    (hinc : increasing_x (⟨0, 0⟩ :: ⟨1, 1⟩ :: rest))
    (hcurve : ∀ p ∈ rest, p.y ≠ 0 ∧ p.y ≠ 1 ∧ 0 < log p.x ∧ log p.y = a * log p.x)
    (fuel : Nat) (hfuel : 15 ≤ fuel) :
    ∃ e, find_upper_bound pow log fuel (⟨0, 0⟩ :: ⟨1, 1⟩ :: rest) (rest.length + 2)
        = some [e, 0, 0, 1, 1] ∧ a ≤ e ∧ e ≤ a + 5 / 10000 := by
  have hgt : ∀ p ∈ rest, (1 : ℚ) < p.x :=
    increasing_x_head_lt rest ⟨1, 1⟩ hinc.2
  have hcurve2 : ∀ p ∈ rest, p.y ≠ 0 ∧ p.y ≠ 1 ∧ p.x ≠ 0 ∧ p.x ≠ 1 ∧ 0 < log p.x ∧
      log p.y = a * log p.x := by
    intro p hp
    obtain ⟨c1, c2, c3, c4⟩ := hcurve p hp
    have := hgt p hp
    exact ⟨c1, c2, by intro h; linarith, by intro h; linarith, c3, c4⟩
  have hthr : ∀ t : ℚ, 0 < t →
      (lies_above_points pow log t (⟨0, 0⟩ :: ⟨1, 1⟩ :: rest) = true ↔ a ≤ t) :=
    fun t ht => lies_above_points_anchored pow log a t ht rest hne h0 h1 hcurve2
  have hsc : shift_scale (⟨0, 0⟩ : data_point).x (⟨0, 0⟩ : data_point).y
      ((⟨1, 1⟩ : data_point).x - (⟨0, 0⟩ : data_point).x)
      (if (⟨1, 1⟩ : data_point).y - (⟨0, 0⟩ : data_point).y = 0 then 1
        else (⟨1, 1⟩ : data_point).y - (⟨0, 0⟩ : data_point).y)
      (⟨0, 0⟩ :: ⟨1, 1⟩ :: rest) = ⟨0, 0⟩ :: ⟨1, 1⟩ :: rest := by
    have e1 : ((1 : ℚ) - 0) = 1 := by norm_num
    simp only [e1, one_ne_zero, if_false]
    exact shift_scale_id _
  obtain ⟨f, rfl⟩ : ∃ f, fuel = f + 2 := ⟨fuel - 2, by omega⟩
  -- the doubling search stops at 5 or at 10
  have hinit : ∃ ahigh0, initial_function pow log (⟨0, 0⟩ :: ⟨1, 1⟩ :: rest) (f + 2)
      = some ahigh0 ∧ a ≤ ahigh0 ∧ ahigh0 ≤ 10 ∧ 0 < ahigh0 := by
    by_cases h5 : a ≤ 5
    · refine ⟨5, ?_, h5, by norm_num, by norm_num⟩
      simp only [initial_function, initial_function_loop,
        (hthr 5 (by norm_num)).mpr h5, if_true]
    · have hf : lies_above_points pow log 5 (⟨0, 0⟩ :: ⟨1, 1⟩ :: rest) = false := by
        cases hb : lies_above_points pow log 5 (⟨0, 0⟩ :: ⟨1, 1⟩ :: rest) with
        | false => rfl
        | true => exact absurd ((hthr 5 (by norm_num)).mp hb) h5
      have h10 : lies_above_points pow log (2 * 5) (⟨0, 0⟩ :: ⟨1, 1⟩ :: rest) = true :=
        (hthr (2 * 5) (by norm_num)).mpr (by linarith [ha.2])
      refine ⟨2 * 5, ?_, by linarith [ha.2], by norm_num, by norm_num⟩
      simp only [initial_function, initial_function_loop, hf, Bool.false_eq_true, if_false,
        h10, if_true]
  obtain ⟨ahigh0, hi, hle, hle10, hpos⟩ := hinit
  have hw : ahigh0 - 0 ≤ 5 / 10000 * 2 ^ (f + 2) := by
    have h15 : (2 : ℚ) ^ 15 ≤ 2 ^ (f + 2) :=
      pow_le_pow_right₀ (by norm_num) (by omega)
    have : (10 : ℚ) ≤ 5 / 10000 * 2 ^ 15 := by norm_num
    nlinarith
  obtain ⟨e, he, hup, hlo⟩ := upper_bisect_bracket pow log (⟨0, 0⟩ :: ⟨1, 1⟩ :: rest)
    (f + 2) ahigh0 0 (by omega) (le_refl 0) hpos hw
  refine ⟨e, ?_, ?_, ?_⟩
  · have hlen : (rest.length + 2) = rest.length + 2 := rfl
    rw [find_upper_bound_increasing pow log (f + 2) ⟨0, 0⟩ ⟨1, 1⟩ rest hinc, hsc, hi,
      Option.some_bind, he]
    simp
  · apply hlo a _ hle
    intro t ht hta
    cases hb : lies_above_points pow log t (⟨0, 0⟩ :: ⟨1, 1⟩ :: rest) with
    | false => rfl
    | true => exact absurd ((hthr t ht).mp hb) (not_le.mpr hta)
  · have := hup a (fun t hat => (hthr t (by linarith [ha.1])).mpr hat) (by linarith [ha.1])
    linarith

end

/-- C6 witness: the stand-in `pow_estimate`, 14 iterations. -/
theorem C6_upper_bound_below_data_witness :
    find_upper_bound pow_estimate log_estimate 14 [⟨0, 10⟩, ⟨1, 0⟩, ⟨2, 0⟩] 3
      = some [5 / 16384, 0, 10, 1, -10] ∧
    bound_curve pow_estimate [5 / 16384, 0, 10, 1, -10] 2 < 0 :=
  C6_upper_bound_below_data pow_estimate log_estimate pow_estimate_zero pow_estimate_one
    (fun t ht => pow_estimate_two t (by linarith)) 14 (le_refl 14)

/-- C8 (amended): two samples of different x take no early return of
`find_upper_bound`: in either order of the input, `func[1]` and `func[2]` are
the sample `lo` of smaller x, `func[3]` and `func[4]` the differences of the
coordinates (1 for a zero y difference), and `func[0]` is `5/16384`, not 1.
The value 1 is stored in `func[0]` only when `num_data_points < 2`. -/
theorem C8_two_points (pow : ℚ → ℚ → ℚ) (log : ℚ → ℚ)
    (h0 : ∀ t : ℚ, 0 < t → pow 0 t = 0) (h1 : ∀ t : ℚ, pow 1 t = 1)
    (lo hi : data_point) (hx : lo.x < hi.x) (fuel : Nat) (hfuel : 14 ≤ fuel) :
    find_upper_bound pow log fuel [lo, hi] 2 =
      some [5 / 16384, lo.x, lo.y, hi.x - lo.x,
        if hi.y - lo.y = 0 then 1 else hi.y - lo.y] ∧
    find_upper_bound pow log fuel [hi, lo] 2 =
      some [5 / 16384, lo.x, lo.y, hi.x - lo.x,
        if hi.y - lo.y = 0 then 1 else hi.y - lo.y] ∧
    (∀ (points : List data_point) (n : Nat), n < 2 →
      find_upper_bound pow log fuel points n = trivial_bound 1 points) := by
  refine ⟨find_upper_bound_pair pow log fuel hfuel lo hi hx h0 h1, ?_, ?_⟩
  · rw [find_upper_bound_pair_swap pow log fuel lo hi hx]
    exact find_upper_bound_pair pow log fuel hfuel lo hi hx h0 h1
  · intro points n hn
    unfold find_upper_bound
    rw [if_pos hn]

/-- C8 witness: the samples `(1,2)` and `(3,7)`. -/
theorem C8_two_points_witness :
    find_upper_bound pow_estimate log_estimate 14 [⟨1, 2⟩, ⟨3, 7⟩] 2 =
      some [5 / 16384, (⟨1, 2⟩ : data_point).x, (⟨1, 2⟩ : data_point).y,
        (⟨3, 7⟩ : data_point).x - (⟨1, 2⟩ : data_point).x,
        if (⟨3, 7⟩ : data_point).y - (⟨1, 2⟩ : data_point).y = 0 then 1
        else (⟨3, 7⟩ : data_point).y - (⟨1, 2⟩ : data_point).y] ∧
    find_upper_bound pow_estimate log_estimate 14 [⟨3, 7⟩, ⟨1, 2⟩] 2 =
      some [5 / 16384, (⟨1, 2⟩ : data_point).x, (⟨1, 2⟩ : data_point).y,
        (⟨3, 7⟩ : data_point).x - (⟨1, 2⟩ : data_point).x,
        if (⟨3, 7⟩ : data_point).y - (⟨1, 2⟩ : data_point).y = 0 then 1
        else (⟨3, 7⟩ : data_point).y - (⟨1, 2⟩ : data_point).y] ∧
    (∀ (points : List data_point) (n : Nat), n < 2 →
      find_upper_bound pow_estimate log_estimate 14 points n = trivial_bound 1 points) :=
  C8_two_points pow_estimate log_estimate pow_estimate_zero pow_estimate_one ⟨1, 2⟩ ⟨3, 7⟩
    (by norm_num) 14 (le_refl 14)

/-- C8 (as stated) fails: for the two samples `(0,0)` and `(1,1)`
`find_upper_bound` runs the search and returns `func[0] = 5/16384`, not 1,
with any `pow` that is exact at the bases 0 and 1 (the stand-in is one). -/
theorem C8_two_points_counterexample :
    (∀ (pow : ℚ → ℚ → ℚ) (log : ℚ → ℚ) (fuel : Nat),
      (∀ t : ℚ, 0 < t → pow 0 t = 0) → (∀ t : ℚ, pow 1 t = 1) → 14 ≤ fuel →
      find_upper_bound pow log fuel [⟨0, 0⟩, ⟨1, 1⟩] 2 = some [5 / 16384, 0, 0, 1, 1]) ∧
    find_upper_bound pow_estimate log_estimate 14 [⟨0, 0⟩, ⟨1, 1⟩] 2
      = some [5 / 16384, 0, 0, 1, 1] ∧
    (5 / 16384 : ℚ) ≠ 1 := by
  have key : ∀ (pow : ℚ → ℚ → ℚ) (log : ℚ → ℚ) (fuel : Nat),
      (∀ t : ℚ, 0 < t → pow 0 t = 0) → (∀ t : ℚ, pow 1 t = 1) → 14 ≤ fuel →
      find_upper_bound pow log fuel [⟨0, 0⟩, ⟨1, 1⟩] 2 = some [5 / 16384, 0, 0, 1, 1] := by
    intro pow log fuel h0 h1 hfuel
    have h := find_upper_bound_pair pow log fuel hfuel ⟨0, 0⟩ ⟨1, 1⟩ (by norm_num) h0 h1
    norm_num at h
    exact h
  exact ⟨key, key _ _ 14 pow_estimate_zero pow_estimate_one (le_refl 14), by norm_num⟩

/-- C7 witness: `a = 2`, the samples `(0,0)`, `(1,1)`, `(2,4)`, `(4,16)` and
the binary logarithm as `log`. -/
theorem C7_exponent_recovery_witness :
    ∃ e, find_upper_bound pow_estimate log_estimate 15
        (⟨0, 0⟩ :: ⟨1, 1⟩ :: [⟨2, 4⟩, ⟨4, 16⟩]) ([(⟨2, 4⟩ : data_point), ⟨4, 16⟩].length + 2)
        = some [e, 0, 0, 1, 1] ∧ 2 ≤ e ∧ e ≤ 2 + 5 / 10000 :=
  C7_exponent_recovery pow_estimate log_estimate 2 (by norm_num) pow_estimate_zero
    pow_estimate_one [⟨2, 4⟩, ⟨4, 16⟩] (by simp)
    ⟨by norm_num, by norm_num, by norm_num, trivial⟩
    (by
      intro p hp
      simp only [List.mem_cons, List.mem_singleton, List.not_mem_nil, or_false] at hp
      rcases hp with rfl | rfl <;> norm_num [log_estimate, log2_halving])
    15 (le_refl 15)

/-- C7 (as stated) fails. The samples `(1,1)`, `(2,4)`, `(3,9)` lie on
`y = x^2`. For the first two alone `find_upper_bound` returns the exponent
`5/16384`; for all three the shift to `(1,1)` and the scales `1` and `3` turn
the third sample into `(2, 8/3)`, every exponent from `3/2` on lies above, and
the exponent returned is below `3/2 + 0.0005`. Both are more than `0.0005`
below `a = 2`. -/
theorem C7_exponent_counterexample :
    (∀ p ∈ [(⟨1, 1⟩ : data_point), ⟨2, 4⟩, ⟨3, 9⟩], p.y = p.x ^ 2) ∧
    (∀ (pow : ℚ → ℚ → ℚ) (log : ℚ → ℚ) (fuel : Nat),
      (∀ t : ℚ, 0 < t → pow 0 t = 0) → (∀ t : ℚ, pow 1 t = 1) → 14 ≤ fuel →
      find_upper_bound pow log fuel [⟨1, 1⟩, ⟨2, 4⟩] 2 = some [5 / 16384, 1, 1, 1, 3]) ∧
    find_upper_bound pow_estimate log_estimate 14 [⟨1, 1⟩, ⟨2, 4⟩] 2
      = some [5 / 16384, 1, 1, 1, 3] ∧
    (5 / 16384 : ℚ) < 2 - 5 / 10000 ∧
    (∀ (pow : ℚ → ℚ → ℚ) (log : ℚ → ℚ) (fuel : Nat),
      (∀ t : ℚ, 0 < t → pow 0 t = 0) → (∀ t : ℚ, pow 1 t = 1) →
      0 < log 2 → log (8 / 3) ≤ 3 / 2 * log 2 → 14 ≤ fuel →
      ∃ e, find_upper_bound pow log fuel [⟨1, 1⟩, ⟨2, 4⟩, ⟨3, 9⟩] 3 = some [e, 1, 1, 1, 3] ∧
        e < 2 - 5 / 10000) ∧
    (0 < log_estimate 2 ∧ log_estimate (8 / 3) ≤ 3 / 2 * log_estimate 2) := by
  have two : ∀ (pow : ℚ → ℚ → ℚ) (log : ℚ → ℚ) (fuel : Nat),
      (∀ t : ℚ, 0 < t → pow 0 t = 0) → (∀ t : ℚ, pow 1 t = 1) → 14 ≤ fuel →
      find_upper_bound pow log fuel [⟨1, 1⟩, ⟨2, 4⟩] 2 = some [5 / 16384, 1, 1, 1, 3] := by
    intro pow log fuel h0 h1 hfuel
    have h := find_upper_bound_pair pow log fuel hfuel ⟨1, 1⟩ ⟨2, 4⟩ (by norm_num) h0 h1
    norm_num at h
    exact h
  refine ⟨?_, two, two _ _ 14 pow_estimate_zero pow_estimate_one (le_refl 14), by norm_num,
    ?_, by norm_num [log_estimate, log2_halving]⟩
  · intro p hp
    simp only [List.mem_cons, List.mem_singleton, List.not_mem_nil, or_false] at hp
    rcases hp with rfl | rfl | rfl <;> norm_num
  · intro pow log fuel h0 h1 hl2 hl83 hfuel
    have hinc : increasing_x [(⟨1, 1⟩ : data_point), ⟨2, 4⟩, ⟨3, 9⟩] :=
      ⟨by norm_num, by norm_num, trivial⟩
    have hsc : shift_scale (⟨1, 1⟩ : data_point).x (⟨1, 1⟩ : data_point).y
        ((⟨2, 4⟩ : data_point).x - (⟨1, 1⟩ : data_point).x)
        (if (⟨2, 4⟩ : data_point).y - (⟨1, 1⟩ : data_point).y = 0 then 1
          else (⟨2, 4⟩ : data_point).y - (⟨1, 1⟩ : data_point).y)
        [⟨1, 1⟩, ⟨2, 4⟩, ⟨3, 9⟩] = [⟨0, 0⟩, ⟨1, 1⟩, ⟨2, 8 / 3⟩] := by
      norm_num [shift_scale]
    have hpass : ∀ t : ℚ, 3 / 2 ≤ t →
        lies_above_points pow log t [⟨0, 0⟩, ⟨1, 1⟩, ⟨2, 8 / 3⟩] = true := by
      intro t ht
      have hlt : ¬ t * log 2 < log (8 / 3) := by
        have : 3 / 2 * log 2 ≤ t * log 2 := mul_le_mul_of_nonneg_right ht (le_of_lt hl2)
        linarith
      norm_num [lies_above_points, h0 t (by linarith), h1, hlt]
    obtain ⟨f, rfl⟩ : ∃ f, fuel = f + 1 := ⟨fuel - 1, by omega⟩
    have hi : initial_function pow log [⟨0, 0⟩, ⟨1, 1⟩, ⟨2, 8 / 3⟩] (f + 1) = some 5 :=
      initial_function_pass pow log _ (hpass 5 (by norm_num)) (f + 1) (by omega)
    have hw : (5 : ℚ) - 0 ≤ 5 / 10000 * 2 ^ (f + 1) := by
      have h14 : (2 : ℚ) ^ 14 ≤ 2 ^ (f + 1) := pow_le_pow_right₀ (by norm_num) (by omega)
      have : (5 : ℚ) ≤ 5 / 10000 * 2 ^ 14 := by norm_num
      nlinarith
    obtain ⟨e, he, hup, _⟩ := upper_bisect_bracket pow log [⟨0, 0⟩, ⟨1, 1⟩, ⟨2, 8 / 3⟩]
      (f + 1) 5 0 (by omega) (le_refl 0) (by norm_num) hw
    refine ⟨e, ?_, ?_⟩
    · have h := find_upper_bound_increasing pow log (f + 1) ⟨1, 1⟩ ⟨2, 4⟩ [⟨3, 9⟩] hinc
      rw [hsc, hi, Option.some_bind, he] at h
      norm_num at h
      exact h
    · have := hup (3 / 2) hpass (by norm_num)
      linarith

/-- C9 fails in the early-return block: with a duplicate x the code stores
`func[0] = 0`, `func[1] = x0`, `func[2] = y0`, but `func[3] = y1 - x0` and
`func[4] = x1 - y0` (x and y of the second sample interchanged). For the
samples `(1,2)`, `(1,5)` the result is `[0, 1, 2, 4, -1]`, where the line
through the two points would have `func[3] = 0` and `func[4] = 3`. -/
theorem C9_duplicate_x_swapped (pow : ℚ → ℚ → ℚ) (log : ℚ → ℚ) (fuel : Nat) :
    find_upper_bound pow log fuel [⟨1, 2⟩, ⟨1, 5⟩] 2 = some [0, 1, 2, 4, -1] ∧
    (∀ p0 p1 : data_point, p0.x = p1.x →
      find_upper_bound pow log fuel [p0, p1] 2
        = some [0, p0.x, p0.y, p1.y - p0.x, p1.x - p0.y]) := by
  have key : ∀ p0 p1 : data_point, p0.x = p1.x →
      find_upper_bound pow log fuel [p0, p1] 2
        = some [0, p0.x, p0.y, p1.y - p0.x, p1.x - p0.y] := by
    intro p0 p1 h
    have c : compare_data_points p0 p1 ≤ 0 := by
      simp [compare_data_points, h]
    unfold find_upper_bound
    simp [qsort_points, insert_point, c, adjacent_same_x, h, trivial_bound]
  refine ⟨?_, key⟩
  have := key ⟨1, 2⟩ ⟨1, 5⟩ rfl
  norm_num at this
  exact this

/-- C10: `sum_error` returns the sum over the samples of the curve value
minus the sample value, `func[4]*((x - func[1])/func[3])^func[0] + func[2] - y`,
with its sign; for some inputs the result is negative. -/
theorem C10_sum_error_signed (pow : ℚ → ℚ → ℚ) (ub : List ℚ) (points : List data_point) :
    sum_error pow ub points =
      (points.map (fun p =>
        (ub.getD 4 0 * pow ((p.x - ub.getD 1 0) / ub.getD 3 0) (ub.getD 0 0) + ub.getD 2 0)
          - p.y)).sum ∧
    sum_error pow [1, 0, 2, 1, 0] [⟨1, 5⟩, ⟨2, 3⟩] = -4 ∧
    ∃ (func : List ℚ) (samples : List data_point), sum_error pow func samples < 0 := by
  have e : sum_error pow [1, 0, 2, 1, 0] [⟨1, 5⟩, ⟨2, 3⟩] = -4 := by
    simp [sum_error]
    norm_num
  refine ⟨?_, e, ⟨[1, 0, 2, 1, 0], [⟨1, 5⟩, ⟨2, 3⟩], by rw [e]; norm_num⟩⟩
  unfold sum_error
  rw [sum_error_foldl, zero_add]
  rfl

/-! ## Skipped characters and the left inverse -/

theorem extract_number_loop_take (rs : Nat) :
    ∀ (s : List Char) (n : Nat),
      s.take (extract_number_loop rs s n).length = extract_number_loop rs s n := by
  intro s
  induction s with
  | nil => intro n; simp [extract_number_loop]
  | cons c cs ih =>
    intro n
    rw [extract_number_loop]
    by_cases h : n < rs - 1 ∧ numeric_char c = true
    · rw [if_pos h]
      simp only [List.length_cons, List.take_succ_cons, ih (n + 1)]
    · rw [if_neg h]
      rfl

theorem extract_number_loop_idem (rs : Nat) :
    ∀ (s : List Char) (n : Nat),
      extract_number_loop rs (extract_number_loop rs s n) n = extract_number_loop rs s n := by
  intro s
  induction s with
  | nil => intro n; simp [extract_number_loop]
  | cons c cs ih =>
    intro n
    by_cases h : n < rs - 1 ∧ numeric_char c = true
    · have e : extract_number_loop rs (c :: cs) n = c :: extract_number_loop rs cs (n + 1) := by
        rw [extract_number_loop, if_pos h]
      rw [e, extract_number_loop, if_pos h, ih (n + 1)]
    · have e : extract_number_loop rs (c :: cs) n = [] := by
        rw [extract_number_loop, if_neg h]
      rw [e]
      rfl

theorem string2rule_loop_one (c : Char) (cs : List Char) :
    (∃ t, string2rule_loop 1 (c :: cs) = [⟨[c], 1, t⟩] ∧ string2rule_loop 1 [c] = [⟨[c], 1, t⟩] ∧
      ∀ fuel, string2rule_loop (fuel + 1) (c :: cs) = ⟨[c], 1, t⟩ :: string2rule_loop fuel cs) ∨
    (∃ t, string2rule_loop 1 (c :: cs)
        = [⟨c :: (extract_number cs 7).1, (extract_number cs 7).2 + 1, t⟩] ∧
      (∀ fuel ds, string2rule_loop (fuel + 1) (c :: ds) =
          ⟨c :: (extract_number ds 7).1, (extract_number ds 7).2 + 1, t⟩ ::
            string2rule_loop fuel (ds.drop (extract_number ds 7).2))) ∨
    (string2rule_loop 1 (c :: cs) = [] ∧ string2rule_loop 1 [c] = [] ∧
      ∀ fuel ds, string2rule_loop (fuel + 1) (c :: ds) = string2rule_loop fuel ds) := by
  rcases string2rule_loop_cons c with ⟨t, _, _, _, h⟩ | ⟨t, _, h⟩ | h
  · exact Or.inl ⟨t, by rw [h]; rfl, by rw [h]; rfl, fun fuel => h fuel cs⟩
  · exact Or.inr (Or.inl ⟨t, by rw [h]; rfl, h⟩)
  · exact Or.inr (Or.inr ⟨by rw [h]; rfl, by rw [h]; rfl, h⟩)

theorem render_string2rule_loop (fuel : Nat) :
    ∀ s : List Char, render (string2rule_loop fuel s) = drop_skipped_loop fuel s := by
  induction fuel with
  | zero => intro s; rfl
  | succ fuel ih =>
    intro s
    cases s with
    | nil => rfl
    | cons c cs =>
      rw [drop_skipped_loop]
      rcases string2rule_loop_one c cs with ⟨t, h1, _, h⟩ | ⟨t, h1, h⟩ | ⟨h1, _, h⟩
      · rw [h1, h fuel]
        simp only [render, List.map_cons, List.flatten_cons, List.take_succ_cons, List.take_zero,
          List.drop_succ_cons, List.drop_zero]
        exact congrArg _ (ih cs)
      · rw [h1, h fuel cs]
        simp only [render, List.map_cons, List.flatten_cons, List.take_succ_cons,
          List.drop_succ_cons]
        have e := extract_number_loop_take 7 cs 0
        simp only [extract_number]
        rw [e]
        exact congrArg _ (ih _)
      · rw [h1, h fuel cs]
        exact ih cs

theorem string2rule_loop_units_token (fuel : Nat) :
    ∀ (s : List Char) (u : ruleobj), u ∈ string2rule_loop fuel s → string2rule u.str = [u] := by
  induction fuel with
  | zero => intro s u hu; simp [string2rule_loop] at hu
  | succ fuel ih =>
    intro s u hu
    cases s with
    | nil => simp [string2rule_loop] at hu
    | cons c cs =>
      rcases string2rule_loop_one c cs with ⟨t, _, h1, h⟩ | ⟨t, _, h⟩ | ⟨_, _, h⟩
      · rw [h fuel, List.mem_cons] at hu
        rcases hu with rfl | hu
        · exact h1
        · exact ih cs u hu
      · rw [h fuel cs, List.mem_cons] at hu
        rcases hu with rfl | hu
        · show string2rule_loop (_ + 1) (c :: (extract_number cs 7).1) = _
          rw [h]
          have e : extract_number (extract_number cs 7).1 7 = extract_number cs 7 := by
            simp only [extract_number, extract_number_loop_idem]
          rw [e]
          have d : (extract_number cs 7).1.drop (extract_number cs 7).2 = [] := by
            simp [extract_number]
          rw [d]
          cases (extract_number cs 7).1.length <;> rfl
        · exact ih _ u hu
      · rw [h fuel cs] at hu
        exact ih cs u hu

theorem string2rule_loop_length_le (fuel : Nat) :
    ∀ s : List Char, (string2rule_loop fuel s).length ≤ s.length := by
  induction fuel with
  | zero => intro s; simp [string2rule_loop]
  | succ fuel ih =>
    intro s
    cases s with
    | nil => simp [string2rule_loop]
    | cons c cs =>
      rcases string2rule_loop_one c cs with ⟨t, _, _, h⟩ | ⟨t, _, h⟩ | ⟨_, _, h⟩
      · rw [h fuel]
        simp only [List.length_cons]
        exact Nat.succ_le_succ (ih cs)
      · rw [h fuel cs]
        simp only [List.length_cons]
        have := ih (cs.drop (extract_number cs 7).2)
        simp only [List.length_drop] at this
        omega
      · rw [h fuel cs]
        exact Nat.le_succ_of_le (ih cs)

theorem drop_skipped_loop_no_skip (fuel : Nat) :
    ∀ s : List Char, s.length ≤ fuel → takes_skip_loop fuel s = false →
      drop_skipped_loop fuel s = s := by
  induction fuel with
  | zero =>
    intro s hs _
    cases s with
    | nil => rfl
    | cons c cs => simp at hs
  | succ fuel ih =>
    intro s hs h
    cases s with
    | nil => rfl
    | cons c cs =>
      rw [takes_skip_loop] at h
      rw [drop_skipped_loop]
      simp only [List.length_cons] at hs
      rcases string2rule_loop_one c cs with ⟨t, h1, _, _⟩ | ⟨t, h1, _⟩ | ⟨h1, _, _⟩
      · rw [h1] at h ⊢
        simp only [List.drop_succ_cons, List.drop_zero, List.take_succ_cons, List.take_zero] at h ⊢
        rw [ih cs (by omega) h]
        rfl
      · rw [h1] at h ⊢
        simp only at h ⊢
        rw [ih _ (by simp only [List.length_drop, List.length_cons]; omega) h]
        exact List.take_append_drop _ _
      · rw [h1] at h
        simp at h

/-- C15 (amended): a character of the final `else` branch produces no unit,
the texts of the returned units are the input with the skipped characters
deleted, and the count does not exceed the text length; parsing the text
with the skipped characters deleted returns the same units when no returned
unit absorbs the start of its successor. -/
theorem C15_permissive_skip (s : List Char) :
    (∀ c, skip_char c = true → ∀ fuel cs,
      string2rule_loop (fuel + 1) (c :: cs) = string2rule_loop fuel cs) ∧
    render (string2rule s) = drop_skipped s ∧
    (no_absorption (string2rule s) = true →
      string2rule (drop_skipped s) = string2rule s) ∧
    (string2rule s).length ≤ s.length := by
  have hr : render (string2rule s) = drop_skipped s := render_string2rule_loop s.length s
  refine ⟨?_, hr, ?_, string2rule_loop_length_le s.length s⟩
  · intro c hc fuel cs
    rcases string2rule_loop_one c [] with ⟨t, h1, _, _⟩ | ⟨t, h1, _⟩ | ⟨_, _, h⟩
    · rw [skip_char, h1] at hc
      exact absurd hc (by simp)
    · rw [skip_char, h1] at hc
      exact absurd hc (by simp)
    · exact h fuel cs
  · intro hsep
    rw [← hr]
    exact string2rule_loop_render (string2rule s)
      (fun u hu => string2rule_loop_units_token s.length s u hu) hsep _ (le_refl _)

/-- C15 witness: in `F a\090b+A` the characters ` `, `a` and `b` are skipped. -/
theorem C15_permissive_skip_witness :
    render (string2rule "F a\\090b+A".toList) = "F\\090+A".toList ∧
    string2rule (drop_skipped "F a\\090b+A".toList) = string2rule "F a\\090b+A".toList ∧
    (string2rule "F a\\090b+A".toList).length = 4 :=
  ⟨by decide, (C15_permissive_skip "F a\\090b+A".toList).2.2.1 (by decide), by decide⟩

/-- C15 (as stated) fails: in `\090 I` the blank is the one character
skipped and the units are `\090` and `I`; with the blank deleted the text is
`\090I`, which is read as the single unit `\090I`. -/
theorem C15_permissive_skip_counterexample :
    string2rule "\\090 I".toList = [⟨"\\090".toList, 4, INCX⟩, ⟨['I'], 1, RULE⟩] ∧
    skip_char ' ' = true ∧
    drop_skipped "\\090 I".toList = "\\090I".toList ∧
    "\\090 I".toList.filter (fun c => !skip_char c || numeric_char c) = "\\090I".toList ∧
    string2rule "\\090I".toList = [⟨"\\090I".toList, 5, INCX⟩] ∧
    string2rule "\\090I".toList ≠ string2rule "\\090 I".toList := by
  decide

/-- C16: for a text on which `string2rule` never takes its skip branch,
`rule2string` of the parsed units is the text, and the text length is the sum
of the units' `len` fields. -/
theorem C16_render_left_inverse (s : List Char) (h : takes_skip s = false) :
    rule2string (string2rule s) (string2rule s).length = some s ∧
    s.length = ((string2rule s).map (fun u => u.len)).sum := by
  have hr : render (string2rule s) = s := by
    rw [show render (string2rule s) = drop_skipped s from render_string2rule_loop s.length s]
    exact drop_skipped_loop_no_skip s.length s (le_refl _) h
  have hsum := sum_len_eq_render_length (string2rule s)
    (fun u hu => string2rule_loop_units_token s.length s u hu)
  rw [hr] at hsum
  refine ⟨?_, hsum.symm⟩
  simp only [rule2string, le_refl, if_true, List.take_length]
  rw [if_pos]
  · exact congrArg some hr
  · rw [hsum]
    exact le_of_eq (congrArg List.length hr)

/-- C16 witness: the text `F\090[+A]@0.5`. -/
theorem C16_render_left_inverse_witness :
    rule2string (string2rule "F\\090[+A]@0.5".toList) (string2rule "F\\090[+A]@0.5".toList).length
      = some "F\\090[+A]@0.5".toList ∧
    "F\\090[+A]@0.5".toList.length
      = ((string2rule "F\\090[+A]@0.5".toList).map (fun u => u.len)).sum :=
  C16_render_left_inverse "F\\090[+A]@0.5".toList (by decide)

/-! ## Comparing and sorting -/

theorem take_drop_cons {α : Type} (input : List α) (l k : Nat) (x : α) (L : List α)
    (h : (input.drop l).take (k + 1) = x :: L) :
    input[l]? = some x ∧ (input.drop (l + 1)).take k = L := by
  cases hd : input.drop l with
  | nil => rw [hd] at h; simp at h
  | cons a t =>
    rw [hd, List.take_succ_cons] at h
    injection h with h1 h2
    constructor
    · have := List.getElem?_drop input l 0
      rw [hd] at this
      simpa [h1] using this.symm
    · have : input.drop (l + 1) = t := by
        rw [← List.tail_drop, hd]
        rfl
      rw [this]
      exact h2

section SortingProofs

variable {α : Type} (cmp : α → α → Option Int) (c : α → α → Int)

theorem merge_loop_spec (input : List α) (mid right : Nat)
    (htrans : ∀ x y z, c x y ≤ 0 → c y z ≤ 0 → c x z ≤ 0)
    (hflip : ∀ x y, 0 ≤ c x y → c y x ≤ 0) :
    ∀ (n : Nat) (L R : List α) (l r : Nat) (scratch : List α), L.length + R.length = n →
      (input.drop l).take L.length = L → (input.drop r).take R.length = R →
      l + L.length = mid → r + R.length = right →
      (∀ x ∈ L, ∀ y ∈ R, cmp x y = some (c x y)) →
      L.Pairwise (fun a b => c a b ≤ 0) → R.Pairwise (fun a b => c a b ≤ 0) →
      scratch.Pairwise (fun a b => c a b ≤ 0) →
      (∀ s ∈ scratch, ∀ x ∈ L ++ R, c s x ≤ 0) →
      ∃ out, merge_loop cmp input mid right n l r scratch = some out ∧
        out.Perm (scratch ++ (L ++ R)) ∧ out.Pairwise (fun a b => c a b ≤ 0) := by
  intro n
  induction n with
  | zero =>
    intro L R l r scratch hn _ _ _ _ _ _ _ hs _
    have hL : L = [] := List.length_eq_zero.mp (by omega)
    have hR : R = [] := List.length_eq_zero.mp (by omega)
    subst hL hR
    exact ⟨scratch, rfl, by simp, hs⟩
  | succ n ih =>
    intro L R l r scratch hn hL hR hl hr hc pL pR ps hsx
    rw [merge_loop]
    cases L with
    | nil =>
      cases R with
      | nil => simp at hn
      | cons y R1 =>
        have hlm : ¬ l < mid := by simp at hl; omega
        rw [if_neg hlm]
        obtain ⟨hy, hR1⟩ := take_drop_cons input r R1.length y R1 hR
        rw [hy]
        simp only
        obtain ⟨out, ho, hp, hso⟩ := ih [] R1 l (r + 1) (scratch ++ [y])
          (by simp at hn ⊢; omega) (by simp) hR1 hl (by simp at hr; omega)
          (by intro x hx; simp at hx) List.Pairwise.nil (List.pairwise_cons.mp pR).2
          (by
            rw [List.pairwise_append]
            refine ⟨ps, List.pairwise_singleton _ _, ?_⟩
            intro a ha b hb
            rw [List.mem_singleton] at hb
            subst hb
            exact hsx a ha b (by simp))
          (by
            intro s hs x hx
            rw [List.mem_append, List.mem_singleton] at hs
            rcases hs with hs | rfl
            · exact hsx s hs x (by simp at hx ⊢; exact Or.inr hx)
            · exact (List.pairwise_cons.mp pR).1 x (by simpa using hx))
        refine ⟨out, ho, ?_, hso⟩
        refine hp.trans ?_
        simp
    | cons x L1 =>
      have hlm : l < mid := by simp at hl; omega
      rw [if_pos hlm]
      obtain ⟨hx, hL1⟩ := take_drop_cons input l L1.length x L1 hL
      cases R with
      | nil =>
        have hrr : r = right := by simpa using hr
        rw [if_pos hrr, hx]
        simp only
        obtain ⟨out, ho, hp, hso⟩ := ih L1 [] (l + 1) r (scratch ++ [x])
          (by simp at hn ⊢; omega) hL1 (by simp) (by simp at hl; omega) hr
          (by intro a _ b hb; simp at hb) (List.pairwise_cons.mp pL).2 List.Pairwise.nil
          (by
            rw [List.pairwise_append]
            refine ⟨ps, List.pairwise_singleton _ _, ?_⟩
            intro a ha b hb
            rw [List.mem_singleton] at hb
            subst hb
            exact hsx a ha b (by simp))
          (by
            intro s hs z hz
            rw [List.mem_append, List.mem_singleton] at hs
            rcases hs with hs | rfl
            · exact hsx s hs z (by simp at hz ⊢; exact Or.inr hz)
            · exact (List.pairwise_cons.mp pL).1 z (by simpa using hz))
        refine ⟨out, ho, ?_, hso⟩
        refine hp.trans ?_
        simp
      | cons y R1 =>
        have hrr : ¬ r = right := by simp at hr; omega
        obtain ⟨hy, hR1⟩ := take_drop_cons input r R1.length y R1 hR
        rw [if_neg hrr, hx, hy]
        simp only
        rw [hc x (by simp) y (by simp)]
        simp only
        by_cases hlt : c x y < 0
        · rw [if_pos hlt]
          obtain ⟨out, ho, hp, hso⟩ := ih L1 (y :: R1) (l + 1) r (scratch ++ [x])
            (by simp at hn ⊢; omega) hL1 hR (by simp at hl; omega) hr
            (fun a ha b hb => hc a (List.mem_cons_of_mem _ ha) b hb)
            (List.pairwise_cons.mp pL).2 pR
            (by
              rw [List.pairwise_append]
              refine ⟨ps, List.pairwise_singleton _ _, ?_⟩
              intro a ha b hb
              rw [List.mem_singleton] at hb
              subst hb
              exact hsx a ha b (by simp))
            (by
              intro s hs z hz
              rw [List.mem_append, List.mem_singleton] at hs
              rcases hs with hs | rfl
              · exact hsx s hs z (by
                  rw [List.mem_append] at hz ⊢
                  rcases hz with hz | hz
                  · exact Or.inl (List.mem_cons_of_mem _ hz)
                  · exact Or.inr hz)
              · rw [List.mem_append] at hz
                rcases hz with hz | hz
                · exact (List.pairwise_cons.mp pL).1 z hz
                · rw [List.mem_cons] at hz
                  rcases hz with rfl | hz
                  · exact le_of_lt hlt
                  · exact htrans _ _ _ (le_of_lt hlt) ((List.pairwise_cons.mp pR).1 z hz))
          refine ⟨out, ho, ?_, hso⟩
          refine hp.trans ?_
          simp
        · rw [if_neg hlt]
          have hyx : c y x ≤ 0 := hflip x y (not_lt.mp hlt)
          obtain ⟨out, ho, hp, hso⟩ := ih (x :: L1) R1 l (r + 1) (scratch ++ [y])
            (by simp at hn ⊢; omega) hL hR1 hl (by simp at hr; omega)
            (fun a ha b hb => hc a ha b (List.mem_cons_of_mem _ hb))
            pL (List.pairwise_cons.mp pR).2
            (by
              rw [List.pairwise_append]
              refine ⟨ps, List.pairwise_singleton _ _, ?_⟩
              intro a ha b hb
              rw [List.mem_singleton] at hb
              subst hb
              exact hsx a ha b (by simp))
            (by
              intro s hs z hz
              rw [List.mem_append, List.mem_singleton] at hs
              rcases hs with hs | rfl
              · exact hsx s hs z (by
                  rw [List.mem_append] at hz ⊢
                  rcases hz with hz | hz
                  · exact Or.inl hz
                  · exact Or.inr (List.mem_cons_of_mem _ hz))
              · rw [List.mem_append] at hz
                rcases hz with hz | hz
                · rw [List.mem_cons] at hz
                  rcases hz with rfl | hz
                  · exact hyx
                  · exact htrans _ _ _ hyx ((List.pairwise_cons.mp pL).1 z hz)
                · exact (List.pairwise_cons.mp pR).1 z hz)
          refine ⟨out, ho, ?_, hso⟩
          refine hp.trans ?_
          simp only [List.append_assoc, List.singleton_append]
          refine List.Perm.append_left _ ?_
          exact (@List.perm_middle _ y (x :: L1) R1).symm


theorem copy_back_spec (xs : List α) :
    ∀ (pre old post : List α), old.length = xs.length →
      copy_back (pre ++ old ++ post) pre.length xs = some (pre ++ xs ++ post) := by
  induction xs with
  | nil =>
    intro pre old post h
    have : old = [] := List.length_eq_zero.mp h
    subst this
    rfl
  | cons x xs ih =>
    intro pre old post h
    cases old with
    | nil => simp at h
    | cons o old1 =>
      rw [copy_back, if_pos (by simp)]
      have e : (pre ++ o :: old1 ++ post).set pre.length x = (pre ++ [x]) ++ old1 ++ post := by
        simp [List.set_append]
      rw [e]
      have := ih (pre ++ [x]) old1 post (by simpa using h)
      simp only [List.length_append, List.length_singleton] at this
      rw [this]
      simp

theorem merge_helper_spec
    (htrans : ∀ x y z, c x y ≤ 0 → c y z ≤ 0 → c x z ≤ 0)
    (hflip : ∀ x y, 0 ≤ c x y → c y x ≤ 0) :
    ∀ (fuel : Nat) (pre s post : List α), s ≠ [] → s.length ≤ fuel →
      (∀ x ∈ s, ∀ y ∈ s, cmp x y = some (c x y)) →
      ∃ t, merge_helper cmp fuel (pre ++ s ++ post) pre.length (pre.length + s.length)
          = some (pre ++ t ++ post) ∧
        t.Perm s ∧ t.Pairwise (fun a b => c a b ≤ 0) := by
  intro fuel
  induction fuel with
  | zero =>
    intro pre s post hs hf
    exact absurd (List.length_eq_zero.mp (Nat.le_zero.mp hf)) hs
  | succ fuel ih =>
    intro pre s post hs hf hc
    have hpos : 0 < s.length := List.length_pos.mpr hs
    rw [merge_helper]
    by_cases h1 : pre.length + s.length = pre.length + 1
    · rw [if_pos h1]
      refine ⟨s, rfl, List.Perm.refl _, ?_⟩
      have : s.length = 1 := by omega
      obtain ⟨a, rfl⟩ := List.length_eq_one.mp this
      exact List.pairwise_singleton _ _
    · rw [if_neg h1]
      have hlen : pre.length + s.length - pre.length = s.length := by omega
      simp only [hlen]
      have hm1 : 0 < s.length / 2 := by omega
      have hm2 : s.length / 2 < s.length := by omega
      have hs1 : (s.take (s.length / 2)).length = s.length / 2 := by
        rw [List.length_take]; omega
      have hs2 : (s.drop (s.length / 2)).length = s.length - s.length / 2 := List.length_drop _ _
      have hsplit : s.take (s.length / 2) ++ s.drop (s.length / 2) = s :=
        List.take_append_drop _ _
      obtain ⟨t1, e1, p1, o1⟩ := ih pre (s.take (s.length / 2)) (s.drop (s.length / 2) ++ post)
        (by intro h; rw [h] at hs1; simp at hs1; omega) (by omega)
        (fun x hx y hy => hc x (List.mem_of_mem_take hx) y (List.mem_of_mem_take hy))
      have ht1 : t1.length = s.length / 2 := by rw [p1.length_eq, hs1]
      rw [hs1] at e1
      have a1 : pre ++ s.take (s.length / 2) ++ (s.drop (s.length / 2) ++ post)
          = pre ++ s ++ post := by
        rw [List.append_assoc pre, ← List.append_assoc (s.take _), hsplit, List.append_assoc]
      rw [a1] at e1
      rw [e1]
      simp only
      obtain ⟨t2, e2, p2, o2⟩ := ih (pre ++ t1) (s.drop (s.length / 2)) post
        (by intro h; rw [h] at hs2; simp at hs2; omega) (by omega)
        (fun x hx y hy => hc x (List.mem_of_mem_drop hx) y (List.mem_of_mem_drop hy))
      have ht2 : t2.length = s.length - s.length / 2 := by rw [p2.length_eq, hs2]
      have a2 : pre ++ t1 ++ s.drop (s.length / 2) ++ post
          = pre ++ t1 ++ (s.drop (s.length / 2) ++ post) := by
        simp only [List.append_assoc]
      have a3 : (pre ++ t1).length + (s.drop (s.length / 2)).length = pre.length + s.length := by
        rw [List.length_append, ht1, hs2]; omega
      have a4 : (pre ++ t1).length = pre.length + s.length / 2 := by
        rw [List.length_append, ht1]
      rw [a2, a3, a4] at e2
      rw [e2]
      simp only
      obtain ⟨out, eo, po, oo⟩ := merge_loop_spec cmp c (pre ++ t1 ++ t2 ++ post)
        (pre.length + s.length / 2) (pre.length + s.length) htrans hflip s.length t1 t2
        pre.length (pre.length + s.length / 2) [] (by omega)
        (by simp [List.append_assoc])
        (by
          have : pre ++ t1 ++ t2 ++ post = (pre ++ t1) ++ (t2 ++ post) := by
            simp only [List.append_assoc]
          rw [this, ← a4, List.drop_left, List.take_left])
        (by omega) (by omega)
        (fun x hx y hy => hc x (List.mem_of_mem_take (p1.subset hx)) y
          (List.mem_of_mem_drop (p2.subset hy)))
        o1 o2 List.Pairwise.nil (by intro a ha; simp at ha)
      rw [eo]
      simp only
      have ec := copy_back_spec out pre (t1 ++ t2) post (by
        rw [po.length_eq]; simp)
      have a5 : pre ++ t1 ++ t2 ++ post = pre ++ (t1 ++ t2) ++ post := by
        simp only [List.append_assoc]
      rw [a5, ec]
      refine ⟨out, rfl, ?_, oo⟩
      refine po.trans ?_
      rw [List.nil_append, ← hsplit]
      exact p1.append p2

end SortingProofs

theorem compare_cached (ls1 ls2 : lsystem) (h1 : ls1.computed_f = true)
    (h2 : ls2.computed_f = true) :
    compare ls1 ls2 = some (if ls1.f = ls2.f then 0 else if ls1.f > ls2.f then -1 else 1) := by
  simp only [compare, compare_ls, fitness, h1, h2, if_true]
  by_cases e : ls1.f = ls2.f
  · simp only [e, if_true]
  · by_cases g : ls1.f > ls2.f
    · simp only [e, g, if_true, if_false]
    · simp only [e, g, if_false]

theorem fitness_order_le (x y : lsystem) :
    (if x.f = y.f then (0 : Int) else if x.f > y.f then -1 else 1) ≤ 0 ↔ y.f ≤ x.f := by
  by_cases e : x.f = y.f
  · simp [e]
  · by_cases g : x.f > y.f
    · simp [e, g, le_of_lt g]
    · simp only [e, g, if_false]
      constructor
      · intro h; omega
      · intro h; exact absurd (lt_of_le_of_ne h (Ne.symm e)) g

/-- C19: for two L-Systems with cached fitness, `compare_ls` returns -1 when
the first fitness is greater, 0 when the two are equal and 1 when the first
is smaller; the result for the swapped arguments is the negated value. -/
theorem C19_compare_ls_order (ls1 ls2 : lsystem) (h1 : ls1.computed_f = true)
    (h2 : ls2.computed_f = true) :
    (ls1.f > ls2.f → compare_ls ls1 ls2 = some (-1)) ∧
    (ls1.f = ls2.f → compare_ls ls1 ls2 = some 0) ∧
    (ls1.f < ls2.f → compare_ls ls1 ls2 = some 1) ∧
    ∃ a b, compare_ls ls1 ls2 = some a ∧ compare_ls ls2 ls1 = some b ∧ a = -b := by
  have e12 := compare_cached ls1 ls2 h1 h2
  have e21 := compare_cached ls2 ls1 h2 h1
  simp only [compare] at e12 e21
  rcases lt_trichotomy ls1.f ls2.f with h | h | h
  · have n1 : ¬ ls1.f = ls2.f := ne_of_lt h
    have n2 : ¬ ls1.f > ls2.f := not_lt.mpr (le_of_lt h)
    have n3 : ¬ ls2.f = ls1.f := fun e => n1 e.symm
    rw [if_neg n1, if_neg n2] at e12
    rw [if_neg n3, if_pos h] at e21
    exact ⟨fun g => absurd g n2, fun g => absurd g n1, fun _ => e12, 1, -1, e12, e21, rfl⟩
  · have n2 : ¬ ls1.f > ls2.f := by rw [h]; exact lt_irrefl _
    have n4 : ¬ ls1.f < ls2.f := by rw [h]; exact lt_irrefl _
    rw [if_pos h] at e12
    rw [if_pos h.symm] at e21
    exact ⟨fun g => absurd g n2, fun _ => e12, fun g => absurd g n4, 0, 0, e12, e21, rfl⟩
  · have n1 : ¬ ls1.f = ls2.f := ne_of_gt h
    have n3 : ¬ ls2.f = ls1.f := ne_of_lt h
    have n4 : ¬ ls2.f > ls1.f := not_lt.mpr (le_of_lt h)
    rw [if_neg n1, if_pos h] at e12
    rw [if_neg n3, if_neg n4] at e21
    exact ⟨fun _ => e12, fun g => absurd g n1, fun g => absurd g (not_lt.mpr (le_of_lt h)),
      -1, 1, e12, e21, rfl⟩

/-- C19 witness: fitness values 3 and 5. -/
theorem C19_compare_ls_order_witness :
    ((ls_of_fitness 3).f > (ls_of_fitness 5).f →
      compare_ls (ls_of_fitness 3) (ls_of_fitness 5) = some (-1)) ∧
    ((ls_of_fitness 3).f = (ls_of_fitness 5).f →
      compare_ls (ls_of_fitness 3) (ls_of_fitness 5) = some 0) ∧
    ((ls_of_fitness 3).f < (ls_of_fitness 5).f →
      compare_ls (ls_of_fitness 3) (ls_of_fitness 5) = some 1) ∧
    ∃ a b, compare_ls (ls_of_fitness 3) (ls_of_fitness 5) = some a ∧
      compare_ls (ls_of_fitness 5) (ls_of_fitness 3) = some b ∧ a = -b :=
  C19_compare_ls_order (ls_of_fitness 3) (ls_of_fitness 5) rfl rfl

/-- C20: for a population of size at least 1 whose `pop_size` grammars have
cached fitness, `mergesort_ls` returns 1 (given a recursion depth of
`pop_size`), the first `pop_size` entries of the array are a permutation of
what they were, `compare` of every two neighbours is at most 0 and the
fitness does not increase along the array; `sortpopulation` stores that
array. -/
theorem C20_sortpopulation_sorted (pop : ls_population) (fuel : Nat)
    (hsize : 1 ≤ pop.pop_size) (hlen : pop.pop_size ≤ pop.ls_array.length)
    (hcached : ∀ ls ∈ pop.ls_array.take pop.pop_size, ls.computed_f = true)
    (hfuel : pop.pop_size ≤ fuel) :
    ∃ sorted, mergesort_ls compare fuel pop.ls_array pop.pop_size
        = some (sorted ++ pop.ls_array.drop pop.pop_size, 1) ∧
      sortpopulation fuel pop
        = some { pop with ls_array := sorted ++ pop.ls_array.drop pop.pop_size } ∧
      sorted.Perm (pop.ls_array.take pop.pop_size) ∧
      (sorted ++ pop.ls_array.drop pop.pop_size).Perm pop.ls_array ∧
      sorted.Chain' (fun a b => ∃ v, compare a b = some v ∧ v ≤ 0) ∧
      sorted.Chain' (fun a b => b.f ≤ a.f) := by
  have hl : (pop.ls_array.take pop.pop_size).length = pop.pop_size := by
    rw [List.length_take]; omega
  obtain ⟨t, e, p, o⟩ := merge_helper_spec compare
    (fun x y => if x.f = y.f then 0 else if x.f > y.f then -1 else 1)
    (by
      intro x y z hxy hyz
      rw [fitness_order_le] at hxy hyz ⊢
      exact le_trans hyz hxy)
    (by
      intro x y hxy
      rw [fitness_order_le]
      by_cases e : x.f = y.f
      · exact le_of_eq e
      · by_cases g : x.f > y.f
        · simp only [e, g, if_true, if_false] at hxy
          omega
        · exact not_lt.mp g)
    fuel [] (pop.ls_array.take pop.pop_size) (pop.ls_array.drop pop.pop_size)
    (by intro h; rw [h] at hl; simp at hl; omega) (by omega)
    (fun x hx y hy => compare_cached x y (hcached x hx) (hcached y hy))
  rw [List.nil_append, List.take_append_drop, hl, List.length_nil, Nat.zero_add,
    List.nil_append] at e
  have hm : mergesort_ls compare fuel pop.ls_array pop.pop_size
      = some (t ++ pop.ls_array.drop pop.pop_size, 1) := by
    simp only [mergesort_ls, e]
  refine ⟨t, hm, ?_, p, ?_, ?_, ?_⟩
  · simp only [sortpopulation, hm]
  · have := p.append_right (pop.ls_array.drop pop.pop_size)
    rwa [List.take_append_drop] at this
  · have hc : ∀ x ∈ t, x.computed_f = true := fun x hx => hcached x (p.subset hx)
    have : t.Pairwise (fun a b => ∃ v, compare a b = some v ∧ v ≤ 0) := by
      refine List.Pairwise.imp_of_mem ?_ o
      intro a b ha hb hab
      exact ⟨_, compare_cached a b (hc a ha) (hc b hb), hab⟩
    exact this.chain'
  · have : t.Pairwise (fun a b => b.f ≤ a.f) :=
      o.imp (fun {a b} hab => (fitness_order_le a b).mp hab)
    exact this.chain'

/-- C20 witness: four grammars with the fitness values 3, 1, 4, 1. -/
theorem C20_sortpopulation_sorted_witness :
    ∃ sorted, mergesort_ls compare 4
        (⟨2, 2, 4, [3, 1, 4, 1].map ls_of_fitness⟩ : ls_population).ls_array
        (⟨2, 2, 4, [3, 1, 4, 1].map ls_of_fitness⟩ : ls_population).pop_size
        = some (sorted ++ (⟨2, 2, 4, [3, 1, 4, 1].map ls_of_fitness⟩ : ls_population).ls_array.drop
            (⟨2, 2, 4, [3, 1, 4, 1].map ls_of_fitness⟩ : ls_population).pop_size, 1) ∧
      sortpopulation 4 ⟨2, 2, 4, [3, 1, 4, 1].map ls_of_fitness⟩
        = some { (⟨2, 2, 4, [3, 1, 4, 1].map ls_of_fitness⟩ : ls_population) with
            ls_array := sorted ++
              (⟨2, 2, 4, [3, 1, 4, 1].map ls_of_fitness⟩ : ls_population).ls_array.drop
                (⟨2, 2, 4, [3, 1, 4, 1].map ls_of_fitness⟩ : ls_population).pop_size } ∧
      sorted.Perm ((⟨2, 2, 4, [3, 1, 4, 1].map ls_of_fitness⟩ : ls_population).ls_array.take
        (⟨2, 2, 4, [3, 1, 4, 1].map ls_of_fitness⟩ : ls_population).pop_size) ∧
      (sorted ++ (⟨2, 2, 4, [3, 1, 4, 1].map ls_of_fitness⟩ : ls_population).ls_array.drop
          (⟨2, 2, 4, [3, 1, 4, 1].map ls_of_fitness⟩ : ls_population).pop_size).Perm
        (⟨2, 2, 4, [3, 1, 4, 1].map ls_of_fitness⟩ : ls_population).ls_array ∧
      sorted.Chain' (fun a b => ∃ v, compare a b = some v ∧ v ≤ 0) ∧
      sorted.Chain' (fun a b => b.f ≤ a.f) :=
  C20_sortpopulation_sorted ⟨2, 2, 4, [3, 1, 4, 1].map ls_of_fitness⟩ 4 (by decide) (by decide)
    (by
      intro ls hls
      simp only [List.map_cons, List.map_nil, List.take_succ_cons, List.take_zero,
        List.mem_cons, List.not_mem_nil, or_false] at hls
      rcases hls with rfl | rfl | rfl | rfl <;> rfl)
    (le_refl 4)

/-! ## The Mersenne Twister -/

theorem init_genrand_loop_spec (k : mt_consts) :
    ∀ (n mti : Nat) (mt : List Nat), 1 ≤ mti → mti + n = mt.length →
      (∀ i, i < mti → ∀ x, mt[i]? = some x → x < 2 ^ 32) →
      ∃ out, init_genrand_loop k n mti mt = some out ∧ out.length = mt.length ∧
        ∀ x ∈ out, x < 2 ^ 32 := by
  intro n
  induction n with
  | zero =>
    intro mti mt _ hlen h
    refine ⟨mt, rfl, rfl, ?_⟩
    intro x hx
    obtain ⟨i, hi⟩ := List.mem_iff_getElem?.mp hx
    have : i < mt.length := (List.getElem?_eq_some.mp hi).1
    exact h i (by omega) x hi
  | succ n ih =>
    intro mti mt h1 hlen h
    rw [init_genrand_loop]
    have hp : mti - 1 < mt.length := by omega
    rw [List.getElem?_eq_getElem hp]
    simp only
    rw [if_pos (by omega)]
    obtain ⟨out, ho, hl, hb⟩ := ih (mti + 1)
      (mt.set mti ((1812433253 * (mt[mti - 1] ^^^ mt[mti - 1] >>> 30) + mti) % 2 ^ k.bits
        &&& 0xffffffff))
      (by omega) (by rw [List.length_set]; omega)
      (by
        intro i hi x hx
        rw [List.getElem?_set] at hx
        by_cases e : mti = i
        · rw [if_pos e, if_pos (by omega)] at hx
          injection hx with hx
          rw [← hx]
          exact Nat.and_lt_two_pow _ (by norm_num)
        · rw [if_neg e] at hx
          exact h i (by omega) x hx)
    exact ⟨out, ho, by rw [hl, List.length_set], hb⟩

theorem init_genrand_loop_agree (k : mt_consts) :
    ∀ (n mti : Nat) (mt mt2 : List Nat), 1 ≤ mti → mti + n = mt.length →
      mt.length = mt2.length → (∀ i, i < mti → mt[i]? = mt2[i]?) →
      init_genrand_loop k n mti mt = init_genrand_loop k n mti mt2 := by
  intro n
  induction n with
  | zero =>
    intro mti mt mt2 _ hlen hl h
    have : mt = mt2 := by
      apply List.ext_getElem?
      intro i
      by_cases hi : i < mti
      · exact h i hi
      · rw [List.getElem?_eq_none (by omega), List.getElem?_eq_none (by omega)]
    rw [this]
  | succ n ih =>
    intro mti mt mt2 h1 hlen hl h
    rw [init_genrand_loop, init_genrand_loop, ← h (mti - 1) (by omega)]
    have hp : mti - 1 < mt.length := by omega
    rw [List.getElem?_eq_getElem hp]
    simp only
    rw [if_pos (by omega), if_pos (by omega)]
    apply ih (mti + 1) _ _ (by omega) (by rw [List.length_set]; omega)
      (by rw [List.length_set, List.length_set]; exact hl)
    intro i hi
    rw [List.getElem?_set, List.getElem?_set]
    by_cases e : mti = i
    · rw [if_pos e, if_pos e, if_pos (by omega), if_pos (by omega)]
    · rw [if_neg e, if_neg e]
      exact h i (by omega)

theorem init_genrand_ok (k : mt_consts) (hN : 1 ≤ k.N) (p : mt_prng) (s : Nat)
    (hmt : p.mt.length = k.N) (hmag : p.mag01.length = 2) :
    ∃ q, init_genrand k p s = some q ∧ mt_ok k q ∧ q.mti = k.N := by
  obtain ⟨out, ho, hl, hb⟩ := init_genrand_loop_spec k (k.N - 1) 1 (p.mt.set 0 (s &&& 0xffffffff))
    (le_refl 1) (by rw [List.length_set]; omega)
    (by
      intro i hi x hx
      have : i = 0 := by omega
      subst this
      rw [List.getElem?_set_self (by omega)] at hx
      injection hx with hx
      rw [← hx]
      exact Nat.and_lt_two_pow _ (by norm_num))
  refine ⟨⟨out, max 1 k.N, (p.mag01.set 0 0).set 1 k.MATRIX_A⟩, ?_, ⟨?_, ?_, ?_, hb⟩, ?_⟩
  · rw [init_genrand, if_neg (by omega), ho]
  · rw [hl, List.length_set, hmt]
  · show (p.mag01.set 0 0).set 1 k.MATRIX_A = [0, k.MATRIX_A]
    match hm : p.mag01, hmag with
    | [a, b], _ => rfl
  · show max 1 k.N ≤ k.N
    omega
  · show max 1 k.N = k.N
    omega

theorem init_genrand_agree (k : mt_consts) (hN : 1 ≤ k.N) (p1 p2 : mt_prng) (s : Nat)
    (h1 : p1.mt.length = k.N) (m1 : p1.mag01.length = 2)
    (h2 : p2.mt.length = k.N) (m2 : p2.mag01.length = 2) :
    init_genrand k p1 s = init_genrand k p2 s := by
  rw [init_genrand, init_genrand, if_neg (by omega), if_neg (by omega)]
  rw [init_genrand_loop_agree k (k.N - 1) 1 (p1.mt.set 0 (s &&& 0xffffffff))
    (p2.mt.set 0 (s &&& 0xffffffff)) (le_refl 1) (by rw [List.length_set]; omega)
    (by rw [List.length_set, List.length_set, h1, h2])
    (by
      intro i hi
      have : i = 0 := by omega
      subst this
      rw [List.getElem?_set_self (by omega), List.getElem?_set_self (by omega)])]
  have e : (p1.mag01.set 0 0).set 1 k.MATRIX_A = (p2.mag01.set 0 0).set 1 k.MATRIX_A := by
    match ha : p1.mag01, hb : p2.mag01, m1, m2 with
    | [a, b], [c, d], _, _ => rfl
  rw [e]


theorem twist_word_spec (k : mt_consts) (hA : k.MATRIX_A < 2 ^ 32) (mt : List Nat)
    (kk next src : Nat) (hk : kk < mt.length) (hn : next < mt.length) (hs : src < mt.length)
    (hb : ∀ x ∈ mt, x < 2 ^ 32) :
    ∃ out, twist_word k [0, k.MATRIX_A] mt kk next src = some out ∧
      out.length = mt.length ∧ ∀ x ∈ out, x < 2 ^ 32 := by
  rw [twist_word, List.getElem?_eq_getElem hk, List.getElem?_eq_getElem hn,
    List.getElem?_eq_getElem hs]
  simp only
  have ha : mt[kk] < 2 ^ 32 := hb _ (List.getElem_mem hk)
  have hbb : mt[next] < 2 ^ 32 := hb _ (List.getElem_mem hn)
  have hc : mt[src] < 2 ^ 32 := hb _ (List.getElem_mem hs)
  have hy : (mt[kk] &&& k.UPPER_MASK) ||| (mt[next] &&& k.LOWER_MASK) < 2 ^ 32 :=
    Nat.or_lt_two_pow (lt_of_le_of_lt Nat.and_le_left ha) (lt_of_le_of_lt Nat.and_le_left hbb)
  generalize (mt[kk] &&& k.UPPER_MASK) ||| (mt[next] &&& k.LOWER_MASK) = y at hy
  have hy1 : y >>> 1 < 2 ^ 32 := by
    rw [Nat.shiftRight_eq_div_pow]
    exact lt_of_le_of_lt (Nat.div_le_self _ _) hy
  have hm : ∃ m, [0, k.MATRIX_A][y &&& 1]? = some m ∧ m < 2 ^ 32 := by
    rw [Nat.and_one_is_mod]
    rcases Nat.mod_two_eq_zero_or_one y with e | e
    · rw [e]; exact ⟨0, rfl, by norm_num⟩
    · rw [e]; exact ⟨k.MATRIX_A, rfl, hA⟩
  obtain ⟨m, em, hm⟩ := hm
  rw [em]
  refine ⟨_, rfl, List.length_set _ _ _, ?_⟩
  intro x hx
  rcases List.mem_or_eq_of_mem_set hx with h | h
  · exact hb x h
  · rw [h]
    exact Nat.xor_lt_two_pow (Nat.xor_lt_two_pow hc hy1) hm

theorem twist_loop1_spec (k : mt_consts) (hA : k.MATRIX_A < 2 ^ 32) (hM : 1 ≤ k.M) :
    ∀ (n kk : Nat) (mt : List Nat), mt.length = k.N → kk + n + k.M ≤ k.N →
      (∀ x ∈ mt, x < 2 ^ 32) →
      ∃ out, twist_loop1 k [0, k.MATRIX_A] n kk mt = some out ∧ out.length = k.N ∧
        ∀ x ∈ out, x < 2 ^ 32 := by
  intro n
  induction n with
  | zero => intro kk mt hl _ hb; exact ⟨mt, rfl, hl, hb⟩
  | succ n ih =>
    intro kk mt hl hkk hb
    rw [twist_loop1]
    obtain ⟨m1, e1, l1, b1⟩ := twist_word_spec k hA mt kk (kk + 1) (kk + k.M) (by omega)
      (by omega) (by omega) hb
    rw [e1]
    exact ih (kk + 1) m1 (by rw [l1, hl]) (by omega) b1

theorem twist_loop2_spec (k : mt_consts) (hA : k.MATRIX_A < 2 ^ 32) :
    ∀ (n kk : Nat) (mt : List Nat), mt.length = k.N → kk + n + 1 ≤ k.N → k.N ≤ kk + k.M →
      k.M ≤ k.N → (∀ x ∈ mt, x < 2 ^ 32) →
      ∃ out, twist_loop2 k [0, k.MATRIX_A] n kk mt = some out ∧ out.length = k.N ∧
        ∀ x ∈ out, x < 2 ^ 32 := by
  intro n
  induction n with
  | zero => intro kk mt hl _ _ _ hb; exact ⟨mt, rfl, hl, hb⟩
  | succ n ih =>
    intro kk mt hl hkk hge hMN hb
    rw [twist_loop2, if_neg (by omega)]
    obtain ⟨m1, e1, l1, b1⟩ := twist_word_spec k hA mt kk (kk + 1) (kk + k.M - k.N) (by omega)
      (by omega) (by omega) hb
    rw [e1]
    exact ih (kk + 1) m1 (by rw [l1, hl]) (by omega) (by omega) hMN b1

theorem regenerate_ok (k : mt_consts) (hA : k.MATRIX_A < 2 ^ 32) (hM : 1 ≤ k.M)
    (hMN : k.M ≤ k.N) (p : mt_prng) (hp : mt_ok k p) :
    ∃ q, regenerate k p = some q ∧ mt_ok k q ∧ q.mti = 0 := by
  obtain ⟨hl, hmag, _, hb⟩ := hp
  obtain ⟨m1, e1, l1, b1⟩ := twist_loop1_spec k hA hM (k.N - k.M) 0 p.mt hl (by omega) hb
  obtain ⟨m2, e2, l2, b2⟩ := twist_loop2_spec k hA (k.N - 1 - (k.N - k.M)) (k.N - k.M) m1 l1
    (by omega) (by omega) hMN b1
  obtain ⟨m3, e3, l3, b3⟩ := twist_word_spec k hA m2 (k.N - 1) 0 (k.M - 1) (by omega)
    (by omega) (by omega) b2
  refine ⟨{ p with mt := m3, mti := 0 }, ?_, ⟨by rw [l3, l2], hmag, Nat.zero_le _, b3⟩, rfl⟩
  rw [regenerate, hmag, e1]
  simp only
  rw [e2]
  simp only
  rw [if_neg (by omega), e3]

theorem temper_lt (k : mt_consts) (y : Nat) (hy : y < 2 ^ 32) : temper k y < 2 ^ 32 := by
  have sh : ∀ (a n : Nat), a < 2 ^ 32 → a >>> n < 2 ^ 32 := by
    intro a n ha
    rw [Nat.shiftRight_eq_div_pow]
    exact lt_of_le_of_lt (Nat.div_le_self _ _) ha
  have h1 : y ^^^ (y >>> 11) < 2 ^ 32 := Nat.xor_lt_two_pow hy (sh y 11 hy)
  simp only [temper]
  generalize y ^^^ (y >>> 11) = y1 at h1
  have h2 : y1 ^^^ (((y1 <<< 7) % 2 ^ k.bits) &&& 0x9d2c5680) < 2 ^ 32 :=
    Nat.xor_lt_two_pow h1 (Nat.and_lt_two_pow _ (by norm_num))
  generalize y1 ^^^ (((y1 <<< 7) % 2 ^ k.bits) &&& 0x9d2c5680) = y2 at h2
  have h3 : y2 ^^^ (((y2 <<< 15) % 2 ^ k.bits) &&& 0xefc60000) < 2 ^ 32 :=
    Nat.xor_lt_two_pow h2 (Nat.and_lt_two_pow _ (by norm_num))
  generalize y2 ^^^ (((y2 <<< 15) % 2 ^ k.bits) &&& 0xefc60000) = y3 at h3
  exact Nat.xor_lt_two_pow h3 (sh y3 18 h3)

theorem genrand_int32_ok (k : mt_consts) (hA : k.MATRIX_A < 2 ^ 32) (hM : 1 ≤ k.M)
    (hMN : k.M ≤ k.N) (p : mt_prng) (hp : mt_ok k p) :
    ∃ y q, genrand_int32 k p = some (y, q) ∧ y < 2 ^ 32 ∧ mt_ok k q := by
  have key : ∀ q : mt_prng, mt_ok k q → q.mti < k.N →
      ∃ y, q.mt[q.mti]? = some y ∧ y < 2 ^ 32 ∧ mt_ok k { q with mti := q.mti + 1 } := by
    intro q hq hlt
    have hi : q.mti < q.mt.length := by rw [hq.1]; exact hlt
    exact ⟨q.mt[q.mti], List.getElem?_eq_getElem hi, hq.2.2.2 _ (List.getElem_mem hi),
      hq.1, hq.2.1, hlt, hq.2.2.2⟩
  by_cases hge : p.mti ≥ k.N
  · have hne : ¬ p.mti = k.N + 1 := by have := hp.2.2.1; omega
    obtain ⟨q, eq, hq, hq0⟩ := regenerate_ok k hA hM hMN p hp
    obtain ⟨y, ey, hy, hq1⟩ := key q hq (by omega)
    refine ⟨temper k y, { q with mti := q.mti + 1 }, ?_, temper_lt k y hy, hq1⟩
    simp only [genrand_int32, if_pos hge, if_neg hne, eq, ey]
  · obtain ⟨y, ey, hy, hq1⟩ := key p hp (by omega)
    refine ⟨temper k y, { p with mti := p.mti + 1 }, ?_, temper_lt k y hy, hq1⟩
    simp only [genrand_int32, if_neg hge, ey]

theorem genrand_seq_ok (k : mt_consts) (hA : k.MATRIX_A < 2 ^ 32) (hM : 1 ≤ k.M)
    (hMN : k.M ≤ k.N) :
    ∀ (n : Nat) (p : mt_prng), mt_ok k p →
      ∃ ys q, genrand_seq k n p = some (ys, q) ∧ ys.length = n ∧ (∀ y ∈ ys, y < 2 ^ 32) ∧
        mt_ok k q := by
  intro n
  induction n with
  | zero => intro p hp; exact ⟨[], p, rfl, rfl, by simp, hp⟩
  | succ n ih =>
    intro p hp
    obtain ⟨y, q, e, hy, hq⟩ := genrand_int32_ok k hA hM hMN p hp
    obtain ⟨ys, r, es, hl, hys, hr⟩ := ih q hq
    refine ⟨y :: ys, r, ?_, by simp [hl], ?_, hr⟩
    · simp only [genrand_seq, e, es]
    · intro z hz
      rcases List.mem_cons.mp hz with rfl | hz
      · exact hy
      · exact hys z hz


theorem run_calls_spec (k : mt_consts) (hA : k.MATRIX_A < 2 ^ 32) (hM : 1 ≤ k.M)
    (hMN : k.M ≤ k.N) :
    ∀ (calls : List Nat) (gens : List mt_prng), (∀ g ∈ gens, mt_ok k g) →
      (∀ i ∈ calls, i < gens.length) →
      ∃ trace gens1, run_calls k calls gens = some (trace, gens1) ∧
        ∀ i p, gens[i]? = some p →
          ∃ ys q, genrand_seq k (calls.count i) p = some (ys, q) ∧
            (trace.filter (fun e => e.1 == i)).map Prod.snd = ys ∧ gens1[i]? = some q := by
  intro calls
  induction calls with
  | nil =>
    intro gens _ _
    exact ⟨[], gens, rfl, fun i p hp => ⟨[], p, rfl, rfl, hp⟩⟩
  | cons j calls ih =>
    intro gens hok hid
    have hj : j < gens.length := hid j (List.mem_cons_self _ _)
    obtain ⟨y, qj, ej, _, hqj⟩ := genrand_int32_ok k hA hM hMN gens[j]
      (hok _ (List.getElem_mem hj))
    obtain ⟨trace, gens2, er, hsp⟩ := ih (gens.set j qj)
      (by
        intro g hg
        rcases List.mem_or_eq_of_mem_set hg with h | h
        · exact hok g h
        · rw [h]; exact hqj)
      (by
        intro i hi
        rw [List.length_set]
        exact hid i (List.mem_cons_of_mem _ hi))
    refine ⟨(j, y) :: trace, gens2, ?_, ?_⟩
    · simp only [run_calls, genrand_int32_at, List.getElem?_eq_getElem hj, ej, er]
    · intro i p hp
      by_cases hij : j = i
      · subst hij
        have hpj : p = gens[j] := by
          rw [List.getElem?_eq_getElem hj] at hp
          injection hp with hp
          exact hp.symm
        obtain ⟨ys, q, es, ef, eg⟩ := hsp j qj (List.getElem?_set_self hj)
        refine ⟨y :: ys, q, ?_, ?_, eg⟩
        · rw [List.count_cons_self, genrand_seq, hpj, ej]
          simp only
          rw [es]
        · simp only [List.filter_cons, beq_self_eq_true, if_true, List.map_cons, ef]
      · obtain ⟨ys, q, es, ef, eg⟩ := hsp i p (by rw [List.getElem?_set_ne hij]; exact hp)
        refine ⟨ys, q, ?_, ?_, eg⟩
        · rw [List.count_cons_of_ne (fun h => hij h.symm)]
          exact es
        · have : ((j, y).1 == i) = false := beq_false_of_ne hij
          simp only [List.filter_cons, this]
          exact ef

theorem draw32_mt_gen (k : mt_consts) (p q : mt_prng) (y : Nat)
    (e : genrand_int32 k p = some (y, q)) (hy : y < 2 ^ 32) :
    draw32 (mt_gen k) p = (y, q) := by
  simp only [draw32, mt_gen, e, Option.getD_some]
  rw [Nat.mod_eq_of_lt (by norm_num at hy; exact hy)]

/-- C17: `init_genrand(p, s)` leaves the same record whatever the record held
before (a record with `N` words below `2^32`), so two records seeded with the
same `s` return the same `n` words;
and in any sequence of calls on several seeded records, the words a record
returns and the state it ends in are those of the same number of calls made
on that record alone. The constants of the missing header are parameters
with `1 <= M <= N` and `MATRIX_A < 2^32`. -/
theorem C17_prng_determinism (k : mt_consts) (hA : k.MATRIX_A < 2 ^ 32) (hM : 1 ≤ k.M)
    (hMN : k.M ≤ k.N) (p1 p2 : mt_prng)
    (h1 : p1.mt.length = k.N ∧ p1.mag01.length = 2)
    (h2 : p2.mt.length = k.N ∧ p2.mag01.length = 2) (s n : Nat) :
    (∃ q ys r, init_genrand k p1 s = some q ∧ init_genrand k p2 s = some q ∧ mt_ok k q ∧
      genrand_seq k n q = some (ys, r) ∧ ys.length = n) ∧
    (∀ (gens : List mt_prng) (calls : List Nat), (∀ g ∈ gens, mt_ok k g) →
      (∀ i ∈ calls, i < gens.length) →
      ∃ trace gens1, run_calls k calls gens = some (trace, gens1) ∧
        ∀ i p, gens[i]? = some p →
          ∃ ys q, genrand_seq k (calls.count i) p = some (ys, q) ∧
            (trace.filter (fun e => e.1 == i)).map Prod.snd = ys ∧ gens1[i]? = some q) := by
  constructor
  · obtain ⟨q, eq, hq, _⟩ := init_genrand_ok k (by omega) p1 s h1.1 h1.2
    obtain ⟨ys, r, es, hl, _, _⟩ := genrand_seq_ok k hA hM hMN n q hq
    refine ⟨q, ys, r, eq, ?_, hq, es, hl⟩
    rw [← init_genrand_agree k (by omega) p1 p2 s h1.1 h1.2 h2.1 h2.2]
    exact eq
  · intro gens calls hok hid
    exact run_calls_spec k hA hM hMN calls gens hok hid

/-- C17 witness: MT19937, a blank record and a record holding other values,
seed 5489, three words. -/
theorem C17_prng_determinism_witness :
    (∃ q ys r, init_genrand mt19937 (mt_blank mt19937) 5489 = some q ∧
      init_genrand mt19937 ⟨List.replicate 624 7, 3, [1, 2]⟩ 5489 = some q ∧
      mt_ok mt19937 q ∧ genrand_seq mt19937 3 q = some (ys, r) ∧ ys.length = 3) ∧
    (∀ (gens : List mt_prng) (calls : List Nat), (∀ g ∈ gens, mt_ok mt19937 g) →
      (∀ i ∈ calls, i < gens.length) →
      ∃ trace gens1, run_calls mt19937 calls gens = some (trace, gens1) ∧
        ∀ i p, gens[i]? = some p →
          ∃ ys q, genrand_seq mt19937 (calls.count i) p = some (ys, q) ∧
            (trace.filter (fun e => e.1 == i)).map Prod.snd = ys ∧ gens1[i]? = some q) :=
  C17_prng_determinism mt19937 (by decide) (by decide) (by decide) (mt_blank mt19937)
    ⟨List.replicate 624 7, 3, [1, 2]⟩ ⟨List.length_replicate _ _, rfl⟩
    ⟨List.length_replicate _ _, rfl⟩ 5489 3

/-- C18: on a seeded record (after `init_genrand` and any number of calls)
`genrand_int32` returns a word below `2^32` and leaves every state word below
`2^32`, whatever the width of `unsigned long`; as exact rationals,
`genrand_real1` is the word over `2^32 - 1` and lies in `[0,1]`,
`genrand_real2` is the word over `2^32` and lies in `[0,1)`, and
`genrand_real3` is the word plus one half over `2^32` and lies strictly
between 0 and 1. -/
theorem C18_prng_ranges (k : mt_consts) (hA : k.MATRIX_A < 2 ^ 32) (hM : 1 ≤ k.M)
    (hMN : k.M ≤ k.N) (p0 : mt_prng) (h0 : p0.mt.length = k.N ∧ p0.mag01.length = 2)
    (s n : Nat) :
    ∃ p y q, seeded_state k p0 s n = some p ∧ genrand_int32 k p = some (y, q) ∧
      y < 2 ^ 32 ∧ (∀ x ∈ q.mt, x < 2 ^ 32) ∧
      (genrand_real1 (mt_gen k) p).1 = (y : ℚ) * (1 / 4294967295) ∧
      0 ≤ (genrand_real1 (mt_gen k) p).1 ∧ (genrand_real1 (mt_gen k) p).1 ≤ 1 ∧
      (genrand_real2 (mt_gen k) p).1 = (y : ℚ) * (1 / 4294967296) ∧
      0 ≤ (genrand_real2 (mt_gen k) p).1 ∧ (genrand_real2 (mt_gen k) p).1 < 1 ∧
      (genrand_real3 (mt_gen k) p).1 = ((y : ℚ) + 1 / 2) * (1 / 4294967296) ∧
      0 < (genrand_real3 (mt_gen k) p).1 ∧ (genrand_real3 (mt_gen k) p).1 < 1 := by
  obtain ⟨p1, e1, hp1, _⟩ := init_genrand_ok k (by omega) p0 s h0.1 h0.2
  obtain ⟨ys, p, es, _, _, hp⟩ := genrand_seq_ok k hA hM hMN n p1 hp1
  obtain ⟨y, q, e, hy, hq⟩ := genrand_int32_ok k hA hM hMN p hp
  have hd := draw32_mt_gen k p q y e hy
  have hyq : (y : ℚ) ≤ 4294967295 := by
    have : y ≤ 4294967295 := by norm_num at hy; omega
    exact_mod_cast this
  have hy0 : (0 : ℚ) ≤ (y : ℚ) := Nat.cast_nonneg y
  refine ⟨p, y, q, ?_, e, hy, hq.2.2.2, ?_, ?_, ?_, ?_, ?_, ?_, ?_, ?_, ?_⟩
  · simp only [seeded_state, e1, es, Option.map_some']
  · simp only [genrand_real1, hd]
  · simp only [genrand_real1, hd]; positivity
  · simp only [genrand_real1, hd]; linarith
  · simp only [genrand_real2, hd]
  · simp only [genrand_real2, hd]; positivity
  · simp only [genrand_real2, hd]; linarith
  · simp only [genrand_real3, hd]
  · simp only [genrand_real3, hd]; positivity
  · simp only [genrand_real3, hd]; linarith

/-- C18 witness: MT19937 with 64-bit `unsigned long`, seed 5489, after 1000
calls. -/
theorem C18_prng_ranges_witness :
    ∃ p y q, seeded_state mt19937 (mt_blank mt19937) 5489 1000 = some p ∧
      genrand_int32 mt19937 p = some (y, q) ∧
      y < 2 ^ 32 ∧ (∀ x ∈ q.mt, x < 2 ^ 32) ∧
      (genrand_real1 (mt_gen mt19937) p).1 = (y : ℚ) * (1 / 4294967295) ∧
      0 ≤ (genrand_real1 (mt_gen mt19937) p).1 ∧ (genrand_real1 (mt_gen mt19937) p).1 ≤ 1 ∧
      (genrand_real2 (mt_gen mt19937) p).1 = (y : ℚ) * (1 / 4294967296) ∧
      0 ≤ (genrand_real2 (mt_gen mt19937) p).1 ∧ (genrand_real2 (mt_gen mt19937) p).1 < 1 ∧
      (genrand_real3 (mt_gen mt19937) p).1 = ((y : ℚ) + 1 / 2) * (1 / 4294967296) ∧
      0 < (genrand_real3 (mt_gen mt19937) p).1 ∧ (genrand_real3 (mt_gen mt19937) p).1 < 1 :=
  C18_prng_ranges mt19937 (by decide) (by decide) (by decide) (mt_blank mt19937)
    ⟨List.length_replicate _ _, rfl⟩ 5489 1000

/-! ## The expansion engine -/

theorem points_added_refl (st : lsys_state) : points_added st st 0 := by
  refine ⟨rfl, rfl, rfl, rfl, rfl, ?_⟩
  simp

theorem points_added_trans {st st1 st2 : lsys_state} {k m : Nat}
    (h1 : points_added st st1 k) (h2 : points_added st1 st2 m) :
    points_added st st2 (k + m) := by
  obtain ⟨hm1, hd1, hs1, hc1, hn1, ho1⟩ := h1
  obtain ⟨hm2, hd2, hs2, hc2, hn2, ho2⟩ := h2
  refine ⟨hm2.trans hm1, hd2.trans hd1, hs2.trans hs1, hc2.trans hc1, ?_, ?_⟩
  · rw [hn2, hn1]; omega
  · rw [ho2, ho1, hn1, List.append_assoc]
    congr 1
    have := List.range'_append st.currentnode k m 1
    rw [Nat.one_mul] at this
    rw [this, Nat.add_comm m k]

theorem points_added_restore {saved st st2 : lsys_state} {k : Nat}
    (h : points_added st st2 k) : points_added st (restore_saved saved st2) k := h

theorem angle_ok_restore {saved st2 : lsys_state} (hs : angle_ok saved)
    (h1 : st2.maxangle = saved.maxangle) (h2 : st2.dmaxangle = saved.dmaxangle)
    (h3 : st2.sins = saved.sins) (h4 : st2.coss = saved.coss) :
    angle_ok (restore_saved saved st2) := by
  obtain ⟨a1, a2, a3, a4, a5, a6⟩ := hs
  refine ⟨a1, ?_, ?_, ?_, ?_, ?_⟩
  · show saved.angle < st2.maxangle
    rw [h1]; exact a2
  · show st2.maxangle ≤ 50
    rw [h1]; exact a3
  · show st2.dmaxangle = st2.maxangle - 1
    rw [h1, h2]; exact a4
  · show st2.sins.length = 50
    rw [h3]; exact a5
  · show st2.coss.length = 50
    rw [h4]; exact a6

theorem widen_box_spec (st : lsys_state) :
    (widen_box st).sins = st.sins ∧ (widen_box st).coss = st.coss ∧
    (widen_box st).maxangle = st.maxangle ∧ (widen_box st).dmaxangle = st.dmaxangle ∧
    (widen_box st).angle = st.angle ∧ (widen_box st).currentnode = st.currentnode ∧
    (widen_box st).outputfile = st.outputfile := by
  unfold widen_box
  simp only
  split_ifs <;> exact ⟨rfl, rfl, rfl, rfl, rfl, rfl, rfl⟩

theorem table_at_ok (table : List ℚ) (angle : Int) (h0 : 0 ≤ angle) (h1 : angle < 50)
    (hl : table.length = 50) : ∃ v, table_at table angle = some v := by
  rw [table_at, if_pos h0]
  have : angle.toNat < table.length := by rw [hl]; omega
  exact ⟨_, List.getElem?_eq_getElem this⟩

theorem call_fn_ok (L : libm) (f : lsys_fn) (n : ℚ) (st : lsys_state) (h : angle_ok st) :
    ∃ st1, call_fn L f n st = some st1 ∧ angle_ok st1 ∧
      points_added st st1 (draw_calls (some f)) := by
  obtain ⟨a1, a2, a3, a4, a5, a6⟩ := h
  obtain ⟨c, hc⟩ := table_at_ok st.coss st.angle a1 (by omega) a6
  obtain ⟨s, hs⟩ := table_at_ok st.sins st.angle a1 (by omega) a5
  have nodraw : ∀ st1 : lsys_state, st1.maxangle = st.maxangle → st1.dmaxangle = st.dmaxangle →
      st1.sins = st.sins → st1.coss = st.coss → st1.currentnode = st.currentnode →
      st1.outputfile = st.outputfile → points_added st st1 0 := by
    intro st1 b1 b2 b3 b4 b5 b6
    refine ⟨b1, b2, b3, b4, by rw [b5]; rfl, ?_⟩
    rw [b6]; simp
  have ok : ∀ st1 : lsys_state, st1.maxangle = st.maxangle → st1.dmaxangle = st.dmaxangle →
      st1.sins = st.sins → st1.coss = st.coss → 0 ≤ st1.angle → st1.angle < st.maxangle →
      angle_ok st1 := by
    intro st1 b1 b2 b3 b4 b5 b6
    exact ⟨b5, by rw [b1]; exact b6, by rw [b1]; exact a3, by rw [b1, b2]; exact a4,
      by rw [b3]; exact a5, by rw [b4]; exact a6⟩
  cases f with
  | lsys_doplus =>
    refine ⟨lsys_doplus st, rfl, ?_, ?_⟩
    · unfold lsys_doplus
      split_ifs <;> refine ok _ rfl rfl rfl rfl ?_ ?_ <;> simp only <;> omega
    · unfold lsys_doplus
      split_ifs <;> exact nodraw _ rfl rfl rfl rfl rfl rfl
  | lsys_dominus =>
    refine ⟨lsys_dominus st, rfl, ?_, ?_⟩
    · unfold lsys_dominus
      split_ifs <;> refine ok _ rfl rfl rfl rfl ?_ ?_ <;> simp only <;> omega
    · unfold lsys_dominus
      split_ifs <;> exact nodraw _ rfl rfl rfl rfl rfl rfl
  | lsys_doslash =>
    refine ⟨lsys_doslash n st, rfl, ?_, ?_⟩
    · unfold lsys_doslash
      split_ifs <;> exact ok _ rfl rfl rfl rfl a1 a2
    · unfold lsys_doslash
      split_ifs <;> exact nodraw _ rfl rfl rfl rfl rfl rfl
  | lsys_dobslash =>
    refine ⟨lsys_dobslash n st, rfl, ?_, ?_⟩
    · unfold lsys_dobslash
      split_ifs <;> exact ok _ rfl rfl rfl rfl a1 a2
    · unfold lsys_dobslash
      split_ifs <;> exact nodraw _ rfl rfl rfl rfl rfl rfl
  | lsys_doat =>
    exact ⟨lsys_doat n st, rfl, ok _ rfl rfl rfl rfl a1 a2, nodraw _ rfl rfl rfl rfl rfl rfl⟩
  | lsys_dopipe =>
    have hm : ¬ st.maxangle = 0 := by omega
    have hd : 0 ≤ Int.tdiv st.maxangle 2 := Int.tdiv_nonneg (by omega) (by omega)
    exact ⟨{ st with angle := Int.tmod (st.angle + Int.tdiv st.maxangle 2) st.maxangle },
      by simp only [call_fn, lsys_dopipe, if_neg hm],
      ok _ rfl rfl rfl rfl (Int.tmod_nonneg _ (by omega)) (Int.tmod_lt_of_pos _ (by omega)),
      nodraw _ rfl rfl rfl rfl rfl rfl⟩
  | lsys_dobang =>
    exact ⟨lsys_dobang st, rfl, ok _ rfl rfl rfl rfl a1 a2, nodraw _ rfl rfl rfl rfl rfl rfl⟩
  | lsys_dosizedm =>
    obtain ⟨w1, w2, w3, w4, w5, w6, w7⟩ := widen_box_spec { st with
      xpos := st.xpos + st.size * L.cos (st.realangle * PI / 180)
      ypos := st.ypos + st.size * L.sin (st.realangle * PI / 180) }
    exact ⟨lsys_dosizedm L st, rfl, ok _ w3 w4 w1 w2 (by rw [lsys_dosizedm, w5]; exact a1)
      (by rw [lsys_dosizedm, w5]; exact a2), nodraw _ w3 w4 w1 w2 w6 w7⟩
  | lsys_dosizegf =>
    obtain ⟨w1, w2, w3, w4, w5, w6, w7⟩ := widen_box_spec { st with
      xpos := st.xpos + st.size * c, ypos := st.ypos + st.size * s }
    exact ⟨widen_box { st with xpos := st.xpos + st.size * c, ypos := st.ypos + st.size * s },
      by simp only [call_fn, lsys_dosizegf, hc, hs], ok _ w3 w4 w1 w2 (by rw [w5]; exact a1)
      (by rw [w5]; exact a2), nodraw _ w3 w4 w1 w2 w6 w7⟩
  | lsys_dodrawd =>
    refine ⟨lsys_dodrawd L st, rfl, ok _ rfl rfl rfl rfl a1 a2, rfl, rfl, rfl, rfl, rfl, ?_⟩
    simp [lsys_dodrawd, draw_line, draw_calls]
  | lsys_dodrawm =>
    exact ⟨lsys_dodrawm L st, rfl, ok _ rfl rfl rfl rfl a1 a2, nodraw _ rfl rfl rfl rfl rfl rfl⟩
  | lsys_dodrawg =>
    exact ⟨{ st with xpos := st.xpos + st.size * c, ypos := st.ypos + st.size * s },
      by simp only [call_fn, lsys_dodrawg, hc, hs], ok _ rfl rfl rfl rfl a1 a2,
      nodraw _ rfl rfl rfl rfl rfl rfl⟩
  | lsys_dodrawf =>
    refine ⟨draw_line st.xpos st.ypos (st.xpos + st.size * c) (st.ypos + st.size * s)
        { st with xpos := st.xpos + st.size * c, ypos := st.ypos + st.size * s },
      by simp only [call_fn, lsys_dodrawf, hc, hs], ok _ rfl rfl rfl rfl a1 a2,
      rfl, rfl, rfl, rfl, rfl, ?_⟩
    simp [draw_line, draw_calls]

theorem expand_rule_none {σ : Type} (expand : List lsys_cmd → σ → Option (List lsys_cmd × σ))
    (ch : Char) (rs : List (List lsys_cmd)) :
    rs.foldl (expand_rule expand ch) none = none := by
  induction rs with
  | nil => rfl
  | cons r rs ih => exact ih

theorem expand_rule_pos_none {σ : Type}
    (expand : List lsys_cmd → σ → Option (List lsys_cmd × σ)) (ch : Char) (tran : Bool) (s : σ)
    (r : List lsys_cmd) (hn : rule_name r = some ch) (he : expand r.tail s = none) :
    expand_rule expand ch (some (tran, s)) r = none := by
  simp only [expand_rule, if_pos hn, he]

theorem expand_rule_pos_some {σ : Type}
    (expand : List lsys_cmd → σ → Option (List lsys_cmd × σ)) (ch : Char) (tran : Bool) (s : σ)
    (r : List lsys_cmd) (hn : rule_name r = some ch) (cur : List lsys_cmd) (s1 : σ)
    (he : expand r.tail s = some (cur, s1)) :
    expand_rule expand ch (some (tran, s)) r = some (true, s1) := by
  simp only [expand_rule, if_pos hn, he]

theorem expand_rule_neg {σ : Type}
    (expand : List lsys_cmd → σ → Option (List lsys_cmd × σ)) (ch : Char) (tran : Bool) (s : σ)
    (r : List lsys_cmd) (hn : ¬ rule_name r = some ch) :
    expand_rule expand ch (some (tran, s)) r = some (tran, s) := by
  simp only [expand_rule, if_neg hn]

theorem expand_fold_same (st0 : lsys_state) (ch : Char)
    (expR : List lsys_cmd → lsys_state → Option (List lsys_cmd × lsys_state))
    (expS : List lsys_cmd → Nat → Option (List lsys_cmd × Nat))
    (h : ∀ body s k, angle_ok s → points_added st0 s k → same_run st0 (expR body s) (expS body k)) :
    ∀ (rs : List (List lsys_cmd)) (tran : Bool) (s : lsys_state) (k : Nat), angle_ok s →
      points_added st0 s k →
      same_expansion st0 (rs.foldl (expand_rule expR ch) (some (tran, s)))
        (rs.foldl (expand_rule expS ch) (some (tran, k))) := by
  intro rs
  induction rs with
  | nil =>
    intro tran s k hs hp
    exact ⟨s, rfl, hs, hp⟩
  | cons r rs ih =>
    intro tran s k hs hp
    rw [List.foldl_cons, List.foldl_cons]
    by_cases hn : rule_name r = some ch
    · have hb := h r.tail s k hs hp
      cases hS : expS r.tail k with
      | none =>
        rw [hS] at hb
        have hR : expR r.tail s = none := hb
        rw [expand_rule_pos_none expS ch tran k r hn hS,
          expand_rule_pos_none expR ch tran s r hn hR, expand_rule_none, expand_rule_none]
        rfl
      | some res =>
        obtain ⟨cur, k1⟩ := res
        rw [hS] at hb
        obtain ⟨s1, hR, hs1, hp1⟩ := hb
        rw [expand_rule_pos_some expS ch tran k r hn cur k1 hS,
          expand_rule_pos_some expR ch tran s r hn cur s1 hR]
        exact ih true s1 k1 hs1 hp1
    · rw [expand_rule_neg expS ch tran k r hn, expand_rule_neg expR ch tran s r hn]
      exact ih tran s k hs hp

theorem drawLSys_same_run (L : libm) (rules : List (List lsys_cmd)) (st0 : lsys_state) :
    ∀ (fuel : Nat) (cmds : List lsys_cmd) (depth : Nat) (s : lsys_state) (k : Nat),
      angle_ok s → points_added st0 s k →
      same_run st0 (drawLSys L rules fuel cmds depth s) (drawLSys_points rules fuel cmds depth k) := by
  intro fuel
  induction fuel with
  | zero =>
    intro cmds depth s k _ _
    rfl
  | succ fuel ih =>
    intro cmds depth s k hs hp
    cases cmds with
    | nil => exact ⟨s, rfl, hs, hp⟩
    | cons c rest =>
      rw [drawLSys, drawLSys_points]
      by_cases hclose : c.ch = ']'
      · rw [if_pos hclose, if_pos hclose]
        exact ⟨s, rfl, hs, hp⟩
      · rw [if_neg hclose, if_neg hclose]
        have hexp : same_expansion st0
            (if depth ≠ 0 then
              rules.foldl (expand_rule (fun body s => drawLSys L rules fuel body (depth - 1) s) c.ch)
                (some (false, s))
            else some (false, s))
            (if depth ≠ 0 then
              rules.foldl
                (expand_rule (fun body k1 => drawLSys_points rules fuel body (depth - 1) k1) c.ch)
                (some (false, k))
            else some (false, k)) := by
          by_cases hd : depth ≠ 0
          · rw [if_pos hd, if_pos hd]
            exact expand_fold_same st0 c.ch _ _
              (fun body s1 k1 h1 h2 => ih body (depth - 1) s1 k1 h1 h2) rules false s k hs hp
          · rw [if_neg hd, if_neg hd]
            exact ⟨s, rfl, hs, hp⟩
        simp only
        generalize (if depth ≠ 0 then
              rules.foldl (expand_rule (fun body s => drawLSys L rules fuel body (depth - 1) s) c.ch)
                (some (false, s))
            else some (false, s)) = eR at hexp ⊢
        generalize (if depth ≠ 0 then
              rules.foldl
                (expand_rule (fun body k1 => drawLSys_points rules fuel body (depth - 1) k1) c.ch)
                (some (false, k))
            else some (false, k)) = eS at hexp ⊢
        cases eS with
        | none =>
          have : eR = none := hexp
          rw [this]
          rfl
        | some res =>
          obtain ⟨tran, k1⟩ := res
          obtain ⟨s1, hR, hs1, hp1⟩ := hexp
          rw [hR]
          simp only
          by_cases hrun : depth = 0 ∨ tran = false
          · rw [if_pos hrun, if_pos hrun]
            cases hf : c.f with
            | some f =>
              simp only
              obtain ⟨s2, hc, hs2, hp2⟩ := call_fn_ok L f c.n s1 hs1
              rw [hc]
              simp only
              exact ih rest depth s2 _ hs2 (points_added_trans hp1 hp2)
            | none =>
              simp only
              by_cases hpush : c.ch = '['
              · rw [if_pos hpush, if_pos hpush]
                have hin := ih rest depth s1 k1 hs1 hp1
                cases hS : drawLSys_points rules fuel rest depth k1 with
                | none =>
                  rw [hS] at hin
                  have : drawLSys L rules fuel rest depth s1 = none := hin
                  rw [this]
                  rfl
                | some res2 =>
                  obtain ⟨cur, k2⟩ := res2
                  rw [hS] at hin
                  obtain ⟨s2, hR2, hs2, hp2⟩ := hin
                  rw [hR2]
                  cases cur with
                  | nil => rfl
                  | cons close after =>
                    simp only
                    exact ih after depth (restore_saved s1 s2) k2
                      (angle_ok_restore hs1 (hp2.1.trans hp1.1.symm)
                        (hp2.2.1.trans hp1.2.1.symm) (hp2.2.2.1.trans hp1.2.2.1.symm)
                        (hp2.2.2.2.1.trans hp1.2.2.2.1.symm))
                      (points_added_restore hp2)
              · rw [if_neg hpush, if_neg hpush]
                exact ih rest depth s1 k1 hs1 hp1
          · rw [if_neg hrun, if_neg hrun]
            exact ih rest depth s1 k1 hs1 hp1

theorem cursor_at_length (cmds : List lsys_cmd) :
    ∀ (m : Nat) (cur : List lsys_cmd), cursor_at m cmds = some cur → cur.length ≤ cmds.length := by
  induction cmds with
  | nil =>
    intro m cur h
    rw [cursor_at] at h
    by_cases hm : m = 0
    · rw [if_pos hm] at h
      injection h with h
      rw [← h]
    · rw [if_neg hm] at h
      exact absurd h (by simp)
  | cons c rest ih =>
    intro m cur h
    rw [cursor_at] at h
    rw [List.length_cons]
    by_cases h1 : c.ch = ']'
    · rw [if_pos h1] at h
      by_cases hm : m = 0
      · rw [if_pos hm] at h
        injection h with h
        rw [← h, List.length_cons]
      · rw [if_neg hm] at h
        exact Nat.le_succ_of_le (ih _ cur h)
    · rw [if_neg h1] at h
      by_cases h2 : c.f = none ∧ c.ch = '['
      · rw [if_pos h2] at h
        exact Nat.le_succ_of_le (ih _ cur h)
      · rw [if_neg h2] at h
        exact Nat.le_succ_of_le (ih _ cur h)

theorem cursor_at_after (cmds : List lsys_cmd) :
    ∀ (m lvl : Nat) (close : lsys_cmd) (after : List lsys_cmd),
      cursor_at m cmds = some (close :: after) →
      close.ch = ']' ∧ cursor_at (m + lvl + 1) cmds = cursor_at lvl after := by
  induction cmds with
  | nil =>
    intro m lvl close after h
    rw [cursor_at] at h
    by_cases hm : m = 0
    · rw [if_pos hm] at h
      exact absurd h (by simp)
    · rw [if_neg hm] at h
      exact absurd h (by simp)
  | cons c rest ih =>
    intro m lvl close after h
    rw [cursor_at] at h
    rw [cursor_at]
    by_cases h1 : c.ch = ']'
    · rw [if_pos h1] at h
      rw [if_pos h1, if_neg (by omega)]
      by_cases hm : m = 0
      · rw [if_pos hm] at h
        injection h with h
        injection h with ha hb
        subst hm
        rw [← ha, ← hb]
        exact ⟨h1, by rw [Nat.zero_add, Nat.add_sub_cancel]⟩
      · rw [if_neg hm] at h
        obtain ⟨e1, e2⟩ := ih (m - 1) lvl close after h
        refine ⟨e1, ?_⟩
        rw [← e2]
        congr 1
        omega
    · rw [if_neg h1] at h
      rw [if_neg h1]
      by_cases h2 : c.f = none ∧ c.ch = '['
      · rw [if_pos h2] at h
        rw [if_pos h2]
        obtain ⟨e1, e2⟩ := ih (m + 1) lvl close after h
        refine ⟨e1, ?_⟩
        rw [← e2]
        congr 1
        omega
      · rw [if_neg h2] at h
        rw [if_neg h2]
        exact ih m lvl close after h

theorem cursor_at_exists (cmds : List lsys_cmd) :
    ∀ (m lvl : Nat) (cur : List lsys_cmd), cursor_at (m + lvl + 1) cmds = some cur →
      ∃ close after, cursor_at m cmds = some (close :: after) := by
  induction cmds with
  | nil =>
    intro m lvl cur h
    rw [cursor_at, if_neg (by omega)] at h
    exact absurd h (by simp)
  | cons c rest ih =>
    intro m lvl cur h
    rw [cursor_at] at h
    rw [cursor_at]
    by_cases h1 : c.ch = ']'
    · rw [if_pos h1, if_neg (by omega)] at h
      rw [if_pos h1]
      by_cases hm : m = 0
      · rw [if_pos hm]
        exact ⟨c, rest, rfl⟩
      · rw [if_neg hm]
        apply ih (m - 1) lvl cur
        rw [← h]
        congr 1
        omega
    · rw [if_neg h1] at h
      rw [if_neg h1]
      by_cases h2 : c.f = none ∧ c.ch = '['
      · rw [if_pos h2] at h
        rw [if_pos h2]
        apply ih (m + 1) lvl cur
        rw [← h]
        congr 1
        omega
      · rw [if_neg h2] at h
        rw [if_neg h2]
        exact ih m lvl cur h

theorem expand_fold_points (rules : List (List lsys_cmd)) (ch : Char)
    (expS : List lsys_cmd → Nat → Option (List lsys_cmd × Nat))
    (h : ∀ r ∈ rules, ∀ k, ∃ cur k1, expS r.tail k = some (cur, k1)) :
    ∀ (rs : List (List lsys_cmd)), (∀ r ∈ rs, r ∈ rules) → ∀ (tran : Bool) (k : Nat),
      ∃ k1, rs.foldl (expand_rule expS ch) (some (tran, k))
        = some (tran || !(matching_bodies rs ch).isEmpty, k1) := by
  intro rs
  induction rs with
  | nil =>
    intro _ tran k
    exact ⟨k, by simp [matching_bodies]⟩
  | cons r rs ih =>
    intro hsub tran k
    rw [List.foldl_cons]
    by_cases hn : rule_name r = some ch
    · obtain ⟨cur, k1, he⟩ := h r (hsub r (List.mem_cons_self _ _)) k
      rw [expand_rule_pos_some expS ch tran k r hn cur k1 he]
      obtain ⟨k2, e⟩ := ih (fun x hx => hsub x (List.mem_cons_of_mem _ hx)) true k1
      refine ⟨k2, ?_⟩
      rw [e]
      have hm : matching_bodies (r :: rs) ch = r.tail :: matching_bodies rs ch := by
        simp only [matching_bodies, List.filter_cons, hn, decide_True, if_true, List.map_cons]
      rw [hm]
      simp
    · rw [expand_rule_neg expS ch tran k r hn]
      obtain ⟨k2, e⟩ := ih (fun x hx => hsub x (List.mem_cons_of_mem _ hx)) tran k
      refine ⟨k2, ?_⟩
      rw [e]
      have hm : matching_bodies (r :: rs) ch = matching_bodies rs ch := by
        simp only [matching_bodies, List.filter_cons, hn, decide_False]
        rfl
      rw [hm]

theorem drawLSys_points_returns (rules : List (List lsys_cmd)) (B : Nat)
    (hB : ∀ r ∈ rules, r.tail.length ≤ B)
    (hclosed : ∀ r ∈ rules, brackets_closed r.tail) :
    ∀ (depth n : Nat) (cmds : List lsys_cmd) (k fuel : Nat), cmds.length ≤ n →
      cmds.length + 1 + depth * (B + 1) ≤ fuel →
      (∀ cur, (depth = 0 ∨ matching_bodies rules '[' = []) → cursor_at 0 cmds = some cur →
        ∃ k1, drawLSys_points rules fuel cmds depth k = some (cur, k1)) ∧
      (¬ (depth = 0 ∨ matching_bodies rules '[' = []) →
        ∃ cur k1, drawLSys_points rules fuel cmds depth k = some (cur, k1)) := by
  intro depth
  induction depth with
  | zero =>
    intro n
    induction n with
    | zero =>
      intro cmds k fuel hn hf
      have : cmds = [] := List.length_eq_zero.mp (Nat.le_zero.mp hn)
      subst this
      obtain ⟨fuel, rfl⟩ : ∃ f, fuel = f + 1 := ⟨fuel - 1, by simp at hf; omega⟩
      refine ⟨?_, fun h => absurd (Or.inl rfl) h⟩
      intro cur _ hc
      simp only [cursor_at, if_true] at hc
      injection hc with hc
      subst hc
      exact ⟨k, rfl⟩
    | succ n ih =>
      intro cmds k fuel hn hf
      refine ⟨?_, fun h => absurd (Or.inl rfl) h⟩
      intro cur hmode hc
      cases cmds with
      | nil => exact (ih [] k fuel (Nat.zero_le _) hf).1 cur hmode hc
      | cons c rest =>
        simp only [List.length_cons] at hn hf
        obtain ⟨fuel, rfl⟩ : ∃ f, fuel = f + 1 := ⟨fuel - 1, by omega⟩
        rw [cursor_at] at hc
        rw [drawLSys_points]
        by_cases h1 : c.ch = ']'
        · rw [if_pos h1, if_pos rfl] at hc
          rw [if_pos h1]
          injection hc with hc
          subst hc
          exact ⟨k, rfl⟩
        · rw [if_neg h1] at hc
          rw [if_neg h1]
          simp only [ne_eq, not_true_eq_false, if_false, true_or, if_true]
          cases hf1 : c.f with
          | some f =>
            rw [if_neg (by rw [hf1]; simp)] at hc
            exact (ih rest _ fuel (by omega) (by omega)).1 cur hmode hc
          | none =>
            simp only
            by_cases hpush : c.ch = '['
            · rw [if_pos ⟨hf1, hpush⟩] at hc
              rw [if_pos hpush]
              obtain ⟨close, after, e0⟩ := cursor_at_exists rest 0 0 cur hc
              have e1 := (cursor_at_after rest 0 0 close after e0).2
              rw [hc] at e1
              have hlen := cursor_at_length rest 0 _ e0
              simp only [List.length_cons] at hlen
              obtain ⟨k1, r1⟩ := (ih rest k fuel (by omega) (by omega)).1 (close :: after) hmode e0
              rw [r1]
              simp only
              exact (ih after k1 fuel (by omega) (by omega)).1 cur hmode e1.symm
            · rw [if_neg (by rw [hf1]; simp [hpush])] at hc
              rw [if_neg hpush]
              exact (ih rest _ fuel (by omega) (by omega)).1 cur hmode hc
  | succ depth ihd =>
    have hbody : ∀ (fuel : Nat), B + 1 + depth * (B + 1) ≤ fuel → ∀ r ∈ rules, ∀ k0,
        ∃ cur k1, drawLSys_points rules fuel r.tail depth k0 = some (cur, k1) := by
      intro fuel hfuel r hr k0
      have both := ihd r.tail.length r.tail k0 fuel (le_refl _) (by have := hB r hr; omega)
      by_cases hmode : depth = 0 ∨ matching_bodies rules '[' = []
      · obtain ⟨cur0, hcur0⟩ := Option.ne_none_iff_exists'.mp (hclosed r hr)
        obtain ⟨k2, e2⟩ := both.1 cur0 hmode hcur0
        exact ⟨cur0, k2, e2⟩
      · exact both.2 hmode
    intro n
    induction n with
    | zero =>
      intro cmds k fuel hn hf
      have : cmds = [] := List.length_eq_zero.mp (Nat.le_zero.mp hn)
      subst this
      obtain ⟨fuel, rfl⟩ : ∃ f, fuel = f + 1 := ⟨fuel - 1, by simp at hf; omega⟩
      refine ⟨?_, fun _ => ⟨[], k, rfl⟩⟩
      intro cur _ hc
      simp only [cursor_at, if_true] at hc
      injection hc with hc
      subst hc
      exact ⟨k, rfl⟩
    | succ n ih =>
      intro cmds k fuel hn hf
      cases cmds with
      | nil => exact ih [] k fuel (Nat.zero_le _) hf
      | cons c rest =>
        simp only [List.length_cons] at hn hf
        obtain ⟨fuel, rfl⟩ : ∃ f, fuel = f + 1 := ⟨fuel - 1, by omega⟩
        have hfuel : B + 1 + depth * (B + 1) ≤ fuel := by
          have : (depth + 1) * (B + 1) = depth * (B + 1) + (B + 1) := Nat.succ_mul _ _
          omega
        obtain ⟨k1, he⟩ := expand_fold_points rules c.ch
          (fun body k1 => drawLSys_points rules fuel body (depth + 1 - 1) k1)
          (hbody fuel hfuel) rules (fun r hr => hr) false k
        rw [Bool.false_or] at he
        have hrest := ih rest
        constructor
        · intro cur hmode hc
          have hnil : matching_bodies rules '[' = [] := by
            rcases hmode with h | h
            · exact absurd h (Nat.succ_ne_zero _)
            · exact h
          rw [cursor_at] at hc
          rw [drawLSys_points]
          by_cases h1 : c.ch = ']'
          · rw [if_pos h1, if_pos rfl] at hc
            rw [if_pos h1]
            injection hc with hc
            subst hc
            exact ⟨k, rfl⟩
          · rw [if_neg h1] at hc
            rw [if_neg h1]
            simp only [ne_eq, Nat.succ_ne_zero, not_false_eq_true, if_true, he, false_or]
            by_cases htr : (!(matching_bodies rules c.ch).isEmpty) = false
            · rw [if_pos htr]
              cases hf1 : c.f with
              | some f =>
                rw [if_neg (by rw [hf1]; simp)] at hc
                exact (hrest _ fuel (by omega) (by omega)).1 cur hmode hc
              | none =>
                simp only
                by_cases hpush : c.ch = '['
                · rw [if_pos ⟨hf1, hpush⟩] at hc
                  rw [if_pos hpush]
                  obtain ⟨close, after, e0⟩ := cursor_at_exists rest 0 0 cur hc
                  have e1 := (cursor_at_after rest 0 0 close after e0).2
                  rw [hc] at e1
                  have hlen := cursor_at_length rest 0 _ e0
                  simp only [List.length_cons] at hlen
                  obtain ⟨k2, r1⟩ := (hrest k1 fuel (by omega) (by omega)).1 (close :: after)
                    hmode e0
                  rw [r1]
                  simp only
                  exact (ih after k2 fuel (by omega) (by omega)).1 cur hmode e1.symm
                · rw [if_neg (by rw [hf1]; simp [hpush])] at hc
                  rw [if_neg hpush]
                  exact (hrest _ fuel (by omega) (by omega)).1 cur hmode hc
            · rw [if_neg htr]
              have hnp : ¬ (c.f = none ∧ c.ch = '[') := by
                intro hp
                apply htr
                rw [hp.2, hnil]
                rfl
              rw [if_neg hnp] at hc
              exact (hrest _ fuel (by omega) (by omega)).1 cur hmode hc
        · intro hmode
          have hsome : matching_bodies rules '[' ≠ [] := fun h => hmode (Or.inr h)
          rw [drawLSys_points]
          by_cases h1 : c.ch = ']'
          · rw [if_pos h1]
            exact ⟨c :: rest, k, rfl⟩
          · rw [if_neg h1]
            simp only [ne_eq, Nat.succ_ne_zero, not_false_eq_true, if_true, he, false_or]
            by_cases htr : (!(matching_bodies rules c.ch).isEmpty) = false
            · rw [if_pos htr]
              cases hf1 : c.f with
              | some f => exact (hrest _ fuel (by omega) (by omega)).2 hmode
              | none =>
                simp only
                have hpush : ¬ c.ch = '[' := by
                  intro hp
                  rw [hp] at htr
                  apply hsome
                  simpa using htr
                rw [if_neg hpush]
                exact (hrest _ fuel (by omega) (by omega)).2 hmode
            · rw [if_neg htr]
              exact (hrest _ fuel (by omega) (by omega)).2 hmode

theorem drawLSys_points_closed (rules : List (List lsys_cmd)) (B : Nat)
    (hB : ∀ r ∈ rules, r.tail.length ≤ B)
    (hclosed : ∀ r ∈ rules, brackets_closed r.tail)
    (depth : Nat) (cmds : List lsys_cmd) (k fuel : Nat) (hc : brackets_closed cmds)
    (hf : cmds.length + 1 + depth * (B + 1) ≤ fuel) :
    ∃ cur k1, drawLSys_points rules fuel cmds depth k = some (cur, k1) := by
  have both := drawLSys_points_returns rules B hB hclosed depth cmds.length cmds k fuel
    (le_refl _) hf
  by_cases hmode : depth = 0 ∨ matching_bodies rules '[' = []
  · obtain ⟨cur, hcur⟩ := Option.ne_none_iff_exists'.mp hc
    obtain ⟨k1, e⟩ := both.1 cur hmode hcur
    exact ⟨cur, k1, e⟩
  · exact both.2 hmode

theorem drawLSys_of_points (L : libm) (rules : List (List lsys_cmd)) (fuel : Nat)
    (cmds : List lsys_cmd) (depth : Nat) (st : lsys_state) (hst : angle_ok st)
    (cur : List lsys_cmd) (k : Nat) (h : drawLSys_points rules fuel cmds depth 0 = some (cur, k)) :
    ∃ st1, drawLSys L rules fuel cmds depth st = some (cur, st1) ∧ angle_ok st1 ∧
      points_added st st1 k := by
  have := drawLSys_same_run L rules st fuel cmds depth st 0 hst (points_added_refl st)
  rw [h] at this
  exact this

theorem drawLSys_closed_returns (L : libm) (rules : List (List lsys_cmd)) (B : Nat)
    (hB : ∀ r ∈ rules, r.tail.length ≤ B)
    (hclosed : ∀ r ∈ rules, brackets_closed r.tail)
    (depth : Nat) (cmds cur : List lsys_cmd) (st : lsys_state) (fuel : Nat) (hst : angle_ok st)
    (hmode : depth = 0 ∨ matching_bodies rules '[' = [])
    (hc : cursor_at 0 cmds = some cur) (hf : cmds.length + 1 + depth * (B + 1) ≤ fuel) :
    ∃ st1 k, drawLSys L rules fuel cmds depth st = some (cur, st1) ∧ angle_ok st1 ∧
      points_added st st1 k ∧ drawLSys_points rules fuel cmds depth 0 = some (cur, k) := by
  obtain ⟨k, hk⟩ := (drawLSys_points_returns rules B hB hclosed depth cmds.length cmds 0
    fuel (le_refl _) hf).1 cur hmode hc
  obtain ⟨st1, h1, h2, h3⟩ := drawLSys_of_points L rules fuel cmds depth st hst cur k hk
  exact ⟨st1, k, h1, h2, h3, hk⟩

theorem fill_tables_ok (L : libm) (st : lsys_state) (h1 : st.maxangle ≤ 50)
    (h2 : st.sins.length = 50) (h3 : st.coss.length = 50) :
    ∃ st1, fill_tables L st = some st1 ∧ st1.sins.length = 50 ∧ st1.coss.length = 50 ∧
      st1.maxangle = st.maxangle ∧ st1.dmaxangle = st.dmaxangle ∧
      st1.currentnode = st.currentnode ∧ st1.outputfile = st.outputfile := by
  have hn : ¬ (st.maxangle > 50 ∨ st.sins.length ≠ 50 ∨ st.coss.length ≠ 50) := by
    rw [h2, h3]; omega
  exact ⟨{ st with
      sins := (List.range 50).map (fun (i : Nat) =>
        if (i : Int) < st.maxangle then L.sin (2 * (i : ℚ) * PI / (st.maxangle : ℚ))
        else st.sins.getD i 0)
      coss := (List.range 50).map (fun (i : Nat) =>
        if (i : Int) < st.maxangle then L.cos (2 * (i : ℚ) * PI / (st.maxangle : ℚ))
        else st.coss.getD i 0) },
    by rw [fill_tables, if_neg hn], by simp, by simp, rfl, rfl, rfl, rfl⟩

theorem findscale_ok (L : libm) (fuel : Nat) (command : List lsys_cmd)
    (rules : List (List lsys_cmd)) (depth : Nat) (st : lsys_state)
    (h0 : 0 < st.maxangle) (h1 : st.maxangle ≤ 50) (hd : st.dmaxangle = st.maxangle - 1)
    (h2 : st.sins.length = 50) (h3 : st.coss.length = 50)
    (cur : List lsys_cmd) (k : Nat)
    (hp : drawLSys_points rules fuel command depth 0 = some (cur, k)) :
    ∃ st1, findscale L fuel command rules depth st = some st1 ∧ st1.sins.length = 50 ∧
      st1.coss.length = 50 ∧ st1.maxangle = st.maxangle ∧ st1.dmaxangle = st.dmaxangle ∧
      st1.currentnode = st.currentnode + k ∧
      st1.outputfile.map Prod.fst = st.outputfile.map Prod.fst ++ List.range' st.currentnode k := by
  obtain ⟨t, ht, t1, t2, t3, t4, t5, t6⟩ := fill_tables_ok L st h1 h2 h3
  have hok : angle_ok { t with
      xpos := 0, ypos := 0, lsys_Xmin := 0, lsys_Xmax := 0, lsys_Ymax := 0, lsys_Ymin := 0,
      angle := 0, reverse := 0, realangle := 0, counter := 0, size := 1 } :=
    ⟨le_refl _, by show 0 < t.maxangle; rw [t3]; exact h0, by show t.maxangle ≤ 50; rw [t3]; exact h1,
      by show t.dmaxangle = t.maxangle - 1; rw [t3, t4]; exact hd, t1, t2⟩
  obtain ⟨s2, e2, ok2, p2⟩ := drawLSys_of_points L rules fuel command depth _ hok cur k hp
  obtain ⟨q1, q2, q3, q4, q5, q6⟩ := p2
  simp only at q1 q2 q3 q4 q5 q6
  refine ⟨_, by rw [findscale, ht]; simp only; rw [e2], ?_, ?_, ?_, ?_, ?_, ?_⟩
  · show s2.sins.length = 50
    rw [q3]; exact t1
  · show s2.coss.length = 50
    rw [q4]; exact t2
  · show s2.maxangle = st.maxangle
    rw [q1]; exact t3
  · show s2.dmaxangle = st.dmaxangle
    rw [q2]; exact t4
  · show s2.currentnode = st.currentnode + k
    rw [q5, t5]
  · show s2.outputfile.map Prod.fst = _
    rw [q6, t5, t6]

theorem Lsystem_of_points (L : libm) (fuel order : Nat) (maxangle : Int)
    (ruleptrs : List (List Char)) (c0 c1 : List lsys_cmd) (rs0 rs1 : List (List lsys_cmd))
    (hang : 3 ≤ maxangle ∧ maxangle ≤ 50)
    (hsize : compile_rules (SizeTransform L) ruleptrs = some (c0 :: rs0))
    (hdraw : compile_rules (DrawTransform L) ruleptrs = some (c1 :: rs1))
    (cur0 cur1 : List lsys_cmd) (k0 k1 : Nat)
    (hp0 : drawLSys_points rs0 fuel c0 order 0 = some (cur0, k0))
    (hp1 : drawLSys_points rs1 fuel c1 order 0 = some (cur1, k1)) :
    ∃ out, Lsystem L fuel order maxangle ruleptrs = some (k0 + k1, out) ∧
      out.map Prod.fst = List.range (k0 + k1) := by
  have hne : ruleptrs ≠ [] := by
    intro h
    rw [h] at hsize
    exact absurd hsize (by simp [compile_rules])
  have hcond : ¬ (ruleptrs = [] ∨ maxangle < 3 ∨ maxangle > 50) := by
    intro h
    rcases h with h | h | h
    · exact hne h
    · omega
    · omega
  obtain ⟨t, ht, t1, t2, t3, t4, t5, t6⟩ := fill_tables_ok L
    { lsys_start with
      currentnode := 0, outputfile := [], maxangle := maxangle, dmaxangle := maxangle - 1 }
    hang.2 (by simp [lsys_start]) (by simp [lsys_start])
  simp only at t3 t4 t5 t6
  obtain ⟨s2, e2, a1, a2, a3, a4, a5, a6⟩ := findscale_ok L fuel c0 rs0 order t
    (by rw [t3]; omega) (by rw [t3]; omega) (by rw [t3, t4]) t1 t2 cur0 k0 hp0
  have hok : angle_ok { s2 with realangle := 0, angle := 0, reverse := 0 } :=
    ⟨le_refl _, by show 0 < s2.maxangle; rw [a3, t3]; omega,
      by show s2.maxangle ≤ 50; rw [a3, t3]; omega,
      by show s2.dmaxangle = s2.maxangle - 1; rw [a3, a4, t3, t4], a1, a2⟩
  obtain ⟨s4, e4, _, p4⟩ := drawLSys_of_points L rs1 fuel c1 order _ hok cur1 k1 hp1
  obtain ⟨_, _, _, _, q5, q6⟩ := p4
  simp only at q5 q6
  refine ⟨s4.outputfile, ?_, ?_⟩
  · rw [Lsystem, if_neg hcond]
    simp only
    rw [ht]
    simp only
    rw [hsize]
    simp only
    rw [e2]
    simp only
    rw [hdraw]
    simp only
    rw [e4]
    simp only
    rw [q5, a5, t5, Nat.zero_add]
  · rw [q6, a6, a5, t5, t6, List.map_nil, List.nil_append, Nat.zero_add]
    have := List.range'_append 0 k0 k1 1
    rw [Nat.one_mul, Nat.zero_add] at this
    rw [this, List.range_eq_range', Nat.add_comm k1 k0]

theorem expand_fold_mono (ch : Char)
    (e1 e2 : List lsys_cmd → Nat → Option (List lsys_cmd × Nat))
    (h : ∀ body k r, e1 body k = some r → e2 body k = some r) :
    ∀ (rs : List (List lsys_cmd)) (acc : Option (Bool × Nat)) (r : Bool × Nat),
      rs.foldl (expand_rule e1 ch) acc = some r → rs.foldl (expand_rule e2 ch) acc = some r := by
  intro rs
  induction rs with
  | nil => intro acc r hr; exact hr
  | cons x rs ih =>
    intro acc r hr
    rw [List.foldl_cons] at hr ⊢
    cases acc with
    | none =>
      have : expand_rule e1 ch none x = none := rfl
      rw [this, expand_rule_none] at hr
      exact absurd hr (by simp)
    | some a =>
      obtain ⟨tran, k⟩ := a
      by_cases hn : rule_name x = some ch
      · cases he : e1 x.tail k with
        | none =>
          rw [expand_rule_pos_none e1 ch tran k x hn he, expand_rule_none] at hr
          exact absurd hr (by simp)
        | some res =>
          obtain ⟨cur, k1⟩ := res
          rw [expand_rule_pos_some e1 ch tran k x hn cur k1 he] at hr
          rw [expand_rule_pos_some e2 ch tran k x hn cur k1 (h _ _ _ he)]
          exact ih _ r hr
      · rw [expand_rule_neg e1 ch tran k x hn] at hr
        rw [expand_rule_neg e2 ch tran k x hn]
        exact ih _ r hr

theorem drawLSys_points_succ (rules : List (List lsys_cmd)) :
    ∀ (fuel : Nat) (cmds : List lsys_cmd) (depth k : Nat) (r : List lsys_cmd × Nat),
      drawLSys_points rules fuel cmds depth k = some r →
      drawLSys_points rules (fuel + 1) cmds depth k = some r := by
  intro fuel
  induction fuel with
  | zero =>
    intro cmds depth k r h
    rw [drawLSys_points] at h
    exact absurd h (by simp)
  | succ fuel ih =>
    intro cmds depth k r h
    cases cmds with
    | nil => exact h
    | cons c rest =>
      rw [drawLSys_points] at h ⊢
      by_cases h1 : c.ch = ']'
      · rw [if_pos h1] at h ⊢
        exact h
      · rw [if_neg h1] at h ⊢
        simp only at h ⊢
        cases hexp : (if depth ≠ 0 then
              rules.foldl
                (expand_rule (fun body k1 => drawLSys_points rules fuel body (depth - 1) k1) c.ch)
                (some (false, k))
            else some (false, k)) with
        | none =>
          rw [hexp] at h
          exact absurd h (by simp)
        | some res =>
          obtain ⟨tran, k1⟩ := res
          have hexp2 : (if depth ≠ 0 then
              rules.foldl
                (expand_rule (fun body k1 => drawLSys_points rules (fuel + 1) body (depth - 1) k1)
                  c.ch)
                (some (false, k))
            else some (false, k)) = some (tran, k1) := by
            by_cases hd : depth ≠ 0
            · rw [if_pos hd] at hexp ⊢
              exact expand_fold_mono c.ch _ _ (fun body k2 r2 hr => ih body (depth - 1) k2 r2 hr)
                rules _ _ hexp
            · rw [if_neg hd] at hexp ⊢
              exact hexp
          rw [hexp] at h
          rw [hexp2]
          simp only at h ⊢
          by_cases hrun : depth = 0 ∨ tran = false
          · rw [if_pos hrun] at h ⊢
            cases hf : c.f with
            | some f =>
              rw [hf] at h
              simp only at h ⊢
              exact ih _ _ _ _ h
            | none =>
              rw [hf] at h
              simp only at h ⊢
              by_cases hpush : c.ch = '['
              · rw [if_pos hpush] at h ⊢
                cases hin : drawLSys_points rules fuel rest depth k1 with
                | none =>
                  rw [hin] at h
                  exact absurd h (by simp)
                | some res2 =>
                  obtain ⟨cur, k2⟩ := res2
                  rw [hin] at h
                  rw [ih _ _ _ _ hin]
                  cases cur with
                  | nil => exact absurd h (by simp)
                  | cons close after =>
                    simp only at h ⊢
                    exact ih _ _ _ _ h
              · rw [if_neg hpush] at h ⊢
                exact ih _ _ _ _ h
          · rw [if_neg hrun] at h ⊢
            exact ih _ _ _ _ h

theorem drawLSys_points_mono (rules : List (List lsys_cmd)) (fuel : Nat) (cmds : List lsys_cmd)
    (depth k : Nat) (r : List lsys_cmd × Nat)
    (h : drawLSys_points rules fuel cmds depth k = some r) :
    ∀ fuel1, fuel ≤ fuel1 → drawLSys_points rules fuel1 cmds depth k = some r := by
  intro fuel1 hle
  induction hle with
  | refl => exact h
  | step _ ih => exact drawLSys_points_succ rules _ cmds depth k r ih



theorem tree_rules_compiled (L : libm) :
    compile_rules (SizeTransform L)
        (load_rules "A".toList [('A', "F[+A][-A]F".toList)])
      = some [tree_start, tree_rule .lsys_dosizegf] ∧
    compile_rules (DrawTransform L)
        (load_rules "A".toList [('A', "F[+A][-A]F".toList)])
      = some [tree_start, tree_rule .lsys_dodrawf] ∧
    compile_rules (SizeTransform L)
        (load_rules "F".toList [('A', "F[+A][-A]F".toList)])
      = some [line_start .lsys_dosizegf, tree_rule .lsys_dosizegf] ∧
    compile_rules (DrawTransform L)
        (load_rules "F".toList [('A', "F[+A][-A]F".toList)])
      = some [line_start .lsys_dodrawf, tree_rule .lsys_dodrawf] :=
  ⟨rfl, rfl, rfl, rfl⟩

theorem tree_points (fuel : Nat) (hfuel : 20 ≤ fuel) :
    drawLSys_points [tree_rule .lsys_dosizegf] fuel tree_start 1 0 = some ([], 0) ∧
    drawLSys_points [tree_rule .lsys_dodrawf] fuel tree_start 1 0 = some ([], 2) ∧
    drawLSys_points [tree_rule .lsys_dosizegf] fuel tree_start 2 0 = some ([], 0) ∧
    drawLSys_points [tree_rule .lsys_dodrawf] fuel tree_start 2 0 = some ([], 6) :=
  ⟨drawLSys_points_mono _ 20 _ _ _ _ (by decide) fuel hfuel,
   drawLSys_points_mono _ 20 _ _ _ _ (by decide) fuel hfuel,
   drawLSys_points_mono _ 20 _ _ _ _ (by decide) fuel hfuel,
   drawLSys_points_mono _ 20 _ _ _ _ (by decide) fuel hfuel⟩

theorem line_points (f : lsys_fn) (g : lsys_fn) (order : Nat) (fuel : Nat) (hfuel : 2 ≤ fuel) :
    drawLSys_points [tree_rule g] fuel (line_start f) order 0
      = some ([], draw_calls (some f)) := by
  apply drawLSys_points_mono _ 2 _ _ _ _ _ fuel hfuel
  have hname : ¬ rule_name (tree_rule g) = some 'f' := by
    show ¬ some 'a' = some 'f'
    decide
  have hclose : ¬ ('f' = ']') := by decide
  rw [line_start, drawLSys_points]
  simp only
  rw [if_neg hclose]
  by_cases hd : order ≠ 0
  · rw [if_pos hd, List.foldl_cons, List.foldl_nil, expand_rule_neg _ _ _ _ _ hname]
    simp only [or_true, if_true, Nat.zero_add]
    rfl
  · rw [if_neg hd]
    simp only [or_true, if_true, Nat.zero_add]
    rfl

theorem SizeTransform_switch_eq (c : Char) :
    SizeTransform_switch c = ((DrawTransform_switch c).1.map size_fn, (DrawTransform_switch c).2) := by
  unfold SizeTransform_switch DrawTransform_switch
  by_cases h0 : c = '+'
  · rw [if_pos h0, if_pos h0]; rfl
  rw [if_neg h0, if_neg h0]
  by_cases h1 : c = '-'
  · rw [if_pos h1, if_pos h1]; rfl
  rw [if_neg h1, if_neg h1]
  by_cases h2 : c = '/'
  · rw [if_pos h2, if_pos h2]; rfl
  rw [if_neg h2, if_neg h2]
  by_cases h3 : c = '\\'
  · rw [if_pos h3, if_pos h3]; rfl
  rw [if_neg h3, if_neg h3]
  by_cases h4 : c = '@'
  · rw [if_pos h4, if_pos h4]; rfl
  rw [if_neg h4, if_neg h4]
  by_cases h5 : c = '|'
  · rw [if_pos h5, if_pos h5]; rfl
  rw [if_neg h5, if_neg h5]
  by_cases h6 : c = '!'
  · rw [if_pos h6, if_pos h6]; rfl
  rw [if_neg h6, if_neg h6]
  by_cases h7 : c = 'd'
  · rw [if_pos h7, if_pos h7]; rfl
  rw [if_neg h7, if_neg h7]
  by_cases h8 : c = 'm'
  · rw [if_pos h8, if_pos h8]; rfl
  rw [if_neg h8, if_neg h8]
  by_cases h9 : c = 'g'
  · rw [if_pos h9, if_pos h9]; rfl
  rw [if_neg h9, if_neg h9]
  by_cases h10 : c = 'f'
  · rw [if_pos h10, if_pos h10]; rfl
  rw [if_neg h10, if_neg h10]
  by_cases h11 : c = '['
  · rw [if_pos h11]; rfl
  rw [if_neg h11]
  by_cases h12 : c = ']'
  · rw [if_pos h12]; rfl
  rw [if_neg h12]
  rfl

theorem transform_loop_size (L : libm) :
    ∀ (fuel : Nat) (s : List Char),
      transform_loop L SizeTransform_switch fuel s
        = (transform_loop L DrawTransform_switch fuel s).map (List.map size_cmd) := by
  intro fuel
  induction fuel with
  | zero => intro s; rfl
  | succ fuel ih =>
    intro s
    cases s with
    | nil => rfl
    | cons c cs =>
      rw [transform_loop, transform_loop]
      by_cases hnum : c = '/' ∨ c = '\\' ∨ c = '@'
      · rw [if_pos hnum, if_pos hnum]
        cases hg : getnumber L cs with
        | none => rfl
        | some res =>
          obtain ⟨num, rest⟩ := res
          simp only
          rw [ih rest]
          cases transform_loop L DrawTransform_switch fuel rest with
          | none => rfl
          | some cmds =>
            simp only [Option.map_some', List.map_cons, size_cmd, SizeTransform_switch_eq]
      · rw [if_neg hnum, if_neg hnum, ih cs]
        cases transform_loop L DrawTransform_switch fuel cs with
        | none => rfl
        | some cmds =>
          simp only [Option.map_some', List.map_cons, size_cmd, SizeTransform_switch_eq]

theorem compile_rules_size (L : libm) :
    ∀ (ruleptrs : List (List Char)),
      compile_rules (SizeTransform L) ruleptrs
        = (compile_rules (DrawTransform L) ruleptrs).map (List.map (List.map size_cmd)) := by
  intro ruleptrs
  induction ruleptrs with
  | nil => rfl
  | cons s rest ih =>
    rw [compile_rules, compile_rules, ih]
    have : SizeTransform L s = (DrawTransform L s).map (List.map size_cmd) :=
      transform_loop_size L _ s
    rw [this]
    cases DrawTransform L s with
    | none => rfl
    | some a =>
      cases compile_rules (DrawTransform L) rest with
      | none => rfl
      | some b => rfl

theorem draw_calls_size (f : Option lsys_fn) : draw_calls (f.map size_fn) = 0 := by
  cases f with
  | none => rfl
  | some g => cases g <;> rfl

theorem rule_name_size (r : List lsys_cmd) : rule_name (r.map size_cmd) = rule_name r := by
  cases r with
  | nil => rfl
  | cons c cs => rfl

theorem expand_fold_size (ch : Char)
    (e1 e2 : List lsys_cmd → Nat → Option (List lsys_cmd × Nat))
    (h : ∀ body k cur k1, e1 body k = some (cur, k1) →
      ∀ k0, e2 (body.map size_cmd) k0 = some (cur.map size_cmd, k0)) :
    ∀ (rs : List (List lsys_cmd)) (tran t : Bool) (k k1 k0 : Nat),
      rs.foldl (expand_rule e1 ch) (some (tran, k)) = some (t, k1) →
      (rs.map (List.map size_cmd)).foldl (expand_rule e2 ch) (some (tran, k0)) = some (t, k0) := by
  intro rs
  induction rs with
  | nil =>
    intro tran t k k1 k0 hr
    simp only [List.foldl_nil, Option.some.injEq, Prod.mk.injEq] at hr
    rw [← hr.1]
    rfl
  | cons x rs ih =>
    intro tran t k k1 k0 hr
    rw [List.map_cons, List.foldl_cons]
    rw [List.foldl_cons] at hr
    by_cases hn : rule_name x = some ch
    · cases he : e1 x.tail k with
      | none =>
        rw [expand_rule_pos_none e1 ch tran k x hn he, expand_rule_none] at hr
        exact absurd hr (by simp)
      | some res =>
        obtain ⟨cur, k2⟩ := res
        rw [expand_rule_pos_some e1 ch tran k x hn cur k2 he] at hr
        have h2 := h x.tail k cur k2 he k0
        rw [List.map_tail] at h2
        rw [expand_rule_pos_some e2 ch tran k0 (x.map size_cmd) (by rw [rule_name_size]; exact hn)
          (cur.map size_cmd) k0 h2]
        exact ih _ _ _ _ _ hr
    · rw [expand_rule_neg e1 ch tran k x hn] at hr
      rw [expand_rule_neg e2 ch tran k0 (x.map size_cmd) (by rw [rule_name_size]; exact hn)]
      exact ih _ _ _ _ _ hr

theorem drawLSys_points_size (rules : List (List lsys_cmd)) :
    ∀ (fuel : Nat) (cmds : List lsys_cmd) (depth k : Nat) (cur : List lsys_cmd) (k1 : Nat),
      drawLSys_points rules fuel cmds depth k = some (cur, k1) →
      ∀ k0, drawLSys_points (rules.map (List.map size_cmd)) fuel (cmds.map size_cmd) depth k0
        = some (cur.map size_cmd, k0) := by
  intro fuel
  induction fuel with
  | zero =>
    intro cmds depth k cur k1 h
    rw [drawLSys_points] at h
    exact absurd h (by simp)
  | succ fuel ih =>
    intro cmds depth k cur k1 h k0
    cases cmds with
    | nil =>
      rw [drawLSys_points] at h
      simp only [Option.some.injEq, Prod.mk.injEq] at h
      rw [← h.1]
      rfl
    | cons c rest =>
      rw [List.map_cons, drawLSys_points]
      rw [drawLSys_points] at h
      have hch : (size_cmd c).ch = c.ch := rfl
      rw [hch]
      by_cases h1 : c.ch = ']'
      · rw [if_pos h1] at h ⊢
        simp only [Option.some.injEq, Prod.mk.injEq] at h
        rw [← h.1]
        rfl
      · rw [if_neg h1] at h ⊢
        simp only at h ⊢
        cases hexp : (if depth ≠ 0 then
              rules.foldl
                (expand_rule (fun body k1 => drawLSys_points rules fuel body (depth - 1) k1) c.ch)
                (some (false, k))
            else some (false, k)) with
        | none =>
          rw [hexp] at h
          exact absurd h (by simp)
        | some res =>
          obtain ⟨tran, k2⟩ := res
          have hexp2 : (if depth ≠ 0 then
              (rules.map (List.map size_cmd)).foldl
                (expand_rule (fun body k1 =>
                  drawLSys_points (rules.map (List.map size_cmd)) fuel body (depth - 1) k1) c.ch)
                (some (false, k0))
            else some (false, k0)) = some (tran, k0) := by
            by_cases hd : depth ≠ 0
            · rw [if_pos hd] at hexp ⊢
              exact expand_fold_size c.ch _ _
                (fun body k3 cur3 k4 hr k5 => ih body (depth - 1) k3 cur3 k4 hr k5)
                rules _ _ _ _ _ hexp
            · rw [if_neg hd] at hexp ⊢
              simp only [Option.some.injEq, Prod.mk.injEq] at hexp
              rw [← hexp.1]
          rw [hexp] at h
          rw [hexp2]
          simp only at h ⊢
          by_cases hrun : depth = 0 ∨ tran = false
          · rw [if_pos hrun] at h ⊢
            cases hf : c.f with
            | some f =>
              rw [hf] at h
              have hf2 : (size_cmd c).f = some (size_fn f) := by rw [size_cmd, hf]; rfl
              rw [hf2]
              simp only at h ⊢
              have := draw_calls_size (some f)
              rw [Option.map_some'] at this
              rw [this, Nat.add_zero]
              exact ih _ _ _ _ _ h k0
            | none =>
              rw [hf] at h
              have hf2 : (size_cmd c).f = none := by rw [size_cmd, hf]; rfl
              rw [hf2]
              simp only at h ⊢
              by_cases hpush : c.ch = '['
              · rw [if_pos hpush] at h ⊢
                cases hin : drawLSys_points rules fuel rest depth k2 with
                | none =>
                  rw [hin] at h
                  exact absurd h (by simp)
                | some res2 =>
                  obtain ⟨cur2, k3⟩ := res2
                  rw [hin] at h
                  rw [ih _ _ _ _ _ hin k0]
                  cases cur2 with
                  | nil => exact absurd h (by simp)
                  | cons close after =>
                    simp only [List.map_cons] at h ⊢
                    exact ih _ _ _ _ _ h k0
              · rw [if_neg hpush] at h ⊢
                exact ih _ _ _ _ _ h k0
          · rw [if_neg hrun] at h ⊢
            exact ih _ _ _ _ _ h k0

theorem Lsystem_of_draw_points (L : libm) (fuel order : Nat) (maxangle : Int)
    (ruleptrs : List (List Char)) (c1 : List lsys_cmd) (rs1 : List (List lsys_cmd))
    (hang : 3 ≤ maxangle ∧ maxangle ≤ 50)
    (hdraw : compile_rules (DrawTransform L) ruleptrs = some (c1 :: rs1))
    (cur : List lsys_cmd) (n : Nat)
    (hp : drawLSys_points rs1 fuel c1 order 0 = some (cur, n)) :
    ∃ out, Lsystem L fuel order maxangle ruleptrs = some (n, out) ∧
      out.map Prod.fst = List.range n := by
  have hsize : compile_rules (SizeTransform L) ruleptrs
      = some (c1.map size_cmd :: rs1.map (List.map size_cmd)) := by
    rw [compile_rules_size, hdraw]
    rfl
  have := Lsystem_of_points L fuel order maxangle ruleptrs _ c1 _ rs1 hang hsize hdraw
    (cur.map size_cmd) cur 0 n (drawLSys_points_size rs1 fuel c1 order 0 cur n hp 0) hp
  rw [Nat.zero_add] at this
  exact this

theorem expand_fold_no_match {σ : Type}
    (expand : List lsys_cmd → σ → Option (List lsys_cmd × σ)) (ch : Char) :
    ∀ (rs : List (List lsys_cmd)) (acc : Option (Bool × σ)),
      (∀ x ∈ rs, rule_name x ≠ some ch) → rs.foldl (expand_rule expand ch) acc = acc := by
  intro rs
  induction rs with
  | nil => intro acc _; rfl
  | cons r rs ih =>
    intro acc h
    rw [List.foldl_cons]
    cases acc with
    | none => exact expand_rule_none expand ch rs
    | some a =>
      obtain ⟨tran, s⟩ := a
      rw [expand_rule_neg expand ch tran s r (h r (List.mem_cons_self _ _))]
      exact ih _ (fun x hx => h x (List.mem_cons_of_mem _ hx))

theorem expand_fold_bodies (L : libm) (rules : List (List lsys_cmd)) (fuel depth : Nat)
    (ch : Char) :
    ∀ (rs : List (List lsys_cmd)) (tran : Bool) (st : lsys_state),
      rs.foldl (expand_rule (fun body s => drawLSys L rules fuel body depth s) ch) (some (tran, st))
        = (expand_bodies L rules fuel depth (matching_bodies rs ch) st).map
            (fun s => (tran || !(matching_bodies rs ch).isEmpty, s)) := by
  intro rs
  induction rs with
  | nil =>
    intro tran st
    simp [matching_bodies, expand_bodies]
  | cons r rs ih =>
    intro tran st
    rw [List.foldl_cons]
    by_cases hn : rule_name r = some ch
    · have hm : matching_bodies (r :: rs) ch = r.tail :: matching_bodies rs ch := by
        simp only [matching_bodies, List.filter_cons, hn, decide_True, if_true, List.map_cons]
      rw [hm, expand_bodies]
      cases he : drawLSys L rules fuel r.tail depth st with
      | none =>
        rw [expand_rule_pos_none _ ch tran st r hn he, expand_rule_none]
        rfl
      | some res =>
        obtain ⟨cur, s1⟩ := res
        rw [expand_rule_pos_some _ ch tran st r hn cur s1 he, ih true s1]
        simp
    · have hm : matching_bodies (r :: rs) ch = matching_bodies rs ch := by
        simp only [matching_bodies, List.filter_cons, hn, decide_False]
        rfl
      rw [hm, expand_rule_neg _ ch tran st r hn]
      exact ih tran st

theorem drawLSys_depth_zero (L : libm) (rules : List (List lsys_cmd)) (fuel : Nat) (c : lsys_cmd)
    (rest : List lsys_cmd) (st : lsys_state) (hc : c.ch ≠ ']') :
    drawLSys L rules (fuel + 1) (c :: rest) 0 st = execute_command L rules fuel c rest 0 st := by
  rw [drawLSys, if_neg hc]
  simp only [ne_eq, not_true_eq_false, if_false, true_or, if_true]
  rfl

theorem drawLSys_depth_succ (L : libm) (rules : List (List lsys_cmd)) (fuel : Nat) (c : lsys_cmd)
    (rest : List lsys_cmd) (st : lsys_state) (d : Nat) (hc : c.ch ≠ ']') :
    drawLSys L rules (fuel + 1) (c :: rest) (d + 1) st =
      if (matching_bodies rules c.ch).isEmpty then execute_command L rules fuel c rest (d + 1) st
      else
        match expand_bodies L rules fuel d (matching_bodies rules c.ch) st with
        | none => none
        | some st1 => drawLSys L rules fuel rest (d + 1) st1 := by
  rw [drawLSys, if_neg hc]
  simp only [ne_eq, Nat.succ_ne_zero, not_false_eq_true, if_true, false_or, Nat.add_sub_cancel]
  rw [expand_fold_bodies L rules fuel d c.ch rules false st]
  by_cases he : (matching_bodies rules c.ch).isEmpty = true
  · rw [if_pos he]
    have hnil : matching_bodies rules c.ch = [] := List.isEmpty_iff.mp he
    rw [hnil]
    simp only [expand_bodies, Option.map_some', List.isEmpty_nil, Bool.not_true, Bool.or_self,
      if_true]
    rfl
  · rw [if_neg he]
    cases expand_bodies L rules fuel d (matching_bodies rules c.ch) st with
    | none => rfl
    | some st1 =>
      have : (false || !(matching_bodies rules c.ch).isEmpty) = true := by
        simpa using he
      simp only [Option.map_some', this]
      rfl

theorem drawLSys_none_of_points (L : libm) (rules : List (List lsys_cmd)) (fuel : Nat)
    (cmds : List lsys_cmd) (depth : Nat) (st : lsys_state) (hst : angle_ok st)
    (h : drawLSys_points rules fuel cmds depth 0 = none) :
    drawLSys L rules fuel cmds depth st = none := by
  have := drawLSys_same_run L rules st fuel cmds depth st 0 hst (points_added_refl st)
  rw [h] at this
  exact this

theorem findscale_none (L : libm) (fuel : Nat) (command : List lsys_cmd)
    (rules : List (List lsys_cmd)) (depth : Nat) (st : lsys_state)
    (h0 : 0 < st.maxangle) (h1 : st.maxangle ≤ 50) (hd : st.dmaxangle = st.maxangle - 1)
    (h2 : st.sins.length = 50) (h3 : st.coss.length = 50)
    (hp : drawLSys_points rules fuel command depth 0 = none) :
    findscale L fuel command rules depth st = none := by
  obtain ⟨t, ht, t1, t2, t3, t4, _, _⟩ := fill_tables_ok L st h1 h2 h3
  have hok : angle_ok { t with
      xpos := 0, ypos := 0, lsys_Xmin := 0, lsys_Xmax := 0, lsys_Ymax := 0, lsys_Ymin := 0,
      angle := 0, reverse := 0, realangle := 0, counter := 0, size := 1 } :=
    ⟨le_refl _, by show 0 < t.maxangle; rw [t3]; exact h0, by show t.maxangle ≤ 50; rw [t3]; exact h1,
      by show t.dmaxangle = t.maxangle - 1; rw [t3, t4]; exact hd, t1, t2⟩
  have e2 := drawLSys_none_of_points L rules fuel command depth _ hok hp
  rw [findscale, ht]
  simp only
  rw [e2]

theorem Lsystem_node_numbers (L : libm) (fuel order : Nat) (maxangle : Int)
    (ruleptrs : List (List Char)) (n : Nat) (out : List (Nat × Int × Int))
    (h : Lsystem L fuel order maxangle ruleptrs = some (n, out)) :
    out.map Prod.fst = List.range n := by
  by_cases hcond : ruleptrs = [] ∨ maxangle < 3 ∨ maxangle > 50
  · rw [Lsystem, if_pos hcond] at h
    exact absurd h (by simp)
  have hang : 3 ≤ maxangle ∧ maxangle ≤ 50 := by omega
  obtain ⟨t, ht, t1, t2, t3, t4, t5, t6⟩ := fill_tables_ok L
    { lsys_start with
      currentnode := 0, outputfile := [], maxangle := maxangle, dmaxangle := maxangle - 1 }
    hang.2 (by simp [lsys_start]) (by simp [lsys_start])
  simp only at t3 t4 t5 t6
  have h' := h
  rw [Lsystem, if_neg hcond] at h'
  simp only at h'
  rw [ht] at h'
  simp only at h'
  cases hs : compile_rules (SizeTransform L) ruleptrs with
  | none =>
    rw [hs] at h'
    exact absurd h' (by simp)
  | some arrs0 =>
    cases arrs0 with
    | nil =>
      rw [hs] at h'
      exact absurd h' (by simp)
    | cons c0 rs0 =>
      rw [hs] at h'
      simp only at h'
      cases hp0 : drawLSys_points rs0 fuel c0 order 0 with
      | none =>
        rw [findscale_none L fuel c0 rs0 order t (by rw [t3]; omega) (by rw [t3]; omega)
          (by rw [t3, t4]) t1 t2 hp0] at h'
        exact absurd h' (by simp)
      | some r0 =>
        obtain ⟨cur0, k0⟩ := r0
        obtain ⟨s2, e2, a1, a2, a3, a4, _, _⟩ := findscale_ok L fuel c0 rs0 order t
          (by rw [t3]; omega) (by rw [t3]; omega) (by rw [t3, t4]) t1 t2 cur0 k0 hp0
        rw [e2] at h'
        simp only at h'
        cases hdr : compile_rules (DrawTransform L) ruleptrs with
        | none =>
          rw [hdr] at h'
          exact absurd h' (by simp)
        | some arrs1 =>
          cases arrs1 with
          | nil =>
            rw [hdr] at h'
            exact absurd h' (by simp)
          | cons c1 rs1 =>
            rw [hdr] at h'
            simp only at h'
            have hok : angle_ok { s2 with realangle := 0, angle := 0, reverse := 0 } :=
              ⟨le_refl _, by show 0 < s2.maxangle; rw [a3, t3]; omega,
                by show s2.maxangle ≤ 50; rw [a3, t3]; omega,
                by show s2.dmaxangle = s2.maxangle - 1; rw [a3, a4, t3, t4], a1, a2⟩
            cases hp1 : drawLSys_points rs1 fuel c1 order 0 with
            | none =>
              rw [drawLSys_none_of_points L rs1 fuel c1 order _ hok hp1] at h'
              exact absurd h' (by simp)
            | some r1 =>
              obtain ⟨cur1, k1⟩ := r1
              obtain ⟨out1, e, hout⟩ := Lsystem_of_points L fuel order maxangle ruleptrs c0 c1
                rs0 rs1 hang hs hdr cur0 cur1 k0 k1 hp0 hp1
              rw [h] at e
              simp only [Option.some.injEq, Prod.mk.injEq] at e
              rw [e.1, e.2]
              exact hout

/-- C11 (amended): with the axiom `A` and the rule `A = F[+A][-A]F` the
order-1 expansion returns 2 points and the order-2 expansion 6, for every
angle count from 3 to 50 and every library; with the axiom `F`, which names
no rule, every order returns 1 point. -/
theorem C11_growth (L : libm) (maxangle : Int) (hang : 3 ≤ maxangle ∧ maxangle ≤ 50)
    (fuel : Nat) (hfuel : 20 ≤ fuel) :
    (∃ n1 n2 out1 out2,
      Lsystem L fuel 1 maxangle (load_rules "A".toList [('A', "F[+A][-A]F".toList)])
        = some (n1, out1) ∧
      Lsystem L fuel 2 maxangle (load_rules "A".toList [('A', "F[+A][-A]F".toList)])
        = some (n2, out2) ∧
      n1 = 2 ∧ n2 = 6 ∧ 1 ≤ n1 ∧ n1 < n2) ∧
    (∀ order, ∃ out,
      Lsystem L fuel order maxangle (load_rules "F".toList [('A', "F[+A][-A]F".toList)])
        = some (1, out)) := by
  obtain ⟨_, hd, _, hl⟩ := tree_rules_compiled L
  obtain ⟨_, p1, _, p2⟩ := tree_points fuel hfuel
  constructor
  · obtain ⟨out1, e1, _⟩ := Lsystem_of_draw_points L fuel 1 maxangle _ _ _ hang hd [] 2 p1
    obtain ⟨out2, e2, _⟩ := Lsystem_of_draw_points L fuel 2 maxangle _ _ _ hang hd [] 6 p2
    exact ⟨2, 6, out1, out2, e1, e2, rfl, rfl, by decide, by decide⟩
  · intro order
    obtain ⟨out, e, _⟩ := Lsystem_of_draw_points L fuel order maxangle _ _ _ hang hl [] 1
      (line_points .lsys_dodrawf .lsys_dodrawf order fuel (by omega))
    exact ⟨out, e⟩

/-- C11 witness: the stand-in library, 4 headings, a nesting bound of 20. -/
theorem C11_growth_witness :
    (∃ n1 n2 out1 out2,
      Lsystem libm_flat 20 1 4 (load_rules "A".toList [('A', "F[+A][-A]F".toList)])
        = some (n1, out1) ∧
      Lsystem libm_flat 20 2 4 (load_rules "A".toList [('A', "F[+A][-A]F".toList)])
        = some (n2, out2) ∧
      n1 = 2 ∧ n2 = 6 ∧ 1 ≤ n1 ∧ n1 < n2) ∧
    (∀ order, ∃ out,
      Lsystem libm_flat 20 order 4 (load_rules "F".toList [('A', "F[+A][-A]F".toList)])
        = some (1, out)) :=
  C11_growth libm_flat 4 (by decide) 20 (le_refl 20)

/-- C11 (as stated) fails: for the axiom `F` and the rule `A = F[+A][-A]F`
the order-1 and the order-2 expansion both return 1 point, the axiom naming
no rule; the order-2 count is not greater. -/
theorem C11_growth_counterexample :
    (∃ out1 out2,
      Lsystem libm_flat 20 1 4 (load_rules "F".toList [('A', "F[+A][-A]F".toList)])
        = some (1, out1) ∧
      Lsystem libm_flat 20 2 4 (load_rules "F".toList [('A', "F[+A][-A]F".toList)])
        = some (1, out2)) ∧
    ¬ (1 < 1) := by
  obtain ⟨_, _, _, hl⟩ := tree_rules_compiled libm_flat
  obtain ⟨out1, e1, _⟩ := Lsystem_of_draw_points libm_flat 20 1 4 _ _ _ (by decide) hl [] 1
    (line_points .lsys_dodrawf .lsys_dodrawf 1 20 (by decide))
  obtain ⟨out2, e2, _⟩ := Lsystem_of_draw_points libm_flat 20 2 4 _ _ _ (by decide) hl [] 1
    (line_points .lsys_dodrawf .lsys_dodrawf 2 20 (by decide))
  exact ⟨⟨out1, out2, e1, e2⟩, by decide⟩

/-- C12: for a file whose compiled arrays have every bracket closed,
`Lsystem` returns the number `n` of calls of `draw_line` of
the drawing pass, one per executed `f` or `d` and none for `g` or `m`, and
the lines written carry the node numbers `0, 1, ..., n-1` in order; writing
the saved variables back after a bracket leaves the counter and the lines as
they are. For every file and order on which `Lsystem` returns, the lines
carry the node numbers from 0 to the value returned. -/
theorem C12_point_counter (L : libm) (fuel order : Nat) (maxangle : Int)
    (ruleptrs : List (List Char)) (command : List lsys_cmd) (rules : List (List lsys_cmd))
    (B : Nat) (hang : 3 ≤ maxangle ∧ maxangle ≤ 50)
    (hdraw : compile_rules (DrawTransform L) ruleptrs = some (command :: rules))
    (hcommand : brackets_closed command)
    (hrules : ∀ r ∈ rules, brackets_closed r.tail ∧ r.tail.length ≤ B)
    (hfuel : command.length + 1 + order * (B + 1) ≤ fuel) :
    (∃ n out cur, Lsystem L fuel order maxangle ruleptrs = some (n, out) ∧
      out.map Prod.fst = List.range n ∧ out.length = n ∧
      drawLSys_points rules fuel command order 0 = some (cur, n)) ∧
    (draw_calls (DrawTransform_switch 'f').1 = 1 ∧ draw_calls (DrawTransform_switch 'd').1 = 1 ∧
      draw_calls (DrawTransform_switch 'g').1 = 0 ∧ draw_calls (DrawTransform_switch 'm').1 = 0) ∧
    (∀ saved st : lsys_state, (restore_saved saved st).currentnode = st.currentnode ∧
      (restore_saved saved st).outputfile = st.outputfile) ∧
    (∀ (fuel1 order1 : Nat) (maxangle1 : Int) (text : List (List Char)) (n1 : Nat)
      (out1 : List (Nat × Int × Int)),
      Lsystem L fuel1 order1 maxangle1 text = some (n1, out1) →
      out1.map Prod.fst = List.range n1) := by
  refine ⟨?_, ⟨by decide, by decide, by decide, by decide⟩, fun _ _ => ⟨rfl, rfl⟩,
    fun fuel1 order1 maxangle1 text n1 out1 h =>
      Lsystem_node_numbers L fuel1 order1 maxangle1 text n1 out1 h⟩
  obtain ⟨cur, n, hn⟩ := drawLSys_points_closed rules B (fun r hr => (hrules r hr).2)
    (fun r hr => (hrules r hr).1) order command 0 fuel hcommand hfuel
  obtain ⟨out, e, hout⟩ := Lsystem_of_draw_points L fuel order maxangle ruleptrs command rules
    hang hdraw cur n hn
  refine ⟨n, out, cur, e, hout, ?_, hn⟩
  have := congrArg List.length hout
  rw [List.length_map, List.length_range] at this
  exact this

/-- C12 witness: the axiom `A` with the rule `A = F[+A][-A]F`, order 2. -/
theorem C12_point_counter_witness :
    (∃ n out cur,
      Lsystem libm_flat 40 2 4 (load_rules "A".toList [('A', "F[+A][-A]F".toList)])
        = some (n, out) ∧
      out.map Prod.fst = List.range n ∧ out.length = n ∧
      drawLSys_points [tree_rule .lsys_dodrawf] 40 tree_start 2 0 = some (cur, n)) ∧
    (draw_calls (DrawTransform_switch 'f').1 = 1 ∧ draw_calls (DrawTransform_switch 'd').1 = 1 ∧
      draw_calls (DrawTransform_switch 'g').1 = 0 ∧ draw_calls (DrawTransform_switch 'm').1 = 0) ∧
    (∀ saved st : lsys_state, (restore_saved saved st).currentnode = st.currentnode ∧
      (restore_saved saved st).outputfile = st.outputfile) ∧
    (∀ (fuel1 order1 : Nat) (maxangle1 : Int) (text : List (List Char)) (n1 : Nat)
      (out1 : List (Nat × Int × Int)),
      Lsystem libm_flat fuel1 order1 maxangle1 text = some (n1, out1) →
      out1.map Prod.fst = List.range n1) :=
  C12_point_counter libm_flat 40 2 4 (load_rules "A".toList [('A', "F[+A][-A]F".toList)])
    tree_start [tree_rule .lsys_dodrawf] 10 (by decide) (tree_rules_compiled libm_flat).2.1
    (by unfold brackets_closed; decide)
    (by
      intro r hr
      rw [List.mem_singleton] at hr
      subst hr
      exact ⟨by unfold brackets_closed; decide, by decide⟩)
    (by decide)

/-- C13: when `drawLSys` executes a `[` (a command `[` without function, at
depth 0 or with no rule named `[`; the rule bodies have closed brackets)
whose matching `]` is `close`, followed by `after`, the nested call returns
with the cursor at `close`, the six saved variables (heading index, reversed
flag, step size, heading offset, position x and y) are written back to their
values before the `[`, and the run goes on at `after` with those values. -/
theorem C13_push_pop_restores (L : libm) (rules : List (List lsys_cmd)) (B : Nat)
    (hrules : ∀ r ∈ rules, brackets_closed r.tail ∧ r.tail.length ≤ B)
    (depth : Nat) (c : lsys_cmd) (rest : List lsys_cmd) (st : lsys_state) (fuel : Nat)
    (hc : c.f = none ∧ c.ch = '[') (hmode : depth = 0 ∨ matching_bodies rules '[' = [])
    (hb : brackets_closed (c :: rest)) (hst : angle_ok st)
    (hfuel : rest.length + 1 + depth * (B + 1) ≤ fuel) :
    ∃ close after st2, cursor_at 0 rest = some (close :: after) ∧ close.ch = ']' ∧
      drawLSys L rules fuel rest depth st = some (close :: after, st2) ∧
      (restore_saved st st2).angle = st.angle ∧ (restore_saved st st2).reverse = st.reverse ∧
      (restore_saved st st2).size = st.size ∧
      (restore_saved st st2).realangle = st.realangle ∧
      (restore_saved st st2).xpos = st.xpos ∧ (restore_saved st st2).ypos = st.ypos ∧
      drawLSys L rules (fuel + 1) (c :: rest) depth st
        = drawLSys L rules fuel after depth (restore_saved st st2) := by
  obtain ⟨cur, hcur⟩ := Option.ne_none_iff_exists'.mp hb
  have hne : ¬ c.ch = ']' := by rw [hc.2]; decide
  rw [cursor_at, if_neg hne, if_pos hc] at hcur
  obtain ⟨close, after, e0⟩ := cursor_at_exists rest 0 0 cur hcur
  have hclose := (cursor_at_after rest 0 0 close after e0).1
  obtain ⟨st2, k, e2, _, _, _⟩ := drawLSys_closed_returns L rules B (fun r hr => (hrules r hr).2)
    (fun r hr => (hrules r hr).1) depth rest (close :: after) st fuel hst hmode e0 hfuel
  refine ⟨close, after, st2, e0, hclose, e2, rfl, rfl, rfl, rfl, rfl, rfl, ?_⟩
  have hexec : execute_command L rules fuel c rest depth st
      = drawLSys L rules fuel after depth (restore_saved st st2) := by
    rw [execute_command, hc.1]
    simp only
    rw [if_pos hc.2, e2]
  cases depth with
  | zero => rw [drawLSys_depth_zero L rules fuel c rest st hne, hexec]
  | succ d =>
    have hnomatch : matching_bodies rules c.ch = [] := by
      rw [hc.2]
      rcases hmode with h | h
      · exact absurd h (Nat.succ_ne_zero _)
      · exact h
    rw [drawLSys_depth_succ L rules fuel c rest st d hne, hnomatch]
    simp only [List.isEmpty_nil, if_true]
    exact hexec

/-- C13 witness: the commands `[+f]f` at depth 1 with the rule
`a=f[+a][-a]f`, from the program's start values with 4 headings. -/
theorem C13_push_pop_restores_witness :
    ∃ close after st2,
      cursor_at 0 [⟨'+', some .lsys_doplus, 0⟩, ⟨'f', some .lsys_dodrawf, 0⟩, ⟨']', none, 2⟩,
        ⟨'f', some .lsys_dodrawf, 0⟩] = some (close :: after) ∧ close.ch = ']' ∧
      drawLSys libm_flat [tree_rule .lsys_dodrawf] 20
        [⟨'+', some .lsys_doplus, 0⟩, ⟨'f', some .lsys_dodrawf, 0⟩, ⟨']', none, 2⟩,
          ⟨'f', some .lsys_dodrawf, 0⟩] 1
        { lsys_start with maxangle := 4, dmaxangle := 3 } = some (close :: after, st2) ∧
      (restore_saved { lsys_start with maxangle := 4, dmaxangle := 3 } st2).angle
        = ({ lsys_start with maxangle := 4, dmaxangle := 3 } : lsys_state).angle ∧
      (restore_saved { lsys_start with maxangle := 4, dmaxangle := 3 } st2).reverse
        = ({ lsys_start with maxangle := 4, dmaxangle := 3 } : lsys_state).reverse ∧
      (restore_saved { lsys_start with maxangle := 4, dmaxangle := 3 } st2).size
        = ({ lsys_start with maxangle := 4, dmaxangle := 3 } : lsys_state).size ∧
      (restore_saved { lsys_start with maxangle := 4, dmaxangle := 3 } st2).realangle
        = ({ lsys_start with maxangle := 4, dmaxangle := 3 } : lsys_state).realangle ∧
      (restore_saved { lsys_start with maxangle := 4, dmaxangle := 3 } st2).xpos
        = ({ lsys_start with maxangle := 4, dmaxangle := 3 } : lsys_state).xpos ∧
      (restore_saved { lsys_start with maxangle := 4, dmaxangle := 3 } st2).ypos
        = ({ lsys_start with maxangle := 4, dmaxangle := 3 } : lsys_state).ypos ∧
      drawLSys libm_flat [tree_rule .lsys_dodrawf] (20 + 1)
        (⟨'[', none, 1⟩ :: [⟨'+', some .lsys_doplus, 0⟩, ⟨'f', some .lsys_dodrawf, 0⟩,
          ⟨']', none, 2⟩, ⟨'f', some .lsys_dodrawf, 0⟩]) 1
        { lsys_start with maxangle := 4, dmaxangle := 3 }
        = drawLSys libm_flat [tree_rule .lsys_dodrawf] 20 after 1
            (restore_saved { lsys_start with maxangle := 4, dmaxangle := 3 } st2) :=
  C13_push_pop_restores libm_flat [tree_rule .lsys_dodrawf] 10
    (by
      intro r hr
      rw [List.mem_singleton] at hr
      subst hr
      exact ⟨by unfold brackets_closed; decide, by decide⟩)
    1 ⟨'[', none, 1⟩ _ { lsys_start with maxangle := 4, dmaxangle := 3 } 20 ⟨rfl, rfl⟩
    (Or.inr (by decide)) (by unfold brackets_closed; decide)
    ⟨by decide, by decide, by decide, by decide, by decide, by decide⟩ (by decide)

/-- C14: for a command other than `]`, at depth 0 `drawLSys` executes the
command itself whatever the rules are; at depth `d + 1` a command that names
no rule is executed itself, and a command that names rules is replaced by the
bodies of those rules, expanded at depth `d` in the order of the rule array
(one body when the name is that of one rule), and is not executed. -/
theorem C14_depth_bounded_substitution (L : libm) (rules : List (List lsys_cmd)) (fuel : Nat)
    (c : lsys_cmd) (rest : List lsys_cmd) (st : lsys_state) (hc : c.ch ≠ ']') :
    drawLSys L rules (fuel + 1) (c :: rest) 0 st = execute_command L rules fuel c rest 0 st ∧
    (∀ d, matching_bodies rules c.ch = [] →
      drawLSys L rules (fuel + 1) (c :: rest) (d + 1) st
        = execute_command L rules fuel c rest (d + 1) st) ∧
    (∀ d, matching_bodies rules c.ch ≠ [] →
      drawLSys L rules (fuel + 1) (c :: rest) (d + 1) st
        = (expand_bodies L rules fuel d (matching_bodies rules c.ch) st).bind
            (fun st1 => drawLSys L rules fuel rest (d + 1) st1)) ∧
    (∀ d body, matching_bodies rules c.ch = [body] →
      drawLSys L rules (fuel + 1) (c :: rest) (d + 1) st
        = (drawLSys L rules fuel body d st).bind
            (fun r => drawLSys L rules fuel rest (d + 1) r.2)) := by
  have key : ∀ d, matching_bodies rules c.ch ≠ [] →
      drawLSys L rules (fuel + 1) (c :: rest) (d + 1) st
        = (expand_bodies L rules fuel d (matching_bodies rules c.ch) st).bind
            (fun st1 => drawLSys L rules fuel rest (d + 1) st1) := by
    intro d hne
    rw [drawLSys_depth_succ L rules fuel c rest st d hc,
      if_neg (by rw [List.isEmpty_iff]; exact hne)]
    cases expand_bodies L rules fuel d (matching_bodies rules c.ch) st <;> rfl
  refine ⟨drawLSys_depth_zero L rules fuel c rest st hc, ?_, key, ?_⟩
  · intro d hnil
    rw [drawLSys_depth_succ L rules fuel c rest st d hc, hnil]
    rfl
  · intro d body hb
    rw [key d (by rw [hb]; simp), hb]
    simp only [expand_bodies]
    cases drawLSys L rules fuel body d st with
    | none => rfl
    | some r => rfl

/-- C14 witness: the command `a` before `f` at depth 1, with the rule
`a=f[+a][-a]f`. -/
theorem C14_depth_bounded_substitution_witness :
    drawLSys libm_flat [tree_rule .lsys_dodrawf] (20 + 1)
        (⟨'a', none, 3⟩ :: line_start .lsys_dodrawf) 1 lsys_start
      = (drawLSys libm_flat [tree_rule .lsys_dodrawf] 20 (tree_rule .lsys_dodrawf).tail 0
            lsys_start).bind
          (fun r => drawLSys libm_flat [tree_rule .lsys_dodrawf] 20 (line_start .lsys_dodrawf)
            (0 + 1) r.2) :=
  (C14_depth_bounded_substitution libm_flat [tree_rule .lsys_dodrawf] 20 ⟨'a', none, 3⟩
    (line_start .lsys_dodrawf) lsys_start (by decide)).2.2.2 0 (tree_rule .lsys_dodrawf).tail
    (by decide)

/-! ## Creation, selection, naming, mutation, cut adjustment, bisection -/

/-! ### `createPopulation` -/

theorem create_ls_spec (blank : lsystem) (unit0 : ruleobj) (name0 : Char)
    (num_rules rule_length : Nat) (h : num_rules < INT_MAX) :
    ∃ ls, create_ls blank unit0 name0 num_rules rule_length = some ls ∧
      ls.numrules = num_rules + 1 ∧ ls.angle = 3 ∧ ls.computed_f = false ∧
      ls.rule = List.replicate (num_rules + 1) (List.replicate rule_length unit0) ∧
      ls.rulelength = List.replicate (num_rules + 1) rule_length ∧
      ls.startvar = List.replicate num_rules name0 := by
  have hn : ¬ INT_MAX < num_rules + 1 := by omega
  refine ⟨_, by rw [create_ls, if_neg hn], rfl, rfl, rfl, rfl, rfl, rfl⟩

theorem create_all_spec (blank : lsystem) (unit0 : ruleobj) (name0 : Char)
    (num_rules rule_size : Nat) (ls : lsystem)
    (h : create_ls blank unit0 name0 num_rules rule_size = some ls) :
    ∀ n : Nat, create_all blank unit0 name0 num_rules rule_size n = some (List.replicate n ls) := by
  intro n
  induction n with
  | zero => rfl
  | succ n ih => rw [create_all, h, ih]; rfl

/-- C21: for arguments whose sums stay in the range of `int`,
`createPopulation` returns a population whose `num_parents` is `numparents`
rounded up to even, whose `pop_size` is twice that (so the child zone
`pop_size - num_parents` has an even count), whose array holds `pop_size`
grammars, and in which every grammar has `numrules = num_rules + 1`, the
population's `numrules`, with every rule array and stored rule length equal
to `rule_size` and `computed_f = 0`. -/
theorem C21_createPopulation_shape (blank : lsystem) (unit0 : ruleobj) (name0 : Char)
    (numparents num_rules rule_size : Nat)
    (hparents : 2 * (numparents + numparents % 2) ≤ INT_MAX) (hrules : num_rules < INT_MAX) :
    ∃ pop, createPopulation blank unit0 name0 numparents num_rules rule_size = some pop ∧
      pop.num_parents % 2 = 0 ∧ pop.num_parents = numparents + numparents % 2 ∧
      pop.pop_size = 2 * pop.num_parents ∧ (pop.pop_size - pop.num_parents) % 2 = 0 ∧
      pop.ls_array.length = pop.pop_size ∧ pop.numrules = num_rules + 1 ∧
      ∀ ls ∈ pop.ls_array, ls.numrules = num_rules + 1 ∧ ls.numrules = pop.numrules ∧
        ls.rule.length = ls.numrules ∧ ls.rulelength.length = ls.numrules ∧
        (∀ len ∈ ls.rulelength, len = rule_size) ∧ (∀ r ∈ ls.rule, r.length = rule_size) ∧
        ls.startvar.length = num_rules ∧ ls.computed_f = false := by
  obtain ⟨ls, hls, h1, _, h3, h4, h5, h6⟩ :=
    create_ls_spec blank unit0 name0 num_rules rule_size hrules
  have hn : ¬ INT_MAX < num_rules + 1 := by omega
  have hsize : ¬ INT_MAX < (if numparents % 2 = 1 then numparents + numparents + 2
      else numparents + numparents) := by
    split_ifs with hodd <;> omega
  refine ⟨⟨num_rules + 1, if numparents % 2 = 1 then numparents + 1 else numparents,
    if numparents % 2 = 1 then numparents + numparents + 2 else numparents + numparents,
    List.replicate (if numparents % 2 = 1 then numparents + numparents + 2
      else numparents + numparents) ls⟩, ?_, ?_, ?_, ?_, ?_, ?_, rfl, ?_⟩
  · simp only [createPopulation, hsize, if_false,
      create_all_spec blank unit0 name0 num_rules rule_size ls hls, hn]
  · show (if numparents % 2 = 1 then numparents + 1 else numparents) % 2 = 0
    split_ifs with hodd <;> omega
  · show (if numparents % 2 = 1 then numparents + 1 else numparents) = _
    split_ifs with hodd <;> omega
  · show (if numparents % 2 = 1 then numparents + numparents + 2 else numparents + numparents)
      = 2 * (if numparents % 2 = 1 then numparents + 1 else numparents)
    split_ifs with hodd <;> omega
  · show ((if numparents % 2 = 1 then numparents + numparents + 2 else numparents + numparents)
      - (if numparents % 2 = 1 then numparents + 1 else numparents)) % 2 = 0
    split_ifs with hodd <;> omega
  · exact List.length_replicate _ _
  · intro g hg
    have hg1 : g = ls := List.eq_of_mem_replicate hg
    subst hg1
    refine ⟨h1, h1, ?_, ?_, ?_, ?_, ?_, h3⟩
    · rw [h4, h1, List.length_replicate]
    · rw [h5, h1, List.length_replicate]
    · intro len hlen
      rw [h5] at hlen
      exact List.eq_of_mem_replicate hlen
    · intro r hr
      rw [h4] at hr
      rw [List.eq_of_mem_replicate hr, List.length_replicate]
    · rw [h6, List.length_replicate]

/-- C21 witness: `createPopulation(&pop, 3, 2, 5)`, an odd number of parents. -/
theorem C21_createPopulation_shape_witness :
    ∃ pop, createPopulation (ls_of_text 0 [] []) ⟨[], 0, 0⟩ 'x' 3 2 5 = some pop ∧
      pop.num_parents % 2 = 0 ∧ pop.num_parents = 3 + 3 % 2 ∧
      pop.pop_size = 2 * pop.num_parents ∧ (pop.pop_size - pop.num_parents) % 2 = 0 ∧
      pop.ls_array.length = pop.pop_size ∧ pop.numrules = 2 + 1 ∧
      ∀ ls ∈ pop.ls_array, ls.numrules = 2 + 1 ∧ ls.numrules = pop.numrules ∧
        ls.rule.length = ls.numrules ∧ ls.rulelength.length = ls.numrules ∧
        (∀ len ∈ ls.rulelength, len = 5) ∧ (∀ r ∈ ls.rule, r.length = 5) ∧
        ls.startvar.length = 2 ∧ ls.computed_f = false :=
  C21_createPopulation_shape (ls_of_text 0 [] []) ⟨[], 0, 0⟩ 'x' 3 2 5 (by decide) (by decide)

/-! ### The first scan of `chooseUniqueParents` -/

/-- The scan returns the least index whose weight the draw exceeds. -/
theorem scan_weights_least (n : ℚ) : ∀ (ws : List ℚ) (k i : Nat),
    scan_weights n ws k = some i ↔
      ∃ j, i = k + j ∧ j < ws.length ∧ n > ws.getD j 0 ∧ ∀ m, m < j → ¬ n > ws.getD m 0 := by
  intro ws
  induction ws with
  | nil =>
    intro k i
    simp [scan_weights]
  | cons w ws ih =>
    intro k i
    rw [scan_weights]
    by_cases hw : n > w
    · rw [if_pos hw]
      constructor
      · intro h
        cases Option.some.inj h
        exact ⟨0, rfl, by simp, by simpa using hw, by intro m hm; omega⟩
      · rintro ⟨j, hj, _, _, hmin⟩
        cases j with
        | zero => rw [hj]; rfl
        | succ j => exact absurd (by simpa using hw) (hmin 0 (by omega))
    · rw [if_neg hw, ih]
      constructor
      · rintro ⟨j, hj, hlen, hgt, hmin⟩
        refine ⟨j + 1, by omega, by simp only [List.length_cons]; omega, by simpa using hgt, ?_⟩
        intro m hm
        cases m with
        | zero => simpa using hw
        | succ m => simpa using hmin m (by omega)
      · rintro ⟨j, hj, hlen, hgt, hmin⟩
        cases j with
        | zero => exact absurd (by simpa using hgt) hw
        | succ j =>
          refine ⟨j, by omega, by simp only [List.length_cons] at hlen; omega,
            by simpa using hgt, ?_⟩
          intro m hm
          simpa using hmin (m + 1) (by omega)

/-- The scan selects no index exactly when the draw exceeds no weight. -/
theorem scan_weights_none (n : ℚ) : ∀ (ws : List ℚ) (k : Nat),
    scan_weights n ws k = none ↔ ∀ w ∈ ws, ¬ n > w := by
  intro ws
  induction ws with
  | nil => intro k; simp [scan_weights]
  | cons w ws ih =>
    intro k
    rw [scan_weights]
    by_cases hw : n > w
    · rw [if_pos hw]
      simp only [List.mem_cons, forall_eq_or_imp]
      constructor
      · intro h; exact absurd h (by simp)
      · intro h; exact absurd hw h.1
    · rw [if_neg hw, ih]
      simp only [List.mem_cons, forall_eq_or_imp]
      exact ⟨fun h => ⟨hw, h⟩, fun h => h.2⟩

theorem halving_weights_pos : ∀ (m : Nat) (t : ℚ), 0 < t → ∀ w ∈ halving_weights m t, 0 < w := by
  intro m
  induction m with
  | zero => intro t _ w hw; simp [halving_weights] at hw
  | succ m ih =>
    intro t ht w hw
    rw [halving_weights, List.mem_cons] at hw
    rcases hw with h | h
    · rw [h]; linarith
    · exact ih (t / 2) (by linarith) w h

/-- Entry `k` of the halved weights from `t`. -/
theorem halving_weights_getElem? : ∀ (m : Nat) (t : ℚ) (k : Nat), k < m →
    (halving_weights m t)[k]? = some (t / 2 ^ (k + 1)) := by
  intro m
  induction m with
  | zero => intro t k hk; omega
  | succ m ih =>
    intro t k hk
    rw [halving_weights]
    cases k with
    | zero => simp
    | succ k =>
      rw [List.getElem?_cons_succ, ih (t / 2) k (by omega)]
      congr 1
      rw [div_div, ← pow_succ']

theorem scaled_draw_pos {σ : Type} (gen : σ → Nat × σ) (s : σ) :
    0 < 100 * (genrand_real1 gen s).1 ↔ (draw32 gen s).1 ≠ 0 := by
  simp only [genrand_real1]
  constructor
  · intro h h0
    rw [h0] at h
    norm_num at h
  · intro h
    have : (0 : ℚ) < ((draw32 gen s).1 : ℚ) := by
      exact_mod_cast Nat.pos_of_ne_zero h
    positivity

/-- A positive draw selects a slot of the `np` parents; the draw 0 selects
none. -/
theorem scan_parent_weights (np : Nat) (hnp : 1 ≤ np) (n : ℚ) :
    (0 < n → ∃ i, scan_weights n (parent_weights np) 0 = some i ∧ i < np) ∧
    (n ≤ 0 → scan_weights n (parent_weights np) 0 = none) := by
  constructor
  · intro hn
    cases hs : scan_weights n (parent_weights np) 0 with
    | none =>
      have := (scan_weights_none n _ 0).mp hs 0 (by simp [parent_weights])
      exact absurd hn this
    | some i =>
      have := (scan_weights_bound n _ _ _ hs).2
      rw [parent_weights_length np hnp] at this
      exact ⟨i, rfl, by omega⟩
  · intro hn
    rw [scan_weights_none]
    intro w hw
    simp only [parent_weights, List.mem_append, List.mem_singleton] at hw
    rcases hw with h | h
    · have := halving_weights_pos _ 100 (by norm_num) w h
      intro hc; linarith
    · rw [h]; intro hc; linarith

/-- C22: in a population with at least one parent, every draw other than the
word 0 makes the first scan of `chooseUniqueParents` select a slot of the
parent zone. For the word 0 the scaled draw is `n = 0`, the test `n > weight[i]`
fails at every slot, the last one with its weight 0 included, and the first
scan selects nothing: the call then leaves `*p1` unassigned unless the second
scan fails too and the fallback is taken; when the second scan selects index
`i2`, the call returns with `*p1` unassigned and `*p2` the slot `i2`. -/
theorem C22_first_parent_selected {σ : Type} (gen : σ → Nat × σ) (pop : ls_population)
    (s : σ) (hnp : 1 ≤ pop.num_parents) :
    ((draw32 gen s).1 ≠ 0 →
      ∃ i, scan_weights (100 * (genrand_real1 gen s).1) (parent_weights pop.num_parents) 0
        = some i ∧ i < pop.num_parents) ∧
    ((draw32 gen s).1 = 0 →
      scan_weights (100 * (genrand_real1 gen s).1) (parent_weights pop.num_parents) 0 = none ∧
      (∀ r, (chooseUniqueParents gen pop s).1 = some r → r.p1 = none ∨ r.fallback = true) ∧
      (∀ i2, pop.num_parents ≤ pop.ls_array.length →
        scan_weights (100 * (genrand_real1 gen (genrand_real1 gen s).2).1)
          (parent_weights pop.num_parents) 0 = some i2 →
        (chooseUniqueParents gen pop s).1 = some ⟨none, some i2, false⟩)) := by
  have hscan := scan_parent_weights pop.num_parents hnp (100 * (genrand_real1 gen s).1)
  constructor
  · intro h
    exact hscan.1 ((scaled_draw_pos gen s).mpr h)
  · intro h
    have hle : 100 * (genrand_real1 gen s).1 ≤ 0 := by
      by_contra hc
      exact (scaled_draw_pos gen s).mp (lt_of_not_ge hc) h
    have hnone := hscan.2 hle
    have hnz : ¬ pop.num_parents = 0 := by omega
    refine ⟨hnone, ?_, ?_⟩
    rotate_left
    · intro i2 hlen h2
      have hi2 := (scan_weights_bound _ _ _ _ h2).2
      rw [parent_weights_length _ hnp, Nat.zero_add] at hi2
      have hslot : i2 < pop.ls_array.length := by omega
      simp only [chooseUniqueParents, chooseUniqueParents_draws, hnz, if_false, hnone, h2,
        parent_pos_getElem? _ _ hi2, hslot, if_true]
    intro r hr
    simp only [chooseUniqueParents, chooseUniqueParents_draws, hnz, if_false, hnone] at hr
    revert hr
    cases scan_weights (100 * (genrand_real1 gen (genrand_real1 gen s).2).1)
        (parent_weights pop.num_parents) 0 with
    | none =>
      simp only
      split_ifs
      · intro hr; cases Option.some.inj hr; right; rfl
      · intro hr; exact absurd hr (by simp)
    | some i =>
      simp only
      cases (parent_pos pop.num_parents)[i]? with
      | none => intro hr; exact absurd hr (by simp)
      | some slot =>
        simp only
        split_ifs
        · intro hr; cases Option.some.inj hr; left; rfl
        · intro hr; exact absurd hr (by simp)

/-- C22 witness: 4 parents and the draws 0 and 3000000000. -/
theorem C22_first_parent_selected_witness :
    ((draw32 list_gen [0, 3000000000]).1 ≠ 0 →
      ∃ i, scan_weights (100 * (genrand_real1 list_gen [0, 3000000000]).1)
        (parent_weights (⟨3, 4, 8, List.replicate 8 (ls_of_text 3 ['A', 'B'] ["F", "FA", "B"])⟩
          : ls_population).num_parents) 0 = some i ∧
        i < (⟨3, 4, 8, List.replicate 8 (ls_of_text 3 ['A', 'B'] ["F", "FA", "B"])⟩
          : ls_population).num_parents) ∧
    ((draw32 list_gen [0, 3000000000]).1 = 0 →
      scan_weights (100 * (genrand_real1 list_gen [0, 3000000000]).1)
        (parent_weights (⟨3, 4, 8, List.replicate 8 (ls_of_text 3 ['A', 'B'] ["F", "FA", "B"])⟩
          : ls_population).num_parents) 0 = none ∧
      (∀ r, (chooseUniqueParents list_gen
        ⟨3, 4, 8, List.replicate 8 (ls_of_text 3 ['A', 'B'] ["F", "FA", "B"])⟩
        [0, 3000000000]).1 = some r → r.p1 = none ∨ r.fallback = true) ∧
      (∀ i2, (⟨3, 4, 8, List.replicate 8 (ls_of_text 3 ['A', 'B'] ["F", "FA", "B"])⟩
          : ls_population).num_parents
          ≤ (⟨3, 4, 8, List.replicate 8 (ls_of_text 3 ['A', 'B'] ["F", "FA", "B"])⟩
            : ls_population).ls_array.length →
        scan_weights (100 * (genrand_real1 list_gen
            (genrand_real1 list_gen [0, 3000000000]).2).1)
          (parent_weights (⟨3, 4, 8,
            List.replicate 8 (ls_of_text 3 ['A', 'B'] ["F", "FA", "B"])⟩
            : ls_population).num_parents) 0 = some i2 →
        (chooseUniqueParents list_gen
          ⟨3, 4, 8, List.replicate 8 (ls_of_text 3 ['A', 'B'] ["F", "FA", "B"])⟩
          [0, 3000000000]).1 = some ⟨none, some i2, false⟩)) :=
  C22_first_parent_selected list_gen
    ⟨3, 4, 8, List.replicate 8 (ls_of_text 3 ['A', 'B'] ["F", "FA", "B"])⟩ [0, 3000000000]
    (by decide)

/-- C23: the first scan of `chooseUniqueParents` returns the least index
whose weight the draw `n` strictly exceeds; the weights are 100 halved `k + 1`
times at index `k` and 0 at the last index, and `pos[i] = i` is the slot
stored in `*p1`. With 4 parents the weights are 50, 25, 12.5, 0: index 0 is
returned exactly when `n > 50`, index 1 when `25 < n <= 50`, index 2 when
`12.5 < n <= 25`, index 3 when `0 < n <= 12.5`, and no index when `n <= 0`. -/
theorem C23_selection_thresholds (n : ℚ) :
    (∀ (np i : Nat), scan_weights n (parent_weights np) 0 = some i ↔
      (i < (parent_weights np).length ∧ n > (parent_weights np).getD i 0 ∧
        ∀ m, m < i → ¬ n > (parent_weights np).getD m 0)) ∧
    (∀ (np k : Nat), k + 1 < np → (parent_weights np)[k]? = some (100 / 2 ^ (k + 1))) ∧
    (∀ np : Nat, 1 ≤ np → (parent_weights np)[np - 1]? = some 0) ∧
    (∀ (np i : Nat), i < np → (parent_pos np)[i]? = some i) ∧
    parent_weights 4 = [50, 25, 25 / 2, 0] ∧
    (scan_weights n (parent_weights 4) 0 = some 0 ↔ n > 50) ∧
    (scan_weights n (parent_weights 4) 0 = some 1 ↔ 25 < n ∧ n ≤ 50) ∧
    (scan_weights n (parent_weights 4) 0 = some 2 ↔ 25 / 2 < n ∧ n ≤ 25) ∧
    (scan_weights n (parent_weights 4) 0 = some 3 ↔ 0 < n ∧ n ≤ 25 / 2) ∧
    (scan_weights n (parent_weights 4) 0 = none ↔ n ≤ 0) := by
  have hw4 : parent_weights 4 = [50, 25, 25 / 2, 0] := by
    simp only [parent_weights, halving_weights]
    norm_num
  refine ⟨?_, ?_, ?_, fun np i hi => parent_pos_getElem? np i hi, hw4, ?_, ?_, ?_, ?_, ?_⟩
  · intro np i
    rw [scan_weights_least]
    constructor
    · rintro ⟨j, hj, h1, h2, h3⟩
      rw [Nat.zero_add] at hj
      subst hj
      exact ⟨h1, h2, h3⟩
    · rintro ⟨h1, h2, h3⟩
      exact ⟨i, (Nat.zero_add i).symm, h1, h2, h3⟩
  · intro np k hk
    rw [parent_weights, List.getElem?_append_left (by rw [halving_weights_length]; omega),
      halving_weights_getElem? _ _ _ (by omega)]
  · intro np hnp
    rw [parent_weights, List.getElem?_append_right (by rw [halving_weights_length]),
      halving_weights_length, Nat.sub_self]
    rfl
  all_goals rw [hw4]
  all_goals simp only [scan_weights]
  · split_ifs with h1 h2 h3 h4
    all_goals first
      | exact ⟨fun _ => h1, fun _ => rfl⟩
      | exact ⟨fun h => absurd h (by simp), fun h => absurd h h1⟩
  · split_ifs with h1 h2 h3 h4
    all_goals first
      | exact ⟨fun _ => ⟨h2, not_lt.mp h1⟩, fun _ => rfl⟩
      | (refine ⟨fun h => absurd h (by simp), fun h => ?_⟩
         exfalso
         linarith [h.1, h.2])
  · split_ifs with h1 h2 h3 h4
    all_goals first
      | exact ⟨fun _ => ⟨h3, not_lt.mp h2⟩, fun _ => rfl⟩
      | (refine ⟨fun h => absurd h (by simp), fun h => ?_⟩
         exfalso
         linarith [h.1, h.2])
  · split_ifs with h1 h2 h3 h4
    all_goals first
      | exact ⟨fun _ => ⟨h4, not_lt.mp h3⟩, fun _ => rfl⟩
      | (refine ⟨fun h => absurd h (by simp), fun h => ?_⟩
         exfalso
         linarith [h.1, h.2])
  · split_ifs with h1 h2 h3 h4
    all_goals first
      | exact ⟨fun _ => not_lt.mp h4, fun _ => rfl⟩
      | (refine ⟨fun h => absurd h (by simp), fun h => ?_⟩
         exfalso
         linarith)

/-! ### Rule names -/

theorem assign_names_mono : ∀ (fuel n : Nat) (c : Char) (r : List Char),
    assign_names fuel n c = some r → assign_names (fuel + 1) n c = some r := by
  intro fuel
  induction fuel with
  | zero =>
    intro n c r h
    rw [assign_names] at h
    by_cases hn : n = 0
    · rw [if_pos hn] at h
      rw [assign_names, if_pos hn]
      exact h
    · rw [if_neg hn] at h
      exact absurd h (by simp)
  | succ fuel ih =>
    intro n c r h
    rw [assign_names] at h
    rw [assign_names]
    by_cases hn : n = 0
    · rw [if_pos hn] at h ⊢
      exact h
    rw [if_neg hn] at h ⊢
    by_cases hc : 127 ≤ c.toNat
    · rw [if_pos hc] at h
      exact absurd h (by simp)
    rw [if_neg hc] at h ⊢
    by_cases hs : c ≠ 'D' ∧ c ≠ 'F' ∧ c ≠ 'G' ∧ c ≠ 'M'
    · rw [if_pos hs] at h ⊢
      cases hr : assign_names fuel (n - 1) (Char.ofNat (c.toNat + 1)) with
      | none => rw [hr] at h; exact absurd h (by simp)
      | some r1 =>
        rw [hr] at h
        rw [ih _ _ _ hr]
        exact h
    · rw [if_neg hs] at h ⊢
      exact ih _ _ _ h

theorem assign_names_fuel (fuel1 fuel2 n : Nat) (c : Char) (r : List Char) (hle : fuel1 ≤ fuel2)
    (h : assign_names fuel1 n c = some r) : assign_names fuel2 n c = some r := by
  obtain ⟨d, rfl⟩ : ∃ d, fuel2 = fuel1 + d := ⟨fuel2 - fuel1, by omega⟩
  induction d with
  | zero => exact h
  | succ d ih => exact assign_names_mono _ _ _ _ (ih (by omega))

theorem assign_names_letters : ∀ n, n < 23 →
    assign_names (n + 4) n 'A' = some (free_letters.take n) := by
  decide

theorem names_from_letters : ∀ n, n < 23 →
    names_from n 0 = free_letters.take n ∧ names_fit n 0 = true := by
  decide

theorem free_letters_spec : free_letters.Nodup ∧ free_letters.length = 22 ∧
    ∀ c ∈ free_letters, 'A' ≤ c ∧ c ≤ 'Z' ∧ c ≠ 'D' ∧ c ≠ 'F' ∧ c ≠ 'G' ∧ c ≠ 'M' := by
  decide

theorem free_letters_take_length (n : Nat) (h : n ≤ 22) : (free_letters.take n).length = n := by
  rw [List.length_take, free_letters_spec.2.1]
  omega

/-! ### `random_angle`, `random_rule`, `mutateChildren` -/

section
variable {σ : Type}

/-- C25: for every word the generator returns, `random_angle` stores an angle
from 3 to 50, which the test of `readLSystemFile` accepts. A word below `2^31`
gives `word % 48 + 3`; a word from `2^31` on is negative as an `int` and is
converted to `word + 2^64 - 2^32` for the modulo. No other field changes. -/
theorem C25_random_angle_range (gen : σ → Nat × σ) (ls : lsystem) (s : σ) :
    3 ≤ (random_angle gen ls s).1.angle ∧ (random_angle gen ls s).1.angle ≤ 50 ∧
    illegal_angle (random_angle gen ls s).1.angle = false ∧
    (random_angle gen ls s).1.angle =
      (((if (draw32 gen s).1 < 2147483648 then (draw32 gen s).1
        else (draw32 gen s).1 + 18446744069414584320) % 48 + 3 : Nat) : Int) ∧
    (random_angle gen ls s).1 = { ls with angle := (random_angle gen ls s).1.angle } := by
  have hd : (draw32 gen s).1 < 4294967296 := Nat.mod_lt _ (by norm_num)
  have hform : (random_angle gen ls s).1.angle =
      (((if (draw32 gen s).1 < 2147483648 then (draw32 gen s).1
        else (draw32 gen s).1 + 18446744069414584320) % 48 + 3 : Nat) : Int) := by
    simp only [random_angle]
    congr 3
    split_ifs with h
    · omega
    · omega
  have h3 : 3 ≤ (random_angle gen ls s).1.angle := by rw [hform]; omega
  have h50 : (random_angle gen ls s).1.angle ≤ 50 := by rw [hform]; omega
  refine ⟨h3, h50, ?_, hform, rfl⟩
  simp only [illegal_angle, Bool.or_eq_false_iff, decide_eq_false_iff_not, not_lt]
  exact ⟨h3, h50⟩

theorem random_units_length (gen : σ → Nat × σ) (ls : lsystem) :
    ∀ (n : Nat) (s : σ) (us : List ruleobj) (s1 : σ),
      random_units gen ls n s = some (us, s1) → us.length = n := by
  intro n
  induction n with
  | zero =>
    intro s us s1 h
    simp only [random_units, Option.some.injEq, Prod.mk.injEq] at h
    rw [← h.1]; rfl
  | succ n ih =>
    intro s us s1 h
    rw [random_units] at h
    cases hu : randomObj gen ls s with
    | none => rw [hu] at h; exact absurd h (by simp)
    | some p =>
      obtain ⟨u, t⟩ := p
      rw [hu] at h
      simp only at h
      cases hr : random_units gen ls n t with
      | none => rw [hr] at h; exact absurd h (by simp)
      | some q =>
        obtain ⟨vs, t2⟩ := q
        rw [hr] at h
        simp only [Option.some.injEq, Prod.mk.injEq] at h
        rw [← h.1, List.length_cons, ih t vs t2 hr]

/-- The second part of `random_rule` leaves the rule as it is or stores one PUSH
and one POP at two indices below `len` with at least one index between
them. -/
theorem random_stack_spec (gen : σ → Nat × σ) (len : Nat) (r0 : List ruleobj) (s : σ)
    (hlen : 0 < len) :
    (random_stack gen len r0 s).1 = r0 ∨
    ∃ a b, a + 1 < b ∧ b < len ∧
      (random_stack gen len r0 s).1 = (r0.set a ⟨['['], 1, PUSH⟩).set b ⟨[']'], 1, POP⟩ := by
  unfold random_stack
  simp only
  split_ifs with h1 h2 h3 h4
  · right
    exact ⟨_, _, by omega, Nat.mod_lt _ hlen, rfl⟩
  · left; rfl
  · right
    exact ⟨_, _, by omega, Nat.mod_lt _ hlen, rfl⟩
  · left; rfl
  · left; rfl

end

theorem bracket_scan_append_plain : ∀ (p q : List ruleobj) (d : Nat),
    (∀ u ∈ p, plain u) → bracket_scan (p ++ q) d = bracket_scan q d := by
  intro p
  induction p with
  | nil => intro q d _; rfl
  | cons u us ih =>
    intro q d h
    have hu := h u (List.mem_cons_self _ _)
    rw [List.cons_append, bracket_scan, if_neg hu.1, if_neg hu.2]
    exact ih q d (fun v hv => h v (List.mem_cons_of_mem _ hv))

theorem bracket_scan_plain (l : List ruleobj) (h : ∀ u ∈ l, plain u) :
    bracket_scan l 0 = true := by
  have := bracket_scan_append_plain l [] 0 h
  rw [List.append_nil] at this
  rw [this]
  rfl

/-- A list cut at two indices `a < b`. -/
theorem list_cut_two {α : Type} (l : List α) (a b : Nat) (hab : a < b) (hb : b < l.length) :
    l = l.take a ++ l[a] :: ((l.drop (a + 1)).take (b - a - 1) ++ l[b] :: l.drop (b + 1)) := by
  have e1 : l.drop a = l[a] :: l.drop (a + 1) := List.drop_eq_getElem_cons (by omega)
  have e2 : (l.drop (a + 1)).drop (b - a - 1) = l.drop b := by
    rw [List.drop_drop]
    congr 1
    omega
  have e3 : l.drop b = l[b] :: l.drop (b + 1) := List.drop_eq_getElem_cons hb
  have e4 := List.take_append_drop (b - a - 1) (l.drop (a + 1))
  rw [e2, e3] at e4
  rw [e4, ← e1, List.take_append_drop]

/-- A rule with at most one stack, a PUSH before its POP, is balanced. -/
theorem one_stack_balanced (r : List ruleobj) (len : Nat) (hlen : len ≤ r.length)
    (h : one_stack_at_most r len) : balanced (r.take len) = true := by
  have hget : ∀ k, (r.take len)[k]? = if k < len then r[k]? else none := fun k =>
    List.getElem?_take
  rcases h with h | ⟨a, b, hab, hb, ha1, hb1, hrest⟩
  · apply bracket_scan_plain
    intro u hu
    obtain ⟨k, hk⟩ := List.mem_iff_getElem?.mp hu
    rw [hget] at hk
    by_cases hkl : k < len
    · rw [if_pos hkl] at hk
      exact h k u hkl hk
    · rw [if_neg hkl] at hk
      exact absurd hk (by simp)
  · have hl : (r.take len).length = len := by rw [List.length_take]; omega
    have hta : (r.take len)[a]? = some ⟨['['], 1, PUSH⟩ := by rw [hget, if_pos (by omega), ha1]
    have htb : (r.take len)[b]? = some ⟨[']'], 1, POP⟩ := by rw [hget, if_pos hb, hb1]
    have hla : a < (r.take len).length := by omega
    have hlb : b < (r.take len).length := by omega
    have ea : (r.take len)[a] = ⟨['['], 1, PUSH⟩ := by
      rw [List.getElem?_eq_getElem hla] at hta
      exact Option.some.inj hta
    have eb : (r.take len)[b] = ⟨[']'], 1, POP⟩ := by
      rw [List.getElem?_eq_getElem hlb] at htb
      exact Option.some.inj htb
    have hplain : ∀ k u, k ≠ a → k ≠ b → (r.take len)[k]? = some u → plain u := by
      intro k u hka hkb hk
      rw [hget] at hk
      by_cases hkl : k < len
      · rw [if_pos hkl] at hk
        exact hrest k u hkl hka hkb hk
      · rw [if_neg hkl] at hk
        exact absurd hk (by simp)
    have hcut := list_cut_two (r.take len) a b (by omega) hlb
    rw [ea, eb] at hcut
    have p1 : ∀ u ∈ (r.take len).take a, plain u := by
      intro u hu
      obtain ⟨k, hk⟩ := List.mem_iff_getElem?.mp hu
      rw [List.getElem?_take] at hk
      by_cases hka : k < a
      · rw [if_pos hka] at hk
        exact hplain k u (by omega) (by omega) hk
      · rw [if_neg hka] at hk
        exact absurd hk (by simp)
    have p2 : ∀ u ∈ ((r.take len).drop (a + 1)).take (b - a - 1), plain u := by
      intro u hu
      obtain ⟨k, hk⟩ := List.mem_iff_getElem?.mp hu
      rw [List.getElem?_take] at hk
      by_cases hka : k < b - a - 1
      · rw [if_pos hka, List.getElem?_drop] at hk
        exact hplain (a + 1 + k) u (by omega) (by omega) hk
      · rw [if_neg hka] at hk
        exact absurd hk (by simp)
    have p3 : ∀ u ∈ (r.take len).drop (b + 1), plain u := by
      intro u hu
      obtain ⟨k, hk⟩ := List.mem_iff_getElem?.mp hu
      rw [List.getElem?_drop] at hk
      exact hplain (b + 1 + k) u (by omega) (by omega) hk
    unfold balanced
    rw [hcut, bracket_scan_append_plain _ _ _ p1, bracket_scan]
    simp only [if_true]
    rw [bracket_scan_append_plain _ _ _ p2, bracket_scan]
    have hne : ¬ (POP = PUSH) := by decide
    simp only [hne, if_false, if_true, Nat.add_one_ne_zero, Nat.add_sub_cancel]
    exact bracket_scan_plain _ p3

/-- Overwriting a plain unit by a plain unit keeps the stack structure. -/
theorem one_stack_set_plain (r1 : List ruleobj) (len pos : Nat) (v : ruleobj)
    (h : one_stack_at_most r1 len) (hp : ∀ u, r1[pos]? = some u → plain u) (hv : plain v) :
    one_stack_at_most (r1.set pos v) len := by
  have hset : ∀ k u, (r1.set pos v)[k]? = some u → (k = pos ∧ u = v) ∨ (k ≠ pos ∧ r1[k]? = some u) := by
    intro k u hk
    rw [List.getElem?_set] at hk
    by_cases hkp : pos = k
    · rw [if_pos hkp] at hk
      left
      split_ifs at hk
      exact ⟨hkp.symm, (Option.some.inj hk).symm⟩
    · rw [if_neg hkp] at hk
      right
      exact ⟨fun e => hkp e.symm, hk⟩
  rcases h with h | ⟨a, b, hab, hb, ha1, hb1, hrest⟩
  · left
    intro k u hk hu
    rcases hset k u hu with ⟨_, e⟩ | ⟨_, e⟩
    · rw [e]; exact hv
    · exact h k u hk e
  · right
    have hpa : pos ≠ a := by
      intro e
      rw [e] at hp
      exact (hp _ ha1).1 rfl
    have hpb : pos ≠ b := by
      intro e
      rw [e] at hp
      exact (hp _ hb1).2 rfl
    refine ⟨a, b, hab, hb, ?_, ?_, ?_⟩
    · rw [List.getElem?_set_ne hpa]; exact ha1
    · rw [List.getElem?_set_ne hpb]; exact hb1
    · intro k u hk hka hkb hu
      rcases hset k u hu with ⟨_, e⟩ | ⟨_, e⟩
      · rw [e]; exact hv
      · exact hrest k u hk hka hkb e

section
variable {σ : Type}

/-- The rule after the stack placement of `random_rule` has at most one stack. -/
theorem random_stack_one_stack (gen : σ → Nat × σ) (len : Nat) (r0 : List ruleobj) (s : σ)
    (hlen : 0 < len) (hle : len ≤ r0.length) (h0 : ∀ k u, k < len → r0[k]? = some u → plain u) :
    one_stack_at_most (random_stack gen len r0 s).1 len := by
  rcases random_stack_spec gen len r0 s hlen with h | ⟨a, b, hab, hb, h⟩
  · rw [h]; left; exact h0
  · rw [h]
    right
    refine ⟨a, b, hab, hb, ?_, ?_, ?_⟩
    · rw [List.getElem?_set_ne (by omega), List.getElem?_set_self (by omega)]
    · rw [List.getElem?_set_self (by rw [List.length_set]; omega)]
    · intro k u hk hka hkb hu
      rw [List.getElem?_set_ne (fun e => hkb e.symm),
        List.getElem?_set_ne (fun e => hka e.symm)] at hu
      exact h0 k u hk hu

/-- The last part of `random_rule` on a rule with at most one stack overwrites a
unit that is neither the PUSH nor the POP, at an index below `len`. -/
theorem random_nonterminal_pos (gen : σ → Nat × σ) (ls : lsystem) (len : Nat)
    (r1 : List ruleobj) (s : σ) (hpos : 0 < len) (hle : len ≤ r1.length)
    (hst : one_stack_at_most r1 len)
    (h5 : 2 ≤ ls.numrules) (h6 : ls.numrules - 1 ≤ ls.startvar.length) :
    ∃ pos c s1, random_nonterminal gen ls len r1 s = some (r1.set pos ⟨[c], 1, RULE⟩, s1) ∧
      pos < len ∧ c ∈ ls.startvar ∧ ∀ u, r1[pos]? = some u → plain u := by
  have hnz : ¬ ls.numrules - 1 = 0 := by omega
  have hlt : (draw32 gen (draw32 gen s).2).1 % (ls.numrules - 1) < ls.startvar.length :=
    lt_of_lt_of_le (Nat.mod_lt _ (by omega)) h6
  have hr0 : (draw32 gen s).1 % len < len := Nat.mod_lt _ hpos
  have hr0l : (draw32 gen s).1 % len < r1.length := lt_of_lt_of_le hr0 hle
  obtain ⟨p0, hp0⟩ : ∃ p0, p0 = (draw32 gen s).1 % len := ⟨_, rfl⟩
  rw [← hp0] at hr0 hr0l
  obtain ⟨pos, hposdef⟩ : ∃ pos, pos = if (r1[p0]).type = PUSH ∨ (r1[p0]).type = POP then
      (if p0 = 0 then p0 + 1 else p0 - 1) else p0 := ⟨_, rfl⟩
  have hu0 : r1[p0]? = some r1[p0] := List.getElem?_eq_getElem hr0l
  have hkey : pos < len ∧ ∀ u, r1[pos]? = some u → plain u := by
    by_cases hb : (r1[p0]).type = PUSH ∨ (r1[p0]).type = POP
    · rw [if_pos hb] at hposdef
      rcases hst with h | ⟨a, b, hab, hb2, ha1, hb1, hrest⟩
      · have := h p0 _ hr0 hu0
        rcases hb with hb | hb
        · exact absurd hb this.1
        · exact absurd hb this.2
      · have hp0ab : p0 = a ∨ p0 = b := by
          by_contra hc
          have := hrest p0 _ hr0 (fun e => hc (Or.inl e)) (fun e => hc (Or.inr e)) hu0
          rcases hb with hb | hb
          · exact absurd hb this.1
          · exact absurd hb this.2
        by_cases hz : p0 = 0
        · rw [if_pos hz] at hposdef
          have hpos1 : pos = 1 := by omega
          have ha0 : a = 0 := by omega
          refine ⟨by omega, ?_⟩
          intro u hu
          exact hrest pos u (by omega) (by omega) (by omega) hu
        · rw [if_neg hz] at hposdef
          refine ⟨by omega, ?_⟩
          intro u hu
          exact hrest pos u (by omega) (by omega) (by omega) hu
    · rw [if_neg hb] at hposdef
      rw [hposdef]
      refine ⟨hr0, ?_⟩
      intro u hu
      rw [hu0] at hu
      rw [← Option.some.inj hu]
      exact ⟨fun e => hb (Or.inl e), fun e => hb (Or.inr e)⟩
  refine ⟨pos, ls.startvar[(draw32 gen (draw32 gen s).2).1 % (ls.numrules - 1)],
    (draw32 gen (draw32 gen s).2).2, ?_, hkey.1, List.getElem_mem hlt, hkey.2⟩
  unfold random_nonterminal
  simp only [← hp0, List.getElem?_eq_getElem hr0l, hnz, if_false, List.getElem?_eq_getElem hlt,
    ← hposdef, lt_of_lt_of_le hkey.1 hle, if_true]

end

section
variable {σ : Type}

/-- C28: for a grammar with a named rule and a rule of stored length
`len >= 1`, `random_rule` returns, and the regenerated rule holds below `len`
either no PUSH and no POP or exactly one PUSH and one POP, the PUSH before
the POP with at least one unit between them, so that it is balanced. The rule
is `r1`, the units drawn by `randomObj` after the stack placement, with one
unit overwritten by a rule name, and the unit overwritten is neither the PUSH
nor the POP of `r1`. -/
theorem C28_random_rule_balanced (gen : σ → Nat × σ) (ls : lsystem) (rule : Nat) (s : σ)
    (len : Nat) (old : List ruleobj)
    (h1 : ls.rulelength[rule]? = some len) (h2 : ls.rule[rule]? = some old)
    (h3 : len ≤ old.length) (h4 : 1 ≤ len)
    (h5 : 2 ≤ ls.numrules) (h6 : ls.numrules - 1 ≤ ls.startvar.length) :
    ∃ ls1 s1 r us s2 pos c, random_rule gen ls rule s = some (ls1, s1) ∧
      ls1.rule[rule]? = some r ∧ one_stack_at_most r len ∧ balanced (r.take len) = true ∧
      random_units gen ls len s = some (us, s2) ∧ (∀ u ∈ us, plain u) ∧
      one_stack_at_most (random_stack gen len (us ++ old.drop len) s2).1 len ∧
      r = (random_stack gen len (us ++ old.drop len) s2).1.set pos ⟨[c], 1, RULE⟩ ∧
      pos < len ∧
      ∀ u, (random_stack gen len (us ++ old.drop len) s2).1[pos]? = some u → plain u := by
  obtain ⟨us, t1, hus, hlen, hall⟩ := random_units_spec gen ls h5 h6 len s
  have hst := random_stack_length gen len (us ++ old.drop len) t1
  have hr0len : (us ++ old.drop len).length = old.length := by
    rw [List.length_append, hlen, List.length_drop]; omega
  have hle : len ≤ (random_stack gen len (us ++ old.drop len) t1).1.length := by
    rw [hst, hr0len]; exact h3
  have h0 : ∀ k u, k < len → (us ++ old.drop len)[k]? = some u → plain u := by
    intro k u hk hu
    rw [List.getElem?_append_left (by omega)] at hu
    exact hall u (List.getElem?_mem hu)
  have hone := random_stack_one_stack gen len (us ++ old.drop len) t1 (by omega)
    (by rw [hr0len]; exact h3) h0
  obtain ⟨pos, c, t2, hnt, hpos, _, hplain⟩ := random_nonterminal_pos gen ls len
    (random_stack gen len (us ++ old.drop len) t1).1
    (random_stack gen len (us ++ old.drop len) t1).2 (by omega) hle hone h5 h6
  have hrule : rule < ls.rule.length := (List.getElem?_eq_some_iff.mp h2).1
  have hng : ¬ (old.length < len ∨ len = 0) := by omega
  have hfinal := one_stack_set_plain _ len pos ⟨[c], 1, RULE⟩ hone hplain
    ⟨(by decide : RULE ≠ PUSH), (by decide : RULE ≠ POP)⟩
  obtain ⟨r, hr⟩ : ∃ r, r = (random_stack gen len (us ++ old.drop len) t1).1.set pos
      ⟨[c], 1, RULE⟩ := ⟨_, rfl⟩
  rw [← hr] at hnt hfinal
  refine ⟨{ ls with rule := ls.rule.set rule r }, t2, r, us, t1,
    pos, c, ?_, ?_, hfinal, ?_, hus, hall, hone, hr, hpos, hplain⟩
  · simp only [random_rule, h1, h2, hng, if_false, hus, hnt]
  · simp only [List.getElem?_set_self hrule]
  · exact one_stack_balanced _ len (by rw [hr, List.length_set]; exact hle) hfinal

theorem random_nonterminal_length (gen : σ → Nat × σ) (ls : lsystem) (len : Nat)
    (r1 r2 : List ruleobj) (s t : σ) (h : random_nonterminal gen ls len r1 s = some (r2, t)) :
    r2.length = r1.length := by
  simp only [random_nonterminal] at h
  repeat' split at h
  all_goals first
    | (simp only [Option.some.injEq, Prod.mk.injEq] at h
       rw [← h.1, List.length_set])
    | exact absurd h (by simp)

/-- What `random_rule` leaves as it is: the result is the grammar with one
entry of `rule` replaced by an array of the same length. -/
theorem random_rule_frame (gen : σ → Nat × σ) (ls : lsystem) (rule : Nat) (s : σ)
    (ls1 : lsystem) (s1 : σ) (h : random_rule gen ls rule s = some (ls1, s1)) :
    ∃ r2 old, ls.rule[rule]? = some old ∧ r2.length = old.length ∧
      ls1 = { ls with rule := ls.rule.set rule r2 } := by
  unfold random_rule at h
  cases hl : ls.rulelength[rule]? with
  | none => rw [hl] at h; exact absurd h (by simp)
  | some len =>
    cases ho : ls.rule[rule]? with
    | none => rw [hl, ho] at h; exact absurd h (by simp)
    | some old =>
      rw [hl, ho] at h
      simp only at h
      by_cases hng : old.length < len ∨ len = 0
      · rw [if_pos hng] at h; exact absurd h (by simp)
      rw [if_neg hng] at h
      cases hu : random_units gen ls len s with
      | none => rw [hu] at h; exact absurd h (by simp)
      | some p =>
        obtain ⟨us, t1⟩ := p
        rw [hu] at h
        simp only at h
        have hlen := random_units_length gen ls len s us t1 hu
        cases hn : random_nonterminal gen ls len (random_stack gen len (us ++ old.drop len) t1).1
            (random_stack gen len (us ++ old.drop len) t1).2 with
        | none => rw [hn] at h; exact absurd h (by simp)
        | some q =>
          obtain ⟨r2, t2⟩ := q
          rw [hn] at h
          simp only [Option.some.injEq, Prod.mk.injEq] at h
          refine ⟨r2, old, rfl, ?_, h.1.symm⟩
          have hr2 := random_nonterminal_length gen ls len _ r2 _ t2 hn
          rw [hr2, random_stack_length, List.length_append, hlen, List.length_drop]
          omega

/-- C24: in a population with a child zone inside its array, at least 2
rules, and children whose rules have a stored length from 1 to the size of
their array, `mutateChildren` returns; the grammar chosen has its index `i` in
`[num_parents, pop_size)` and the rule index is below `numrules`; every other
slot of the array holds what it held; in the chosen grammar every field other
than `rule` and `angle` is as before (also the stored rule lengths and the
rule names), every rule other than the chosen one is as before, and the
chosen rule keeps the size of its array. -/
theorem C24_mutateChildren_frame (gen : σ → Nat × σ) (pop : ls_population) (sp sr : σ)
    (hsize : pop.num_parents < pop.pop_size) (hlen : pop.pop_size ≤ pop.ls_array.length)
    (hrules : 2 ≤ pop.numrules)
    (hchildren : ∀ i ls, pop.num_parents ≤ i → i < pop.pop_size →
      pop.ls_array[i]? = some ls →
      ls.numrules = pop.numrules ∧ ls.numrules - 1 ≤ ls.startvar.length ∧
      ∀ r, r < pop.numrules → ∃ len old, ls.rulelength[r]? = some len ∧
        ls.rule[r]? = some old ∧ 1 ≤ len ∧ len ≤ old.length) :
    ∃ pop1 sp1 sr1 i randrule ls ls1 old new,
      mutateChildren gen pop sp sr = some (pop1, sp1, sr1) ∧
      pop.num_parents ≤ i ∧ i < pop.pop_size ∧ randrule < pop.numrules ∧
      i = pop.num_parents + (draw32 gen sp).1 % (pop.pop_size - pop.num_parents) ∧
      randrule = (draw32 gen (draw32 gen sp).2).1 % pop.numrules ∧
      pop.ls_array[i]? = some ls ∧ pop1.ls_array[i]? = some ls1 ∧
      pop1.ls_array.length = pop.ls_array.length ∧ pop1.numrules = pop.numrules ∧
      pop1.num_parents = pop.num_parents ∧ pop1.pop_size = pop.pop_size ∧
      (∀ j, j ≠ i → pop1.ls_array[j]? = pop.ls_array[j]?) ∧
      { ls1 with rule := ls.rule, angle := ls.angle } = ls ∧
      ls1.rulelength = ls.rulelength ∧ ls1.startvar = ls.startvar ∧
      ls1.rule.length = ls.rule.length ∧
      (∀ r, r ≠ randrule → ls1.rule[r]? = ls.rule[r]?) ∧
      ls.rule[randrule]? = some old ∧ ls1.rule[randrule]? = some new ∧
      new.length = old.length := by
  have hng : ¬ pop.pop_size ≤ pop.num_parents := by omega
  have hnr : ¬ pop.numrules = 0 := by omega
  have hmod : (draw32 gen sp).1 % (pop.pop_size - pop.num_parents)
      < pop.pop_size - pop.num_parents := Nat.mod_lt _ (by omega)
  obtain ⟨i, hi⟩ : ∃ i, i = pop.num_parents
      + (draw32 gen sp).1 % (pop.pop_size - pop.num_parents) := ⟨_, rfl⟩
  obtain ⟨randrule, hrr⟩ : ∃ r, r = (draw32 gen (draw32 gen sp).2).1 % pop.numrules := ⟨_, rfl⟩
  have hrlt : randrule < pop.numrules := by rw [hrr]; exact Nat.mod_lt _ (by omega)
  have hilt : i < pop.ls_array.length := by omega
  have hchild : pop.ls_array[i]? = some pop.ls_array[i] := List.getElem?_eq_getElem hilt
  obtain ⟨hnum, hnames, hrule⟩ := hchildren i _ (by omega) (by omega) hchild
  obtain ⟨len, old, hl, ho, hl1, hl2⟩ := hrule randrule hrlt
  obtain ⟨ls1, sr1, _, _, _, hrand, _⟩ := random_rule_spec gen pop.ls_array[i] randrule sr len
    old hl ho hl2 hl1 (by omega) hnames
  obtain ⟨r2, old1, ho1, hr2len, hframe⟩ := random_rule_frame gen _ _ _ _ _ hrand
  rw [ho] at ho1
  cases Option.some.inj ho1
  have hrl : randrule < (pop.ls_array[i]).rule.length := (List.getElem?_eq_some_iff.mp ho).1
  refine ⟨{ pop with ls_array := pop.ls_array.set i (random_angle gen ls1 sr1).1 },
    (draw32 gen (draw32 gen sp).2).2, (random_angle gen ls1 sr1).2, i, randrule,
    pop.ls_array[i], (random_angle gen ls1 sr1).1, old, r2, ?_, by omega, by omega, hrlt, hi,
    hrr, hchild, ?_, ?_, rfl, rfl, rfl, ?_, ?_, ?_, ?_, ?_, ?_, ho, ?_, hr2len⟩
  · simp only [mutateChildren, hng, if_false, ← hi, hchild, hnr, ← hrr, hrand]
  · simp only [List.getElem?_set_self hilt]
  · simp only [List.length_set]
  · intro j hj
    simp only [List.getElem?_set_ne (fun e => hj e.symm)]
  · rw [hframe]; rfl
  · rw [hframe]; rfl
  · rw [hframe]; rfl
  · rw [hframe]
    simp only [random_angle, List.length_set]
  · intro r hr
    rw [hframe]
    simp only [random_angle, List.getElem?_set_ne (fun e => hr e.symm)]
  · rw [hframe]
    simp only [random_angle, List.getElem?_set_self hrl]

end

/-- C28 witness: the grammar with axiom `F` and rules `A = FFFF`, `B = F`,
rule 1 (stored length 4); the draws place a stack at the positions 0 and 2
and the rule name at position 1. -/
theorem C28_random_rule_balanced_witness :
    ∃ ls1 s1 r us s2 pos c,
      random_rule list_gen (ls_of_text 3 ['A', 'B'] ["F", "FFFF", "F"]) 1
        [0, 1, 2, 3, 0, 0, 2, 0, 1] = some (ls1, s1) ∧
      ls1.rule[1]? = some r ∧ one_stack_at_most r 4 ∧ balanced (r.take 4) = true ∧
      random_units list_gen (ls_of_text 3 ['A', 'B'] ["F", "FFFF", "F"]) 4
        [0, 1, 2, 3, 0, 0, 2, 0, 1] = some (us, s2) ∧ (∀ u ∈ us, plain u) ∧
      one_stack_at_most (random_stack list_gen 4
        (us ++ (string2rule "FFFF".toList).drop 4) s2).1 4 ∧
      r = (random_stack list_gen 4 (us ++ (string2rule "FFFF".toList).drop 4) s2).1.set pos
        ⟨[c], 1, RULE⟩ ∧
      pos < 4 ∧
      ∀ u, (random_stack list_gen 4 (us ++ (string2rule "FFFF".toList).drop 4) s2).1[pos]?
        = some u → plain u :=
  C28_random_rule_balanced list_gen (ls_of_text 3 ['A', 'B'] ["F", "FFFF", "F"]) 1
    [0, 1, 2, 3, 0, 0, 2, 0, 1] 4 (string2rule "FFFF".toList)
    (by decide) (by decide) (by decide) (by decide) (by decide) (by decide)

/-- C24 witness: 2 parents and 2 children, each the grammar with axiom `F`
and rules `A = FFFF`, `B = F`. -/
theorem C24_mutateChildren_frame_witness :
    ∃ pop1 sp1 sr1 i randrule ls ls1 old new,
      mutateChildren list_gen
        ⟨3, 2, 4, List.replicate 4 (ls_of_text 3 ['A', 'B'] ["F", "FFFF", "F"])⟩
        [5, 4] [0, 1, 2, 3, 0, 0, 2, 0, 1, 77] = some (pop1, sp1, sr1) ∧
      (⟨3, 2, 4, List.replicate 4 (ls_of_text 3 ['A', 'B'] ["F", "FFFF", "F"])⟩
        : ls_population).num_parents ≤ i ∧
      i < (⟨3, 2, 4, List.replicate 4 (ls_of_text 3 ['A', 'B'] ["F", "FFFF", "F"])⟩
        : ls_population).pop_size ∧
      randrule < (⟨3, 2, 4, List.replicate 4 (ls_of_text 3 ['A', 'B'] ["F", "FFFF", "F"])⟩
        : ls_population).numrules ∧
      i = (⟨3, 2, 4, List.replicate 4 (ls_of_text 3 ['A', 'B'] ["F", "FFFF", "F"])⟩
          : ls_population).num_parents + (draw32 list_gen [5, 4]).1 %
        ((⟨3, 2, 4, List.replicate 4 (ls_of_text 3 ['A', 'B'] ["F", "FFFF", "F"])⟩
          : ls_population).pop_size
          - (⟨3, 2, 4, List.replicate 4 (ls_of_text 3 ['A', 'B'] ["F", "FFFF", "F"])⟩
            : ls_population).num_parents) ∧
      randrule = (draw32 list_gen (draw32 list_gen [5, 4]).2).1 %
        (⟨3, 2, 4, List.replicate 4 (ls_of_text 3 ['A', 'B'] ["F", "FFFF", "F"])⟩
          : ls_population).numrules ∧
      (⟨3, 2, 4, List.replicate 4 (ls_of_text 3 ['A', 'B'] ["F", "FFFF", "F"])⟩
        : ls_population).ls_array[i]? = some ls ∧
      pop1.ls_array[i]? = some ls1 ∧
      pop1.ls_array.length
        = (⟨3, 2, 4, List.replicate 4 (ls_of_text 3 ['A', 'B'] ["F", "FFFF", "F"])⟩
          : ls_population).ls_array.length ∧
      pop1.numrules = (⟨3, 2, 4, List.replicate 4 (ls_of_text 3 ['A', 'B'] ["F", "FFFF", "F"])⟩
        : ls_population).numrules ∧
      pop1.num_parents
        = (⟨3, 2, 4, List.replicate 4 (ls_of_text 3 ['A', 'B'] ["F", "FFFF", "F"])⟩
          : ls_population).num_parents ∧
      pop1.pop_size = (⟨3, 2, 4, List.replicate 4 (ls_of_text 3 ['A', 'B'] ["F", "FFFF", "F"])⟩
        : ls_population).pop_size ∧
      (∀ j, j ≠ i → pop1.ls_array[j]?
        = (⟨3, 2, 4, List.replicate 4 (ls_of_text 3 ['A', 'B'] ["F", "FFFF", "F"])⟩
          : ls_population).ls_array[j]?) ∧
      { ls1 with rule := ls.rule, angle := ls.angle } = ls ∧
      ls1.rulelength = ls.rulelength ∧ ls1.startvar = ls.startvar ∧
      ls1.rule.length = ls.rule.length ∧
      (∀ r, r ≠ randrule → ls1.rule[r]? = ls.rule[r]?) ∧
      ls.rule[randrule]? = some old ∧ ls1.rule[randrule]? = some new ∧
      new.length = old.length :=
  C24_mutateChildren_frame list_gen
    ⟨3, 2, 4, List.replicate 4 (ls_of_text 3 ['A', 'B'] ["F", "FFFF", "F"])⟩
    [5, 4] [0, 1, 2, 3, 0, 0, 2, 0, 1, 77] (by decide) (by decide) (by decide)
    (by
      intro i ls _ _ hget
      have hmem : ls ∈ List.replicate 4 (ls_of_text 3 ['A', 'B'] ["F", "FFFF", "F"]) :=
        List.getElem?_mem hget
      have hls := List.eq_of_mem_replicate hmem
      subst hls
      refine ⟨by decide, by decide, ?_⟩
      intro r hr
      have hr3 : r < 3 := hr
      interval_cases r
      · exact ⟨1, string2rule "F".toList, by decide, by decide, by decide, by decide⟩
      · exact ⟨4, string2rule "FFFF".toList, by decide, by decide, by decide, by decide⟩
      · exact ⟨1, string2rule "F".toList, by decide, by decide, by decide, by decide⟩)

/-! ### The cut adjustment of `crossover_ls` -/

/-- A scan that ends without failure over units none of which is a POP
started at depth 0. -/
theorem bracket_scan_no_pop : ∀ (l : List ruleobj) (d : Nat),
    (∀ u ∈ l, u.type ≠ POP) → bracket_scan l d = true → d = 0 := by
  intro l
  induction l with
  | nil =>
    intro d _ h
    simpa [bracket_scan] using h
  | cons u us ih =>
    intro d hno h
    have hu := hno u (List.mem_cons_self _ _)
    have hrest : ∀ v ∈ us, v.type ≠ POP := fun v hv => hno v (List.mem_cons_of_mem _ hv)
    rw [bracket_scan] at h
    by_cases hp : u.type = PUSH
    · rw [if_pos hp] at h
      have := ih (d + 1) hrest h
      omega
    · rw [if_neg hp, if_neg hu] at h
      exact ih d hrest h

theorem bracket_scan_suffix : ∀ (pre q : List ruleobj) (d : Nat),
    bracket_scan (pre ++ q) d = true → ∃ d1, bracket_scan q d1 = true := by
  intro pre
  induction pre with
  | nil => intro q d h; exact ⟨d, h⟩
  | cons u us ih =>
    intro q d h
    rw [List.cons_append, bracket_scan] at h
    split_ifs at h with h1 h2 h3
    · exact ih q _ h
    · exact ih q _ h
    · exact ih q _ h

/-- In a balanced rule, a PUSH followed by plain units up to index `p` has a
POP at or after `p`. -/
theorem balanced_pop_after (l : List ruleobj) (j p : Nat) (hjp : j < p) (hp : p ≤ l.length)
    (hbal : balanced l = true) (u : ruleobj) (hu : l[j]? = some u) (hpush : u.type = PUSH)
    (hmid : ∀ i v, j < i → i < p → l[i]? = some v → plain v) :
    ∃ q v, p ≤ q ∧ q < l.length ∧ l[q]? = some v ∧ v.type = POP := by
  have hj : j < l.length := by omega
  have e1 : l.drop j = l[j] :: l.drop (j + 1) := List.drop_eq_getElem_cons hj
  have e2 : (l.drop (j + 1)).drop (p - j - 1) = l.drop p := by
    rw [List.drop_drop]
    congr 1
    omega
  have e3 := List.take_append_drop (p - j - 1) (l.drop (j + 1))
  rw [e2] at e3
  have e4 := List.take_append_drop j l
  rw [e1, ← e3] at e4
  have hlj : l[j] = u := by
    rw [List.getElem?_eq_getElem hj] at hu
    exact Option.some.inj hu
  unfold balanced at hbal
  rw [← e4] at hbal
  obtain ⟨d1, hd1⟩ := bracket_scan_suffix _ _ _ hbal
  rw [bracket_scan, hlj, if_pos hpush] at hd1
  have pmid : ∀ v ∈ (l.drop (j + 1)).take (p - j - 1), plain v := by
    intro v hv
    obtain ⟨k, hk⟩ := List.mem_iff_getElem?.mp hv
    rw [List.getElem?_take] at hk
    by_cases hka : k < p - j - 1
    · rw [if_pos hka, List.getElem?_drop] at hk
      exact hmid (j + 1 + k) v (by omega) (by omega) hk
    · rw [if_neg hka] at hk
      exact absurd hk (by simp)
  rw [bracket_scan_append_plain _ _ _ pmid] at hd1
  by_contra hnone
  have hno : ∀ v ∈ l.drop p, v.type ≠ POP := by
    intro v hv hvp
    obtain ⟨k, hk⟩ := List.mem_iff_getElem?.mp hv
    rw [List.getElem?_drop] at hk
    exact hnone ⟨p + k, v, by omega, (List.getElem?_eq_some_iff.mp hk).1, hk, hvp⟩
  have := bracket_scan_no_pop _ _ hno hd1
  omega

/-- The forward scan of `crossover_ls` stops one past the first POP at or after
index `k`, when there is one below the stored length. -/
theorem scan_fwd_first_pop (rule : List ruleobj) (len : Nat) (hlen : len ≤ rule.length) :
    ∀ (fuel k : Nat),
      (∃ q v, k ≤ q ∧ q < len ∧ q < k + fuel ∧ rule[q]? = some v ∧ v.type = POP) →
      ∃ q v, k ≤ q ∧ q < len ∧ rule[q]? = some v ∧ v.type = POP ∧
        (∀ i w, k ≤ i → i < q → rule[i]? = some w → w.type ≠ POP) ∧
        scan_fwd rule len fuel k = some (q + 1) := by
  intro fuel
  induction fuel with
  | zero =>
    rintro k ⟨q, v, h1, _, h3, _⟩
    omega
  | succ n ih =>
    rintro k ⟨q, v, h1, h2, h3, h4, h5⟩
    have hk : k < rule.length := by omega
    rw [scan_fwd, if_pos (by omega), List.getElem?_eq_getElem hk]
    by_cases hpop : (rule[k]).type = POP
    · refine ⟨k, rule[k], le_refl _, by omega, List.getElem?_eq_getElem hk, hpop, ?_, ?_⟩
      · intro i w hi1 hi2; omega
      · simp only [hpop, if_true]
    · have hqk : q ≠ k := by
        intro e
        rw [e, List.getElem?_eq_getElem hk] at h4
        rw [Option.some.inj h4] at hpop
        exact hpop h5
      obtain ⟨q1, v1, g1, g2, g3, g4, g5, g6⟩ := ih (k + 1) ⟨q, v, by omega, h2, by omega, h4, h5⟩
      refine ⟨q1, v1, by omega, g2, g3, g4, ?_, ?_⟩
      · intro i w hi1 hi2 hw
        by_cases hik : i = k
        · rw [hik, List.getElem?_eq_getElem hk] at hw
          rw [← Option.some.inj hw]
          exact hpop
        · exact g5 i w (by omega) hi2 hw
      · simp only [hpop, if_false]
        exact g6

/-- The backward scan of `crossover_ls` reports a stack start exactly when the
nearest PUSH or POP before index `p` is a PUSH. -/
theorem scan_back_spec (rule : List ruleobj) : ∀ (p : Nat), p ≤ rule.length →
    ∃ st en, scan_back rule p = some (st, en) ∧
      (st = true → ∃ j u, j < p ∧ rule[j]? = some u ∧ u.type = PUSH ∧
        ∀ i v, j < i → i < p → rule[i]? = some v → plain v) ∧
      (st = false → (∀ j u, j < p → rule[j]? = some u → plain u) ∨
        ∃ j u, j < p ∧ rule[j]? = some u ∧ u.type = POP ∧
          ∀ i v, j < i → i < p → rule[i]? = some v → plain v) := by
  intro p
  induction p with
  | zero =>
    intro _
    refine ⟨false, false, rfl, by simp, ?_⟩
    intro _
    left
    intro j u hj
    omega
  | succ p ih =>
    intro hp
    have hlt : p < rule.length := by omega
    rw [scan_back, List.getElem?_eq_getElem hlt]
    simp only
    by_cases hpush : (rule[p]).type = PUSH
    · have hnpop : ¬ (rule[p]).type = POP := by rw [hpush]; decide
      refine ⟨true, false, by simp [hpush, hnpop], ?_, by simp⟩
      intro _
      exact ⟨p, rule[p], by omega, List.getElem?_eq_getElem hlt, hpush,
        by intro i v h1 h2; omega⟩
    · by_cases hpop : (rule[p]).type = POP
      · refine ⟨false, true, by simp [hpush, hpop], by simp, ?_⟩
        intro _
        right
        exact ⟨p, rule[p], by omega, List.getElem?_eq_getElem hlt, hpop,
          by intro i v h1 h2; omega⟩
      · obtain ⟨st, en, hs, h1, h2⟩ := ih (by omega)
        have hplain : ∀ v, rule[p]? = some v → plain v := by
          intro v hv
          rw [List.getElem?_eq_getElem hlt] at hv
          rw [← Option.some.inj hv]
          exact ⟨hpush, hpop⟩
        refine ⟨st, en, by simp [hpush, hpop, hs], ?_, ?_⟩
        · intro hst
          obtain ⟨j, u, g1, g2, g3, g4⟩ := h1 hst
          refine ⟨j, u, by omega, g2, g3, ?_⟩
          intro i v hi1 hi2 hv
          by_cases hip : i = p
          · rw [hip] at hv; exact hplain v hv
          · exact g4 i v hi1 (by omega) hv
        · intro hst
          rcases h2 hst with g | ⟨j, u, g1, g2, g3, g4⟩
          · left
            intro j u hj hu
            by_cases hjp : j = p
            · rw [hjp] at hu; exact hplain u hu
            · exact g j u (by omega) hu
          · right
            refine ⟨j, u, by omega, g2, g3, ?_⟩
            intro i v hi1 hi2 hv
            by_cases hip : i = p
            · rw [hip] at hv; exact hplain v hv
            · exact g4 i v hi1 (by omega) hv

/-- C29: for a rule whose first `len` units are balanced and a candidate cut
`p <= len`, the cut adjustment of `crossover_ls` returns a cut `a` with
`p <= a <= len`; `a = p` when no unit before `p` is a PUSH or a POP and when the
nearest such unit before `p` is a POP; when the nearest such unit before `p` is
a PUSH, `a = q + 1` for the first index `q >= p` that holds a POP. -/
theorem C29_cut_adjustment (rule : List ruleobj) (len p : Nat)
    (hlen : len ≤ rule.length) (hbal : balanced (rule.take len) = true) (hp : p ≤ len) :
    ∃ a, adjust_cut rule len p = some a ∧ p ≤ a ∧ a ≤ len ∧
      ((∀ j u, j < p → rule[j]? = some u → plain u) → a = p) ∧
      ((∃ j u, j < p ∧ rule[j]? = some u ∧ u.type = POP ∧
        ∀ i v, j < i → i < p → rule[i]? = some v → plain v) → a = p) ∧
      ((∃ j u, j < p ∧ rule[j]? = some u ∧ u.type = PUSH ∧
        ∀ i v, j < i → i < p → rule[i]? = some v → plain v) →
        ∃ q v, p ≤ q ∧ q < len ∧ rule[q]? = some v ∧ v.type = POP ∧
          (∀ i w, p ≤ i → i < q → rule[i]? = some w → w.type ≠ POP) ∧ a = q + 1) := by
  have hunique : ∀ j u j1 u1, j < p → j1 < p → rule[j]? = some u → rule[j1]? = some u1 →
      ¬ plain u → ¬ plain u1 →
      (∀ i v, j < i → i < p → rule[i]? = some v → plain v) →
      (∀ i v, j1 < i → i < p → rule[i]? = some v → plain v) → j = j1 := by
    intro j u j1 u1 h1 h2 h3 h4 h5 h6 h7 h8
    rcases Nat.lt_trichotomy j j1 with h | h | h
    · exact absurd (h7 j1 u1 h h2 h4) h6
    · exact h
    · exact absurd (h8 j u h h1 h3) h5
  have hnpush : ∀ u : ruleobj, u.type = PUSH → ¬ plain u := fun u hu hpl => hpl.1 hu
  have hnpop : ∀ u : ruleobj, u.type = POP → ¬ plain u := fun u hu hpl => hpl.2 hu
  obtain ⟨st, en, hs, h1, h2⟩ := scan_back_spec rule p (by omega)
  cases st with
  | true =>
    obtain ⟨j, u, g1, g2, g3, g4⟩ := h1 rfl
    have hl : (rule.take len).length = len := by rw [List.length_take]; omega
    have htake : ∀ i, i < len → (rule.take len)[i]? = rule[i]? := fun i hi =>
      List.getElem?_take_of_lt hi
    obtain ⟨q, v, q1, q2, q3, q4⟩ := balanced_pop_after (rule.take len) j p g1 (by omega) hbal u
      (by rw [htake j (by omega)]; exact g2) g3
      (by intro i w hi1 hi2 hw; rw [htake i (by omega)] at hw; exact g4 i w hi1 hi2 hw)
    rw [hl] at q2
    rw [htake q q2] at q3
    obtain ⟨f, w, f1, f2, f3, f4, f5, f6⟩ := scan_fwd_first_pop rule len hlen (len + 2 - p) p
      ⟨q, v, q1, q2, by omega, q3, q4⟩
    refine ⟨f + 1, ?_, by omega, by omega, ?_, ?_, ?_⟩
    · simp only [adjust_cut, hs, if_true]
      exact f6
    · intro hall
      exact absurd (hall j u g1 g2) (hnpush u g3)
    · rintro ⟨j1, u1, k1, k2, k3, k4⟩
      have := hunique j u j1 u1 g1 k1 g2 k2 (hnpush u g3) (hnpop u1 k3) g4 k4
      subst this
      rw [g2] at k2
      rw [← Option.some.inj k2, g3] at k3
      exact absurd k3 (by decide)
    · intro _
      exact ⟨f, w, f1, f2, f3, f4, f5, rfl⟩
  | false =>
    refine ⟨p, ?_, le_refl _, hp, fun _ => rfl, fun _ => rfl, ?_⟩
    · simp only [adjust_cut, hs, Bool.false_eq_true, if_false]
    · rintro ⟨j, u, g1, g2, g3, g4⟩
      exfalso
      rcases h2 rfl with hall | ⟨j1, u1, k1, k2, k3, k4⟩
      · exact absurd (hall j u g1 g2) (hnpush u g3)
      · have := hunique j u j1 u1 g1 k1 g2 k2 (hnpush u g3) (hnpop u1 k3) g4 k4
        subst this
        rw [g2] at k2
        rw [← Option.some.inj k2, g3] at k3
        exact absurd k3 (by decide)

/-- C29 witness: the rule `F[+F]A` of 6 units and the candidate cut 3, inside
the stack: the adjusted cut is 5, one past the POP at index 4. -/
theorem C29_cut_adjustment_witness :
    ∃ a, adjust_cut (string2rule "F[+F]A".toList) 6 3 = some a ∧ 3 ≤ a ∧ a ≤ 6 ∧
      ((∀ j u, j < 3 → (string2rule "F[+F]A".toList)[j]? = some u → plain u) → a = 3) ∧
      ((∃ j u, j < 3 ∧ (string2rule "F[+F]A".toList)[j]? = some u ∧ u.type = POP ∧
        ∀ i v, j < i → i < 3 → (string2rule "F[+F]A".toList)[i]? = some v → plain v) → a = 3) ∧
      ((∃ j u, j < 3 ∧ (string2rule "F[+F]A".toList)[j]? = some u ∧ u.type = PUSH ∧
        ∀ i v, j < i → i < 3 → (string2rule "F[+F]A".toList)[i]? = some v → plain v) →
        ∃ q v, 3 ≤ q ∧ q < 6 ∧ (string2rule "F[+F]A".toList)[q]? = some v ∧ v.type = POP ∧
          (∀ i w, 3 ≤ i → i < q → (string2rule "F[+F]A".toList)[i]? = some w → w.type ≠ POP) ∧
          a = q + 1) :=
  C29_cut_adjustment (string2rule "F[+F]A".toList) 6 3 (by decide) (by decide) (by decide)

/-! ### The bisection of `find_upper_bound` -/

section
variable (pow : ℚ → ℚ → ℚ) (log : ℚ → ℚ)

end

/-- The turn `lsys_doplus` on a heading in range adds 1 to the heading when the
reversed flag is set and `maxangle - 1` when it is clear, modulo `maxangle`. -/
theorem lsys_doplus_mod (st : lsys_state) (hd : st.dmaxangle = st.maxangle - 1)
    (hang : 0 ≤ st.angle ∧ st.angle < st.maxangle) :
    lsys_doplus st = { st with angle :=
      (st.angle + (if st.reverse ≠ 0 then 1 else st.maxangle - 1)) % st.maxangle } := by
  unfold lsys_doplus
  by_cases hr : st.reverse ≠ 0
  · rw [if_pos hr, if_pos hr]
    by_cases h1 : st.angle + 1 = st.maxangle
    · rw [if_pos h1, h1, Int.emod_self]
    · rw [if_neg h1, Int.emod_eq_of_lt (by omega) (by omega)]
  · rw [if_neg hr, if_neg hr]
    by_cases h0 : st.angle ≠ 0
    · rw [if_pos h0]
      have : st.angle + (st.maxangle - 1) = st.angle - 1 + st.maxangle := by ring
      rw [this, Int.add_emod_self, Int.emod_eq_of_lt (by omega) (by omega)]
    · rw [if_neg h0, hd]
      have h0' : st.angle = 0 := by omega
      rw [h0', Int.zero_add, Int.emod_eq_of_lt (by omega) (by omega)]

/-- The turn `lsys_dominus` on a heading in range adds `maxangle - 1` to the
heading when the reversed flag is set and 1 when it is clear, modulo
`maxangle`. -/
theorem lsys_dominus_mod (st : lsys_state) (hd : st.dmaxangle = st.maxangle - 1)
    (hang : 0 ≤ st.angle ∧ st.angle < st.maxangle) :
    lsys_dominus st = { st with angle :=
      (st.angle + (if st.reverse ≠ 0 then st.maxangle - 1 else 1)) % st.maxangle } := by
  unfold lsys_dominus
  by_cases hr : st.reverse ≠ 0
  · rw [if_pos hr, if_pos hr]
    by_cases h0 : st.angle ≠ 0
    · rw [if_pos h0]
      have : st.angle + (st.maxangle - 1) = st.angle - 1 + st.maxangle := by ring
      rw [this, Int.add_emod_self, Int.emod_eq_of_lt (by omega) (by omega)]
    · rw [if_neg h0, hd]
      have h0' : st.angle = 0 := by omega
      rw [h0', Int.zero_add, Int.emod_eq_of_lt (by omega) (by omega)]
  · rw [if_neg hr, if_neg hr]
    by_cases h1 : st.angle + 1 = st.maxangle
    · rw [if_pos h1, h1, Int.emod_self]
    · rw [if_neg h1, Int.emod_eq_of_lt (by omega) (by omega)]

theorem lsys_doplus_iterate (st : lsys_state) (hd : st.dmaxangle = st.maxangle - 1)
    (hang : 0 ≤ st.angle ∧ st.angle < st.maxangle) : ∀ k : Nat,
    lsys_doplus^[k] st = { st with angle :=
      (st.angle + (k : Int) * (if st.reverse ≠ 0 then 1 else st.maxangle - 1))
        % st.maxangle } := by
  intro k
  induction k with
  | zero =>
    simp only [Function.iterate_zero, id_eq, Nat.cast_zero, Int.zero_mul, Int.add_zero]
    rw [Int.emod_eq_of_lt hang.1 hang.2]
  | succ k ih =>
    rw [Function.iterate_succ_apply', ih]
    have hm : 0 < st.maxangle := by omega
    have hstep := lsys_doplus_mod { st with angle :=
      (st.angle + (k : Int) * (if st.reverse ≠ 0 then 1 else st.maxangle - 1))
        % st.maxangle } hd ⟨Int.emod_nonneg _ (by omega), Int.emod_lt_of_pos _ hm⟩
    rw [hstep]
    simp only [Int.emod_add_emod]
    congr 2
    push_cast
    ring

theorem angle_ok_turn_state : angle_ok turn_state := by
  refine ⟨by decide, by decide, by decide, by decide, ?_, ?_⟩ <;> simp [turn_state]

/-- C35: in a state whose heading satisfies `0 ≤ angle < maxangle`, with
`maxangle ≤ 50` (so for every `maxangle` from 3 to 50), `dmaxangle = maxangle - 1`
and two tables of 50 entries, each of `lsys_doplus`, `lsys_dominus` and
`lsys_dopipe` returns a state with `0 ≤ angle < maxangle` again, whatever the
value of `reverse`; and in every such state the two table reads of
`lsys_dosizegf` are inside the tables, so that it returns. -/
theorem C35_heading_index_invariant (st : lsys_state) (h : angle_ok st) :
    angle_ok (lsys_doplus st) ∧ angle_ok (lsys_dominus st) ∧
    (∃ st1, lsys_dopipe st = some st1 ∧ angle_ok st1) ∧
    (∀ st1, st1 = lsys_doplus st ∨ st1 = lsys_dominus st ∨ lsys_dopipe st = some st1 →
      0 ≤ st1.angle ∧ st1.angle < st1.maxangle ∧ st1.maxangle = st.maxangle ∧
      (∃ c s, table_at st1.coss st1.angle = some c ∧ table_at st1.sins st1.angle = some s) ∧
      ∃ st2, lsys_dosizegf st1 = some st2) := by
  obtain ⟨a1, a2, a3, a4, a5, a6⟩ := h
  have hplus : angle_ok (lsys_doplus st) ∧ (lsys_doplus st).maxangle = st.maxangle := by
    unfold lsys_doplus
    split_ifs <;> refine ⟨⟨?_, ?_, a3, a4, a5, a6⟩, rfl⟩ <;> simp only <;> omega
  have hminus : angle_ok (lsys_dominus st) ∧ (lsys_dominus st).maxangle = st.maxangle := by
    unfold lsys_dominus
    split_ifs <;> refine ⟨⟨?_, ?_, a3, a4, a5, a6⟩, rfl⟩ <;> simp only <;> omega
  have hm : st.maxangle ≠ 0 := by omega
  have hpipe : ∃ st1, lsys_dopipe st = some st1 ∧ angle_ok st1 ∧
      st1.maxangle = st.maxangle := by
    refine ⟨{ st with angle := Int.tmod (st.angle + Int.tdiv st.maxangle 2) st.maxangle },
      by rw [lsys_dopipe, if_neg hm], ⟨?_, ?_, a3, a4, a5, a6⟩, rfl⟩
    · exact Int.tmod_nonneg _ (Int.add_nonneg a1 (Int.tdiv_nonneg (by omega) (by decide)))
    · exact Int.tmod_lt_of_pos _ (by omega)
  have reads : ∀ st1, angle_ok st1 → st1.maxangle = st.maxangle →
      0 ≤ st1.angle ∧ st1.angle < st1.maxangle ∧ st1.maxangle = st.maxangle ∧
      (∃ c s, table_at st1.coss st1.angle = some c ∧ table_at st1.sins st1.angle = some s) ∧
      ∃ st2, lsys_dosizegf st1 = some st2 := by
    intro st1 hok hmx
    obtain ⟨b1, b2, b3, _, b5, b6⟩ := hok
    obtain ⟨c, hc⟩ := table_at_ok st1.coss st1.angle b1 (by omega) b6
    obtain ⟨s, hs⟩ := table_at_ok st1.sins st1.angle b1 (by omega) b5
    refine ⟨b1, b2, hmx, ⟨c, s, hc, hs⟩, ?_⟩
    unfold lsys_dosizegf
    rw [hc, hs]
    exact ⟨_, rfl⟩
  refine ⟨hplus.1, hminus.1, ?_, ?_⟩
  · obtain ⟨st1, e, hok, _⟩ := hpipe
    exact ⟨st1, e, hok⟩
  · intro st1 hst1
    rcases hst1 with e | e | e
    · rw [e]; exact reads _ hplus.1 hplus.2
    · rw [e]; exact reads _ hminus.1 hminus.2
    · obtain ⟨st2, e2, hok, hmx⟩ := hpipe
      rw [e] at e2
      cases e2
      exact reads _ hok hmx

/-- C35 at a state with `maxangle = 7`, heading 6 and the reversed flag set. -/
theorem C35_heading_index_invariant_witness :
    angle_ok turn_state ∧
    angle_ok (lsys_doplus turn_state) ∧ angle_ok (lsys_dominus turn_state) ∧
    (∃ st1, lsys_dopipe turn_state = some st1 ∧ angle_ok st1) ∧
    (∀ st1, st1 = lsys_doplus turn_state ∨ st1 = lsys_dominus turn_state ∨
        lsys_dopipe turn_state = some st1 →
      0 ≤ st1.angle ∧ st1.angle < st1.maxangle ∧ st1.maxangle = turn_state.maxangle ∧
      (∃ c s, table_at st1.coss st1.angle = some c ∧ table_at st1.sins st1.angle = some s) ∧
      ∃ st2, lsys_dosizegf st1 = some st2) :=
  ⟨angle_ok_turn_state, C35_heading_index_invariant turn_state angle_ok_turn_state⟩

/-- C36: for a heading with `0 ≤ angle < maxangle` (and `dmaxangle = maxangle - 1`,
as `lsys_start` sets it) and any value of `reverse`: `lsys_dominus` after
`lsys_doplus` and `lsys_doplus` after `lsys_dominus` give the state back;
`maxangle` calls of `lsys_doplus` give the state back; two calls of
`lsys_dobang` leave `reverse` set exactly when it was set, and give the state
back when `reverse` is 0 or 1 (the values the program stores); and with
`reverse` set to a non-zero `r`, `lsys_doplus` computes the heading that
`lsys_dominus` computes with `reverse = 0`, and the other way round. -/
theorem C36_turn_algebra (st : lsys_state) (hd : st.dmaxangle = st.maxangle - 1)
    (hang : 0 ≤ st.angle ∧ st.angle < st.maxangle) :
    lsys_dominus (lsys_doplus st) = st ∧
    lsys_doplus (lsys_dominus st) = st ∧
    lsys_doplus^[st.maxangle.toNat] st = st ∧
    ((lsys_dobang (lsys_dobang st)).reverse ≠ 0 ↔ st.reverse ≠ 0) ∧
    (st.reverse = 0 ∨ st.reverse = 1 → lsys_dobang (lsys_dobang st) = st) ∧
    (∀ r : Int, r ≠ 0 →
      lsys_doplus { st with reverse := r } =
        { lsys_dominus { st with reverse := 0 } with reverse := r } ∧
      lsys_dominus { st with reverse := r } =
        { lsys_doplus { st with reverse := 0 } with reverse := r }) := by
  obtain ⟨h0, h1⟩ := hang
  refine ⟨?_, ?_, ?_, ?_, ?_, ?_⟩
  · have hm : 0 < st.maxangle := by omega
    rw [lsys_doplus_mod st hd ⟨h0, h1⟩]
    have hstep := lsys_dominus_mod { st with angle :=
      (st.angle + (if st.reverse ≠ 0 then 1 else st.maxangle - 1)) % st.maxangle } hd
      ⟨Int.emod_nonneg _ (by omega), Int.emod_lt_of_pos _ hm⟩
    rw [hstep]
    simp only [Int.emod_add_emod]
    have : (st.angle + (if st.reverse ≠ 0 then 1 else st.maxangle - 1) +
        (if st.reverse ≠ 0 then st.maxangle - 1 else 1)) % st.maxangle = st.angle := by
      have e : st.angle + (if st.reverse ≠ 0 then 1 else st.maxangle - 1) +
          (if st.reverse ≠ 0 then st.maxangle - 1 else 1) = st.angle + st.maxangle := by
        split_ifs <;> ring
      rw [e, Int.add_emod_self, Int.emod_eq_of_lt h0 h1]
    rw [this]
  · have hm : 0 < st.maxangle := by omega
    rw [lsys_dominus_mod st hd ⟨h0, h1⟩]
    have hstep := lsys_doplus_mod { st with angle :=
      (st.angle + (if st.reverse ≠ 0 then st.maxangle - 1 else 1)) % st.maxangle } hd
      ⟨Int.emod_nonneg _ (by omega), Int.emod_lt_of_pos _ hm⟩
    rw [hstep]
    simp only [Int.emod_add_emod]
    have : (st.angle + (if st.reverse ≠ 0 then st.maxangle - 1 else 1) +
        (if st.reverse ≠ 0 then 1 else st.maxangle - 1)) % st.maxangle = st.angle := by
      have e : st.angle + (if st.reverse ≠ 0 then st.maxangle - 1 else 1) +
          (if st.reverse ≠ 0 then 1 else st.maxangle - 1) = st.angle + st.maxangle := by
        split_ifs <;> ring
      rw [e, Int.add_emod_self, Int.emod_eq_of_lt h0 h1]
    rw [this]
  · rw [lsys_doplus_iterate st hd ⟨h0, h1⟩]
    have hm : ((st.maxangle.toNat : Nat) : Int) = st.maxangle := Int.toNat_of_nonneg (by omega)
    rw [hm]
    have : (st.angle + st.maxangle * (if st.reverse ≠ 0 then 1 else st.maxangle - 1))
        % st.maxangle = st.angle := by
      rw [Int.add_mul_emod_self_left, Int.emod_eq_of_lt h0 h1]
    rw [this]
  · unfold lsys_dobang
    simp only
    split_ifs <;> simp_all
  · intro hr
    obtain ⟨sins, coss, maxangle, dmaxangle, size, realangle, xpos, ypos, counter, angle,
      reverse, x0, x1, y0, y1, currentnode, outputfile⟩ := st
    simp only at hr
    unfold lsys_dobang
    rcases hr with hr | hr <;> subst hr <;> simp
  · intro r hr
    unfold lsys_doplus lsys_dominus
    simp only [ne_eq, hr, not_false_eq_true, if_true, not_true_eq_false, if_false]
    constructor <;> split_ifs <;> rfl

/-- C36 at a state with `maxangle = 7`, heading 6 and the reversed flag set. -/
theorem C36_turn_algebra_witness :
    lsys_dominus (lsys_doplus turn_state) = turn_state ∧
    lsys_doplus (lsys_dominus turn_state) = turn_state ∧
    lsys_doplus^[turn_state.maxangle.toNat] turn_state = turn_state ∧
    ((lsys_dobang (lsys_dobang turn_state)).reverse ≠ 0 ↔ turn_state.reverse ≠ 0) ∧
    (turn_state.reverse = 0 ∨ turn_state.reverse = 1 →
      lsys_dobang (lsys_dobang turn_state) = turn_state) ∧
    (∀ r : Int, r ≠ 0 →
      lsys_doplus { turn_state with reverse := r } =
        { lsys_dominus { turn_state with reverse := 0 } with reverse := r } ∧
      lsys_dominus { turn_state with reverse := r } =
        { lsys_doplus { turn_state with reverse := 0 } with reverse := r }) :=
  C36_turn_algebra turn_state (by decide) (by decide)

/-! ### Termination of `mergesort_ls` -/

section SortingReturns

variable {α : Type} (cmp : α → α → Option Int)

theorem merge_loop_returns (input : List α) (mid right : Nat) (hr : right ≤ input.length)
    (hc : ∀ x ∈ input, ∀ y ∈ input, ∃ c, cmp x y = some c) :
    ∀ (n l r : Nat) (scratch : List α), l ≤ mid → mid ≤ right → r ≤ right →
      (mid - l) + (right - r) = n →
      ∃ out, merge_loop cmp input mid right n l r scratch = some out ∧
        out.length = scratch.length + n ∧ ∀ x ∈ out, x ∈ scratch ∨ x ∈ input := by
  intro n
  induction n with
  | zero =>
    intro l r scratch _ _ _ _
    exact ⟨scratch, rfl, rfl, fun x hx => Or.inl hx⟩
  | succ n ih =>
    intro l r scratch hl hm hrr hn
    have step : ∀ (l1 r1 : Nat) (x : α), x ∈ input → l1 ≤ mid → r1 ≤ right →
        (mid - l1) + (right - r1) = n →
        ∃ out, merge_loop cmp input mid right n l1 r1 (scratch ++ [x]) = some out ∧
          out.length = scratch.length + (n + 1) ∧ ∀ y ∈ out, y ∈ scratch ∨ y ∈ input := by
      intro l1 r1 x hx h1 h2 h3
      obtain ⟨out, e, len, mem⟩ := ih l1 r1 (scratch ++ [x]) h1 hm h2 h3
      refine ⟨out, e, ?_, ?_⟩
      · rw [len, List.length_append, List.length_singleton]; omega
      · intro y hy
        rcases mem y hy with h | h
        · rcases List.mem_append.mp h with h | h
          · exact Or.inl h
          · rw [List.mem_singleton.mp h]; exact Or.inr hx
        · exact Or.inr h
    rw [merge_loop]
    by_cases hlm : l < mid
    · rw [if_pos hlm]
      have hll : l < input.length := by omega
      have el : input[l]? = some input[l] := List.getElem?_eq_getElem hll
      have ml : input[l] ∈ input := List.getElem_mem hll
      by_cases hre : r = right
      · rw [if_pos hre, el]
        exact step (l + 1) r _ ml (by omega) hrr (by omega)
      · rw [if_neg hre]
        have hrl : r < input.length := by omega
        have er : input[r]? = some input[r] := List.getElem?_eq_getElem hrl
        have mr : input[r] ∈ input := List.getElem_mem hrl
        obtain ⟨c, ec⟩ := hc _ ml _ mr
        rw [el, er]
        simp only [ec]
        by_cases hneg : c < 0
        · rw [if_pos hneg]
          exact step (l + 1) r _ ml (by omega) hrr (by omega)
        · rw [if_neg hneg]
          exact step l (r + 1) _ mr hl (by omega) (by omega)
    · rw [if_neg hlm]
      have hrl : r < input.length := by omega
      have er : input[r]? = some input[r] := List.getElem?_eq_getElem hrl
      have mr : input[r] ∈ input := List.getElem_mem hrl
      rw [er]
      exact step l (r + 1) _ mr hl (by omega) (by omega)

theorem copy_back_returns (xs : List α) :
    ∀ (input : List α) (i : Nat), i + xs.length ≤ input.length →
      ∃ out, copy_back input i xs = some out ∧ out.length = input.length ∧
        ∀ x ∈ out, x ∈ input ∨ x ∈ xs := by
  induction xs with
  | nil =>
    intro input i _
    exact ⟨input, rfl, rfl, fun x hx => Or.inl hx⟩
  | cons a xs ih =>
    intro input i h
    simp only [List.length_cons] at h
    rw [copy_back, if_pos (by omega)]
    obtain ⟨out, e, len, mem⟩ := ih (input.set i a) (i + 1) (by rw [List.length_set]; omega)
    refine ⟨out, e, by rw [len, List.length_set], ?_⟩
    intro x hx
    rcases mem x hx with h1 | h1
    · rcases List.mem_or_eq_of_mem_set h1 with h2 | h2
      · exact Or.inl h2
      · rw [h2]; exact Or.inr (List.mem_cons_self _ _)
    · exact Or.inr (List.mem_cons_of_mem _ h1)

theorem merge_helper_returns :
    ∀ (fuel : Nat) (input : List α) (left right : Nat), left < right → right ≤ input.length →
      right - left ≤ fuel → (∀ x ∈ input, ∀ y ∈ input, ∃ c, cmp x y = some c) →
      ∃ out, merge_helper cmp fuel input left right = some out ∧
        out.length = input.length ∧ ∀ x ∈ out, x ∈ input := by
  intro fuel
  induction fuel with
  | zero =>
    intro input left right h1 _ h3 _
    omega
  | succ fuel ih =>
    intro input left right h1 h2 h3 hc
    rw [merge_helper]
    by_cases hb : right = left + 1
    · rw [if_pos hb]
      exact ⟨input, rfl, rfl, fun x hx => hx⟩
    · rw [if_neg hb]
      simp only
      have hd : 0 < (right - left) / 2 := by omega
      have hd2 : (right - left) / 2 < right - left := by omega
      obtain ⟨in1, e1, len1, mem1⟩ := ih input left (left + (right - left) / 2) (by omega)
        (by omega) (by omega) hc
      have hc1 : ∀ x ∈ in1, ∀ y ∈ in1, ∃ c, cmp x y = some c :=
        fun x hx y hy => hc x (mem1 x hx) y (mem1 y hy)
      obtain ⟨in2, e2, len2, mem2⟩ := ih in1 (left + (right - left) / 2) right (by omega)
        (by omega) (by omega) hc1
      have hc2 : ∀ x ∈ in2, ∀ y ∈ in2, ∃ c, cmp x y = some c :=
        fun x hx y hy => hc1 x (mem2 x hx) y (mem2 y hy)
      obtain ⟨scratch, e3, len3, mem3⟩ := merge_loop_returns cmp in2
        (left + (right - left) / 2) right (by omega) hc2 (right - left) left
        (left + (right - left) / 2) [] (by omega) (by omega) (by omega) (by omega)
      obtain ⟨out, e4, len4, mem4⟩ := copy_back_returns scratch in2 left
        (by rw [len3]; simp only [List.length_nil]; omega)
      rw [e1]
      simp only
      rw [e2]
      simp only
      rw [e3]
      simp only
      refine ⟨out, e4, by rw [len4, len2, len1], ?_⟩
      intro x hx
      have hx2 : x ∈ in2 := by
        rcases mem4 x hx with h | h
        · exact h
        · rcases mem3 x h with h5 | h5
          · exact absurd h5 (List.not_mem_nil _)
          · exact h5
      exact mem1 x (mem2 x hx2)

theorem merge_helper_empty (input : List α) (left : Nat) :
    ∀ fuel : Nat, merge_helper cmp fuel input left left = none := by
  intro fuel
  induction fuel with
  | zero => rfl
  | succ fuel ih =>
    rw [merge_helper, if_neg (by omega)]
    simp only [Nat.sub_self, Nat.zero_div, Nat.add_zero]
    rw [ih]

end SortingReturns

/-- C38: `mergesort_ls` on an array of `size ≥ 1` entries, with a comparator
that returns on the entries of the array, returns 1 and an array of the same
length (the recursion of `merge_helper` ends, a recursion depth of `size`
being enough); on an array of size 0 the call `merge_helper(input, 0, 0, ...)`
is not in the base case `right == left + 1` and calls itself with the same
arguments, so that no recursion depth is enough for `mergesort_ls` to
return. -/
theorem C38_mergesort_returns {α : Type} (cmp : α → α → Option Int) (input : List α)
    (size fuel : Nat) (h1 : 1 ≤ size) (h2 : size ≤ input.length) (hf : size ≤ fuel)
    (hc : ∀ x ∈ input, ∀ y ∈ input, ∃ c, cmp x y = some c) :
    (∃ sorted, mergesort_ls cmp fuel input size = some (sorted, 1) ∧
      sorted.length = input.length ∧ ∀ x ∈ sorted, x ∈ input) ∧
    (∀ fuel0 : Nat, mergesort_ls cmp fuel0 input 0 = none) ∧
    (∀ (fuel0 left : Nat), merge_helper cmp fuel0 input left left = none) := by
  refine ⟨?_, ?_, ?_⟩
  · obtain ⟨out, e, len, mem⟩ := merge_helper_returns cmp fuel input 0 size (by omega) h2
      (by omega) hc
    refine ⟨out, ?_, len, mem⟩
    rw [mergesort_ls, e]
  · intro fuel0
    rw [mergesort_ls, merge_helper_empty cmp input 0 fuel0]
  · intro fuel0 left
    exact merge_helper_empty cmp input left fuel0

theorem compare_returns_of_fitness (vs : List ℚ) :
    ∀ x ∈ vs.map ls_of_fitness, ∀ y ∈ vs.map ls_of_fitness, ∃ c, compare x y = some c := by
  intro x hx y hy
  obtain ⟨a, _, rfl⟩ := List.mem_map.mp hx
  obtain ⟨b, _, rfl⟩ := List.mem_map.mp hy
  simp only [compare, compare_ls, fitness, ls_of_fitness]
  simp only [if_true]
  split_ifs <;> exact ⟨_, rfl⟩

/-- C38 at an array of four grammars with cached fitness values 3, 1, 4, 1
and the comparator `compare` of `ls_pop.c`. -/
theorem C38_mergesort_returns_witness :
    (∃ sorted, mergesort_ls compare 4 ([3, 1, 4, 1].map ls_of_fitness) 4 = some (sorted, 1) ∧
      sorted.length = ([3, 1, 4, 1].map ls_of_fitness).length ∧
      ∀ x ∈ sorted, x ∈ [3, 1, 4, 1].map ls_of_fitness) ∧
    (∀ fuel0 : Nat, mergesort_ls compare fuel0 ([3, 1, 4, 1].map ls_of_fitness) 0 = none) ∧
    (∀ (fuel0 left : Nat),
      merge_helper compare fuel0 ([3, 1, 4, 1].map ls_of_fitness) left left = none) :=
  C38_mergesort_returns compare ([3, 1, 4, 1].map ls_of_fitness) 4 4 (by decide) (by decide)
    (by decide) (compare_returns_of_fitness [3, 1, 4, 1])

/-! ### The timing loop and the size check of `fitness` -/

/-- C31: with exact arithmetic, for the three running times `r1 r2 r3` and node
counts `b1 b2 b3` that the three calls of `runningtime` store, the timing loop
of `fitness` ends with `n = 3`; the value stored in `ls->runningtimes[i]` is
`(r1 + r2 + r3)/3`; the value stored in `ls->avgbbnodes[i]` is
`(b1 + b2 + b3)/3`; `S/(n - 1)` is the sample variance
`((r1-m)^2 + (r2-m)^2 + (r3-m)^2)/2` around that mean `m`; and `ls->sd[i]` is
`fastsqrt` of it. -/
theorem C31_running_mean_variance (fastsqrt : ℚ → ℚ) (runs : Nat → ℚ × Int) :
    (timing_loop runs).n = 3 ∧
    timed_instance fastsqrt runs =
      (((runs 0).1 + (runs 1).1 + (runs 2).1) / 3,
       (((runs 0).2 : ℚ) + ((runs 1).2 : ℚ) + ((runs 2).2 : ℚ)) / 3,
       (((runs 0).1 - ((runs 0).1 + (runs 1).1 + (runs 2).1) / 3) ^ 2 +
        ((runs 1).1 - ((runs 0).1 + (runs 1).1 + (runs 2).1) / 3) ^ 2 +
        ((runs 2).1 - ((runs 0).1 + (runs 1).1 + (runs 2).1) / 3) ^ 2) / 2,
       fastsqrt
        ((((runs 0).1 - ((runs 0).1 + (runs 1).1 + (runs 2).1) / 3) ^ 2 +
          ((runs 1).1 - ((runs 0).1 + (runs 1).1 + (runs 2).1) / 3) ^ 2 +
          ((runs 2).1 - ((runs 0).1 + (runs 1).1 + (runs 2).1) / 3) ^ 2) / 2)) := by
  have hloop : timing_loop runs =
      timing_step (timing_step (timing_step ⟨0, 0, 0, 0⟩ (runs 0).1 (runs 0).2)
        (runs 1).1 (runs 1).2) (runs 2).1 (runs 2).2 := rfl
  have hn : (timing_loop runs).n = 3 := by
    rw [hloop]; simp only [timing_step]; norm_num
  have hmean : (timing_loop runs).mean = ((runs 0).1 + (runs 1).1 + (runs 2).1) / 3 := by
    rw [hloop]; simp only [timing_step]; ring
  have hS : (timing_loop runs).S / ((timing_loop runs).n - 1) =
      (((runs 0).1 - ((runs 0).1 + (runs 1).1 + (runs 2).1) / 3) ^ 2 +
        ((runs 1).1 - ((runs 0).1 + (runs 1).1 + (runs 2).1) / 3) ^ 2 +
        ((runs 2).1 - ((runs 0).1 + (runs 1).1 + (runs 2).1) / 3) ^ 2) / 2 := by
    rw [hn, hloop]; simp only [timing_step]; ring
  have hbb : (timing_loop runs).avgbbnodes / (NUM_TSP_ITER : ℚ) =
      (((runs 0).2 : ℚ) + ((runs 1).2 : ℚ) + ((runs 2).2 : ℚ)) / 3 := by
    rw [hloop]; simp only [timing_step, NUM_TSP_ITER]; norm_num
  refine ⟨hn, ?_⟩
  simp only [timed_instance]
  rw [hmean, hS, hbb]

/-- C39: the loop of `fitness` at ls.c:536 starts at `i = 0` and compares
`instancesize[0]` with `instancesize[-1]`, an entry that is not in the array
(in `lsystem` the field `angle` is declared right before it): for every
grammar the model of the check has no value. Started at `i = 1`, as the
loop over the same pairs in `find_upper_bound` is, the loop over an array of
`NUM_ORDER_TEST` sizes reads the indices `0 .. NUM_ORDER_TEST - 1` only and
reaches the body that forces the fitness to 0 exactly when two consecutive
sizes are equal. -/
theorem C39_duplicate_size_check (ls : lsystem)
    (h : ls.instancesize.length = NUM_ORDER_TEST) :
    int_at ls.instancesize (0 - 1) = none ∧
    same_size_loop ls.instancesize NUM_ORDER_TEST 0 = none ∧
    fitness_same_sizes ls = none ∧
    ∃ a b c, ls.instancesize = [a, b, c] ∧
      same_size_loop ls.instancesize (NUM_ORDER_TEST - 1) 1 = some (decide (b = a ∨ c = b)) := by
  have h1 : int_at ls.instancesize (0 - 1) = none := rfl
  have h2 : same_size_loop ls.instancesize NUM_ORDER_TEST 0 = none := by
    simp only [NUM_ORDER_TEST, same_size_loop, h1]
    split <;> simp_all
  refine ⟨h1, h2, by simp only [fitness_same_sizes, h2], ?_⟩
  match hl : ls.instancesize, h with
  | [a, b, c], _ =>
    refine ⟨a, b, c, rfl, ?_⟩
    simp only [NUM_ORDER_TEST, same_size_loop, int_at]
    by_cases e1 : b = a
    · simp [e1]
    · by_cases e2 : c = b
      · simp [e1, e2]
      · simp [e1, e2]

/-- C39 at the grammar with instance sizes 10, 40, 40. -/
theorem C39_duplicate_size_check_witness :
    int_at [10, 40, 40] (0 - 1) = none ∧
    same_size_loop [10, 40, 40] NUM_ORDER_TEST 0 = none ∧
    fitness_same_sizes { ls_of_fitness 0 with instancesize := [10, 40, 40] } = none ∧
    ∃ a b c, ([10, 40, 40] : List Int) = [a, b, c] ∧
      same_size_loop [10, 40, 40] (NUM_ORDER_TEST - 1) 1 = some (decide (b = a ∨ c = b)) :=
  C39_duplicate_size_check { ls_of_fitness 0 with instancesize := [10, 40, 40] } (by decide)

/-! ### Units and lengths under `crossover_ls` -/

/-- On a balanced rule the cut adjustment returns for every cut `p` up to the
length of the rule; the adjusted cut is in `p .. length`, and it is 0 only
for `p = 0`. -/
theorem adjust_cut_balanced (rule : List ruleobj) (p : Nat) (hbal : balanced rule = true)
    (hp : p ≤ rule.length) :
    ∃ a, adjust_cut rule rule.length p = some a ∧ p ≤ a ∧ a ≤ rule.length := by
  obtain ⟨st, en, hs, h1, _⟩ := scan_back_spec rule p hp
  cases st with
  | true =>
    obtain ⟨j, u, g1, g2, g3, g4⟩ := h1 rfl
    obtain ⟨q, v, q1, q2, q3, q4⟩ := balanced_pop_after rule j p g1 hp hbal u g2 g3 g4
    obtain ⟨f, w, f1, f2, _, _, _, f6⟩ := scan_fwd_first_pop rule rule.length (le_refl _)
      (rule.length + 2 - p) p ⟨q, v, q1, q2, by omega, q3, q4⟩
    refine ⟨f + 1, ?_, by omega, by omega⟩
    simp only [adjust_cut, hs, if_true]
    exact f6
  | false =>
    refine ⟨p, ?_, le_refl _, hp⟩
    simp only [adjust_cut, hs, Bool.false_eq_true, if_false]

theorem crossover_units_perm (r1 r2 : List ruleobj) (a1 a2 : Nat) :
    ((r1.take a1 ++ r2.drop a2) ++ (r2.take a2 ++ r1.drop a1)).Perm (r1 ++ r2) := by
  have e1 : r1 ++ r2 = (r1.take a1 ++ r1.drop a1) ++ (r2.take a2 ++ r2.drop a2) := by
    rw [List.take_append_drop, List.take_append_drop]
  rw [e1, List.perm_iff_count]
  intro x
  simp only [List.count_append]
  omega

section
variable {σ : Type}

/-- What `crossover_ls` returns for parents whose first `c1.numrules` rules
are balanced: per rule, the two adjusted cuts and the two new rules. -/
theorem crossover_ls_balanced (gen : σ → Nat × σ) (p1 p2 c1 c2 : lsystem) (s : σ)
    (hc1 : c1.numrules ≤ c1.rule.length ∧ c1.numrules ≤ c1.rulelength.length)
    (hc2 : c1.numrules ≤ c2.rule.length ∧ c1.numrules ≤ c2.rulelength.length)
    (hp1 : rules_balanced p1 c1.numrules) (hp2 : rules_balanced p2 c1.numrules) :
    ∃ d1 d2, crossover_ls gen p1 p2 c1 c2 s = some (d1, d2, nth_state gen s (2 * c1.numrules)) ∧
      ∀ i, i < c1.numrules → ∃ r1 r2 a1 a2,
        p1.rule[i]? = some r1 ∧ p2.rule[i]? = some r2 ∧
        adjust_cut r1 r1.length (nth_draw gen s (2 * i) % r1.length) = some a1 ∧
        adjust_cut r2 r2.length (nth_draw gen s (2 * i + 1) % r2.length) = some a2 ∧
        nth_draw gen s (2 * i) % r1.length ≤ a1 ∧ a1 ≤ r1.length ∧
        nth_draw gen s (2 * i + 1) % r2.length ≤ a2 ∧ a2 ≤ r2.length ∧
        d1.rule[i]? = some (r1.take a1 ++ r2.drop a2) ∧
        d1.rulelength[i]? = some (a1 + (r2.length - a2)) ∧
        d2.rule[i]? = some (r2.take a2 ++ r1.drop a1) ∧
        d2.rulelength[i]? = some (a2 + (r1.length - a1)) := by
  have hall : ∀ i, i < c1.numrules → ∃ r1 r2 a1 a2,
      p1.rule[i]? = some r1 ∧ p2.rule[i]? = some r2 ∧
      p1.rulelength[i]? = some r1.length ∧ p2.rulelength[i]? = some r2.length ∧
      0 < r1.length ∧ 0 < r2.length ∧
      adjust_cut r1 r1.length (nth_draw gen s (2 * i) % r1.length) = some a1 ∧
      adjust_cut r2 r2.length (nth_draw gen s (2 * i + 1) % r2.length) = some a2 ∧
      nth_draw gen s (2 * i) % r1.length ≤ a1 ∧ a1 ≤ r1.length ∧
      nth_draw gen s (2 * i + 1) % r2.length ≤ a2 ∧ a2 ≤ r2.length := by
    intro i hi
    obtain ⟨r1, e1, l1, pos1, b1⟩ := hp1 i hi
    obtain ⟨r2, e2, l2, pos2, b2⟩ := hp2 i hi
    obtain ⟨a1, g1, g2, g3⟩ := adjust_cut_balanced r1 (nth_draw gen s (2 * i) % r1.length) b1
      (le_of_lt (Nat.mod_lt _ pos1))
    obtain ⟨a2, k1, k2, k3⟩ := adjust_cut_balanced r2 (nth_draw gen s (2 * i + 1) % r2.length)
      b2 (le_of_lt (Nat.mod_lt _ pos2))
    exact ⟨r1, r2, a1, a2, e1, e2, l1, l2, pos1, pos2, g1, k1, g2, g3, k2, k3⟩
  obtain ⟨d1, d2, hloop, _, hnew⟩ := crossover_loop_spec gen p1 p2 c1.numrules 0 c1 c2 s
    (by omega) (by omega) (by omega) (by omega)
    (by
      intro j hj
      obtain ⟨r1, r2, a1, a2, h1, h2, h3, h4, h5, h6, h7, h8, _⟩ := hall j hj
      exact ⟨r1, r2, a1, a2, by simpa only [Nat.zero_add] using h1,
        by simpa only [Nat.zero_add] using h2, by simpa only [Nat.zero_add] using h3,
        by simpa only [Nat.zero_add] using h4, h5, h6, h7, h8⟩)
  refine ⟨{ d1 with angle := p1.angle, computed_f := false },
    { d2 with angle := p2.angle, computed_f := false }, ?_, ?_⟩
  · simp only [crossover_ls, hloop]
  · intro i hi
    obtain ⟨r1, r2, a1, a2, h1, h2, _, _, _, _, h7, h8, h9, h10, h11, h12⟩ := hall i hi
    have := hnew i hi r1 r2 a1 a2 (by simpa only [Nat.zero_add] using h1)
      (by simpa only [Nat.zero_add] using h2) h7 h8
    simp only [Nat.zero_add] at this
    exact ⟨r1, r2, a1, a2, h1, h2, h7, h8, h9, h10, h11, h12, this⟩

end

theorem adjust_cut_zero (rule : List ruleobj) (len : Nat) : adjust_cut rule len 0 = some 0 := by
  simp [adjust_cut, scan_back]

section
variable {σ : Type}

/-- C32: one iteration of `generateChildren` whose two parents `p1`, `p2` lie
in the parent zone (slots below `num_parents`) and hold balanced non-empty
rules, with the children at slots `i` and `i + 1` of the child zone: the
iteration returns; for every rule index below `numrules` and whatever the two
cut draws, the rule of child 1 followed by the rule of child 2 is a
permutation of the rule of parent 1 followed by the rule of parent 2, the two
stored lengths are the lengths of the new rules and add up to the sum of the
parents' lengths; and every slot of `ls_array` other than `i` and `i + 1`,
the two parents among them, holds what it held before. -/
theorem C32_crossover_conserves_units (gen : σ → Nat × σ) (pop : ls_population)
    (i a b : Nat) (fb : Bool) (sp sr : σ) (p1 p2 c1 c2 : lsystem)
    (hsel : (chooseUniqueParents gen pop sp).1 = some ⟨some a, some b, fb⟩)
    (ha : a < pop.num_parents) (hb : b < pop.num_parents) (hi : pop.num_parents ≤ i)
    (e1 : pop.ls_array[a]? = some p1) (e2 : pop.ls_array[b]? = some p2)
    (e3 : pop.ls_array[i]? = some c1) (e4 : pop.ls_array[i + 1]? = some c2)
    (hc1 : c1.numrules ≤ c1.rule.length ∧ c1.numrules ≤ c1.rulelength.length)
    (hc2 : c1.numrules ≤ c2.rule.length ∧ c1.numrules ≤ c2.rulelength.length)
    (hp1 : rules_balanced p1 c1.numrules) (hp2 : rules_balanced p2 c1.numrules) :
    ∃ pop1 d1 d2,
      generateChildren_step gen pop i sp sr =
        some (pop1, (chooseUniqueParents gen pop sp).2, nth_state gen sr (2 * c1.numrules)) ∧
      crossover_ls gen p1 p2 c1 c2 sr = some (d1, d2, nth_state gen sr (2 * c1.numrules)) ∧
      pop1.ls_array[i]? = some d1 ∧ pop1.ls_array[i + 1]? = some d2 ∧
      pop1.ls_array[a]? = some p1 ∧ pop1.ls_array[b]? = some p2 ∧
      (∀ j, j ≠ i → j ≠ i + 1 → pop1.ls_array[j]? = pop.ls_array[j]?) ∧
      ∀ idx, idx < c1.numrules → ∃ r1 r2 k1 k2,
        p1.rule[idx]? = some r1 ∧ p2.rule[idx]? = some r2 ∧
        d1.rule[idx]? = some k1 ∧ d2.rule[idx]? = some k2 ∧
        (k1 ++ k2).Perm (r1 ++ r2) ∧
        k1.length + k2.length = r1.length + r2.length ∧
        d1.rulelength[idx]? = some k1.length ∧ d2.rulelength[idx]? = some k2.length := by
  obtain ⟨d1, d2, hcross, hrules⟩ := crossover_ls_balanced gen p1 p2 c1 c2 sr hc1 hc2 hp1 hp2
  have hi1 : i < pop.ls_array.length := (List.getElem?_eq_some_iff.mp e3).1
  have hi2 : i + 1 < pop.ls_array.length := (List.getElem?_eq_some_iff.mp e4).1
  have hframe : ∀ j, j ≠ i → j ≠ i + 1 →
      ((pop.ls_array.set i d1).set (i + 1) d2)[j]? = pop.ls_array[j]? := by
    intro j h1 h2
    rw [List.getElem?_set_ne (Ne.symm h2), List.getElem?_set_ne (Ne.symm h1)]
  have hsplit : chooseUniqueParents gen pop sp =
      (some ⟨some a, some b, fb⟩, (chooseUniqueParents gen pop sp).2) := by
    rw [← hsel]
  have hno : ¬ (a = i ∨ a = i + 1 ∨ b = i ∨ b = i + 1) := by omega
  refine ⟨{ pop with ls_array := (pop.ls_array.set i d1).set (i + 1) d2 }, d1, d2, ?_, hcross,
    ?_, ?_, ?_, ?_, hframe, ?_⟩
  · unfold generateChildren_step
    rw [hsplit]
    simp only [hno, if_false, e1, e2, e3, e4, hcross]
  · show ((pop.ls_array.set i d1).set (i + 1) d2)[i]? = some d1
    rw [List.getElem?_set_ne (by omega), List.getElem?_set_self hi1]
  · show ((pop.ls_array.set i d1).set (i + 1) d2)[i + 1]? = some d2
    rw [List.getElem?_set_self (by rw [List.length_set]; exact hi2)]
  · show ((pop.ls_array.set i d1).set (i + 1) d2)[a]? = some p1
    rw [hframe a (by omega) (by omega), e1]
  · show ((pop.ls_array.set i d1).set (i + 1) d2)[b]? = some p2
    rw [hframe b (by omega) (by omega), e2]
  · intro idx hidx
    obtain ⟨r1, r2, a1, a2, h1, h2, _, _, _, g1, _, g2, h3, h4, h5, h6⟩ := hrules idx hidx
    refine ⟨r1, r2, _, _, h1, h2, h3, h5, crossover_units_perm r1 r2 a1 a2, ?_, ?_, ?_⟩
    · have := (crossover_units_perm r1 r2 a1 a2).length_eq
      simpa only [List.length_append] using this
    · rw [h4]
      simp only [List.length_append, List.length_take, List.length_drop, Nat.min_eq_left g1]
    · rw [h6]
      simp only [List.length_append, List.length_take, List.length_drop, Nat.min_eq_left g2]

/-- C33: for parents whose rules are balanced and non-empty `crossover_ls`
returns, and for every rule index the stored length of the rule of child 1
is 0 exactly when the cut drawn in parent 1 is 0 and the adjusted cut in
parent 2 is the length of its rule (a stack ends the rule and the drawn cut
lies inside it); likewise for child 2. Once a stored length is 0, every call
of `random_rule` on that rule and every call of `crossover_ls` that reaches
that rule of the grammar as first parent computes a remainder modulo 0. -/
theorem C33_crossover_child_lengths (gen : σ → Nat × σ) (p1 p2 c1 c2 : lsystem) (s : σ)
    (hc1 : c1.numrules ≤ c1.rule.length ∧ c1.numrules ≤ c1.rulelength.length)
    (hc2 : c1.numrules ≤ c2.rule.length ∧ c1.numrules ≤ c2.rulelength.length)
    (hp1 : rules_balanced p1 c1.numrules) (hp2 : rules_balanced p2 c1.numrules) :
    ∃ d1 d2, crossover_ls gen p1 p2 c1 c2 s = some (d1, d2, nth_state gen s (2 * c1.numrules)) ∧
      (∀ i, i < c1.numrules → ∃ r1 r2 a1 a2 n1 n2,
        p1.rule[i]? = some r1 ∧ p2.rule[i]? = some r2 ∧
        adjust_cut r1 r1.length (nth_draw gen s (2 * i) % r1.length) = some a1 ∧
        adjust_cut r2 r2.length (nth_draw gen s (2 * i + 1) % r2.length) = some a2 ∧
        d1.rulelength[i]? = some n1 ∧ d2.rulelength[i]? = some n2 ∧
        (n1 = 0 ↔ nth_draw gen s (2 * i) % r1.length = 0 ∧ a2 = r2.length) ∧
        (n2 = 0 ↔ nth_draw gen s (2 * i + 1) % r2.length = 0 ∧ a1 = r1.length)) ∧
      ∀ (d : lsystem) (i : Nat), d.rulelength[i]? = some 0 →
        (∀ (gen2 : σ → Nat × σ) (s2 : σ), random_rule gen2 d i s2 = none) ∧
        ∀ (gen2 : σ → Nat × σ) (q e1 e2 : lsystem) (s2 : σ) (n : Nat),
          crossover_loop gen2 d q (n + 1) i e1 e2 s2 = none := by
  obtain ⟨d1, d2, hcross, hrules⟩ := crossover_ls_balanced gen p1 p2 c1 c2 s hc1 hc2 hp1 hp2
  refine ⟨d1, d2, hcross, ?_, ?_⟩
  · intro i hi
    obtain ⟨r1, r2, a1, a2, h1, h2, h3, h4, g1, g2, g3, g4, _, h5, _, h6⟩ := hrules i hi
    refine ⟨r1, r2, a1, a2, _, _, h1, h2, h3, h4, h5, h6, ?_, ?_⟩
    · constructor
      · intro h
        exact ⟨by omega, by omega⟩
      · rintro ⟨z, e⟩
        rw [z, adjust_cut_zero] at h3
        have : a1 = 0 := (Option.some.inj h3).symm
        omega
    · constructor
      · intro h
        exact ⟨by omega, by omega⟩
      · rintro ⟨z, e⟩
        rw [z, adjust_cut_zero] at h4
        have : a2 = 0 := (Option.some.inj h4).symm
        omega
  · intro d i hd
    constructor
    · intro gen2 s2
      unfold random_rule
      rw [hd]
      cases d.rule[i]? with
      | none => rfl
      | some old => simp
    · intro gen2 q e1 e2 s2 n
      rw [crossover_loop, hd]
      cases q.rulelength[i]? with
      | none => rfl
      | some len2 =>
        cases d.rule[i]? with
        | none => rfl
        | some r1 =>
          cases q.rule[i]? with
          | none => rfl
          | some r2 => simp

end

theorem rules_balanced_of_text (angle : Int) (startvar : List Char) (rules : List String)
    (n : Nat) (hn : n ≤ rules.length)
    (h : ∀ t ∈ rules, 0 < (string2rule t.toList).length ∧
      balanced (string2rule t.toList) = true) :
    rules_balanced (ls_of_text angle startvar rules) n := by
  intro i hi
  have hlt : i < rules.length := by omega
  have hm : rules[i] ∈ rules := List.getElem_mem hlt
  refine ⟨string2rule rules[i].toList, ?_, ?_, (h _ hm).1, (h _ hm).2⟩
  · simp [ls_of_text, List.getElem?_map, List.getElem?_eq_getElem hlt]
  · simp [ls_of_text, List.getElem?_map, List.getElem?_eq_getElem hlt]

/-- C32 at a population of two parents `[F]F[F]`, `FA` and `F[GG]`, `AF` and
two children, with the draws 3000000000 and 1000000000 of `prng` (which select
the slots 0 and 1) and the cut draws 5, 3, 1, 0 of `rng`. -/
theorem C32_crossover_conserves_units_witness :
    ∃ pop1 d1 d2,
      generateChildren_step list_gen
        ⟨2, 2, 4, [ls_of_text 4 ['A'] ["[F]F[F]", "FA"], ls_of_text 5 ['A'] ["F[GG]", "AF"],
          ls_of_text 3 ['A'] ["F", "F"], ls_of_text 3 ['A'] ["G", "G"]]⟩ 2
        [3000000000, 1000000000] [5, 3, 1, 0] =
        some (pop1, (chooseUniqueParents list_gen
          ⟨2, 2, 4, [ls_of_text 4 ['A'] ["[F]F[F]", "FA"], ls_of_text 5 ['A'] ["F[GG]", "AF"],
            ls_of_text 3 ['A'] ["F", "F"], ls_of_text 3 ['A'] ["G", "G"]]⟩
          [3000000000, 1000000000]).2,
          nth_state list_gen [5, 3, 1, 0] (2 * (ls_of_text 3 ['A'] ["F", "F"]).numrules)) ∧
      crossover_ls list_gen (ls_of_text 4 ['A'] ["[F]F[F]", "FA"])
        (ls_of_text 5 ['A'] ["F[GG]", "AF"]) (ls_of_text 3 ['A'] ["F", "F"])
        (ls_of_text 3 ['A'] ["G", "G"]) [5, 3, 1, 0] =
        some (d1, d2,
          nth_state list_gen [5, 3, 1, 0] (2 * (ls_of_text 3 ['A'] ["F", "F"]).numrules)) ∧
      pop1.ls_array[2]? = some d1 ∧ pop1.ls_array[2 + 1]? = some d2 ∧
      pop1.ls_array[0]? = some (ls_of_text 4 ['A'] ["[F]F[F]", "FA"]) ∧
      pop1.ls_array[1]? = some (ls_of_text 5 ['A'] ["F[GG]", "AF"]) ∧
      (∀ j, j ≠ 2 → j ≠ 2 + 1 → pop1.ls_array[j]? =
        (⟨2, 2, 4, [ls_of_text 4 ['A'] ["[F]F[F]", "FA"], ls_of_text 5 ['A'] ["F[GG]", "AF"],
          ls_of_text 3 ['A'] ["F", "F"], ls_of_text 3 ['A'] ["G", "G"]]⟩
          : ls_population).ls_array[j]?) ∧
      ∀ idx, idx < (ls_of_text 3 ['A'] ["F", "F"]).numrules → ∃ r1 r2 k1 k2,
        (ls_of_text 4 ['A'] ["[F]F[F]", "FA"]).rule[idx]? = some r1 ∧
        (ls_of_text 5 ['A'] ["F[GG]", "AF"]).rule[idx]? = some r2 ∧
        d1.rule[idx]? = some k1 ∧ d2.rule[idx]? = some k2 ∧
        (k1 ++ k2).Perm (r1 ++ r2) ∧
        k1.length + k2.length = r1.length + r2.length ∧
        d1.rulelength[idx]? = some k1.length ∧ d2.rulelength[idx]? = some k2.length :=
  C32_crossover_conserves_units list_gen
    ⟨2, 2, 4, [ls_of_text 4 ['A'] ["[F]F[F]", "FA"], ls_of_text 5 ['A'] ["F[GG]", "AF"],
      ls_of_text 3 ['A'] ["F", "F"], ls_of_text 3 ['A'] ["G", "G"]]⟩ 2 0 1 false
    [3000000000, 1000000000] [5, 3, 1, 0] (ls_of_text 4 ['A'] ["[F]F[F]", "FA"])
    (ls_of_text 5 ['A'] ["F[GG]", "AF"]) (ls_of_text 3 ['A'] ["F", "F"])
    (ls_of_text 3 ['A'] ["G", "G"])
    (by
      simp [chooseUniqueParents, chooseUniqueParents_draws, scan_weights, parent_weights,
        halving_weights, parent_pos, compact_pos, genrand_real1, draw32, list_gen]
      norm_num
      decide)
    (by decide) (by decide) (by decide) (by decide) (by decide) (by decide) (by decide)
    (by decide) (by decide)
    (rules_balanced_of_text 4 ['A'] ["[F]F[F]", "FA"] 2 (by decide) (by decide))
    (rules_balanced_of_text 5 ['A'] ["F[GG]", "AF"] 2 (by decide) (by decide))

/-- C33 at the parents `F`, `A` and `[F]`, `A` with the cut draws 0, 1 for
the axiom: the cut in `[F]` moves to 3, child 1 gets the axiom of length 0,
and `random_rule` on that axiom has no value. -/
theorem C33_crossover_child_lengths_witness :
    (∀ r ∈ (ls_of_text 4 ['A'] ["F", "A"]).rule, 0 < r.length ∧ balanced r = true) ∧
    (∀ r ∈ (ls_of_text 4 ['A'] ["[F]", "A"]).rule, 0 < r.length ∧ balanced r = true) ∧
    (crossover_ls list_gen (ls_of_text 4 ['A'] ["F", "A"]) (ls_of_text 4 ['A'] ["[F]", "A"])
        (ls_of_text 3 ['A'] ["F", "F"]) (ls_of_text 3 ['A'] ["F", "F"]) [0, 1, 0, 0]).map
      (fun r => (r.1.rulelength, r.1.rule.map render, r.2.1.rulelength, r.2.1.rule.map render))
      = some ([0, 1], ["".toList, "A".toList], [4, 1], ["[F]F".toList, "A".toList]) ∧
    ∃ d1 d2, crossover_ls list_gen (ls_of_text 4 ['A'] ["F", "A"])
        (ls_of_text 4 ['A'] ["[F]", "A"]) (ls_of_text 3 ['A'] ["F", "F"])
        (ls_of_text 3 ['A'] ["F", "F"]) [0, 1, 0, 0]
        = some (d1, d2, nth_state list_gen [0, 1, 0, 0]
            (2 * (ls_of_text 3 ['A'] ["F", "F"]).numrules)) ∧
      (∀ i, i < (ls_of_text 3 ['A'] ["F", "F"]).numrules → ∃ r1 r2 a1 a2 n1 n2,
        (ls_of_text 4 ['A'] ["F", "A"]).rule[i]? = some r1 ∧
        (ls_of_text 4 ['A'] ["[F]", "A"]).rule[i]? = some r2 ∧
        adjust_cut r1 r1.length (nth_draw list_gen [0, 1, 0, 0] (2 * i) % r1.length) = some a1 ∧
        adjust_cut r2 r2.length (nth_draw list_gen [0, 1, 0, 0] (2 * i + 1) % r2.length)
          = some a2 ∧
        d1.rulelength[i]? = some n1 ∧ d2.rulelength[i]? = some n2 ∧
        (n1 = 0 ↔ nth_draw list_gen [0, 1, 0, 0] (2 * i) % r1.length = 0 ∧ a2 = r2.length) ∧
        (n2 = 0 ↔ nth_draw list_gen [0, 1, 0, 0] (2 * i + 1) % r2.length = 0 ∧
          a1 = r1.length)) ∧
      ∀ (d : lsystem) (i : Nat), d.rulelength[i]? = some 0 →
        (∀ (gen2 : List Nat → Nat × List Nat) (s2 : List Nat), random_rule gen2 d i s2 = none) ∧
        ∀ (gen2 : List Nat → Nat × List Nat) (q e1 e2 : lsystem) (s2 : List Nat) (n : Nat),
          crossover_loop gen2 d q (n + 1) i e1 e2 s2 = none :=
  ⟨by decide, by decide, by decide,
    C33_crossover_child_lengths list_gen (ls_of_text 4 ['A'] ["F", "A"])
      (ls_of_text 4 ['A'] ["[F]", "A"]) (ls_of_text 3 ['A'] ["F", "F"])
      (ls_of_text 3 ['A'] ["F", "F"]) [0, 1, 0, 0] (by decide) (by decide)
      (rules_balanced_of_text 4 ['A'] ["F", "A"] 2 (by decide) (by decide))
      (rules_balanced_of_text 4 ['A'] ["[F]", "A"] 2 (by decide) (by decide))⟩

/-! ### The cursor of `drawLSys` -/

/-- The cursor a run of `drawLSys` returns is a final part of the command
array it was started on, and what it points at is the terminator or a `]`. -/
theorem drawLSys_points_suffix (rules : List (List lsys_cmd)) :
    ∀ (fuel : Nat) (cmds : List lsys_cmd) (depth k : Nat) (cur : List lsys_cmd) (k1 : Nat),
      drawLSys_points rules fuel cmds depth k = some (cur, k1) →
      cur <:+ cmds ∧ ∀ c rest, cur = c :: rest → c.ch = ']' := by
  intro fuel
  induction fuel with
  | zero =>
    intro cmds depth k cur k1 h
    simp [drawLSys_points] at h
  | succ n ih =>
    intro cmds depth k cur k1 h
    cases cmds with
    | nil =>
      simp only [drawLSys_points, Option.some.injEq, Prod.mk.injEq] at h
      rw [← h.1]
      exact ⟨List.suffix_refl _, fun c rest e => by simp at e⟩
    | cons c rest =>
      have tl : ∀ k0, drawLSys_points rules n rest depth k0 = some (cur, k1) →
          cur <:+ c :: rest ∧ ∀ c1 rest1, cur = c1 :: rest1 → c1.ch = ']' := by
        intro k0 h0
        obtain ⟨s, e⟩ := ih rest depth k0 cur k1 h0
        exact ⟨s.trans (List.suffix_cons c rest), e⟩
      rw [drawLSys_points] at h
      by_cases hc : c.ch = ']'
      · rw [if_pos hc] at h
        simp only [Option.some.injEq, Prod.mk.injEq] at h
        rw [← h.1]
        refine ⟨List.suffix_refl _, ?_⟩
        intro c1 rest1 e
        rw [← (List.cons.inj e).1]
        exact hc
      · rw [if_neg hc] at h
        simp only at h
        generalize (if depth ≠ 0 then
          rules.foldl
            (expand_rule (fun body k1 => drawLSys_points rules n body (depth - 1) k1) c.ch)
            (some (false, k))
          else some (false, k)) = e at h
        cases e with
        | none => simp at h
        | some r =>
          obtain ⟨tran, k0⟩ := r
          simp only at h
          by_cases hm : depth = 0 ∨ tran = false
          · rw [if_pos hm] at h
            cases hf : c.f with
            | some f =>
              rw [hf] at h
              exact tl _ h
            | none =>
              rw [hf] at h
              simp only at h
              by_cases hb : c.ch = '['
              · rw [if_pos hb] at h
                cases hin : drawLSys_points rules n rest depth k0 with
                | none => rw [hin] at h; simp at h
                | some r1 =>
                  obtain ⟨cur1, k2⟩ := r1
                  rw [hin] at h
                  cases cur1 with
                  | nil => simp at h
                  | cons close after =>
                    simp only at h
                    obtain ⟨s1, _⟩ := ih rest depth k0 (close :: after) k2 hin
                    obtain ⟨s2, e2⟩ := ih after depth k2 cur k1 h
                    refine ⟨?_, e2⟩
                    exact (s2.trans ((List.suffix_cons close after).trans s1)).trans
                      (List.suffix_cons c rest)
              · rw [if_neg hb] at h
                exact tl _ h
          · rw [if_neg hm] at h
            exact tl _ h

/-- C34: for rules whose bodies close every bracket they enter (`B` bounds
their lengths), a command array `cmds` that does so too, every `depth` and
every state with the heading in range, `drawLSys` returns as soon as the
nesting allowed is `cmds.length + 1 + depth * (B + 1)`, where the model has
no value for a run in which a cursor moves past the terminator of its
array. The cursor returned points into the array the call was started on:
it is a final part of `cmds`, at the terminator or at a `]`. -/
theorem C34_drawLSys_cursor_safety (L : libm) (rules : List (List lsys_cmd)) (B : Nat)
    (hrules : ∀ r ∈ rules, brackets_closed r.tail ∧ r.tail.length ≤ B)
    (depth : Nat) (cmds : List lsys_cmd) (st : lsys_state) (fuel : Nat)
    (hc : brackets_closed cmds) (hst : angle_ok st)
    (hfuel : cmds.length + 1 + depth * (B + 1) ≤ fuel) :
    ∃ cur st1, drawLSys L rules fuel cmds depth st = some (cur, st1) ∧
      cur <:+ cmds ∧ (∀ c rest, cur = c :: rest → c.ch = ']') ∧ angle_ok st1 := by
  obtain ⟨cur, k, hp⟩ := drawLSys_points_closed rules B (fun r hr => (hrules r hr).2)
    (fun r hr => (hrules r hr).1) depth cmds 0 fuel hc hfuel
  obtain ⟨st1, hd, hok, _⟩ := drawLSys_of_points L rules fuel cmds depth st hst cur k hp
  obtain ⟨s, e⟩ := drawLSys_points_suffix rules fuel cmds depth 0 cur k hp
  exact ⟨cur, st1, hd, s, e, hok⟩

/-- C34 at the rule `a=f[+a][-a]f`, the axiom `a` and depth 2. -/
theorem C34_drawLSys_cursor_safety_witness :
    ∃ cur st1, drawLSys libm_flat [tree_rule .lsys_dodrawf] 24 tree_start 2
        { lsys_start with maxangle := 4, dmaxangle := 3 } = some (cur, st1) ∧
      cur <:+ tree_start ∧ (∀ c rest, cur = c :: rest → c.ch = ']') ∧ angle_ok st1 :=
  C34_drawLSys_cursor_safety libm_flat [tree_rule .lsys_dodrawf] 10
    (by
      intro r hr
      rw [List.mem_singleton] at hr
      subst hr
      exact ⟨by unfold brackets_closed; decide, by decide⟩)
    2 tree_start { lsys_start with maxangle := 4, dmaxangle := 3 } 24
    (by unfold brackets_closed; decide)
    ⟨by decide, by decide, by decide, by decide, by decide, by decide⟩ (by decide)

/-! ### `find_lower_bound` against `find_upper_bound` -/

section LowerBoundProofs

variable (pow : ℚ → ℚ → ℚ) (log : ℚ → ℚ)

end LowerBoundProofs

theorem digit_char_mem (d : Nat) : digit_char d ∈ decimal_digits := by
  unfold digit_char
  have h : d % 10 < 10 := Nat.mod_lt _ (by decide)
  generalize d % 10 = k at h
  interval_cases k <;> decide

theorem free_letters_facts : ∀ c ∈ free_letters,
    string2rule [c] = [⟨[c], 1, RULE⟩] ∧
    ¬ (c.toLower = '/' ∨ c.toLower = '\\' ∨ c.toLower = '@') ∧
    ¬ ((c.toLower ≤ '9' ∧ c.toLower ≥ '0') ∨ c.toLower = '.') ∧
    (c ≠ 'I' → c ≠ 'Q' → numeric_char c = false) := by
  decide

theorem decimal_digits_facts : ∀ c ∈ decimal_digits,
    numeric_char c = true ∧ c.toLower = c ∧ (c ≤ '9' ∧ c ≥ '0') ∧
    (∀ (root inverse : Bool) (cs : List Char),
      getnumber_flag root inverse (c :: cs) = (root, inverse, c :: cs)) := by
  intro c hc
  simp only [decimal_digits, List.mem_cons, List.mem_singleton, List.not_mem_nil, or_false] at hc
  rcases hc with rfl | rfl | rfl | rfl | rfl | rfl | rfl | rfl | rfl | rfl <;>
    exact ⟨by decide, by decide, by decide, fun _ _ _ => rfl⟩

/-- A text that does not start with a digit or a point: the copying loop of
`getnumber` stops in front of it. -/
theorem getnumber_digits_append (ds rest : List Char)
    (hds : ∀ c ∈ ds, (c ≤ '9' ∧ c ≥ '0') ∨ c = '.')
    (hrest : ∀ c cs, rest = c :: cs → ¬ ((c ≤ '9' ∧ c ≥ '0') ∨ c = '.')) :
    getnumber_digits (ds ++ rest) = (ds, rest) := by
  induction ds with
  | nil =>
    cases rest with
    | nil => rfl
    | cons c cs =>
      simp only [List.nil_append]
      rw [getnumber_digits, if_neg (hrest c cs rfl)]
  | cons d ds ih =>
    have hd := hds d (List.mem_cons_self _ _)
    have := ih (fun c hc => hds c (List.mem_cons_of_mem _ hc))
    simp only [List.cons_append]
    rw [getnumber_digits, if_pos hd, this]

/-- The function `getnumber` on a number that starts with a digit and is
followed by a text that starts with neither a digit nor a point: the text
after the number is returned. -/
theorem getnumber_plain (L : libm) (a : Char) (ds rest : List Char) (ha : a ∈ decimal_digits)
    (hds : ∀ c ∈ ds, (c ≤ '9' ∧ c ≥ '0') ∨ c = '.') (hlen : ds.length < 29)
    (hrest : ∀ c cs, rest = c :: cs → ¬ ((c ≤ '9' ∧ c ≥ '0') ∨ c = '.')) :
    getnumber L (a :: ds ++ rest) = some (L.to_float (L.atof (a :: ds)), rest) := by
  obtain ⟨_, _, ha2, hflag⟩ := decimal_digits_facts a ha
  have hd : getnumber_digits (a :: ds ++ rest) = (a :: ds, rest) := by
    have := getnumber_digits_append (a :: ds) rest
      (by
        intro c hc
        rcases List.mem_cons.mp hc with e | e
        · rw [e]; exact Or.inl ha2
        · exact hds c e) hrest
    simpa only [List.cons_append] using this
  have hl : ¬ (a :: ds).length > 29 := by
    simp only [List.length_cons]; omega
  unfold getnumber
  simp only [List.cons_append] at hd ⊢
  simp only [hflag, hd, hl, if_false, Bool.false_eq_true]

theorem transform_loop_single (L : libm) (sw : Char → Option lsys_fn × ℚ) (fuel : Nat)
    (c : Char) (rest : List Char) (hc : ¬ (c = '/' ∨ c = '\\' ∨ c = '@')) :
    transform_loop L sw (fuel + 1) (c :: rest) =
      (transform_loop L sw fuel rest).map (fun cmds => ⟨c, (sw c).1, (sw c).2⟩ :: cmds) := by
  rw [transform_loop, if_neg hc]
  cases transform_loop L sw fuel rest <;> rfl

theorem transform_loop_number (L : libm) (sw : Char → Option lsys_fn × ℚ) (fuel : Nat)
    (c : Char) (cs rest : List Char) (num : ℚ) (hc : c = '/' ∨ c = '\\' ∨ c = '@')
    (hnum : getnumber L cs = some (num, rest)) :
    transform_loop L sw (fuel + 1) (c :: cs) =
      (transform_loop L sw fuel rest).map (fun cmds => ⟨c, (sw c).1, num⟩ :: cmds) := by
  rw [transform_loop, if_pos hc, hnum]
  dsimp only
  cases transform_loop L sw fuel rest <;> rfl

/-- Each unit of `randomObj` and `random_rule` is a token of `string2rule`. -/
theorem random_unit_token (names : List Char) (hnames : ∀ c ∈ names, c ∈ free_letters)
    (u : ruleobj) (hu : random_unit names u) : string2rule u.str = [u] := by
  rcases hu with rfl | rfl | rfl | rfl | rfl | rfl | rfl | ⟨a, b, c, ha, hb, hc, h⟩ | ⟨n, hn, rfl⟩
  · decide
  · decide
  · decide
  · decide
  · decide
  · decide
  · decide
  · obtain ⟨na, _, _, _⟩ := decimal_digits_facts a ha
    obtain ⟨nb, _, _, _⟩ := decimal_digits_facts b hb
    obtain ⟨nc, _, _, _⟩ := decimal_digits_facts c hc
    rcases h with rfl | rfl | rfl
    · simp [string2rule, string2rule_loop, extract_number, extract_number_loop, na, nb, nc]
    · simp [string2rule, string2rule_loop, extract_number, extract_number_loop, na, nb, nc]
    · have np : numeric_char '.' = true := by decide
      simp [string2rule, string2rule_loop, extract_number, extract_number_loop, na, nb, nc, np]
  · exact (free_letters_facts n (hnames n hn)).1

/-- The first character of a unit, lower-cased, is neither a digit nor a
point, and it is in the class of `extract_number` only if it is `I` or `Q`. -/
theorem random_unit_head (names : List Char) (hnames : ∀ c ∈ names, c ∈ free_letters)
    (u : ruleobj) (hu : random_unit names u) :
    ∃ c cs, u.str = c :: cs ∧ ¬ ((c.toLower ≤ '9' ∧ c.toLower ≥ '0') ∨ c.toLower = '.') ∧
      (numeric_char c = true → (c = 'I' ∨ c = 'Q') ∧ c ∈ names) := by
  rcases hu with rfl | rfl | rfl | rfl | rfl | rfl | rfl | ⟨a, b, c, ha, hb, hc, h⟩ | ⟨n, hn, rfl⟩
  · exact ⟨_, _, rfl, by decide, fun h => absurd h (by decide)⟩
  · exact ⟨_, _, rfl, by decide, fun h => absurd h (by decide)⟩
  · exact ⟨_, _, rfl, by decide, fun h => absurd h (by decide)⟩
  · exact ⟨_, _, rfl, by decide, fun h => absurd h (by decide)⟩
  · exact ⟨_, _, rfl, by decide, fun h => absurd h (by decide)⟩
  · exact ⟨_, _, rfl, by decide, fun h => absurd h (by decide)⟩
  · exact ⟨_, _, rfl, by decide, fun h => absurd h (by decide)⟩
  · rcases h with rfl | rfl | rfl
    · exact ⟨_, _, rfl, by decide, fun h => absurd h (by decide)⟩
    · exact ⟨_, _, rfl, by decide, fun h => absurd h (by decide)⟩
    · exact ⟨_, _, rfl, by decide, fun h => absurd h (by decide)⟩
  · obtain ⟨_, _, h3, h4⟩ := free_letters_facts n (hnames n hn)
    refine ⟨n, [], rfl, h3, ?_⟩
    intro hnum
    refine ⟨?_, hn⟩
    by_contra hcon
    have := h4 (fun e => hcon (Or.inl e)) (fun e => hcon (Or.inr e))
    rw [this] at hnum
    exact absurd hnum (by decide)

/-- Either transform compiles one command from the lower-cased text of a
unit that is followed by a text starting with neither a digit nor a point. -/
theorem transform_loop_unit (L : libm) (sw : Char → Option lsys_fn × ℚ) (names : List Char)
    (hnames : ∀ c ∈ names, c ∈ free_letters) (u : ruleobj) (hu : random_unit names u)
    (rest : List Char)
    (hrest : ∀ c cs, rest = c :: cs → ¬ ((c ≤ '9' ∧ c ≥ '0') ∨ c = '.')) :
    ∃ cmd, ∀ fuel, transform_loop L sw (fuel + 1) (strlwr u.str ++ rest) =
      (transform_loop L sw fuel rest).map (fun cmds => cmd :: cmds) := by
  have single : ∀ c : Char, ¬ (c.toLower = '/' ∨ c.toLower = '\\' ∨ c.toLower = '@') →
      ∃ cmd, ∀ fuel, transform_loop L sw (fuel + 1) (strlwr [c] ++ rest) =
        (transform_loop L sw fuel rest).map (fun cmds => cmd :: cmds) := by
    intro c hc
    exact ⟨_, fun fuel => transform_loop_single L sw fuel c.toLower rest hc⟩
  rcases hu with rfl | rfl | rfl | rfl | rfl | rfl | rfl | ⟨a, b, c, ha, hb, hc, h⟩ | ⟨n, hn, rfl⟩
  · exact single _ (by decide)
  · exact single _ (by decide)
  · exact single _ (by decide)
  · exact single _ (by decide)
  · exact single _ (by decide)
  · exact single _ (by decide)
  · exact single _ (by decide)
  · obtain ⟨_, la, da, _⟩ := decimal_digits_facts a ha
    obtain ⟨_, lb, db, _⟩ := decimal_digits_facts b hb
    obtain ⟨_, lc, dc, _⟩ := decimal_digits_facts c hc
    have hbc : ∀ x ∈ [b, c], (x ≤ '9' ∧ x ≥ '0') ∨ x = '.' := by
      intro x hx
      simp only [List.mem_cons, List.mem_singleton, List.not_mem_nil, or_false] at hx
      rcases hx with rfl | rfl
      · exact Or.inl db
      · exact Or.inl dc
    have hpbc : ∀ x ∈ ['.', b, c], (x ≤ '9' ∧ x ≥ '0') ∨ x = '.' := by
      intro x hx
      rcases List.mem_cons.mp hx with e | e
      · exact Or.inr e
      · exact hbc x e
    have g3 := getnumber_plain L a [b, c] rest ha hbc (by simp) hrest
    have g4 := getnumber_plain L a ['.', b, c] rest ha hpbc (by simp) hrest
    rcases h with rfl | rfl | rfl
    · refine ⟨⟨'\\', (sw '\\').1, L.to_float (L.atof [a, b, c])⟩, fun fuel => ?_⟩
      have e : strlwr ['\\', a, b, c] ++ rest = '\\' :: (a :: [b, c] ++ rest) := by
        simp [strlwr, la, lb, lc]
      rw [e]
      exact transform_loop_number L sw fuel '\\' _ rest _ (by decide) g3
    · refine ⟨⟨'/', (sw '/').1, L.to_float (L.atof [a, b, c])⟩, fun fuel => ?_⟩
      have e : strlwr ['/', a, b, c] ++ rest = '/' :: (a :: [b, c] ++ rest) := by
        simp [strlwr, la, lb, lc]
      rw [e]
      exact transform_loop_number L sw fuel '/' _ rest _ (by decide) g3
    · refine ⟨⟨'@', (sw '@').1, L.to_float (L.atof [a, '.', b, c])⟩, fun fuel => ?_⟩
      have e : strlwr ['@', a, '.', b, c] ++ rest = '@' :: (a :: ['.', b, c] ++ rest) := by
        simp [strlwr, la, lb, lc]
      rw [e]
      exact transform_loop_number L sw fuel '@' _ rest _ (by decide) g4
  · exact single n (free_letters_facts n (hnames n hn)).2.1

theorem render_cons (u : ruleobj) (us : List ruleobj) : render (u :: us) = u.str ++ render us := by
  simp [render]

theorem strlwr_render_start (names : List Char) (hnames : ∀ c ∈ names, c ∈ free_letters)
    (units : List ruleobj) (hu : ∀ u ∈ units, random_unit names u) :
    ∀ c cs, strlwr (render units) = c :: cs → ¬ ((c ≤ '9' ∧ c ≥ '0') ∨ c = '.') := by
  intro c cs h
  cases units with
  | nil => simp [render, strlwr] at h
  | cons u us =>
    obtain ⟨c0, cs0, e, hc0, _⟩ := random_unit_head names hnames u (hu u (List.mem_cons_self _ _))
    rw [render_cons, e] at h
    simp only [strlwr, List.cons_append, List.map_cons, List.cons.injEq] at h
    rw [← h.1]
    exact hc0

/-- Either transform compiles one command per unit from the lower-cased text
of a rule of units of `randomObj` and `random_rule`. -/
theorem transform_loop_units (L : libm) (sw : Char → Option lsys_fn × ℚ) (names : List Char)
    (hnames : ∀ c ∈ names, c ∈ free_letters) :
    ∀ (units : List ruleobj), (∀ u ∈ units, random_unit names u) →
      ∀ fuel, units.length + 1 ≤ fuel →
        ∃ cmds, transform_loop L sw fuel (strlwr (render units)) = some cmds ∧
          cmds.length = units.length := by
  intro units
  induction units with
  | nil =>
    intro _ fuel hf
    obtain ⟨f, rfl⟩ : ∃ f, fuel = f + 1 := ⟨fuel - 1, by omega⟩
    exact ⟨[], rfl, rfl⟩
  | cons u us ih =>
    intro hu fuel hf
    obtain ⟨f, rfl⟩ : ∃ f, fuel = f + 1 := ⟨fuel - 1, by omega⟩
    have hus : ∀ v ∈ us, random_unit names v := fun v hv => hu v (List.mem_cons_of_mem _ hv)
    obtain ⟨cmds, e, len⟩ := ih hus f (by simp only [List.length_cons] at hf; omega)
    obtain ⟨cmd, hcmd⟩ := transform_loop_unit L sw names hnames u (hu u (List.mem_cons_self _ _))
      (strlwr (render us)) (strlwr_render_start names hnames us hus)
    refine ⟨cmd :: cmds, ?_, by simp only [List.length_cons, len]⟩
    have e2 : strlwr (render (u :: us)) = strlwr u.str ++ strlwr (render us) := by
      rw [render_cons]
      simp [strlwr]
    rw [e2, hcmd f, e]
    rfl

theorem render_length_ge (names : List Char) (hnames : ∀ c ∈ names, c ∈ free_letters) :
    ∀ (units : List ruleobj), (∀ u ∈ units, random_unit names u) →
      units.length ≤ (render units).length := by
  intro units
  induction units with
  | nil => intro _; simp
  | cons u us ih =>
    intro hu
    obtain ⟨c0, cs0, e, _⟩ := random_unit_head names hnames u (hu u (List.mem_cons_self _ _))
    have := ih (fun v hv => hu v (List.mem_cons_of_mem _ hv))
    rw [render_cons, e]
    simp only [List.length_cons, List.length_append]
    omega

/-- In a grammar that has no rule named `I` or `Q`, no unit of `randomObj` and
`random_rule` absorbs the start of its successor. -/
theorem no_absorption_of_names (names : List Char) (hnames : ∀ c ∈ names, c ∈ free_letters)
    (hI : 'I' ∉ names) (hQ : 'Q' ∉ names) :
    ∀ (units : List ruleobj), (∀ u ∈ units, random_unit names u) →
      no_absorption units = true := by
  intro units
  induction units with
  | nil => intro _; rfl
  | cons u us ih =>
    intro hu
    cases us with
    | nil => rfl
    | cons v rest =>
      have hv := hu v (List.mem_cons_of_mem _ (List.mem_cons_self _ _))
      obtain ⟨c0, cs0, e, _, h3⟩ := random_unit_head names hnames v hv
      have hnum : numeric_char c0 = false := by
        cases hq : numeric_char c0 with
        | false => rfl
        | true =>
          obtain ⟨h4, h5⟩ := h3 hq
          rcases h4 with h4 | h4
          · rw [h4] at h5; exact absurd h5 hI
          · rw [h4] at h5; exact absurd h5 hQ
      have hab : absorbs u v = false := by
        simp [absorbs, e, hnum]
      rw [no_absorption, hab]
      simp only [Bool.not_false, Bool.true_and]
      exact ih (fun w hw => hu w (List.mem_cons_of_mem _ hw))

section
variable {σ : Type}

theorem randomObj_unit (gen : σ → Nat × σ) (ls : lsystem) (s : σ) (u : ruleobj) (s1 : σ)
    (h : randomObj gen ls s = some (u, s1)) : random_unit ls.startvar u := by
  have number : ∀ a b c : Nat, ∀ v : ruleobj,
      (v = ⟨['\\', digit_char a, digit_char b, digit_char c], 4, INCX⟩ ∨
       v = ⟨['/', digit_char a, digit_char b, digit_char c], 4, DECX⟩ ∨
       v = ⟨['@', digit_char a, '.', digit_char b, digit_char c], 5, SCALE⟩) →
      random_unit ls.startvar v := by
    intro a b c v hv
    exact Or.inr (Or.inr (Or.inr (Or.inr (Or.inr (Or.inr (Or.inr (Or.inl
      ⟨_, _, _, digit_char_mem a, digit_char_mem b, digit_char_mem c, hv⟩)))))))
  unfold randomObj at h
  simp only at h
  by_cases c0 : (draw32 gen s).1 % 9 = 0
  · rw [if_pos c0] at h
    rw [← (Prod.mk.inj (Option.some.inj h)).1]; exact Or.inl rfl
  rw [if_neg c0] at h
  by_cases c1 : (draw32 gen s).1 % 9 = 1
  · rw [if_pos c1] at h
    rw [← (Prod.mk.inj (Option.some.inj h)).1]; exact Or.inr (Or.inl rfl)
  rw [if_neg c1] at h
  by_cases c2 : (draw32 gen s).1 % 9 = 2
  · rw [if_pos c2] at h
    rw [← (Prod.mk.inj (Option.some.inj h)).1]; exact Or.inr (Or.inr (Or.inl rfl))
  rw [if_neg c2] at h
  by_cases c3 : (draw32 gen s).1 % 9 = 3
  · rw [if_pos c3] at h
    rw [← (Prod.mk.inj (Option.some.inj h)).1]; exact Or.inr (Or.inr (Or.inr (Or.inl rfl)))
  rw [if_neg c3] at h
  by_cases c4 : (draw32 gen s).1 % 9 = 4
  · rw [if_pos c4] at h
    rw [← (Prod.mk.inj (Option.some.inj h)).1]
    exact Or.inr (Or.inr (Or.inr (Or.inr (Or.inl rfl))))
  rw [if_neg c4] at h
  by_cases c5 : (draw32 gen s).1 % 9 = 5
  · rw [if_pos c5] at h
    rw [← (Prod.mk.inj (Option.some.inj h)).1]
    exact number _ _ _ _ (Or.inl rfl)
  rw [if_neg c5] at h
  by_cases c6 : (draw32 gen s).1 % 9 = 6
  · rw [if_pos c6] at h
    rw [← (Prod.mk.inj (Option.some.inj h)).1]
    exact number _ _ _ _ (Or.inr (Or.inl rfl))
  rw [if_neg c6] at h
  by_cases c7 : (draw32 gen s).1 % 9 = 7
  · rw [if_pos c7] at h
    rw [← (Prod.mk.inj (Option.some.inj h)).1]
    exact number _ _ _ _ (Or.inr (Or.inr rfl))
  rw [if_neg c7] at h
  by_cases hnz : ls.numrules - 1 = 0
  · rw [if_pos hnz] at h
    exact absurd h (by simp)
  rw [if_neg hnz] at h
  cases hc : ls.startvar[(draw32 gen (draw32 gen s).2).1 % (ls.numrules - 1)]? with
  | none => rw [hc] at h; exact absurd h (by simp)
  | some c =>
    rw [hc] at h
    rw [← (Prod.mk.inj (Option.some.inj h)).1]
    exact Or.inr (Or.inr (Or.inr (Or.inr (Or.inr (Or.inr (Or.inr (Or.inr
      ⟨c, List.mem_iff_getElem?.mpr ⟨_, hc⟩, rfl⟩)))))))

end

section
variable {σ : Type}

theorem random_units_unit (gen : σ → Nat × σ) (ls : lsystem) :
    ∀ (n : Nat) (s : σ) (us : List ruleobj) (s1 : σ),
      random_units gen ls n s = some (us, s1) → ∀ u ∈ us, random_unit ls.startvar u := by
  intro n
  induction n with
  | zero =>
    intro s us s1 h u hu
    simp only [random_units, Option.some.injEq, Prod.mk.injEq] at h
    rw [← h.1] at hu
    exact absurd hu (List.not_mem_nil _)
  | succ n ih =>
    intro s us s1 h u hu
    rw [random_units] at h
    cases h1 : randomObj gen ls s with
    | none => rw [h1] at h; exact absurd h (by simp)
    | some r1 =>
      obtain ⟨v, t⟩ := r1
      rw [h1] at h
      simp only at h
      cases h2 : random_units gen ls n t with
      | none => rw [h2] at h; exact absurd h (by simp)
      | some r2 =>
        obtain ⟨vs, t2⟩ := r2
        rw [h2] at h
        simp only [Option.some.injEq, Prod.mk.injEq] at h
        rw [← h.1] at hu
        rcases List.mem_cons.mp hu with e | e
        · rw [e]; exact randomObj_unit gen ls s v t h1
        · exact ih t vs t2 h2 u e

theorem random_stack_unit (gen : σ → Nat × σ) (names : List Char) (len : Nat)
    (r0 : List ruleobj) (s : σ) (hlen : 0 < len) (h0 : ∀ u ∈ r0, random_unit names u) :
    (random_stack gen len r0 s).1.length = r0.length ∧
    ∀ u ∈ (random_stack gen len r0 s).1, random_unit names u := by
  rcases random_stack_spec gen len r0 s hlen with e | ⟨a, b, _, _, e⟩
  · rw [e]; exact ⟨rfl, h0⟩
  · rw [e]
    refine ⟨by simp only [List.length_set], ?_⟩
    intro u hu
    rcases List.mem_or_eq_of_mem_set hu with h1 | h1
    · rcases List.mem_or_eq_of_mem_set h1 with h2 | h2
      · exact h0 u h2
      · rw [h2]; exact Or.inr (Or.inr (Or.inr (Or.inr (Or.inr (Or.inl rfl)))))
    · rw [h1]; exact Or.inr (Or.inr (Or.inr (Or.inr (Or.inr (Or.inr (Or.inl rfl))))))

theorem random_nonterminal_unit (gen : σ → Nat × σ) (ls : lsystem) (len : Nat)
    (r1 r2 : List ruleobj) (s t : σ) (h : random_nonterminal gen ls len r1 s = some (r2, t))
    (h1 : ∀ u ∈ r1, random_unit ls.startvar u) : ∀ u ∈ r2, random_unit ls.startvar u := by
  simp only [random_nonterminal] at h
  cases hu : r1[(draw32 gen s).1 % len]? with
  | none => rw [hu] at h; exact absurd h (by simp)
  | some u0 =>
    rw [hu] at h
    simp only at h
    by_cases hnz : ls.numrules - 1 = 0
    · rw [if_pos hnz] at h; exact absurd h (by simp)
    · rw [if_neg hnz] at h
      cases hc : ls.startvar[(draw32 gen (draw32 gen s).2).1 % (ls.numrules - 1)]? with
      | none => rw [hc] at h; exact absurd h (by simp)
      | some c =>
        rw [hc] at h
        simp only at h
        split_ifs at h
        all_goals
          simp only [Option.some.injEq, Prod.mk.injEq] at h
          intro u hmem
          rw [← h.1] at hmem
          rcases List.mem_or_eq_of_mem_set hmem with e | e
          · exact h1 u e
          · rw [e]
            exact Or.inr (Or.inr (Or.inr (Or.inr (Or.inr (Or.inr (Or.inr (Or.inr
              ⟨c, List.mem_iff_getElem?.mpr ⟨_, hc⟩, rfl⟩)))))))

/-- A rule that `random_rule` has drawn over its whole array consists of
units of `randomObj` and `random_rule`. -/
theorem random_rule_units (gen : σ → Nat × σ) (ls : lsystem) (rule : Nat) (s : σ)
    (old : List ruleobj) (ls1 : lsystem) (s1 : σ)
    (h1 : ls.rule[rule]? = some old) (h2 : ls.rulelength[rule]? = some old.length)
    (h : random_rule gen ls rule s = some (ls1, s1)) :
    ∃ r, ls1.rule[rule]? = some r ∧ r.length = old.length ∧
      ∀ u ∈ r, random_unit ls.startvar u := by
  have hlt : rule < ls.rule.length := (List.getElem?_eq_some_iff.mp h1).1
  unfold random_rule at h
  rw [h1, h2] at h
  simp only at h
  by_cases hz : old.length < old.length ∨ old.length = 0
  · rw [if_pos hz] at h; exact absurd h (by simp)
  · rw [if_neg hz] at h
    cases hu : random_units gen ls old.length s with
    | none => rw [hu] at h; exact absurd h (by simp)
    | some r0 =>
      obtain ⟨us, t⟩ := r0
      rw [hu] at h
      simp only [List.drop_length, List.append_nil] at h
      have hus := random_units_unit gen ls old.length s us t hu
      have hlen := random_units_length gen ls old.length s us t hu
      obtain ⟨hsl, hst⟩ := random_stack_unit gen ls.startvar old.length us t (by omega) hus
      cases hn : random_nonterminal gen ls old.length (random_stack gen old.length us t).1
          (random_stack gen old.length us t).2 with
      | none => rw [hn] at h; exact absurd h (by simp)
      | some r2 =>
        obtain ⟨r, t2⟩ := r2
        rw [hn] at h
        simp only [Option.some.injEq, Prod.mk.injEq] at h
        have hr := random_nonterminal_unit gen ls old.length _ r _ t2 hn hst
        have hrl := random_nonterminal_length gen ls old.length _ r _ t2 hn
        refine ⟨r, ?_, ?_, hr⟩
        · rw [← h.1]
          exact List.getElem?_set_self hlt
        · rw [hrl, hsl, hlen]

end

/-- C40 (amended): in a grammar whose rule names are names of the scheme of
`assignRandomValues` (capital letters other than D, F, G, M), a rule that
`random_rule` draws over its whole array is compiled by `SizeTransform` and by
`DrawTransform`, from its lower-cased text, into exactly one command per unit;
and `string2rule` returns the units themselves from the text, hence as many,
provided no unit with a number is directly followed by a unit that the
number would absorb, which is the case in every grammar that has no rule
named `I` or `Q`. -/
theorem C40_tokenise_alike {σ : Type} (L : libm) (gen : σ → Nat × σ) (ls : lsystem)
    (rule : Nat) (s : σ) (old : List ruleobj)
    (h1 : ls.rule[rule]? = some old) (h2 : ls.rulelength[rule]? = some old.length)
    (h4 : 1 ≤ old.length) (h5 : 2 ≤ ls.numrules) (h6 : ls.numrules - 1 ≤ ls.startvar.length)
    (hnames : ∀ c ∈ ls.startvar, c ∈ free_letters) :
    ∃ ls1 s1 units, random_rule gen ls rule s = some (ls1, s1) ∧
      ls1.rule[rule]? = some units ∧ units.length = old.length ∧
      (∃ cmds, SizeTransform L (strlwr (render units)) = some cmds ∧
        cmds.length = units.length) ∧
      (∃ cmds, DrawTransform L (strlwr (render units)) = some cmds ∧
        cmds.length = units.length) ∧
      (no_absorption units = true → string2rule (render units) = units) ∧
      ('I' ∉ ls.startvar → 'Q' ∉ ls.startvar → string2rule (render units) = units) := by
  obtain ⟨ls1, s1, _, _, _, hrun, _⟩ := random_rule_spec gen ls rule s old.length old h2 h1
    (le_refl _) h4 h5 h6
  obtain ⟨units, hu, hlen, hshape⟩ := random_rule_units gen ls rule s old ls1 s1 h1 h2 hrun
  have hfuel : units.length + 1 ≤ (strlwr (render units)).length + 1 := by
    have := render_length_ge ls.startvar hnames units hshape
    simp only [strlwr, List.length_map]
    omega
  have hcodec : no_absorption units = true → string2rule (render units) = units := by
    intro hsep
    exact string2rule_loop_render units
      (fun u hu => random_unit_token ls.startvar hnames u (hshape u hu)) hsep _ (le_refl _)
  refine ⟨ls1, s1, units, hrun, hu, hlen, ?_, ?_, hcodec, ?_⟩
  · exact transform_loop_units L SizeTransform_switch ls.startvar hnames units hshape _ hfuel
  · exact transform_loop_units L DrawTransform_switch ls.startvar hnames units hshape _ hfuel
  · intro hI hQ
    exact hcodec (no_absorption_of_names ls.startvar hnames hI hQ units hshape)

/-- C40 (amended) at a grammar of seven rules named by the scheme, A, B, C,
E, H, I, and the draws 5, 89, 0, 1, 1, 0 for its rule of two units: the rule
drawn is `\090A`. -/
theorem C40_tokenise_alike_witness :
    ∃ ls1 s1 units,
      random_rule list_gen (ls_of_text 4 "ABCEHI".toList ["F", "FF", "F", "F", "F", "F", "F"]) 1
        [5, 89, 0, 1, 1, 0] = some (ls1, s1) ∧
      ls1.rule[1]? = some units ∧ units.length = (string2rule "FF".toList).length ∧
      (∃ cmds, SizeTransform libm_flat (strlwr (render units)) = some cmds ∧
        cmds.length = units.length) ∧
      (∃ cmds, DrawTransform libm_flat (strlwr (render units)) = some cmds ∧
        cmds.length = units.length) ∧
      (no_absorption units = true → string2rule (render units) = units) ∧
      ('I' ∉ (ls_of_text 4 "ABCEHI".toList ["F", "FF", "F", "F", "F", "F", "F"]).startvar →
        'Q' ∉ (ls_of_text 4 "ABCEHI".toList ["F", "FF", "F", "F", "F", "F", "F"]).startvar →
        string2rule (render units) = units) :=
  C40_tokenise_alike libm_flat list_gen
    (ls_of_text 4 "ABCEHI".toList ["F", "FF", "F", "F", "F", "F", "F"]) 1 [5, 89, 0, 1, 1, 0]
    (string2rule "FF".toList) (by decide) (by decide) (by decide) (by decide) (by decide)
    (by decide)

/-- C40 (as stated) fails: in the grammar of seven rules named A, B, C, E, H,
I by the scheme, the draws 5, 89, 0, 1, 1, 5 make `random_rule` store the two
units `\090` and `I`. Their text `\090I` gives one unit in `string2rule`, whose
`extract_number` takes `I` into the number, and two commands in
`SizeTransform` and in `DrawTransform`, whose `getnumber` stops at `i`. -/
theorem C40_tokenise_counterexample :
    (ls_of_text 4 "ABCEHI".toList ["F", "FF", "F", "F", "F", "F", "F"]).startvar
      = free_letters.take 6 ∧
    (random_rule list_gen (ls_of_text 4 "ABCEHI".toList ["F", "FF", "F", "F", "F", "F", "F"]) 1
        [5, 89, 0, 1, 1, 5]).map (fun r => r.1.rule[1]?)
      = some (some [⟨['\\', '0', '9', '0'], 4, INCX⟩, ⟨['I'], 1, RULE⟩]) ∧
    render [⟨['\\', '0', '9', '0'], 4, INCX⟩, ⟨['I'], 1, RULE⟩] = ['\\', '0', '9', '0', 'I'] ∧
    (string2rule (render [⟨['\\', '0', '9', '0'], 4, INCX⟩, ⟨['I'], 1, RULE⟩])).length = 1 ∧
    (SizeTransform libm_flat
        (strlwr (render [⟨['\\', '0', '9', '0'], 4, INCX⟩, ⟨['I'], 1, RULE⟩]))).map List.length
      = some 2 ∧
    (DrawTransform libm_flat
        (strlwr (render [⟨['\\', '0', '9', '0'], 4, INCX⟩, ⟨['I'], 1, RULE⟩]))).map List.length
      = some 2 := by
  refine ⟨by decide, by decide, by decide, by decide, ?_, ?_⟩
  · decide
  · decide

/-! ### The names stored by `assignRandomValues` and by `standardise_rules` -/

section
variable {σ : Type}

end

/-- The renaming loop within `startvar`, on names that are capital letters
other than D, F, G, M: entries `i .. i+n-1` become the characters `num + 65`
of the successive values of `num`, every entry of `rep` stays below 63, and
the loop goes on from index `i + n`. -/
theorem rename_loop_spec (pad : Char) : ∀ (n i num : Nat) (startvar : List Char) (rep : List Nat)
    (m : Nat),
    i + n ≤ startvar.length → rep.length = 26 → names_fit n num = true →
    (∀ v ∈ rep, v ≤ 62) →
    (∀ k c, i ≤ k → k < i + n → startvar[k]? = some c →
      65 ≤ c.toNat ∧ c.toNat ≤ 90 ∧ c ≠ 'D' ∧ c ≠ 'F' ∧ c ≠ 'G' ∧ c ≠ 'M') →
    ∃ names rep1, rename_loop pad (n + m) i num startvar rep
        = rename_loop pad m (i + n) (num_after n num) names rep1 ∧
      names.length = startvar.length ∧ rep1.length = 26 ∧ (∀ v ∈ rep1, v ≤ 62) ∧
      ∀ k, names[k]? = if i ≤ k ∧ k < i + n then (names_from n num)[k - i]? else startvar[k]? := by
  intro n
  induction n with
  | zero =>
    intro i num startvar rep m _ hrep _ hv _
    refine ⟨startvar, rep, ?_, rfl, hrep, hv, ?_⟩
    · simp only [Nat.zero_add, Nat.add_zero, num_after]
    · intro k
      rw [if_neg]; omega
  | succ n ih =>
    intro i num startvar rep m hlen hrep hfit hv hvalid
    have hi : i < startvar.length := by omega
    obtain ⟨h65, h90, hD, hF, hG, hM⟩ := hvalid i startvar[i] (le_refl _) (by omega)
      (List.getElem?_eq_getElem hi)
    rw [names_fit, Bool.and_eq_true, decide_eq_true_eq] at hfit
    obtain ⟨names, rep1, hr, hl, hrl, hrv, hget⟩ := ih (i + 1) (next_num num)
      (startvar.set i (Char.ofNat (num + 65))) (rep.set (startvar[i].toNat - 65) num) m
      (by rw [List.length_set]; omega) (by rw [List.length_set]; exact hrep) hfit.2
      (by
        intro v hmem
        rcases List.mem_or_eq_of_mem_set hmem with e | e
        · exact hv v e
        · rw [e]; omega)
      (by
        intro k c hk1 hk2 hc
        rw [List.getElem?_set_ne (by omega)] at hc
        exact hvalid k c (by omega) (by omega) hc)
    refine ⟨names, rep1, ?_, ?_, hrl, hrv, ?_⟩
    · rw [show n + 1 + m = (n + m) + 1 by omega, rename_loop, if_neg (by omega),
        List.getElem?_eq_getElem hi]
      have hin : ¬ (startvar[i].toNat < 65 ∨ rep.length ≤ startvar[i].toNat - 65) := by
        rw [hrep]; omega
      have hfits : ¬ 127 < num + 65 := by omega
      simp only [hin, if_false, hD, hF, hG, hM, ne_eq, not_false_eq_true, and_self, if_true,
        hfits]
      rw [hr, num_after]
      congr 1
      omega
    · rw [hl, List.length_set]
    · intro k
      rw [hget k]
      by_cases hk : i + 1 ≤ k ∧ k < i + 1 + n
      · rw [if_pos hk, if_pos (by omega), names_from]
        obtain ⟨d, rfl⟩ : ∃ d, k = i + 1 + d := ⟨k - (i + 1), by omega⟩
        rw [show i + 1 + d - (i + 1) = d by omega, show i + 1 + d - i = d + 1 by omega,
          List.getElem?_cons_succ]
      · rw [if_neg hk]
        by_cases hki : k = i
        · subst hki
          rw [if_pos (by omega), List.getElem?_set_self hi, names_from, Nat.sub_self,
            List.getElem?_cons_zero]
        · rw [if_neg (by omega), List.getElem?_set_ne (by omega)]

/-- The last iteration of the renaming loop, at the byte after `startvar`:
when it has a result, the names are unchanged; it has one when `pad` is a
capital letter, and then an entry of `rep` is above 62 only if it is the
entry of `pad` and `pad` is one of D, F, G, M. -/
theorem rename_loop_last (pad : Char) (num : Nat) (startvar : List Char) (rep : List Nat)
    (hrep : rep.length = 26) (hv : ∀ v ∈ rep, v ≤ 62) (hnum : num + 65 ≤ 127) :
    (∀ names rep1, rename_loop pad 1 startvar.length num startvar rep = some (names, rep1) →
      names = startvar) ∧
    (65 ≤ pad.toNat ∧ pad.toNat ≤ 90 →
      ∃ rep1, rename_loop pad 1 startvar.length num startvar rep = some (startvar, rep1) ∧
        rep1.length = 26 ∧
        ∀ (k v : Nat), rep1[k]? = some v → v ≤ 62 ∨
          (k = pad.toNat - 65 ∧ (pad = 'D' ∨ pad = 'F' ∨ pad = 'G' ∨ pad = 'M'))) := by
  have hset : ∀ c : Char, startvar.set startvar.length c = startvar :=
    fun c => List.set_eq_of_length_le (le_refl _)
  have hfits : ¬ 127 < num + 65 := by omega
  constructor
  · intro names rep1 h
    rw [rename_loop, if_pos rfl] at h
    simp only at h
    by_cases hin : pad.toNat < 65 ∨ rep.length ≤ pad.toNat - 65
    · rw [if_pos hin] at h; exact absurd h (by simp)
    · rw [if_neg hin] at h
      by_cases hs : pad ≠ 'D' ∧ pad ≠ 'F' ∧ pad ≠ 'G' ∧ pad ≠ 'M'
      · rw [if_pos hs, if_neg hfits, hset, rename_loop] at h
        simp only [Option.some.injEq, Prod.mk.injEq] at h
        exact h.1.symm
      · rw [if_neg hs, rename_loop] at h
        simp only [Option.some.injEq, Prod.mk.injEq] at h
        exact h.1.symm
  · rintro ⟨h65, h90⟩
    have hin : ¬ (pad.toNat < 65 ∨ rep.length ≤ pad.toNat - 65) := by
      rw [hrep]; omega
    have hidx : pad.toNat - 65 < rep.length := by rw [hrep]; omega
    rw [rename_loop, if_pos rfl]
    simp only
    rw [if_neg hin]
    by_cases hs : pad ≠ 'D' ∧ pad ≠ 'F' ∧ pad ≠ 'G' ∧ pad ≠ 'M'
    · rw [if_pos hs, if_neg hfits, hset, rename_loop]
      refine ⟨_, rfl, by rw [List.length_set]; exact hrep, ?_⟩
      intro k v hk
      left
      by_cases hkk : k = pad.toNat - 65
      · subst hkk
        rw [List.getElem?_set_self hidx] at hk
        cases Option.some.inj hk
        omega
      · rw [List.getElem?_set_ne (Ne.symm hkk)] at hk
        exact hv v (List.getElem?_mem hk)
    · rw [if_neg hs, rename_loop]
      refine ⟨_, rfl, by rw [List.length_set]; exact hrep, ?_⟩
      intro k v hk
      by_cases hkk : k = pad.toNat - 65
      · right
        refine ⟨hkk, ?_⟩
        by_contra hcon
        exact hs ⟨fun e => hcon (Or.inl e), fun e => hcon (Or.inr (Or.inl e)),
          fun e => hcon (Or.inr (Or.inr (Or.inl e))),
          fun e => hcon (Or.inr (Or.inr (Or.inr e)))⟩
      · left
        rw [List.getElem?_set_ne (Ne.symm hkk)] at hk
        exact hv v (List.getElem?_mem hk)

theorem substitute_unit_returns (pad : Char) (rep : List Nat) (hrep : rep.length = 26)
    (h65 : 65 ≤ pad.toNat)
    (hentries : ∀ (k v : Nat), rep[k]? = some v → v ≤ 62 ∨
      (k = pad.toNat - 65 ∧ (pad = 'D' ∨ pad = 'F' ∨ pad = 'G' ∨ pad = 'M')))
    (u : ruleobj) (hu : u.type = RULE → rule_letter u = true) :
    ∃ v, substitute_unit rep u = some v := by
  unfold substitute_unit
  by_cases ht : u.type = RULE
  · rw [if_pos ht]
    have hl := hu ht
    unfold rule_letter at hl
    cases hs : u.str with
    | nil => rw [hs] at hl; exact absurd hl (by simp)
    | cons c cs =>
      rw [hs] at hl
      simp only [decide_eq_true_eq] at hl
      obtain ⟨c65, c90, cD, cF, cG, cM⟩ := hl
      have hidx : c.toNat - 65 < rep.length := by rw [hrep]; omega
      simp only
      rw [if_neg (by omega), List.getElem?_eq_getElem hidx]
      simp only
      have hv : rep[c.toNat - 65] ≤ 62 := by
        rcases hentries _ _ (List.getElem?_eq_getElem hidx) with h | ⟨hk, hp⟩
        · exact h
        · exfalso
          have e : c.toNat = pad.toNat := by omega
          have ec : c = pad := by
            rw [← Char.ofNat_toNat c, e, Char.ofNat_toNat]
          rw [ec] at cD cF cG cM
          rcases hp with h | h | h | h
          · exact cD h
          · exact cF h
          · exact cG h
          · exact cM h
      rw [if_neg (by omega)]
      exact ⟨_, rfl⟩
  · rw [if_neg ht]
    exact ⟨_, rfl⟩

theorem substitute_units_returns (pad : Char) (rep : List Nat) (hrep : rep.length = 26)
    (h65 : 65 ≤ pad.toNat)
    (hentries : ∀ (k v : Nat), rep[k]? = some v → v ≤ 62 ∨
      (k = pad.toNat - 65 ∧ (pad = 'D' ∨ pad = 'F' ∨ pad = 'G' ∨ pad = 'M'))) :
    ∀ (us : List ruleobj), (∀ u ∈ us, u.type = RULE → rule_letter u = true) →
      ∃ vs, substitute_units rep us = some vs := by
  intro us
  induction us with
  | nil => intro _; exact ⟨[], rfl⟩
  | cons u us ih =>
    intro h
    obtain ⟨v, hv⟩ := substitute_unit_returns pad rep hrep h65 hentries u
      (h u (List.mem_cons_self _ _))
    obtain ⟨vs, hvs⟩ := ih (fun w hw => h w (List.mem_cons_of_mem _ hw))
    refine ⟨v :: vs, ?_⟩
    rw [substitute_units, hv, hvs]

theorem substitute_rules_returns (pad : Char) (rep : List Nat) (hrep : rep.length = 26)
    (h65 : 65 ≤ pad.toNat)
    (hentries : ∀ (k v : Nat), rep[k]? = some v → v ≤ 62 ∨
      (k = pad.toNat - 65 ∧ (pad = 'D' ∨ pad = 'F' ∨ pad = 'G' ∨ pad = 'M'))) :
    ∀ (rules : List (List ruleobj)) (lens : List Nat), rules.length ≤ lens.length →
      (∀ (i : Nat) (r : List ruleobj) (len : Nat), rules[i]? = some r → lens[i]? = some len →
        len ≤ r.length) →
      (∀ r ∈ rules, ∀ u ∈ r, u.type = RULE → rule_letter u = true) →
      ∃ out, substitute_rules rep rules lens = some out := by
  intro rules
  induction rules with
  | nil => intro lens _ _ _; exact ⟨[], rfl⟩
  | cons r rs ih =>
    intro lens hlen hle hunits
    cases lens with
    | nil => simp at hlen
    | cons len lens1 =>
      have h0 : len ≤ r.length := hle 0 r len (by simp) (by simp)
      obtain ⟨us, hus⟩ := substitute_units_returns pad rep hrep h65 hentries (r.take len)
        (fun u hu => hunits r (List.mem_cons_self _ _) u (List.mem_of_mem_take hu))
      obtain ⟨rest, hrest⟩ := ih lens1 (by simp only [List.length_cons] at hlen; omega)
        (fun i q l hq hl => hle (i + 1) q l (by simpa using hq) (by simpa using hl))
        (fun q hq => hunits q (List.mem_cons_of_mem _ hq))
      refine ⟨(us ++ r.drop len) :: rest, ?_⟩
      rw [substitute_rules, if_neg (by omega), hus, hrest]

/-- C27: for a seed grammar of at most 23 rules whose names are capital
letters other than D, F, G, M, the renaming loop of `standardise_rules`
renames rule `k` to the `k`-th letter of A, B, C, E, H, I, J, K, L, N, ...,
the names the naming loop of `assignRandomValues` produces: so do its first
`numrules - 1` iterations, whatever byte follows the block `startvar`, and
whenever `standardise_rules` has a result for the grammar these are the names
in it. The last iteration of the loop is at the byte after the block: it
leaves the names alone and uses the byte as an index into `rep`; when the
byte `pad` is a capital letter (the index is inside `rep`) and the rule
arrays hold their stored lengths and rule names that are capital letters
other than D, F, G, M, the call returns. -/
theorem C27_standardise_same_scheme (pad : Char) (ls : lsystem) (fuel : Nat)
    (hrules : 1 ≤ ls.numrules ∧ ls.numrules ≤ 23)
    (hlen : ls.startvar.length = ls.numrules - 1)
    (hnames : ∀ c ∈ ls.startvar,
      65 ≤ c.toNat ∧ c.toNat ≤ 90 ∧ c ≠ 'D' ∧ c ≠ 'F' ∧ c ≠ 'G' ∧ c ≠ 'M')
    (hfuel : ls.numrules + 3 ≤ fuel)
    (hpad : 65 ≤ pad.toNat ∧ pad.toNat ≤ 90)
    (harrays : ls.numrules ≤ ls.rule.length ∧ ls.numrules ≤ ls.rulelength.length)
    (hlens : ∀ (i : Nat) (r : List ruleobj) (len : Nat), ls.rule[i]? = some r →
      ls.rulelength[i]? = some len → len ≤ r.length)
    (hunits : ∀ r ∈ ls.rule, ∀ u ∈ r, u.type = RULE → rule_letter u = true) :
    assign_names fuel (ls.numrules - 1) 'A' = some (free_letters.take (ls.numrules - 1)) ∧
    (∀ b : Char, ∃ rep,
      rename_loop b (ls.numrules - 1) 0 0 ls.startvar (List.replicate 26 42)
        = some (free_letters.take (ls.numrules - 1), rep)) ∧
    (∀ (b : Char) (ls2 : lsystem), standardise_one b ls = some ls2 →
      ls2.startvar = free_letters.take (ls.numrules - 1)) ∧
    ∃ ls1, standardise_one pad ls = some ls1 ∧
      ls1.startvar = free_letters.take (ls.numrules - 1) ∧
      standardise_rules (fun _ => pad) (ls :: []) 1 = some (ls1 :: []) := by
  have hlt : ls.numrules - 1 < 23 := by omega
  have hl := free_letters_take_length (ls.numrules - 1) (by omega)
  have hfrom := names_from_letters (ls.numrules - 1) hlt
  have hassign : assign_names fuel (ls.numrules - 1) 'A'
      = some (free_letters.take (ls.numrules - 1)) :=
    assign_names_fuel (ls.numrules - 1 + 4) fuel _ _ _ (by omega)
      (assign_names_letters (ls.numrules - 1) hlt)
  have hnumfit : num_after (ls.numrules - 1) 0 + 65 ≤ 127 := by
    have : ∀ n, n < 23 → num_after n 0 + 65 ≤ 127 := by decide
    exact this _ hlt
  have hrep0 : ∀ v ∈ List.replicate 26 42, v ≤ 62 := by
    intro v hv
    rw [List.eq_of_mem_replicate hv]
    omega
  -- the first numrules - 1 iterations, followed by m more
  have hloop : ∀ (b : Char) (m : Nat), ∃ rep1,
      rename_loop b (ls.numrules - 1 + m) 0 0 ls.startvar (List.replicate 26 42)
        = rename_loop b m ls.startvar.length (num_after (ls.numrules - 1) 0)
            (free_letters.take (ls.numrules - 1)) rep1 ∧
      rep1.length = 26 ∧ ∀ v ∈ rep1, v ≤ 62 := by
    intro b m
    obtain ⟨names, rep1, hr, hlen1, hrl, hrv, hget⟩ := rename_loop_spec b (ls.numrules - 1) 0 0
      ls.startvar (List.replicate 26 42) m (by rw [hlen]; omega) (List.length_replicate _ _)
      hfrom.2 hrep0 (fun k c _ _ hc => hnames c (List.getElem?_mem hc))
    have hn : names = free_letters.take (ls.numrules - 1) := by
      apply List.ext_getElem?
      intro k
      rw [hget k, hfrom.1]
      by_cases hk : 0 ≤ k ∧ k < 0 + (ls.numrules - 1)
      · rw [if_pos hk, Nat.sub_zero]
      · rw [if_neg hk, List.getElem?_eq_none (by rw [hlen]; omega),
          List.getElem?_eq_none (by rw [hl]; omega)]
    refine ⟨rep1, ?_, hrl, hrv⟩
    rw [hr, hn, Nat.zero_add, hlen]
  have hfull : ls.numrules = ls.numrules - 1 + 1 := by omega
  have hsl : (free_letters.take (ls.numrules - 1)).length = ls.startvar.length := by
    rw [hl, hlen]
  refine ⟨hassign, ?_, ?_, ?_⟩
  · intro b
    obtain ⟨rep1, hr, _, _⟩ := hloop b 0
    refine ⟨rep1, ?_⟩
    rw [Nat.add_zero] at hr
    rw [hr, rename_loop]
  · intro b ls2 h
    obtain ⟨rep1, hr, hrl, hrv⟩ := hloop b 1
    rw [← hfull, ← hsl] at hr
    unfold standardise_one at h
    rw [hr] at h
    cases hlast : rename_loop b 1 (free_letters.take (ls.numrules - 1)).length
        (num_after (ls.numrules - 1) 0) (free_letters.take (ls.numrules - 1)) rep1 with
    | none => rw [hlast] at h; exact absurd h (by simp)
    | some res =>
      obtain ⟨names, rep2⟩ := res
      have hn := (rename_loop_last b _ _ rep1 hrl hrv hnumfit).1 names rep2 hlast
      rw [hlast] at h
      simp only at h
      split at h
      · exact absurd h (by simp)
      · split at h
        · exact absurd h (by simp)
        · simp only [Option.some.injEq] at h
          rw [← h]
          exact hn
  · obtain ⟨rep1, hr, hrl, hrv⟩ := hloop pad 1
    rw [← hfull, ← hsl] at hr
    obtain ⟨rep2, hlast, hrl2, hentries⟩ :=
      (rename_loop_last pad (num_after (ls.numrules - 1) 0)
        (free_letters.take (ls.numrules - 1)) rep1 hrl hrv hnumfit).2 hpad
    obtain ⟨rules, hsub⟩ := substitute_rules_returns pad rep2 hrl2 hpad.1 hentries
      (ls.rule.take ls.numrules) ls.rulelength
      (by rw [List.length_take]; omega)
      (by
        intro i r len hr1 hl1
        rw [List.getElem?_take] at hr1
        by_cases hi : i < ls.numrules
        · rw [if_pos hi] at hr1
          exact hlens i r len hr1 hl1
        · rw [if_neg hi] at hr1
          exact absurd hr1 (by simp))
      (fun r hr1 => hunits r (List.mem_of_mem_take hr1))
    have hone : standardise_one pad ls = some { ls with
        startvar := free_letters.take (ls.numrules - 1),
        rule := rules ++ ls.rule.drop ls.numrules } := by
      unfold standardise_one
      rw [hr, hlast]
      simp only
      rw [if_neg (by omega), hsub]
    refine ⟨_, hone, rfl, ?_⟩
    rw [standardise_rules, if_neg (by simp)]
    simp only [List.take_succ_cons, List.take_zero, standardise_all, hone, List.drop_succ_cons,
      List.drop_zero, List.append_nil]

/-- C27 at the seed grammar with axiom `X` and the rules `X=FY`, `Y=XF`, the
byte after `startvar` being `X`: the rules are renamed to A and B. -/
theorem C27_standardise_same_scheme_witness :
    assign_names 6 ((seed_ls 4 "X" [('X', "FY"), ('Y', "XF")]).numrules - 1) 'A'
      = some (free_letters.take ((seed_ls 4 "X" [('X', "FY"), ('Y', "XF")]).numrules - 1)) ∧
    (∀ b : Char, ∃ rep,
      rename_loop b ((seed_ls 4 "X" [('X', "FY"), ('Y', "XF")]).numrules - 1) 0 0
        (seed_ls 4 "X" [('X', "FY"), ('Y', "XF")]).startvar (List.replicate 26 42)
        = some (free_letters.take ((seed_ls 4 "X" [('X', "FY"), ('Y', "XF")]).numrules - 1),
            rep)) ∧
    (∀ (b : Char) (ls2 : lsystem),
      standardise_one b (seed_ls 4 "X" [('X', "FY"), ('Y', "XF")]) = some ls2 →
      ls2.startvar
        = free_letters.take ((seed_ls 4 "X" [('X', "FY"), ('Y', "XF")]).numrules - 1)) ∧
    ∃ ls1, standardise_one 'X' (seed_ls 4 "X" [('X', "FY"), ('Y', "XF")]) = some ls1 ∧
      ls1.startvar
        = free_letters.take ((seed_ls 4 "X" [('X', "FY"), ('Y', "XF")]).numrules - 1) ∧
      standardise_rules (fun _ => 'X') (seed_ls 4 "X" [('X', "FY"), ('Y', "XF")] :: []) 1
        = some (ls1 :: []) :=
  C27_standardise_same_scheme 'X' (seed_ls 4 "X" [('X', "FY"), ('Y', "XF")]) 6
    (by decide) (by decide) (by decide) (by decide) (by decide) (by decide)
    (by
      intro i r len hr hl
      have hi : i < 3 := (List.getElem?_eq_some_iff.mp hr).1
      interval_cases i
      · cases Option.some.inj hr; cases Option.some.inj hl; decide
      · cases Option.some.inj hr; cases Option.some.inj hl; decide
      · cases Option.some.inj hr; cases Option.some.inj hl; decide)
    (by decide)

end LSys
